import Mathlib

/-!
# Thompson NFA regular-expression matcher with submatch tracking

A shallow embedding of `thompson-nfa-perl-regex.cpp`: the automaton arena, the
fragment builder, the recursive-descent pattern grammar, and the simulation
engine (`addstate`, `step`, `startlist`, `match`).

Conventions of the embedding.

* A `State const *` is the `id` of the state it points to (`id = index + 1` in
  the arena, assigned by `REImpl.state`); the null pointer is `0`.
* An iterator into the subject is `some k` (offset `k` from `begin`); the
  value-initialised iterator `Iter()` is `none`.
* The two process-wide flags `matchtype` and `reptype` are explicit arguments.
* A pending-edge list (`Ptrlist`) is the list of edge slots it threads through.
* Recursion that the source bounds only dynamically takes a fuel argument and
  returns `none` when the fuel is exhausted.
-/

namespace Nfa

/-! ## Data model -/

/-- The `matchtype` flag. -/
inductive MatchType where
  | LeftmostBiased
  | LeftmostLongest
deriving DecidableEq, Repr

/-- The `reptype` flag. -/
inductive RepType where
  | RepeatMinimal
  | RepeatLikePerl
deriving DecidableEq, Repr

/-- The tri-state of a submatch slot (`enum SubState`). -/
inductive SubState where
  | Unmatched
  | Incomplete
  | Matched
deriving DecidableEq, Repr

/-- The capacity of a submatch array (`NSUB`). -/
def NSUB : Nat := 10

/-- An iterator into the subject text: `some k` is `begin + k`, `none` is `Iter()`. -/
abbrev Iter := Option Nat

/-- The order `a < b` on iterators; the value-initialised iterator lies below
every position of the subject. -/
def Iter.lt : Iter → Iter → Bool
  | none, some _ => true
  | some a, some b => decide (a < b)
  | _, none => false

/-- A submatch slot (`struct Sub`). -/
structure Sub where
  first : Iter
  second : Iter
  matched : SubState
deriving DecidableEq, Repr

/-- The slot built by `Sub()`. -/
def Sub.init : Sub := ⟨none, none, SubState.Unmatched⟩

instance : Inhabited Sub := ⟨Sub.init⟩

/-- The assignment `dst = src` of `Sub::operator=`: the tag is always copied,
`second` only from a Matched source, `first` only from a Matched or Incomplete one. -/
def Sub.assign (dst src : Sub) : Sub :=
  match src.matched with
  | SubState.Matched => ⟨src.first, src.second, SubState.Matched⟩
  | SubState.Incomplete => ⟨src.first, dst.second, SubState.Incomplete⟩
  | SubState.Unmatched => ⟨dst.first, dst.second, SubState.Unmatched⟩

/-- A submatch array `boost::array<Sub, NSUB>`. -/
abbrev Subs := List Sub

/-- A value-initialised submatch array. -/
def Subs.init : Subs := List.replicate NSUB Sub.init

/-- Array assignment `dst = src`, element by element through `Sub::operator=`. -/
def Subs.assign (dst src : Subs) : Subs := List.zipWith Sub.assign dst src

/-- The operation tag of a state. -/
inductive Op where
  | Char
  | Any
  | Split
  | LParen
  | RParen
  | Match
deriving DecidableEq, Repr

/-- A node of the automaton (`struct State`); `out` and `out1` are state ids, `0` is null. -/
structure State where
  op : Op
  data : Int
  out : Nat
  out1 : Nat
  id : Nat
deriving DecidableEq, Repr

/-- The automaton under construction and after it (`struct REImpl`). -/
structure REImpl where
  start : Nat
  nparen : Nat
  states : List State
deriving DecidableEq, Repr

/-- The automaton built by `REImpl()`. -/
def REImpl.init : REImpl := ⟨0, 0, []⟩

/-- Allocation `impl.state(op, data, out, out1)`: appends a state whose id is
the new size of the arena and returns a pointer to it. -/
def REImpl.state (impl : REImpl) (op : Op) (data : Int) (out out1 : Nat) : REImpl × Nat :=
  ({ impl with states := impl.states ++ [⟨op, data, out, out1, impl.states.length + 1⟩] },
   impl.states.length + 1)

/-- Dereference of a state pointer. -/
def REImpl.deref (impl : REImpl) (p : Nat) : Option State :=
  if p = 0 then none else impl.states[p - 1]?

/-- One pending edge: the `out` (or, with `isOut1`, the `out1`) field of state `s`. -/
structure Slot where
  s : Nat
  isOut1 : Bool
deriving DecidableEq, Repr

/-- A list of pending edges (`union Ptrlist`). -/
abbrev Ptrlist := List Slot

/-- A partially built automaton (`struct Frag`). -/
structure Frag where
  start : Nat
  out : Ptrlist
deriving DecidableEq, Repr

/-- Singleton list `list1(&s->out)` or `list1(&s->out1)`. -/
def list1 (s : Nat) (isOut1 : Bool) : Ptrlist := [⟨s, isOut1⟩]

/-- Writes the pointer `t` into one edge slot. -/
def setSlot (states : List State) (sl : Slot) (t : Nat) : List State :=
  match states[sl.s - 1]? with
  | some st =>
    if sl.s = 0 then states
    else states.set (sl.s - 1) (if sl.isOut1 then { st with out1 := t } else { st with out := t })
  | none => states

/-- The loop of `patch`: every slot of the list is made to point to `t`. -/
def patchStates (states : List State) : Ptrlist → Nat → List State
  | [], _ => states
  | sl :: l, t => patchStates (setSlot states sl t) l t

/-- Connect the pending edges in `l` to the state `t` (`patch`). -/
def patch (impl : REImpl) (l : Ptrlist) (t : Nat) : REImpl :=
  { impl with states := patchStates impl.states l t }

/-- Join two pending-edge lists (`append`). -/
def append (l1 l2 : Ptrlist) : Ptrlist := l1 ++ l2

/-! ## Fragment builder -/

/-- Builder `any_char_impl`. -/
def any_char (impl : REImpl) : REImpl × Frag :=
  let (impl1, s) := impl.state Op.Any 0 0 0
  (impl1, ⟨s, list1 s false⟩)

/-- The conversion of a pattern `char` to `int` (a signed 8-bit `char`). -/
def charToInt (ch : Nat) : Int :=
  if ch % 256 < 128 then ((ch % 256 : Nat) : Int) else ((ch % 256 : Nat) : Int) - 256

/-- Builder `single_char_impl`. -/
def single_char (impl : REImpl) (ch : Nat) : REImpl × Frag :=
  let (impl1, s) := impl.state Op.Char (charToInt ch) 0 0
  (impl1, ⟨s, list1 s false⟩)

/-- Builder `paren_impl`. -/
def paren (impl : REImpl) (f : Frag) (n : Nat) : REImpl × Frag :=
  if n ≥ NSUB then (impl, f)
  else
    let (impl1, s1) := impl.state Op.LParen n f.start 0
    let (impl2, s2) := impl1.state Op.RParen n 0 0
    (patch impl2 f.out s2, ⟨s1, list1 s2 false⟩)

/-- Builder `greedy_star_impl`. -/
def greedy_star (impl : REImpl) (f : Frag) : REImpl × Frag :=
  let (impl1, s) := impl.state Op.Split 0 f.start 0
  (patch impl1 f.out s, ⟨s, list1 s true⟩)

/-- Builder `non_greedy_star_impl`. -/
def non_greedy_star (impl : REImpl) (f : Frag) : REImpl × Frag :=
  let (impl1, s) := impl.state Op.Split 0 0 f.start
  (patch impl1 f.out s, ⟨s, list1 s false⟩)

/-- Builder `greedy_plus_impl`. -/
def greedy_plus (impl : REImpl) (f : Frag) : REImpl × Frag :=
  let (impl1, s) := impl.state Op.Split 0 f.start 0
  (patch impl1 f.out s, ⟨f.start, list1 s true⟩)

/-- Builder `non_greedy_plus_impl`. -/
def non_greedy_plus (impl : REImpl) (f : Frag) : REImpl × Frag :=
  let (impl1, s) := impl.state Op.Split 0 0 f.start
  (patch impl1 f.out s, ⟨f.start, list1 s false⟩)

/-- Builder `greedy_opt_impl`. -/
def greedy_opt (impl : REImpl) (f : Frag) : REImpl × Frag :=
  let (impl1, s) := impl.state Op.Split 0 f.start 0
  (impl1, ⟨s, append f.out (list1 s true)⟩)

/-- Builder `non_greedy_opt_impl`. -/
def non_greedy_opt (impl : REImpl) (f : Frag) : REImpl × Frag :=
  let (impl1, s) := impl.state Op.Split 0 0 f.start
  (impl1, ⟨s, append f.out (list1 s false)⟩)

/-- Builder `do_concat_impl`. -/
def do_concat (impl : REImpl) (f1 f2 : Frag) : REImpl × Frag :=
  (patch impl f1.out f2.start, ⟨f1.start, f2.out⟩)

/-- Builder `do_alt_impl`. -/
def do_alt (impl : REImpl) (f1 f2 : Frag) : REImpl × Frag :=
  let (impl1, s) := impl.state Op.Split 0 f1.start f2.start
  (impl1, ⟨s, append f1.out f2.out⟩)

/-- Counter `next_paren_impl`: `++impl.nparen`. -/
def next_paren (impl : REImpl) : REImpl × Nat :=
  ({ impl with nparen := impl.nparen + 1 }, impl.nparen + 1)

/-- Finisher `do_regex_impl`: group 0 around the whole pattern, then the Match state. -/
def do_regex (impl : REImpl) (f : Frag) : REImpl :=
  let (impl1, f1) := paren impl f 0
  let (impl2, s) := impl1.state Op.Match 0 0 0
  let impl3 := patch impl2 f1.out s
  { impl3 with start := f1.start }

/-! ## Pattern compiler

The grammar of `regex_grammar`, with the semantics of the parser combinators it
is written in: a sequence `a >> b` fails when a component fails, an alternative
`a | b` tries `b` at the same input position when `a` fails, `*a` and `-a`
never fail, and a semantic action runs as soon as its parser has succeeded.
The automaton is passed by reference, so what a failed attempt did to it stays.
A result is the automaton together with `some (attribute, remaining input)` on
success and `none` on failure. -/

/-- The result of a rule with attribute `Frag`. -/
abbrev PResult := REImpl × Option (Frag × List Nat)

/-- The parser `char_(c)` (or the literal `c`): the rest of the input after a leading `c`. -/
def pchar (c : Nat) : List Nat → Option (List Nat)
  | [] => none
  | x :: rest => if x = c then some rest else none

/-- The characters excluded by `~char_("|*+?():.")`. -/
def special : List Nat := [124, 42, 43, 63, 40, 41, 58, 46]

/-- First alternative of `single`: `'(' '?' ':' alt ')'`, the attribute of `alt`. -/
def regex_grammar.single_nocapture (altF : REImpl → List Nat → Option PResult)
    (impl : REImpl) (inp : List Nat) : Option PResult :=
  match (pchar 40 inp).bind (fun r => (pchar 63 r).bind (pchar 58)) with
  | none => some (impl, none)
  | some rest =>
    match altF impl rest with
    | none => none
    | some (impl1, none) => some (impl1, none)
    | some (impl1, some (f, rest1)) =>
      match pchar 41 rest1 with
      | none => some (impl1, none)
      | some rest2 => some (impl1, some (f, rest2))

/-- Second alternative of `single`: `'(' count alt ')'`, wrapped by `paren` with
the number `count` drew before `alt` was parsed. -/
def regex_grammar.single_capture (altF : REImpl → List Nat → Option PResult)
    (impl : REImpl) (inp : List Nat) : Option PResult :=
  match pchar 40 inp with
  | none => some (impl, none)
  | some rest =>
    let (impl1, a) := next_paren impl
    match altF impl1 rest with
    | none => none
    | some (impl2, none) => some (impl2, none)
    | some (impl2, some (f, rest1)) =>
      match pchar 41 rest1 with
      | none => some (impl2, none)
      | some rest2 =>
        let (impl3, f1) := paren impl2 f a
        some (impl3, some (f1, rest2))

/-- Third and fourth alternatives of `single`: `.` and an ordinary character. -/
def regex_grammar.single_char_or_any (impl : REImpl) (inp : List Nat) : PResult :=
  match inp with
  | [] => (impl, none)
  | c :: rest =>
    if c = 46 then
      let (impl1, f) := any_char impl
      (impl1, some (f, rest))
    else if c ∈ special then (impl, none)
    else
      let (impl1, f) := single_char impl c
      (impl1, some (f, rest))

/-- The rule `single`. -/
def regex_grammar.single (altF : REImpl → List Nat → Option PResult)
    (impl : REImpl) (inp : List Nat) : Option PResult :=
  match regex_grammar.single_nocapture altF impl inp with
  | none => none
  | some (impl1, some x) => some (impl1, some x)
  | some (impl1, none) =>
    match regex_grammar.single_capture altF impl1 inp with
    | none => none
    | some (impl2, some x) => some (impl2, some x)
    | some (impl2, none) => some (regex_grammar.single_char_or_any impl2 inp)

/-- The optional operator after `single` in the rule `repeat`; the six
alternatives are tried in the order of the source. -/
def regex_grammar.repeat_suffix (impl : REImpl) (val : Frag) (inp : List Nat) : PResult :=
  match (pchar 42 inp).bind (pchar 63) with
  | some rest => let (impl1, f) := non_greedy_star impl val; (impl1, some (f, rest))
  | none =>
  match (pchar 43 inp).bind (pchar 63) with
  | some rest => let (impl1, f) := non_greedy_plus impl val; (impl1, some (f, rest))
  | none =>
  match (pchar 63 inp).bind (pchar 63) with
  | some rest => let (impl1, f) := non_greedy_opt impl val; (impl1, some (f, rest))
  | none =>
  match pchar 42 inp with
  | some rest => let (impl1, f) := greedy_star impl val; (impl1, some (f, rest))
  | none =>
  match pchar 43 inp with
  | some rest => let (impl1, f) := greedy_plus impl val; (impl1, some (f, rest))
  | none =>
  match pchar 63 inp with
  | some rest => let (impl1, f) := greedy_opt impl val; (impl1, some (f, rest))
  | none => (impl, some (val, inp))

/-- The rule `repeat`. -/
def regex_grammar.repeat_ (altF : REImpl → List Nat → Option PResult)
    (impl : REImpl) (inp : List Nat) : Option PResult :=
  match regex_grammar.single altF impl inp with
  | none => none
  | some (impl1, none) => some (impl1, none)
  | some (impl1, some (val, rest)) => some (regex_grammar.repeat_suffix impl1 val rest)

/-- The loop `*(repeat[_val = do_concat(_val, _1)])` of the rule `concat`. -/
def regex_grammar.concat_loop (altF : REImpl → List Nat → Option PResult) :
    Nat → REImpl → Frag → List Nat → Option PResult
  | 0, _, _, _ => none
  | k + 1, impl, val, inp =>
    match regex_grammar.repeat_ altF impl inp with
    | none => none
    | some (impl1, none) => some (impl1, some (val, inp))
    | some (impl1, some (f, rest)) =>
      let (impl2, val2) := do_concat impl1 val f
      regex_grammar.concat_loop altF k impl2 val2 rest

/-- The rule `concat`. -/
def regex_grammar.concat (altF : REImpl → List Nat → Option PResult) (k : Nat)
    (impl : REImpl) (inp : List Nat) : Option PResult :=
  match regex_grammar.repeat_ altF impl inp with
  | none => none
  | some (impl1, none) => some (impl1, none)
  | some (impl1, some (val, rest)) => regex_grammar.concat_loop altF k impl1 val rest

/-- The loop `*('|' >> concat[_val = do_alt(_val, _1)])` of the rule `alt`; when
`concat` fails after a `|` the loop ends in front of that `|`. -/
def regex_grammar.alt_loop (altF : REImpl → List Nat → Option PResult) :
    Nat → REImpl → Frag → List Nat → Option PResult
  | 0, _, _, _ => none
  | k + 1, impl, val, inp =>
    match pchar 124 inp with
    | none => some (impl, some (val, inp))
    | some rest =>
      match regex_grammar.concat altF k impl rest with
      | none => none
      | some (impl1, none) => some (impl1, some (val, inp))
      | some (impl1, some (f, rest1)) =>
        let (impl2, val2) := do_alt impl1 val f
        regex_grammar.alt_loop altF k impl2 val2 rest1

/-- The body of the rule `alt`, its recursive uses going through `altF`. -/
def regex_grammar.alt_body (altF : REImpl → List Nat → Option PResult) (k : Nat)
    (impl : REImpl) (inp : List Nat) : Option PResult :=
  match regex_grammar.concat altF k impl inp with
  | none => none
  | some (impl1, none) => some (impl1, none)
  | some (impl1, some (val, rest)) => regex_grammar.alt_loop altF k impl1 val rest

/-- The rule `alt`; the fuel bounds the nesting of groups and the length of the loops. -/
def regex_grammar.alt : Nat → REImpl → List Nat → Option PResult
  | 0, _, _ => none
  | n + 1, impl, inp => regex_grammar.alt_body (regex_grammar.alt n) (n + 1) impl inp

/-- The rule `regex`: `alt`, finished by `do_regex`; the result is the
automaton and, on success, the input left over. -/
def regex_grammar.regex (fuel : Nat) (impl : REImpl) (inp : List Nat) :
    Option (REImpl × Option (List Nat)) :=
  match regex_grammar.alt fuel impl inp with
  | none => none
  | some (impl1, none) => some (impl1, none)
  | some (impl1, some (f, rest)) => some (do_regex impl1 f, some rest)

/-- The compilation step of `main`: parse the pattern into a fresh automaton and
accept it only when the parse succeeded and consumed the whole pattern. -/
def compile (pat : List Nat) : Option REImpl :=
  match regex_grammar.regex (pat.length + 1) REImpl.init pat with
  | some (impl, some []) => some impl
  | _ => none

/-! ## Simulation engine -/

/-- Per-state scratch data (`struct StateEx`); `lastthread` is the index, in the
list being filled, of the thread it points to. -/
structure StateEx where
  lastlist : Nat
  visits : Nat
  lastthread : Nat
deriving DecidableEq, Repr

/-- The scratch data built by `StateEx()`. -/
def StateEx.init : StateEx := ⟨0, 0, 0⟩

instance : Inhabited StateEx := ⟨StateEx.init⟩

/-- The generation counter and the per-state scratch data (`struct Extras`). -/
structure Extras where
  listid : Nat
  stateex : List StateEx
deriving DecidableEq, Repr

/-- The scratch data built by `Extras(nstates)`. -/
def Extras.init (nstates : Nat) : Extras := ⟨0, List.replicate (nstates + 1) StateEx.init⟩

/-- A thread (`struct Thread`): a state pointer and a submatch array. -/
structure Thread where
  state : Nat
  subs : Subs
deriving DecidableEq, Repr

/-- A value-initialised thread. -/
def Thread.init : Thread := ⟨0, Subs.init⟩

instance : Inhabited Thread := ⟨Thread.init⟩

/-- A thread list (`struct List`): storage `t` and the number `n` of threads in use. -/
structure ThreadList where
  t : List Thread
  n : Nat
deriving DecidableEq, Repr

/-- The list built by `List(nstates)`. -/
def ThreadList.init (nstates : Nat) : ThreadList := ⟨List.replicate nstates Thread.init, 0⟩

/-- Is match `a` longer than match `b` (`longer`). -/
def longer (a b : Subs) : Bool :=
  if (a.getD 0 Sub.init).matched = SubState.Unmatched then false
  else if (b.getD 0 Sub.init).matched = SubState.Unmatched
      || Iter.lt (a.getD 0 Sub.init).first (b.getD 0 Sub.init).first then true
  else if (a.getD 0 Sub.init).first = (b.getD 0 Sub.init).first
      && Iter.lt (b.getD 0 Sub.init).second (a.getD 0 Sub.init).second then true
  else false

/-- The revisit test at the head of `addstate`: the updated scratch data of the
state, the list (one thread longer on a first visit) and whether `addstate`
goes on rather than returning. -/
def addstate_enter (matchtype : MatchType) (reptype : RepType) (listid : Nat)
    (ss : StateEx) (l : ThreadList) (m : Subs) : StateEx × ThreadList × Bool :=
  if ss.lastlist = listid then
    let ss1 := { ss with visits := ss.visits + 1 }
    if ss1.visits > 2 then (ss1, l, false)
    else
      match matchtype with
      | MatchType.LeftmostBiased =>
        if reptype = RepType.RepeatMinimal then (ss1, l, false)
        else
          let ss2 := { ss1 with visits := ss1.visits + 1 }
          if ss2.visits > 2 then (ss2, l, false) else (ss2, l, true)
      | MatchType.LeftmostLongest =>
        if !longer m (l.t.getD ss.lastthread Thread.init).subs then (ss1, l, false)
        else (ss1, l, true)
  else
    ({ lastlist := listid, lastthread := l.n, visits := 1 }, { l with n := l.n + 1 }, true)

/-- Add `s` to `l`, following unlabeled arrows (`Matcher::addstate`). The
submatch array `m` is passed by reference in the source, so it is returned. -/
def addstate (impl : REImpl) (matchtype : MatchType) (reptype : RepType) :
    Nat → Extras → ThreadList → Nat → Subs → Iter → Option (Extras × ThreadList × Subs)
  | 0, _, _, _, _, _ => none
  | fuel + 1, ex, l, s, m, icur =>
    if s = 0 then some (ex, l, m)
    else
      match impl.deref s with
      | none => none
      | some st =>
        let (ss, l1, go) :=
          addstate_enter matchtype reptype ex.listid (ex.stateex.getD st.id StateEx.init) l m
        let ex1 : Extras := { ex with stateex := ex.stateex.set st.id ss }
        if !go then some (ex1, l1, m)
        else
          let l2 : ThreadList :=
            if ss.visits = 1 then
              ThreadList.mk (l1.t.set ss.lastthread
                  (Thread.mk s (Subs.assign (l1.t.getD ss.lastthread Thread.init).subs m))) l1.n
            else l1
          match st.op with
          | Op.Split =>
            match addstate impl matchtype reptype fuel ex1 l2 st.out m icur with
            | none => none
            | some (ex2, l3, m1) => addstate impl matchtype reptype fuel ex2 l3 st.out1 m1 icur
          | Op.LParen =>
            let save := m.getD st.data.toNat Sub.init
            let m1 := m.set st.data.toNat { save with first := icur, matched := SubState.Incomplete }
            match addstate impl matchtype reptype fuel ex1 l2 st.out m1 icur with
            | none => none
            | some (ex2, l3, m2) =>
              some (ex2, l3, m2.set st.data.toNat ((m2.getD st.data.toNat Sub.init).assign save))
          | Op.RParen =>
            let save := m.getD st.data.toNat Sub.init
            let m1 := m.set st.data.toNat { save with second := icur, matched := SubState.Matched }
            match addstate impl matchtype reptype fuel ex1 l2 st.out m1 icur with
            | none => none
            | some (ex2, l3, m2) =>
              some (ex2, l3, m2.set st.data.toNat ((m2.getD st.data.toNat Sub.init).assign save))
          | _ => some (ex1, l2, m)

/-- The part of a `Matcher` that `step` reads and writes besides the two lists. -/
structure Scratch where
  subs : Subs
  dummy : Subs
  extras : Extras
deriving DecidableEq, Repr

/-- The loop of `step` over the threads `i, i+1, ...` of `clist`, `k` of them
remaining. The last component of the result tells whether the loop left `step`
through the `return` of the leftmost-biased Match case. -/
def step_loop (impl : REImpl) (matchtype : MatchType) (reptype : RepType) (fuel : Nat)
    (c : Nat) (icur : Iter) :
    Nat → Nat → Scratch → ThreadList → ThreadList → Option (Scratch × ThreadList × ThreadList × Bool)
  | 0, _, sc, clist, nlist => some (sc, clist, nlist, false)
  | k + 1, i, sc, clist, nlist =>
    let t := clist.t.getD i Thread.init
    if matchtype = MatchType.LeftmostLongest
        && (sc.subs.getD 0 Sub.init).matched ≠ SubState.Unmatched
        && Iter.lt (sc.subs.getD 0 Sub.init).first (t.subs.getD 0 Sub.init).first then
      some (sc, clist, nlist, false)
    else
      match impl.deref t.state with
      | none => none
      | some st =>
        match st.op with
        | Op.Char =>
          if (c : Int) = st.data then
            match addstate impl matchtype reptype fuel sc.extras nlist st.out t.subs icur with
            | none => none
            | some (ex1, nlist1, m1) =>
              step_loop impl matchtype reptype fuel c icur k (i + 1) { sc with extras := ex1 }
                { clist with t := clist.t.set i { t with subs := m1 } } nlist1
          else step_loop impl matchtype reptype fuel c icur k (i + 1) sc clist nlist
        | Op.Any =>
          match addstate impl matchtype reptype fuel sc.extras nlist st.out t.subs icur with
          | none => none
          | some (ex1, nlist1, m1) =>
            step_loop impl matchtype reptype fuel c icur k (i + 1) { sc with extras := ex1 }
              { clist with t := clist.t.set i { t with subs := m1 } } nlist1
        | Op.Match =>
          match matchtype with
          | MatchType.LeftmostBiased =>
            some ({ sc with subs := Subs.assign sc.subs t.subs }, clist, nlist, true)
          | MatchType.LeftmostLongest =>
            if longer t.subs sc.subs then
              step_loop impl matchtype reptype fuel c icur k (i + 1)
                { sc with subs := Subs.assign sc.subs t.subs } clist nlist
            else step_loop impl matchtype reptype fuel c icur k (i + 1) sc clist nlist
        | _ => step_loop impl matchtype reptype fuel c icur k (i + 1) sc clist nlist

/-- Step the NFA from the states in `clist` past the character `c` to create the
next state set `nlist`, recording the best match so far (`Matcher::step`). -/
def step (impl : REImpl) (matchtype : MatchType) (reptype : RepType) (fuel : Nat)
    (sc : Scratch) (clist : ThreadList) (c : Nat) (icur : Iter) (nlist : ThreadList) :
    Option (Scratch × ThreadList × ThreadList) :=
  let sc0 : Scratch := { sc with extras := { sc.extras with listid := sc.extras.listid + 1 } }
  let nlist0 : ThreadList := { nlist with n := 0 }
  match step_loop impl matchtype reptype fuel c icur clist.n 0 sc0 clist nlist0 with
  | none => none
  | some (sc1, clist1, nlist1, true) => some (sc1, clist1, nlist1)
  | some (sc1, clist1, nlist1, false) =>
    if (sc1.subs.getD 0 Sub.init).matched = SubState.Unmatched then
      match addstate impl matchtype reptype fuel sc1.extras nlist1 impl.start sc1.dummy icur with
      | none => none
      | some (ex2, nlist2, dummy2) =>
        some ({ sc1 with extras := ex2, dummy := dummy2 }, clist1, nlist2)
    else some (sc1, clist1, nlist1)

/-- Compute the initial thread list (`Matcher::startlist`). -/
def startlist (impl : REImpl) (matchtype : MatchType) (reptype : RepType) (fuel : Nat)
    (sc : Scratch) (icur : Iter) (l : ThreadList) : Option (Scratch × ThreadList) :=
  let sc0 : Scratch := { sc with subs := Subs.assign sc.subs Subs.init }
  match step impl matchtype reptype fuel sc0 (ThreadList.init 0) 0 icur l with
  | none => none
  | some (sc1, _, l1) => some (sc1, l1)

/-- The loop of `Matcher::match` over the input left, the position `pos` being
the offset of `icur`; the two lists are swapped after every step. -/
def match_loop (impl : REImpl) (matchtype : MatchType) (reptype : RepType) (fuel : Nat) :
    List Nat → Nat → Scratch → ThreadList → ThreadList → Option (Nat × Scratch × ThreadList × ThreadList)
  | [], pos, sc, clist, nlist => some (pos, sc, clist, nlist)
  | b :: rest, pos, sc, clist, nlist =>
    if clist.n > 0 then
      match step impl matchtype reptype fuel sc clist (b % 256) (some (pos + 1)) nlist with
      | none => none
      | some (sc1, clist1, nlist1) =>
        match_loop impl matchtype reptype fuel rest (pos + 1) sc1 nlist1 clist1
    else some (pos, sc, clist, nlist)

/-- A matcher (`struct Matcher`) without the automaton it refers to. -/
structure Matcher where
  subs : Subs
  dummy : Subs
  l1 : ThreadList
  l2 : ThreadList
  extras : Extras
deriving DecidableEq, Repr

/-- The matcher built by `Matcher(impl)`. -/
def Matcher.init (impl : REImpl) : Matcher :=
  { subs := Subs.init, dummy := Subs.init,
    l1 := ThreadList.init impl.states.length, l2 := ThreadList.init impl.states.length,
    extras := Extras.init impl.states.length }

/-- The fuel given to `addstate`: every state is entered at most twice in a generation. -/
def addstateFuel (impl : REImpl) : Nat := 2 * impl.states.length + 3

/-- The final scratch data of `Matcher::match` on a subject that starts at
offset 0: initial list, one step per byte while threads remain, and the closing
step with the byte 0. -/
def Matcher.run (impl : REImpl) (matchtype : MatchType) (reptype : RepType)
    (mt : Matcher) (input : List Nat) : Option Scratch :=
  match startlist impl matchtype reptype (addstateFuel impl)
      ⟨mt.subs, mt.dummy, mt.extras⟩ (some 0) mt.l1 with
  | none => none
  | some (sc, clist) =>
    match match_loop impl matchtype reptype (addstateFuel impl) input 0 sc clist mt.l2 with
    | none => none
    | some (pos, sc1, clist1, nlist1) =>
      match step impl matchtype reptype (addstateFuel impl) sc1 clist1 0 (some pos) nlist1 with
      | none => none
      | some (sc2, _, _) => some sc2

/-- The matcher as `Matcher::match` leaves it, for the next call of `match` on
the same matcher (`main` matches every subject with one matcher): the scratch
data that `Matcher.run` returns, and the two lists in the storage of `l1` and
`l2`. The loop swaps the pointers `clist` and `nlist` after every byte it reads,
so after an even number of bytes `clist` points to `l1`, else to `l2`. -/
def Matcher.rerun (impl : REImpl) (matchtype : MatchType) (reptype : RepType)
    (mt : Matcher) (input : List Nat) : Option Matcher :=
  match startlist impl matchtype reptype (addstateFuel impl)
      ⟨mt.subs, mt.dummy, mt.extras⟩ (some 0) mt.l1 with
  | none => none
  | some (sc, clist) =>
    match match_loop impl matchtype reptype (addstateFuel impl) input 0 sc clist mt.l2 with
    | none => none
    | some (pos, sc1, clist1, nlist1) =>
      match step impl matchtype reptype (addstateFuel impl) sc1 clist1 0 (some pos) nlist1 with
      | none => none
      | some (sc2, clist2, nlist2) =>
        if pos % 2 = 0 then some ⟨sc2.subs, sc2.dummy, clist2, nlist2, sc2.extras⟩
        else some ⟨sc2.subs, sc2.dummy, nlist2, clist2, sc2.extras⟩

/-- The run of `match` with a freshly constructed matcher: the submatch array `subs` it leaves. -/
def matchSubs (impl : REImpl) (matchtype : MatchType) (reptype : RepType)
    (input : List Nat) : Option Subs :=
  (Matcher.run impl matchtype reptype (Matcher.init impl) input).map (fun sc => sc.subs)

/-- The value returned by `Matcher::match`: `subs[0].matched == Matched`. -/
def isMatched (subs : Subs) : Bool :=
  decide ((subs.getD 0 Sub.init).matched = SubState.Matched)

/-- The text `printmatch` writes for slot `i` of the array, as data: the two
offsets of a Matched slot. It stands for the source at the indices `i < NSUB`
only: the array has no slot from `NSUB` on, and the source reads past it there. -/
def span (subs : Subs) (i : Nat) : Option (Nat × Nat) :=
  match (subs.getD i Sub.init).matched, (subs.getD i Sub.init).first, (subs.getD i Sub.init).second with
  | SubState.Matched, some a, some b => some (a, b)
  | _, _, _ => none

/-- The bytes of a text, for writing patterns and subjects as string literals. -/
def bytes (s : String) : List Nat := s.toList.map Char.toNat

/-! ## Specification side: the grammar and the language of a pattern -/

/-- Abstract syntax of a pattern; the flag of a repetition is its greediness,
the flag of a group tells whether it captures. -/
inductive Re where
  | chr (c : Nat)
  | any
  | cat (a b : Re)
  | alt (a b : Re)
  | star (greedy : Bool) (a : Re)
  | plus (greedy : Bool) (a : Re)
  | opt (greedy : Bool) (a : Re)
  | group (capture : Bool) (a : Re)
deriving DecidableEq, Repr

/-- Zero or more words of `L`, concatenated. -/
inductive Star (L : List Nat → Prop) : List Nat → Prop where
  | nil : Star L []
  | app (u v : List Nat) : L u → Star L v → Star L (u ++ v)

/-- The regular language a pattern denotes: a literal byte denotes itself, `.`
any single byte, juxtaposition concatenation, `|` union, `*` zero or more, `+`
one or more, `?` zero or one; greediness and grouping are transparent. -/
def Lang : Re → List Nat → Prop
  | Re.chr c => fun w => w = [c]
  | Re.any => fun w => ∃ b, w = [b]
  | Re.cat a b => fun w => ∃ u v, w = u ++ v ∧ Lang a u ∧ Lang b v
  | Re.alt a b => fun w => Lang a w ∨ Lang b w
  | Re.star _ a => Star (Lang a)
  | Re.plus _ a => fun w => ∃ u v, w = u ++ v ∧ Lang a u ∧ Star (Lang a) v
  | Re.opt _ a => fun w => w = [] ∨ Lang a w
  | Re.group _ a => Lang a

/-- The nonterminals of the pattern grammar. -/
inductive NT where
  | alt
  | concat
  | rep
  | atom
deriving DecidableEq, Repr

/-- The grammar `alt := concat ('|' concat)*`, `concat := repeat+`,
`repeat := atom (('*'|'+'|'?') '?'?)?`,
`atom := '(' '?' ':' alt ')' | '(' alt ')' | '.' | any byte not in "|*+?():."`,
as derivations `Parses nt text tree` of a text from a nonterminal. -/
inductive Parses : NT → List Nat → Re → Prop where
  | atom_nocapture (w : List Nat) (r : Re) :
      Parses NT.alt w r → Parses NT.atom (40 :: 63 :: 58 :: (w ++ [41])) (Re.group false r)
  | atom_capture (w : List Nat) (r : Re) :
      Parses NT.alt w r → Parses NT.atom (40 :: (w ++ [41])) (Re.group true r)
  | atom_any : Parses NT.atom [46] Re.any
  | atom_char (c : Nat) : c ∉ special → Parses NT.atom [c] (Re.chr c)
  | rep_atom (w : List Nat) (r : Re) : Parses NT.atom w r → Parses NT.rep w r
  | rep_star (w : List Nat) (r : Re) :
      Parses NT.atom w r → Parses NT.rep (w ++ [42]) (Re.star true r)
  | rep_plus (w : List Nat) (r : Re) :
      Parses NT.atom w r → Parses NT.rep (w ++ [43]) (Re.plus true r)
  | rep_opt (w : List Nat) (r : Re) :
      Parses NT.atom w r → Parses NT.rep (w ++ [63]) (Re.opt true r)
  | rep_star_lazy (w : List Nat) (r : Re) :
      Parses NT.atom w r → Parses NT.rep (w ++ [42, 63]) (Re.star false r)
  | rep_plus_lazy (w : List Nat) (r : Re) :
      Parses NT.atom w r → Parses NT.rep (w ++ [43, 63]) (Re.plus false r)
  | rep_opt_lazy (w : List Nat) (r : Re) :
      Parses NT.atom w r → Parses NT.rep (w ++ [63, 63]) (Re.opt false r)
  | concat_one (w : List Nat) (r : Re) : Parses NT.rep w r → Parses NT.concat w r
  | concat_more (w1 w2 : List Nat) (r1 r2 : Re) :
      Parses NT.concat w1 r1 → Parses NT.rep w2 r2 →
      Parses NT.concat (w1 ++ w2) (Re.cat r1 r2)
  | alt_one (w : List Nat) (r : Re) : Parses NT.concat w r → Parses NT.alt w r
  | alt_more (w1 w2 : List Nat) (r1 r2 : Re) :
      Parses NT.alt w1 r1 → Parses NT.concat w2 r2 →
      Parses NT.alt (w1 ++ 124 :: w2) (Re.alt r1 r2)

/-- The text between offsets `s` and `e` of the subject. -/
def slice (input : List Nat) (s e : Nat) : List Nat := (input.drop s).take (e - s)

/-- Some contiguous part of the subject, possibly empty, belongs to the language of `r`. -/
def HasMatch (r : Re) (input : List Nat) : Prop :=
  ∃ s e, s ≤ e ∧ e ≤ input.length ∧ Lang r (slice input s e)

/-! ## Proof side: auxiliary definitions -/

/-- The automaton and fragment the semantic actions produce for a syntax tree,
in the order the grammar runs them. -/
def build : Re → REImpl → REImpl × Frag
  | Re.chr c, impl => single_char impl c
  | Re.any, impl => any_char impl
  | Re.cat a b, impl =>
    let (impl1, f1) := build a impl
    let (impl2, f2) := build b impl1
    do_concat impl2 f1 f2
  | Re.alt a b, impl =>
    let (impl1, f1) := build a impl
    let (impl2, f2) := build b impl1
    do_alt impl2 f1 f2
  | Re.star g a, impl =>
    let (impl1, f) := build a impl
    if g then greedy_star impl1 f else non_greedy_star impl1 f
  | Re.plus g a, impl =>
    let (impl1, f) := build a impl
    if g then greedy_plus impl1 f else non_greedy_plus impl1 f
  | Re.opt g a, impl =>
    let (impl1, f) := build a impl
    if g then greedy_opt impl1 f else non_greedy_opt impl1 f
  | Re.group c a, impl =>
    if c then
      let (impl1, n) := next_paren impl
      let (impl2, f) := build a impl1
      paren impl2 f n
    else build a impl

/-- A rule never hands back more input than it was given. -/
def Shrinks (altF : REImpl → List Nat → Option PResult) : Prop :=
  ∀ impl inp impl1 f rest, altF impl inp = some (impl1, some (f, rest)) →
    rest.length < inp.length

/-- A rule returns (does not run out of fuel) on every input shorter than `L`. -/
def TotalBelow (altF : REImpl → List Nat → Option PResult) (L : Nat) : Prop :=
  ∀ impl inp, inp.length < L → ∃ res, altF impl inp = some res

/-- A rule does not succeed on an input that starts with `?`. -/
def NoSuccQ (altF : REImpl → List Nat → Option PResult) : Prop :=
  ∀ impl t impl1 f rest, altF impl (63 :: t) ≠ some (impl1, some (f, rest))

/-- The input left over is empty or starts with `)`. -/
def StopParen (rest : List Nat) : Prop := rest = [] ∨ ∃ t, rest = 41 :: t

/-- The input left over is empty or starts with `)` or `|`. -/
def StopConcat (rest : List Nat) : Prop := rest = [] ∨ ∃ c t, rest = c :: t ∧ (c = 41 ∨ c = 124)

/-- The input left over does not start with a repetition operator. -/
def NoOp (rest : List Nat) : Prop := ∀ c t, rest = c :: t → c ≠ 42 ∧ c ≠ 43 ∧ c ≠ 63

/-- A successful `alt` that stops at the end or in front of `)` has parsed a
text of the grammar and built the automaton of its tree. -/
def AltSound (altF : REImpl → List Nat → Option PResult) : Prop :=
  ∀ impl inp impl1 f rest, altF impl inp = some (impl1, some (f, rest)) → StopParen rest →
    ∃ w r, inp = w ++ rest ∧ Parses NT.alt w r ∧ build r impl = (impl1, f)

/-- What the parser does on a text of the grammar followed by `rest`, by nonterminal. -/
def Complete : NT → List Nat → Re → Prop
  | NT.atom, w, r => ∀ n impl rest, (w ++ rest).length ≤ n →
      regex_grammar.single (regex_grammar.alt n) impl (w ++ rest)
        = some ((build r impl).1, some ((build r impl).2, rest))
  | NT.rep, w, r => ∀ n impl rest, (w ++ rest).length ≤ n → NoOp rest →
      regex_grammar.repeat_ (regex_grammar.alt n) impl (w ++ rest)
        = some ((build r impl).1, some ((build r impl).2, rest))
  | NT.concat, w, r => ∀ n k impl rest, (w ++ rest).length ≤ n → (w ++ rest).length ≤ k →
      NoOp rest →
      ∃ k1, rest.length < k1 ∧
        regex_grammar.concat (regex_grammar.alt n) k impl (w ++ rest)
          = regex_grammar.concat_loop (regex_grammar.alt n) k1 (build r impl).1 (build r impl).2 rest
  | NT.alt, w, r => ∀ n k impl rest, (w ++ rest).length ≤ n → (w ++ rest).length ≤ k →
      StopConcat rest →
      ∃ k1, rest.length < k1 ∧
        regex_grammar.alt_body (regex_grammar.alt n) k impl (w ++ rest)
          = regex_grammar.alt_loop (regex_grammar.alt n) k1 (build r impl).1 (build r impl).2 rest

/-- The nesting depth after scanning a text from depth `d`: `(` opens, `)`
closes; `none` when a `)` has no `(` to close. -/
def depthScan : List Nat → Nat → Option Nat
  | [], d => some d
  | c :: rest, d =>
    if c = 40 then depthScan rest (d + 1)
    else if c = 41 then (if d = 0 then none else depthScan rest (d - 1))
    else depthScan rest d

/-- The parentheses of a pattern are balanced. -/
def Balanced (pat : List Nat) : Prop := depthScan pat 0 = some 0

instance (pat : List Nat) : Decidable (Balanced pat) := by
  unfold Balanced; infer_instance

/-! ### Paths of the automaton -/

/-- One transition of the automaton through an edge slot: from state `p`,
through its `out` edge (or `out1`, when the flag is set), reading the bytes `lab`
(one byte for a Char or Any state, none otherwise), to the state the edge holds. -/
inductive Tr (impl : REImpl) : Nat → Bool → List Nat → Nat → Prop where
  | char (p : Nat) (st : State) (b : Nat) : impl.deref p = some st → st.op = Op.Char →
      ((b % 256 : Nat) : Int) = st.data → Tr impl p false [b] st.out
  | any (p : Nat) (st : State) (b : Nat) : impl.deref p = some st → st.op = Op.Any →
      Tr impl p false [b] st.out
  | split_out (p : Nat) (st : State) : impl.deref p = some st → st.op = Op.Split →
      Tr impl p false [] st.out
  | split_out1 (p : Nat) (st : State) : impl.deref p = some st → st.op = Op.Split →
      Tr impl p true [] st.out1
  | lparen (p : Nat) (st : State) : impl.deref p = some st → st.op = Op.LParen →
      Tr impl p false [] st.out
  | rparen (p : Nat) (st : State) : impl.deref p = some st → st.op = Op.RParen →
      Tr impl p false [] st.out

/-- A path of the automaton from one state to another, reading a word. -/
inductive Path (impl : REImpl) : Nat → List Nat → Nat → Prop where
  | refl (p : Nat) : Path impl p [] p
  | cons (p : Nat) (b : Bool) (lab : List Nat) (q : Nat) (w : List Nat) (q1 : Nat) :
      Tr impl p b lab q → Path impl q w q1 → Path impl p (lab ++ w) q1

/-- The automaton accepts a word: a path from the start state to the last state, the Match state. -/
def Accepts (impl : REImpl) (w : List Nat) : Prop :=
  Path impl impl.start w impl.states.length

/-- The shape every compiled automaton has: the last three states are the
LParen and RParen of group 0 and the Match state, the start state is that
LParen, the states before them are the body, whose edges stay in the body or
lead to the RParen of group 0 and whose parentheses have an index from 1 to 9. -/
structure WFAut (impl : REImpl) : Prop where
  size : 3 ≤ impl.states.length
  idok : ∀ p st, impl.deref p = some st → st.id = p
  start_eq : impl.start = impl.states.length - 2
  start_state : ∃ st, impl.deref (impl.states.length - 2) = some st ∧ st.op = Op.LParen ∧
    st.data = 0 ∧ 1 ≤ st.out ∧ st.out ≤ impl.states.length - 3
  close_state : ∃ st, impl.deref (impl.states.length - 1) = some st ∧ st.op = Op.RParen ∧
    st.data = 0 ∧ st.out = impl.states.length
  match_state : ∃ st, impl.deref impl.states.length = some st ∧ st.op = Op.Match
  body : ∀ p, 1 ≤ p → p ≤ impl.states.length - 3 → ∃ st, impl.deref p = some st ∧
    st.op ≠ Op.Match ∧
    ((st.op = Op.LParen ∨ st.op = Op.RParen) → 1 ≤ st.data ∧ st.data < NSUB) ∧
    ((1 ≤ st.out ∧ st.out ≤ impl.states.length - 3) ∨ st.out = impl.states.length - 1) ∧
    (st.op = Op.Split →
      ((1 ≤ st.out1 ∧ st.out1 ≤ impl.states.length - 3) ∨ st.out1 = impl.states.length - 1))

/-! ### The closure `addstate` as a relation -/

/-- The write `lastthread->state = s; lastthread->match = m` of a first visit. -/
def enterThread (ss : StateEx) (l : ThreadList) (s : Nat) (m : Subs) : ThreadList :=
  if ss.visits = 1 then
    ThreadList.mk (l.t.set ss.lastthread
      (Thread.mk s (Subs.assign (l.t.getD ss.lastthread Thread.init).subs m))) l.n
  else l

/-- The runs of `addstate` that return, as derivations: `AddRel ex l s m ex1 l1 m1` says
that called with scratch data `ex`, list `l`, state `s` and submatch array `m` it
returns and leaves `ex1`, `l1` and `m1`. -/
inductive AddRel (impl : REImpl) (mt : MatchType) (rt : RepType) (icur : Iter) :
    Extras → ThreadList → Nat → Subs → Extras → ThreadList → Subs → Prop where
  | null (ex : Extras) (l : ThreadList) (m : Subs) : AddRel impl mt rt icur ex l 0 m ex l m
  | stop (ex : Extras) (l : ThreadList) (s : Nat) (m : Subs) (st : State) (ss : StateEx)
      (l1 : ThreadList) : s ≠ 0 → impl.deref s = some st →
      addstate_enter mt rt ex.listid (ex.stateex.getD st.id StateEx.init) l m = (ss, l1, false) →
      AddRel impl mt rt icur ex l s m { ex with stateex := ex.stateex.set st.id ss } l1 m
  | leaf (ex : Extras) (l : ThreadList) (s : Nat) (m : Subs) (st : State) (ss : StateEx)
      (l1 : ThreadList) : s ≠ 0 → impl.deref s = some st →
      addstate_enter mt rt ex.listid (ex.stateex.getD st.id StateEx.init) l m = (ss, l1, true) →
      (st.op = Op.Char ∨ st.op = Op.Any ∨ st.op = Op.Match) →
      AddRel impl mt rt icur ex l s m { ex with stateex := ex.stateex.set st.id ss }
        (enterThread ss l1 s m) m
  | split (ex : Extras) (l : ThreadList) (s : Nat) (m : Subs) (st : State) (ss : StateEx)
      (l1 : ThreadList) (ex2 ex3 : Extras) (l3 l4 : ThreadList) (m1 m2 : Subs) :
      s ≠ 0 → impl.deref s = some st →
      addstate_enter mt rt ex.listid (ex.stateex.getD st.id StateEx.init) l m = (ss, l1, true) →
      st.op = Op.Split →
      AddRel impl mt rt icur { ex with stateex := ex.stateex.set st.id ss }
        (enterThread ss l1 s m) st.out m ex2 l3 m1 →
      AddRel impl mt rt icur ex2 l3 st.out1 m1 ex3 l4 m2 →
      AddRel impl mt rt icur ex l s m ex3 l4 m2
  | lparen (ex : Extras) (l : ThreadList) (s : Nat) (m : Subs) (st : State) (ss : StateEx)
      (l1 : ThreadList) (ex2 : Extras) (l3 : ThreadList) (m2 : Subs) :
      s ≠ 0 → impl.deref s = some st →
      addstate_enter mt rt ex.listid (ex.stateex.getD st.id StateEx.init) l m = (ss, l1, true) →
      st.op = Op.LParen →
      AddRel impl mt rt icur { ex with stateex := ex.stateex.set st.id ss }
        (enterThread ss l1 s m) st.out
        (m.set st.data.toNat
          { m.getD st.data.toNat Sub.init with first := icur, matched := SubState.Incomplete })
        ex2 l3 m2 →
      AddRel impl mt rt icur ex l s m ex2 l3
        (m2.set st.data.toNat
          ((m2.getD st.data.toNat Sub.init).assign (m.getD st.data.toNat Sub.init)))
  | rparen (ex : Extras) (l : ThreadList) (s : Nat) (m : Subs) (st : State) (ss : StateEx)
      (l1 : ThreadList) (ex2 : Extras) (l3 : ThreadList) (m2 : Subs) :
      s ≠ 0 → impl.deref s = some st →
      addstate_enter mt rt ex.listid (ex.stateex.getD st.id StateEx.init) l m = (ss, l1, true) →
      st.op = Op.RParen →
      AddRel impl mt rt icur { ex with stateex := ex.stateex.set st.id ss }
        (enterThread ss l1 s m) st.out
        (m.set st.data.toNat
          { m.getD st.data.toNat Sub.init with second := icur, matched := SubState.Matched })
        ex2 l3 m2 →
      AddRel impl mt rt icur ex l s m ex2 l3
        (m2.set st.data.toNat
          ((m2.getD st.data.toNat Sub.init).assign (m.getD st.data.toNat Sub.init)))

/-- What is observable of a submatch slot: the tag, `first` unless the slot is
Unmatched, `second` when it is Matched. -/
def Sub.obs (s : Sub) : SubState × Iter × Iter :=
  match s.matched with
  | SubState.Matched => (SubState.Matched, s.first, s.second)
  | SubState.Incomplete => (SubState.Incomplete, s.first, none)
  | SubState.Unmatched => (SubState.Unmatched, none, none)

/-- Two submatch arrays are observably equal. -/
def ObsEq (m1 m2 : Subs) : Prop :=
  m1.length = m2.length ∧ ∀ i, (m1.getD i Sub.init).obs = (m2.getD i Sub.init).obs

/-- The visits a state still has in generation `g`: two when it is not stamped,
else what is left of two after the visits made. -/
def visitsLeft (g : Nat) (ss : StateEx) : Nat :=
  if ss.lastlist = g then 2 - ss.visits else 2

/-- The visits all states together still have in generation `g`. -/
def fuelNeed (g : Nat) (ex : Extras) : Nat := (ex.stateex.map (visitsLeft g)).sum

/-- State `p` is stamped with the current generation. -/
def Stamped (ex : Extras) (p : Nat) : Prop :=
  (ex.stateex.getD p StateEx.init).lastlist = ex.listid

/-- The bookkeeping invariant between the scratch data and the list being
filled within one generation. -/
structure SInv (impl : REImpl) (ex : Extras) (l : ThreadList) : Prop where
  len_ex : ex.stateex.length = impl.states.length + 1
  cap : l.t.length = impl.states.length
  le : ∀ p, (ex.stateex.getD p StateEx.init).lastlist ≤ ex.listid
  zero : ¬ Stamped ex 0
  vis : ∀ p, Stamped ex p → 1 ≤ (ex.stateex.getD p StateEx.init).visits
  thr : ∀ p, Stamped ex p → (ex.stateex.getD p StateEx.init).lastthread < l.n ∧
    (l.t.getD (ex.stateex.getD p StateEx.init).lastthread Thread.init).state = p
  inj : ∀ i, i < l.n → Stamped ex (l.t.getD i Thread.init).state ∧
    (ex.stateex.getD (l.t.getD i Thread.init).state StateEx.init).lastthread = i
  rng : ∀ i, i < l.n → 1 ≤ (l.t.getD i Thread.init).state ∧
    (l.t.getD i Thread.init).state ≤ impl.states.length
  sublen : ∀ i, (l.t.getD i Thread.init).subs.length = NSUB

/-- List `l1` extends list `l`: the same storage size, the threads of `l` unchanged. -/
def Ext (l l1 : ThreadList) : Prop :=
  l.n ≤ l1.n ∧ l1.t.length = l.t.length ∧ ∀ i, i < l.n → l1.t.getD i Thread.init = l.t.getD i Thread.init

/-- What entering a state does to the scratch data and the list: the result
`(ss, l1, go)` of the revisit test, followed by the write of a first visit. -/
structure EnterPost (impl : REImpl) (ex : Extras) (l : ThreadList) (s : Nat) (m : Subs)
    (ss : StateEx) (l1 : ThreadList) (go : Bool) : Prop where
  sinv : SInv impl { ex with stateex := ex.stateex.set s ss } (enterThread ss l1 s m)
  need_le : fuelNeed ex.listid { ex with stateex := ex.stateex.set s ss }
    ≤ fuelNeed ex.listid ex
  need_lt : go = true →
    fuelNeed ex.listid { ex with stateex := ex.stateex.set s ss } < fuelNeed ex.listid ex
  ext : Ext l (enterThread ss l1 s m)
  stamped_iff : ∀ p, Stamped { ex with stateex := ex.stateex.set s ss } p ↔
    (p = s ∨ Stamped ex p)
  stop_eq : go = false → enterThread ss l1 s m = l1
  same : enterThread ss l1 s m = l1 ∨ ¬ Stamped ex s
  fresh : ∀ i, l.n ≤ i → i < (enterThread ss l1 s m).n →
    ¬ Stamped ex s ∧ ((enterThread ss l1 s m).t.getD i Thread.init).state = s ∧
      ObsEq ((enterThread ss l1 s m).t.getD i Thread.init).subs m
  first_go : ¬ Stamped ex s → go = true

/-- Slot 0 of the submatch array that `addstate` carries at state `p`, for a
thread that started at offset `s0` and stands at offset `pos`: Unmatched at the
start state, Matched with `(s0, pos)` at the Match state, Incomplete with start
`s0` at every other state. -/
def MOK (impl : REImpl) (s0 pos p : Nat) (m : Subs) : Prop :=
  m.length = NSUB ∧
  (p = impl.start → (m.getD 0 Sub.init).matched = SubState.Unmatched) ∧
  (p ≠ impl.start → p ≠ impl.states.length →
    (m.getD 0 Sub.init).matched = SubState.Incomplete ∧ (m.getD 0 Sub.init).first = some s0) ∧
  (p = impl.states.length → (m.getD 0 Sub.init).matched = SubState.Matched ∧
    (m.getD 0 Sub.init).first = some s0 ∧ (m.getD 0 Sub.init).second = some pos)

/-- What a returning run of `addstate` guarantees. -/
structure AddPost (impl : REImpl) (s0 pos : Nat) (ex : Extras) (l : ThreadList) (s : Nat)
    (m : Subs) (ex1 : Extras) (l1 : ThreadList) (m1 : Subs) : Prop where
  sinv : SInv impl ex1 l1
  listid : ex1.listid = ex.listid
  need : fuelNeed ex.listid ex1 ≤ fuelNeed ex.listid ex
  ext : Ext l l1
  obs : ObsEq m1 m
  stamped : s ≠ 0 → Stamped ex1 s
  mono : ∀ p, Stamped ex p → Stamped ex1 p
  closed : ∀ p, Stamped ex1 p → ¬ Stamped ex p → ∀ b q, Tr impl p b [] q → Stamped ex1 q
  fresh : ∀ i, l.n ≤ i → i < l1.n →
    ¬ Stamped ex (l1.t.getD i Thread.init).state ∧
    Path impl s [] (l1.t.getD i Thread.init).state ∧
    MOK impl s0 pos (l1.t.getD i Thread.init).state (l1.t.getD i Thread.init).subs

/-- A part of a run of `addstate` entered at state `src`: how the scratch data
and the list have grown. -/
structure Grow (impl : REImpl) (s0 pos src : Nat) (ex : Extras) (l : ThreadList)
    (ex1 : Extras) (l1 : ThreadList) : Prop where
  sinv : SInv impl ex1 l1
  listid : ex1.listid = ex.listid
  need : fuelNeed ex.listid ex1 ≤ fuelNeed ex.listid ex
  ext : Ext l l1
  mono : ∀ p, Stamped ex p → Stamped ex1 p
  closed : ∀ p, Stamped ex1 p → ¬ Stamped ex p → p ≠ src →
    ∀ b q, Tr impl p b [] q → Stamped ex1 q
  fresh : ∀ i, l.n ≤ i → i < l1.n →
    ¬ Stamped ex (l1.t.getD i Thread.init).state ∧
    Path impl src [] (l1.t.getD i Thread.init).state ∧
    MOK impl s0 pos (l1.t.getD i Thread.init).state (l1.t.getD i Thread.init).subs

/-! ### One step of the simulation -/

/-- The offset at which a thread started, read off slot 0 of its submatch array. -/
def tstart (t : Thread) : Nat := ((t.subs.getD 0 Sub.init).first).getD 0

/-- Thread `t` fires on the byte `c` and moves to state `q`: its state is an
Any state, or a Char state for `c`, with successor `q`. -/
def Fires (impl : REImpl) (c : Nat) (t : Thread) (q : Nat) : Prop :=
  ∃ st, impl.deref t.state = some st ∧ q = st.out ∧
    (st.op = Op.Any ∨ (st.op = Op.Char ∧ (c : Int) = st.data))

/-- The threads in use of a current list are threads of the automaton with a
well-formed slot 0, and the list has room for them. -/
def CInv (impl : REImpl) (pos : Nat) (cl : ThreadList) : Prop :=
  cl.n ≤ cl.t.length ∧
  ∀ i, i < cl.n → 1 ≤ (cl.t.getD i Thread.init).state ∧
    (cl.t.getD i Thread.init).state ≤ impl.states.length ∧
    MOK impl (tstart (cl.t.getD i Thread.init)) pos (cl.t.getD i Thread.init).state
      (cl.t.getD i Thread.init).subs

/-- Two lists hold the same threads up to observable equality of the submatch arrays. -/
def SameThreads (cl cl1 : ThreadList) : Prop :=
  cl1.n = cl.n ∧ cl1.t.length = cl.t.length ∧
  ∀ i, (cl1.t.getD i Thread.init).state = (cl.t.getD i Thread.init).state ∧
    ObsEq (cl1.t.getD i Thread.init).subs (cl.t.getD i Thread.init).subs

/-- Slot 0 of a best-match array is Unmatched, or Matched with both positions set. -/
def SubsOK (subs : Subs) : Prop :=
  subs.length = NSUB ∧
  ((subs.getD 0 Sub.init).matched = SubState.Unmatched ∨
   ((subs.getD 0 Sub.init).matched = SubState.Matched ∧
     ∃ s e, (subs.getD 0 Sub.init).first = some s ∧ (subs.getD 0 Sub.init).second = some e))

/-- The best-match array holds a match that is at least as good as `(s1, e1)`
in the leftmost-longest order. -/
def GeMatch (subs : Subs) (s1 e1 : Nat) : Prop :=
  (subs.getD 0 Sub.init).matched = SubState.Matched ∧
  ∃ s e, (subs.getD 0 Sub.init).first = some s ∧ (subs.getD 0 Sub.init).second = some e ∧
    (s < s1 ∨ (s = s1 ∧ e1 ≤ e))

/-- The invariant of the loop of `step` after the threads before index `i` of
the current list have been handled, none of them ending the loop: `sc0`, `cl0`
are the scratch data and the current list at the start of the loop, `c` the
byte read, `pos` the offset of the current list and `npos` that of the next. -/
structure LoopInv (impl : REImpl) (mt : MatchType) (c pos npos fuel : Nat) (sc0 : Scratch)
    (cl0 : ThreadList) (i : Nat) (sc : Scratch) (cl nl : ThreadList) : Prop where
  frame : SameThreads cl0 cl
  sinv : SInv impl sc.extras nl
  listid : sc.extras.listid = sc0.extras.listid
  dummy : sc.dummy = sc0.dummy
  need : fuelNeed sc.extras.listid sc.extras < fuel
  src : ∃ f : Nat → Nat,
    (∀ k, k < nl.n → f k < i ∧ ∃ q, Fires impl c (cl0.t.getD (f k) Thread.init) q ∧
      Path impl q [] (nl.t.getD k Thread.init).state ∧
      MOK impl (tstart (cl0.t.getD (f k) Thread.init)) npos (nl.t.getD k Thread.init).state
        (nl.t.getD k Thread.init).subs) ∧
    (∀ k1 k2, k1 ≤ k2 → k2 < nl.n → f k1 ≤ f k2) ∧
    (∀ j, j < i → ∀ q, Fires impl c (cl0.t.getD j Thread.init) q → ∀ q1, Path impl q [] q1 →
      ∃ k, k < nl.n ∧ (nl.t.getD k Thread.init).state = q1 ∧ f k ≤ j)
  closed : ∀ p, Stamped sc.extras p → ∀ b q, Tr impl p b [] q → Stamped sc.extras q
  fired : ∀ j, j < i → ∀ q, Fires impl c (cl0.t.getD j Thread.init) q → Stamped sc.extras q
  subsok : SubsOK sc.subs
  biased : mt = MatchType.LeftmostBiased →
    sc.subs = sc0.subs ∧ ∀ j, j < i → (cl0.t.getD j Thread.init).state ≠ impl.states.length
  origin : sc.subs = sc0.subs ∨
    ∃ j, j < i ∧ (cl0.t.getD j Thread.init).state = impl.states.length ∧
      ObsEq sc.subs (cl0.t.getD j Thread.init).subs
  best : ∀ j, j < i → (cl0.t.getD j Thread.init).state = impl.states.length →
    GeMatch sc.subs (tstart (cl0.t.getD j Thread.init)) pos
  keep : ∀ s e, GeMatch sc0.subs s e → GeMatch sc.subs s e

/-- How the loop of `step` ends: at the end of the list, at the `break` of the
leftmost-longest mode, or at the `return` of the leftmost-biased mode. -/
def LoopEnd (impl : REImpl) (mt : MatchType) (c pos npos fuel : Nat) (sc0 : Scratch)
    (cl0 : ThreadList) (sc : Scratch) (cl nl : ThreadList) (ret : Bool) : Prop :=
  ∃ stop sc1, stop ≤ cl0.n ∧ LoopInv impl mt c pos npos fuel sc0 cl0 stop sc1 cl nl ∧
    ((stop = cl0.n ∧ ret = false ∧ sc = sc1) ∨
     (stop < cl0.n ∧ ret = false ∧ sc = sc1 ∧ mt = MatchType.LeftmostLongest ∧
       (sc1.subs.getD 0 Sub.init).matched ≠ SubState.Unmatched ∧
       Iter.lt (sc1.subs.getD 0 Sub.init).first
         (((cl.t.getD stop Thread.init).subs.getD 0 Sub.init).first) = true) ∨
     (stop < cl0.n ∧ ret = true ∧ mt = MatchType.LeftmostBiased ∧
       (cl0.t.getD stop Thread.init).state = impl.states.length ∧
       sc = { sc1 with subs := Subs.assign sc1.subs (cl.t.getD stop Thread.init).subs }))

/-! ### One call of `step` -/

/-- The scratch data after the first visit of state `s` in a generation. -/
def firstEx (ex : Extras) (l : ThreadList) (s : Nat) : Extras :=
  { ex with stateex := ex.stateex.set s (StateEx.mk ex.listid 1 l.n) }

/-- The list after the first visit of state `s` with the submatch array `m`. -/
def firstList (l : ThreadList) (s : Nat) (m : Subs) : ThreadList :=
  ThreadList.mk (l.t.set l.n (Thread.mk s (Subs.assign (l.t.getD l.n Thread.init).subs m)))
    (l.n + 1)

/-- The scratch data with the generation counter advanced, as `step` starts with. -/
def bump (sc : Scratch) : Scratch :=
  { sc with extras := { sc.extras with listid := sc.extras.listid + 1 } }

/-- What `step` needs of the scratch data and of the two lists it is given. -/
structure StepPre (impl : REImpl) (pos : Nat) (sc : Scratch) (cl nl : ThreadList) : Prop where
  cinv : CInv impl pos cl
  cap_nl : nl.t.length = impl.states.length
  sub_nl : ∀ i, (nl.t.getD i Thread.init).subs.length = NSUB
  ex_len : sc.extras.stateex.length = impl.states.length + 1
  ex_le : ∀ p, (sc.extras.stateex.getD p StateEx.init).lastlist ≤ sc.extras.listid
  dummy : sc.dummy.length = NSUB ∧ (sc.dummy.getD 0 Sub.init).matched = SubState.Unmatched
  subsok : SubsOK sc.subs

/-- What a call of `step` has done: the loop over the current list stopped at
index `stop` with scratch data `scl` and next list `nl1`; then either nothing
more happened (a best match is known), or the start state was added to the next
list (no match is known), or, in the leftmost-biased mode, the thread at `stop`
stands at the Match state and `step` returned from inside the loop. -/
def StepPost (impl : REImpl) (mt : MatchType) (rt : RepType) (c pos npos fuel : Nat)
    (sc : Scratch) (cl : ThreadList) (sc1 : Scratch) (cl1 nl1 : ThreadList) : Prop :=
  ∃ stop scl nll, stop ≤ cl.n ∧
    LoopInv impl mt c pos npos fuel (bump sc) cl stop scl cl1 nll ∧
    (((scl.subs.getD 0 Sub.init).matched ≠ SubState.Unmatched ∧ sc1 = scl ∧ nl1 = nll ∧
        (stop < cl.n → mt = MatchType.LeftmostLongest ∧
          Iter.lt (scl.subs.getD 0 Sub.init).first
            (((cl1.t.getD stop Thread.init).subs.getD 0 Sub.init).first) = true)) ∨
     (stop = cl.n ∧ (scl.subs.getD 0 Sub.init).matched = SubState.Unmatched ∧
        sc1.subs = scl.subs ∧
        AddRel impl mt rt (some npos) scl.extras nll impl.start scl.dummy
          sc1.extras nl1 sc1.dummy) ∨
     (stop < cl.n ∧ mt = MatchType.LeftmostBiased ∧
        (cl.t.getD stop Thread.init).state = impl.states.length ∧
        sc1 = { scl with subs := Subs.assign scl.subs (cl1.t.getD stop Thread.init).subs } ∧
        nl1 = nll))

/-! ### The run of `match` -/

/-- Offset `p` is a lower bound of the offsets at which an accepted part of the subject starts. -/
def LowStart (impl : REImpl) (input : List Nat) (p : Nat) : Prop :=
  ∀ s e, s ≤ e → e ≤ input.length → Accepts impl (slice input s e) → p ≤ s

/-- A thread of the list at offset `pos` that does not stand at the start state
has read the subject from the offset it started at. -/
def TValid (impl : REImpl) (input : List Nat) (pos : Nat) (t : Thread) : Prop :=
  t.state ≠ impl.start →
    tstart t ≤ pos ∧ Path impl impl.start (slice input (tstart t) pos) t.state

/-- The next list a call of `step` leaves: its first `nOld` threads come from
the threads before `stop` of the current list that fired, thread `k` from thread
`f k`, in the order of the current list; the threads after them are the start
state and what it leads to. -/
structure NextList (impl : REImpl) (c npos : Nat) (cl : ThreadList) (stop : Nat)
    (ex1 : Extras) (nl1 : ThreadList) (nOld : Nat) (f : Nat → Nat) : Prop where
  sinv : SInv impl ex1 nl1
  old_le : nOld ≤ nl1.n
  src : ∀ k, k < nOld → f k < stop ∧ ∃ q, Fires impl c (cl.t.getD (f k) Thread.init) q ∧
    Path impl q [] (nl1.t.getD k Thread.init).state ∧
    MOK impl (tstart (cl.t.getD (f k) Thread.init)) npos (nl1.t.getD k Thread.init).state
      (nl1.t.getD k Thread.init).subs
  mono : ∀ k1 k2, k1 ≤ k2 → k2 < nOld → f k1 ≤ f k2
  early : ∀ j, j < stop → ∀ q, Fires impl c (cl.t.getD j Thread.init) q → ∀ q1,
    Path impl q [] q1 → ∃ k, k < nOld ∧ (nl1.t.getD k Thread.init).state = q1 ∧ f k ≤ j
  seed_head : nOld < nl1.n → (nl1.t.getD nOld Thread.init).state = impl.start
  seed : ∀ k, nOld ≤ k → k < nl1.n → Path impl impl.start [] (nl1.t.getD k Thread.init).state ∧
    MOK impl npos npos (nl1.t.getD k Thread.init).state (nl1.t.getD k Thread.init).subs
  seed_all : nOld < nl1.n → ∀ q, Path impl impl.start [] q →
    ∃ k, k < nl1.n ∧ (nl1.t.getD k Thread.init).state = q

/-- The invariant of the loop of `match` when the current list `cl` stands at
offset `pos` of the subject. -/
structure MInv (impl : REImpl) (mt : MatchType) (input : List Nat) (pos : Nat) (sc : Scratch)
    (cl nl : ThreadList) : Prop where
  pre : StepPre impl pos sc cl nl
  pos_le : pos ≤ input.length
  cap_cl : cl.t.length = impl.states.length
  sub_cl : ∀ i, (cl.t.getD i Thread.init).subs.length = NSUB
  uniq : ∀ i j, i < cl.n → j < cl.n →
    (cl.t.getD i Thread.init).state = (cl.t.getD j Thread.init).state → i = j
  valid : ∀ i, i < cl.n → TValid impl input pos (cl.t.getD i Thread.init)
  found : ∀ s e, (sc.subs.getD 0 Sub.init).matched = SubState.Matched →
    (sc.subs.getD 0 Sub.init).first = some s → (sc.subs.getD 0 Sub.init).second = some e →
    s ≤ e ∧ e < pos ∧ Accepts impl (slice input s e)
  sorted : ∀ i j, i ≤ j → j < cl.n → (cl.t.getD i Thread.init).state ≠ impl.start →
    (cl.t.getD j Thread.init).state ≠ impl.start →
    tstart (cl.t.getD i Thread.init) ≤ tstart (cl.t.getD j Thread.init)
  root_lt : ∀ i j, i < j → j < cl.n → (cl.t.getD j Thread.init).state = impl.start →
    tstart (cl.t.getD i Thread.init) < pos
  root_eq : ∀ i j, i < j → j < cl.n → (cl.t.getD i Thread.init).state = impl.start →
    tstart (cl.t.getD j Thread.init) = pos
  root : (∃ i, i < cl.n ∧ (cl.t.getD i Thread.init).state = impl.start) ↔
    (sc.subs.getD 0 Sub.init).matched = SubState.Unmatched
  complete : (sc.subs.getD 0 Sub.init).matched = SubState.Unmatched →
    ∀ s0 q, s0 ≤ pos → q ≠ impl.start → Path impl impl.start (slice input s0 pos) q →
      ∃ i, i < cl.n ∧ (cl.t.getD i Thread.init).state = q
  none_yet : (sc.subs.getD 0 Sub.init).matched = SubState.Unmatched →
    ∀ s e, s ≤ e → e < pos → ¬ Accepts impl (slice input s e)
  lbest : mt = MatchType.LeftmostLongest → ∀ p, LowStart impl input p → p ≤ pos →
    ∀ q e, q ≠ impl.start → pos ≤ e → e ≤ input.length →
      Path impl impl.start (slice input p pos) q →
      Path impl q (slice input pos e) impl.states.length →
      ∃ i, i < cl.n ∧ (cl.t.getD i Thread.init).state = q ∧ tstart (cl.t.getD i Thread.init) = p
  best : mt = MatchType.LeftmostLongest → ∀ p e, LowStart impl input p → p ≤ e → e < pos →
    Accepts impl (slice input p e) → GeMatch sc.subs p e

/-- The three ways a call of `step` ends, the loop having stopped at index
`stop` with scratch data `scl` and next list `nll`: a best match is known and
nothing is added; no match is known and the start state is added; the
leftmost-biased mode returned at a thread at the Match state. -/
def StepCase (impl : REImpl) (mt : MatchType) (sc : Scratch) (cl : ThreadList) (stop : Nat)
    (scl : Scratch) (nll : ThreadList) (sc1 : Scratch) (cl1 nl1 : ThreadList) : Prop :=
  ((scl.subs.getD 0 Sub.init).matched ≠ SubState.Unmatched ∧ sc1 = scl ∧ nl1 = nll ∧
      (stop < cl.n → mt = MatchType.LeftmostLongest ∧
        Iter.lt (scl.subs.getD 0 Sub.init).first
          (((cl1.t.getD stop Thread.init).subs.getD 0 Sub.init).first) = true)) ∨
  (stop = cl.n ∧ (scl.subs.getD 0 Sub.init).matched = SubState.Unmatched ∧
      sc1.subs = scl.subs ∧ nll.n < nl1.n ∧ ObsEq sc1.dummy sc.dummy) ∨
  (stop < cl.n ∧ mt = MatchType.LeftmostBiased ∧
      (cl.t.getD stop Thread.init).state = impl.states.length ∧
      sc1 = { scl with subs := Subs.assign scl.subs (cl1.t.getD stop Thread.init).subs } ∧
      nl1 = nll)

/-! ### The layout of a compiled automaton -/

/-- The literal bytes of a pattern are 7-bit. -/
def Re.Ascii : Re → Prop
  | Re.chr c => c < 128
  | Re.any => True
  | Re.cat a b => a.Ascii ∧ b.Ascii
  | Re.alt a b => a.Ascii ∧ b.Ascii
  | Re.star _ a => a.Ascii
  | Re.plus _ a => a.Ascii
  | Re.opt _ a => a.Ascii
  | Re.group _ a => a.Ascii

/-- What `patch` with the list `l` and the target `t` does to the state with pointer `p`. -/
def pst (l : Ptrlist) (t : Nat) (p : Nat) (st : State) : State :=
  l.foldl (fun st1 sl =>
    if sl.s = p then (if sl.isOut1 then { st1 with out1 := t } else { st1 with out := t })
    else st1) st

/-- The states `lo + 1 .. hi` of the automaton are the fragment of the pattern
`r`, entered at state `e`, with every pending edge connected to state `t`, the
group counter going from `c0` to `c1`: `Built impl r c0 c1 lo hi e t`. -/
inductive Built (impl : REImpl) : Re → Nat → Nat → Nat → Nat → Nat → Nat → Prop where
  | chr (c c0 lo t : Nat) (st : State) : impl.deref (lo + 1) = some st → st.op = Op.Char →
      st.data = charToInt c → st.out = t →
      Built impl (Re.chr c) c0 c0 lo (lo + 1) (lo + 1) t
  | any (c0 lo t : Nat) (st : State) : impl.deref (lo + 1) = some st → st.op = Op.Any →
      st.out = t → Built impl Re.any c0 c0 lo (lo + 1) (lo + 1) t
  | cat (a b : Re) (c0 c1 c2 lo mid hi e1 e2 t : Nat) :
      Built impl a c0 c1 lo mid e1 e2 → Built impl b c1 c2 mid hi e2 t →
      Built impl (Re.cat a b) c0 c2 lo hi e1 t
  | alt (a b : Re) (c0 c1 c2 lo mid hi e1 e2 t : Nat) (st : State) :
      Built impl a c0 c1 lo mid e1 t → Built impl b c1 c2 mid hi e2 t →
      impl.deref (hi + 1) = some st → st.op = Op.Split → st.out = e1 → st.out1 = e2 →
      Built impl (Re.alt a b) c0 c2 lo (hi + 1) (hi + 1) t
  | star (g : Bool) (a : Re) (c0 c1 lo hi e t : Nat) (st : State) :
      Built impl a c0 c1 lo hi e (hi + 1) →
      impl.deref (hi + 1) = some st → st.op = Op.Split →
      st.out = (if g then e else t) → st.out1 = (if g then t else e) →
      Built impl (Re.star g a) c0 c1 lo (hi + 1) (hi + 1) t
  | plus (g : Bool) (a : Re) (c0 c1 lo hi e t : Nat) (st : State) :
      Built impl a c0 c1 lo hi e (hi + 1) →
      impl.deref (hi + 1) = some st → st.op = Op.Split →
      st.out = (if g then e else t) → st.out1 = (if g then t else e) →
      Built impl (Re.plus g a) c0 c1 lo (hi + 1) e t
  | opt (g : Bool) (a : Re) (c0 c1 lo hi e t : Nat) (st : State) :
      Built impl a c0 c1 lo hi e t →
      impl.deref (hi + 1) = some st → st.op = Op.Split →
      st.out = (if g then e else t) → st.out1 = (if g then t else e) →
      Built impl (Re.opt g a) c0 c1 lo (hi + 1) (hi + 1) t
  | group_plain (a : Re) (c0 c1 lo hi e t : Nat) :
      Built impl a c0 c1 lo hi e t → Built impl (Re.group false a) c0 c1 lo hi e t
  | group_capture (a : Re) (c0 c1 lo hi e t : Nat) (st1 st2 : State) :
      c0 + 1 < NSUB → Built impl a (c0 + 1) c1 lo hi e (hi + 2) →
      impl.deref (hi + 1) = some st1 → st1.op = Op.LParen → st1.data = ((c0 + 1 : Nat) : Int) →
      st1.out = e →
      impl.deref (hi + 2) = some st2 → st2.op = Op.RParen → st2.data = ((c0 + 1 : Nat) : Int) →
      st2.out = t →
      Built impl (Re.group true a) c0 c1 lo (hi + 2) (hi + 1) t
  | group_dropped (a : Re) (c0 c1 lo hi e t : Nat) :
      NSUB ≤ c0 + 1 → Built impl a (c0 + 1) c1 lo hi e t →
      Built impl (Re.group true a) c0 c1 lo hi e t

/-- A path from a state that ends when it first arrives at state `t`. -/
inductive PathTo (impl : REImpl) (t : Nat) : Nat → List Nat → Prop where
  | last (p : Nat) (b : Bool) (lab : List Nat) : Tr impl p b lab t → PathTo impl t p lab
  | step (p : Nat) (b : Bool) (lab : List Nat) (q : Nat) (w : List Nat) :
      Tr impl p b lab q → q ≠ t → PathTo impl t q w → PathTo impl t p (lab ++ w)

/-- Every edge of a state with a pointer from `lo + 1` to `hi` leads to such a state or to `x`. -/
def ClosedIn (impl : REImpl) (lo hi x : Nat) : Prop :=
  ∀ p b lab q, lo < p → p ≤ hi → Tr impl p b lab q → (lo < q ∧ q ≤ hi) ∨ q = x

/-- What building the fragment `f` of the pattern `r` does to the arena, which
grows from `impl` with `lo` states to `impl1` with `hi` states: the states up
to `lo` are left alone, the pending edges of `f` belong to the new states, and
once they are connected to a state `t` the new states are laid out as `Built` says. -/
structure FragOK (r : Re) (impl impl1 : REImpl) (f : Frag) (lo hi : Nat) : Prop where
  lo_eq : impl.states.length = lo
  hi_eq : impl1.states.length = hi
  grow : lo < hi
  start_eq : impl1.start = impl.start
  frame : ∀ p, p ≤ lo → impl1.deref p = impl.deref p
  slots : ∀ sl ∈ f.out, lo < sl.s ∧ sl.s ≤ hi
  idok : (∀ p st, impl.deref p = some st → st.id = p) →
    ∀ p st, impl1.deref p = some st → st.id = p
  built : ∀ t (A : REImpl),
    (∀ p, lo < p → p ≤ hi → A.deref p = (impl1.deref p).map (pst f.out t p)) →
    Built A r impl.nparen impl1.nparen lo hi f.start t

/-! ### The automata of `a*` and `a*?` -/

/-- The automaton compiled for the pattern `a*`. -/
def aStar : REImpl := (compile (bytes "a*")).getD REImpl.init

/-- The automaton compiled for the pattern `a*?`. -/
def aStarLazy : REImpl := (compile (bytes "a*?")).getD REImpl.init

/-- The shape of the current list in the run of `a*` on a subject of bytes
`a`: after `i0` threads at the start state come the threads of the Split state,
the Char state, the RParen of group 0 and the Match state, in this order, the
Char and Match threads having started at offset 0. -/
def AStarList (cl : ThreadList) (i0 : Nat) : Prop :=
  cl.n = i0 + 4 ∧ (∀ j, j < i0 → (cl.t.getD j Thread.init).state = 3) ∧
  (cl.t.getD i0 Thread.init).state = 2 ∧ (cl.t.getD (i0 + 1) Thread.init).state = 1 ∧
  (cl.t.getD (i0 + 2) Thread.init).state = 4 ∧ (cl.t.getD (i0 + 3) Thread.init).state = 5 ∧
  tstart (cl.t.getD (i0 + 1) Thread.init) = 0 ∧ tstart (cl.t.getD (i0 + 3) Thread.init) = 0

/-! ### Priority of the first alternative -/

/-- A chain of Split and LParen states, each entered through the `out` edge of
the one before, from state `s` down to state `eA`; the states of the chain other
than `eA` have pointers above `a`, in decreasing order. -/
inductive Spine (impl : REImpl) (a eA : Nat) : Nat → Prop where
  | here : Spine impl a eA eA
  | split (s : Nat) (st : State) : a < s → impl.deref s = some st → st.op = Op.Split →
      st.out < s → Spine impl a eA st.out → Spine impl a eA s
  | lparen (s : Nat) (st : State) : a < s → impl.deref s = some st → st.op = Op.LParen →
      st.out < s → Spine impl a eA st.out → Spine impl a eA s

/-- A thread that started at offset `p` and has read the subject from there
along a path from state `eA`. -/
def ViaA (impl : REImpl) (input : List Nat) (p eA pos : Nat) (t : Thread) : Prop :=
  tstart t = p ∧ Path impl eA (slice input p pos) t.state

/-- A thread that is not at the Match state and, if it can fire, started before offset `p`. -/
def Early (impl : REImpl) (p : Nat) (t : Thread) : Prop :=
  t.state ≠ impl.states.length ∧ ∀ c q, Fires impl c t q → tstart t < p

/-- A state on a path from `eA` that reads the subject from offset `p` up to
`pos` and can go on to the Match state reading the subject further. -/
def LiveA (impl : REImpl) (input : List Nat) (p eA pos q : Nat) : Prop :=
  Path impl eA (slice input p pos) q ∧
  ∃ e, pos ≤ e ∧ e ≤ input.length ∧ Path impl q (slice input pos e) impl.states.length

/-- The invariant of the leftmost-biased run from offset `p` on, while no part
of the subject from `p` has been matched along a path from `eA`: every thread is
`Early` or `ViaA`, or comes after the threads of all `LiveA` states. -/
structure Prio1 (impl : REImpl) (input : List Nat) (p eA pos : Nat) (cl : ThreadList) :
    Prop where
  ge : p ≤ pos
  order : ∀ i, i < cl.n →
    (Early impl p (cl.t.getD i Thread.init) ∨ ViaA impl input p eA pos (cl.t.getD i Thread.init)) ∨
    ∀ q, LiveA impl input p eA pos q → ∃ j, j < i ∧ (cl.t.getD j Thread.init).state = q
  complete : ∀ q, LiveA impl input p eA pos q →
    ∃ j, j < cl.n ∧ (cl.t.getD j Thread.init).state = q
  none_yet : ∀ e, p ≤ e → e < pos → ¬ Path impl eA (slice input p e) impl.states.length

/-- The invariant of the leftmost-biased run once a part of the subject from
`p` has been matched along a path from `eA`: the best match is such a part, and
every thread is `Early` or `ViaA`. -/
structure Prio2 (impl : REImpl) (input : List Nat) (p eA pos : Nat) (sc : Scratch)
    (cl : ThreadList) : Prop where
  ge : p ≤ pos
  found : ∃ e, span sc.subs 0 = some (p, e) ∧
    Path impl eA (slice input p e) impl.states.length
  good : ∀ i, i < cl.n →
    Early impl p (cl.t.getD i Thread.init) ∨ ViaA impl input p eA pos (cl.t.getD i Thread.init)

/-- The words the automaton of a pattern reads: as the language of the
pattern, except that a literal `c` stands for the bytes `b` that the Char
state built for it fires on, those with `b & 0xFF` equal to `c` taken as a
signed `char`. -/
def AutLang : Re → List Nat → Prop
  | Re.chr c => fun w => ∃ b, w = [b] ∧ ((b % 256 : Nat) : Int) = charToInt c
  | Re.any => fun w => ∃ b, w = [b]
  | Re.cat a b => fun w => ∃ u v, w = u ++ v ∧ AutLang a u ∧ AutLang b v
  | Re.alt a b => fun w => AutLang a w ∨ AutLang b w
  | Re.star _ a => Star (AutLang a)
  | Re.plus _ a => fun w => ∃ u v, w = u ++ v ∧ AutLang a u ∧ Star (AutLang a) v
  | Re.opt _ a => fun w => w = [] ∨ AutLang a w
  | Re.group _ a => AutLang a

/-- The literals of a pattern are bytes. -/
def Re.Bytes : Re → Prop
  | Re.chr c => c < 256
  | Re.any => True
  | Re.cat a b => a.Bytes ∧ b.Bytes
  | Re.alt a b => a.Bytes ∧ b.Bytes
  | Re.star _ a => a.Bytes
  | Re.plus _ a => a.Bytes
  | Re.opt _ a => a.Bytes
  | Re.group _ a => a.Bytes

/-- Pattern `rA` is the first alternative of an alternation: the alternation is
`rA|c`, or `r|c` for an alternation `r` with first alternative `rA`. -/
inductive LeftAlt (rA : Re) : Re → Prop where
  | base (c : Re) : LeftAlt rA (Re.alt rA c)
  | more (r c : Re) : LeftAlt rA r → LeftAlt rA (Re.alt r c)

/-! ### The states of the loop of `match` -/

/-- The states the loop of `match` goes through on a subject, for a freshly
constructed matcher: `LoopState impl mt rt input pos sc cl nl` says that with
`pos` bytes read the scratch data are `sc`, the current list is `cl` and the
other list is `nl`. The first state is what `startlist` leaves; one more byte is
read by a call of `step` while the current list is not empty, after which the
two lists are swapped. -/
inductive LoopState (impl : REImpl) (mt : MatchType) (rt : RepType) (input : List Nat) :
    Nat → Scratch → ThreadList → ThreadList → Prop where
  | start (sc : Scratch) (cl : ThreadList) :
      startlist impl mt rt (addstateFuel impl)
        ⟨Subs.init, Subs.init, Extras.init impl.states.length⟩ (some 0)
        (ThreadList.init impl.states.length) = some (sc, cl) →
      LoopState impl mt rt input 0 sc cl (ThreadList.init impl.states.length)
  | next (pos : Nat) (sc : Scratch) (cl nl : ThreadList) (b : Nat) (rest : List Nat)
      (sc1 : Scratch) (cl1 nl1 : ThreadList) :
      LoopState impl mt rt input pos sc cl nl → input.drop pos = b :: rest → cl.n > 0 →
      step impl mt rt (addstateFuel impl) sc cl (b % 256) (some (pos + 1)) nl
        = some (sc1, cl1, nl1) →
      LoopState impl mt rt input (pos + 1) sc1 nl1 cl1

/-! ### The two repetition policies under leftmost-biased matching -/

/-- Two scratch records of the states agree up to the visit counters. -/
def ExSame (ex ex1 : Extras) : Prop :=
  ex1.listid = ex.listid ∧ ex1.stateex.length = ex.stateex.length ∧
  ∀ p, (ex1.stateex.getD p StateEx.init).lastlist = (ex.stateex.getD p StateEx.init).lastlist ∧
    (ex1.stateex.getD p StateEx.init).lastthread = (ex.stateex.getD p StateEx.init).lastthread

/-- No state is stamped with a generation after the current one. -/
def NoFut (ex : Extras) : Prop :=
  ∀ p, (ex.stateex.getD p StateEx.init).lastlist ≤ ex.listid

/-- Every state stamped with the current generation has a visit counter of at least 1. -/
def VisOK (ex : Extras) : Prop :=
  ∀ p, (ex.stateex.getD p StateEx.init).lastlist = ex.listid →
    1 ≤ (ex.stateex.getD p StateEx.init).visits

/-- Two results of `addstate` agree up to the visit counters. -/
def SameAdd : Option (Extras × ThreadList × Subs) → Option (Extras × ThreadList × Subs) → Prop
  | some (e, l, m), some (e1, l1, m1) =>
    ExSame e e1 ∧ NoFut e ∧ NoFut e1 ∧ VisOK e ∧ VisOK e1 ∧ l1 = l ∧ m1 = m
  | none, none => True
  | _, _ => False

/-- Two scratch data agree up to the visit counters. -/
def ScSame (sc sc1 : Scratch) : Prop :=
  sc1.subs = sc.subs ∧ sc1.dummy = sc.dummy ∧ ExSame sc.extras sc1.extras ∧
  NoFut sc.extras ∧ NoFut sc1.extras

/-- Two results of the loop of `step` agree up to the visit counters. -/
def SameLoop : Option (Scratch × ThreadList × ThreadList × Bool) →
    Option (Scratch × ThreadList × ThreadList × Bool) → Prop
  | some (sc, cl, nl, r), some (sc1, cl1, nl1, r1) =>
    ScSame sc sc1 ∧ VisOK sc.extras ∧ VisOK sc1.extras ∧ cl1 = cl ∧ nl1 = nl ∧ r1 = r
  | none, none => True
  | _, _ => False

/-- Two results of `step` agree up to the visit counters. -/
def SameStep : Option (Scratch × ThreadList × ThreadList) →
    Option (Scratch × ThreadList × ThreadList) → Prop
  | some (sc, cl, nl), some (sc1, cl1, nl1) => ScSame sc sc1 ∧ cl1 = cl ∧ nl1 = nl
  | none, none => True
  | _, _ => False

/-- Two results of the loop of `match` agree up to the visit counters. -/
def SameMatch : Option (Nat × Scratch × ThreadList × ThreadList) →
    Option (Nat × Scratch × ThreadList × ThreadList) → Prop
  | some (pos, sc, cl, nl), some (pos1, sc1, cl1, nl1) =>
    pos1 = pos ∧ ScSame sc sc1 ∧ cl1 = cl ∧ nl1 = nl
  | none, none => True
  | _, _ => False

/-! ### The numbering of the groups -/

/-- The offsets of the capturing `(` of a pattern text, in text order: the
bytes `(` that are not followed by `?:`. -/
def capOpens : List Nat → List Nat
  | [] => []
  | c :: rest =>
    (if c = 40 ∧ rest.take 2 ≠ [63, 58] then [0] else []) ++ (capOpens rest).map (fun o => o + 1)

/-- The bodies of the capturing groups of a syntax tree, a group before the
groups inside it and the groups of a left operand before those of the right one. -/
def Re.caps : Re → List Re
  | Re.chr _ => []
  | Re.any => []
  | Re.cat a b => a.caps ++ b.caps
  | Re.alt a b => a.caps ++ b.caps
  | Re.star _ a => a.caps
  | Re.plus _ a => a.caps
  | Re.opt _ a => a.caps
  | Re.group c a => if c then a :: a.caps else a.caps

/-- The capturing `(` of a text stay what they are whatever follows the text. -/
def Sealed (w : List Nat) : Prop :=
  ∀ x, capOpens (w ++ x) = capOpens w ++ (capOpens x).map (fun o => o + w.length)

/-- The capturing `(` of the text `w` open the groups with the bodies `bs`, in
this order: the `j`-th of them is followed by a text of the grammar with the
tree `bs[j]` and the `)` that closes it. -/
def GroupsAt (w : List Nat) (bs : List Re) : Prop :=
  (capOpens w).length = bs.length ∧
  ∀ (j : Nat) (rb : Re), bs[j]? = some rb → ∃ pre body post, w = pre ++ 40 :: (body ++ 41 :: post) ∧
    (capOpens w)[j]? = some pre.length ∧ Parses NT.alt body rb

/-- The groups with the bodies `bs` are numbered from `c0 + 1` on among the
states `lo + 1 .. hi`: the group `j` with a number `k = c0 + j + 1` below `NSUB`
has an LParen state with the data `k` that enters the fragment of its body, and
right after it an RParen state with the data `k` that the fragment leads to. -/
def Wrapped (impl : REImpl) (lo hi c0 : Nat) (bs : List Re) : Prop :=
  ∀ (j : Nat) (rb : Re), bs[j]? = some rb → c0 + j + 1 < NSUB →
    ∃ c1 lo1 hi1 e1 st1 st2, lo ≤ lo1 ∧ hi1 + 2 ≤ hi ∧
      Built impl rb (c0 + j + 1) c1 lo1 hi1 e1 (hi1 + 2) ∧
      impl.deref (hi1 + 1) = some st1 ∧ st1.op = Op.LParen ∧
      st1.data = ((c0 + j + 1 : Nat) : Int) ∧ st1.out = e1 ∧
      impl.deref (hi1 + 2) = some st2 ∧ st2.op = Op.RParen ∧
      st2.data = ((c0 + j + 1 : Nat) : Int)

/-! ### The return of `step` at an accepting thread -/

/-- Thread `i` of the list stands at a Match state. -/
def AtMatch (impl : REImpl) (cl : ThreadList) (i : Nat) : Prop :=
  (impl.deref (cl.t.getD i Thread.init).state).map (fun st => st.op) = some Op.Match

instance (impl : REImpl) (cl : ThreadList) (i : Nat) : Decidable (AtMatch impl cl i) := by
  unfold AtMatch
  infer_instance

/-! ### The slots of the groups -/

/-- Group `k` is a box of the automaton: its LParen state is state `hi + 1`, its
RParen state is state `hi + 2` and leads out of the box, no other state is a
parenthesis with the number `k`, and no edge of a state outside the states
`lo + 1 .. hi + 2` leads to one of the states `lo + 1 .. hi` or to the RParen state. -/
structure GroupBox (impl : REImpl) (k lo hi : Nat) : Prop where
  lparen : ∃ st, impl.deref (hi + 1) = some st ∧ st.op = Op.LParen ∧ st.data = ((k : Nat) : Int)
  rparen : ∃ st, impl.deref (hi + 2) = some st ∧ st.op = Op.RParen ∧
    st.data = ((k : Nat) : Int) ∧ ¬ (lo < st.out ∧ st.out ≤ hi + 2)
  nodata : ∀ p st, p ≠ hi + 1 → p ≠ hi + 2 → impl.deref p = some st →
    (st.op = Op.LParen ∨ st.op = Op.RParen) → st.data ≠ ((k : Nat) : Int)
  outer : ∀ p st, (p ≤ lo ∨ hi + 2 < p) → impl.deref p = some st →
    (st.op ≠ Op.Match → ¬ (lo < st.out ∧ st.out ≤ hi) ∧ st.out ≠ hi + 2) ∧
    (st.op = Op.Split → ¬ (lo < st.out1 ∧ st.out1 ≤ hi) ∧ st.out1 ≠ hi + 2)

/-- Every RParen state of a group from 1 on belongs to a box. -/
def GWF (impl : REImpl) : Prop :=
  ∀ p st, impl.deref p = some st → st.op = Op.RParen → 1 ≤ st.data →
    ∃ lo hi, GroupBox impl st.data.toNat lo hi

/-- The slots of the groups in the submatch array that `addstate` carries at
state `p` and offset `pos`: a Matched slot holds two offsets `s ≤ e ≤ pos`, an
Incomplete slot an offset `s ≤ pos`, and inside the box of a group (at a state
between its parentheses or at its RParen state) the slot of the group is Incomplete. -/
def GOK (impl : REImpl) (pos p : Nat) (m : Subs) : Prop :=
  ∀ k, 1 ≤ k → k < NSUB →
    ((m.getD k Sub.init).matched = SubState.Matched →
      ∃ s e, (m.getD k Sub.init).first = some s ∧ (m.getD k Sub.init).second = some e ∧
        s ≤ e ∧ e ≤ pos) ∧
    ((m.getD k Sub.init).matched = SubState.Incomplete →
      ∃ s, (m.getD k Sub.init).first = some s ∧ s ≤ pos) ∧
    (∀ lo hi, GroupBox impl k lo hi → ((lo < p ∧ p ≤ hi) ∨ p = hi + 2) →
      (m.getD k Sub.init).matched = SubState.Incomplete)

/-- The threads in use of a list at offset `pos` carry well-formed group slots. -/
def GList (impl : REImpl) (pos : Nat) (l : ThreadList) : Prop :=
  ∀ i, i < l.n → GOK impl pos (l.t.getD i Thread.init).state (l.t.getD i Thread.init).subs

/-- The Matched slots of the groups in a best-match array hold offsets `s ≤ e ≤ n`. -/
def GSubs (n : Nat) (subs : Subs) : Prop :=
  ∀ k, 1 ≤ k → k < NSUB → (subs.getD k Sub.init).matched = SubState.Matched →
    ∃ s e, (subs.getD k Sub.init).first = some s ∧ (subs.getD k Sub.init).second = some e ∧
      s ≤ e ∧ e ≤ n

/-- The box of group `k` seen from the fragment with the states `lo + 1 .. hi`
that holds it: as `GroupBox`, for the states of the fragment only. -/
structure LocalBox (impl : REImpl) (k lo1 hi1 lo hi : Nat) : Prop where
  inside : lo ≤ lo1 ∧ lo1 ≤ hi1 ∧ hi1 + 2 ≤ hi
  lparen : ∃ st, impl.deref (hi1 + 1) = some st ∧ st.op = Op.LParen ∧
    st.data = ((k : Nat) : Int)
  rparen : ∃ st, impl.deref (hi1 + 2) = some st ∧ st.op = Op.RParen ∧
    st.data = ((k : Nat) : Int) ∧ ¬ (lo1 < st.out ∧ st.out ≤ hi1 + 2)
  nodata : ∀ p st, lo < p → p ≤ hi → p ≠ hi1 + 1 → p ≠ hi1 + 2 → impl.deref p = some st →
    (st.op = Op.LParen ∨ st.op = Op.RParen) → st.data ≠ ((k : Nat) : Int)
  outer : ∀ p st, lo < p → p ≤ hi → (p ≤ lo1 ∨ hi1 + 2 < p) → impl.deref p = some st →
    (st.op ≠ Op.Match → ¬ (lo1 < st.out ∧ st.out ≤ hi1) ∧ st.out ≠ hi1 + 2) ∧
    (st.op = Op.Split → ¬ (lo1 < st.out1 ∧ st.out1 ≤ hi1) ∧ st.out1 ≠ hi1 + 2)

/-! ## Theorems -/

/-- When the current list is empty the loop of `match` ends at once, whatever input is left. -/
theorem match_loop_empty (impl : REImpl) (mt : MatchType) (rt : RepType) (fuel : Nat)
    (inp : List Nat) (pos : Nat) (sc : Scratch) (clist nlist : ThreadList) (h : clist.n = 0) :
    match_loop impl mt rt fuel inp pos sc clist nlist = some (pos, sc, clist, nlist) := by
  cases inp <;> simp [match_loop, h]

/-- The run of `match` in three parts: the initial list, the loop, the closing step. -/
theorem matchSubs_of_parts (impl : REImpl) (mt : MatchType) (rt : RepType) (input : List Nat)
    (sc0 sc1 sc2 : Scratch) (cl0 cl1 nl1 x y : ThreadList) (pos : Nat)
    (h0 : startlist impl mt rt (addstateFuel impl)
      ⟨Subs.init, Subs.init, Extras.init impl.states.length⟩ (some 0)
      (ThreadList.init impl.states.length) = some (sc0, cl0))
    (h1 : match_loop impl mt rt (addstateFuel impl) input 0 sc0 cl0
      (ThreadList.init impl.states.length) = some (pos, sc1, cl1, nl1))
    (h2 : step impl mt rt (addstateFuel impl) sc1 cl1 0 (some pos) nl1 = some (sc2, x, y)) :
    matchSubs impl mt rt input = some sc2.subs := by
  simp [matchSubs, Matcher.run, Matcher.init, h0, h1, h2]

/-- C7: in every matching mode and repetition policy the pattern `.` matches
any non-empty input with whole-match span (0,1), and does not match the empty input. -/
theorem c7_wildcard (mt : MatchType) (rt : RepType) (b : Nat) (rest : List Nat) :
    ∃ impl, compile (bytes ".") = some impl ∧
      (∃ subs, matchSubs impl mt rt (b :: rest) = some subs ∧
        isMatched subs = true ∧ span subs 0 = some (0, 1)) ∧
      (∃ subs, matchSubs impl mt rt [] = some subs ∧ isMatched subs = false) := by
  refine ⟨(compile (bytes ".")).getD REImpl.init, rfl, ?_, ?_⟩
  generalize himpl : (compile (bytes ".")).getD REImpl.init = impl
  · cases rest with
    | nil => subst himpl; cases mt <;> cases rt <;> exact ⟨_, rfl, rfl, rfl⟩
    | cons b1 rest1 =>
      have key : ∃ sc0 cl0 sc1 cl1 nl1 sc2 x y,
          startlist impl mt rt (addstateFuel impl)
            ⟨Subs.init, Subs.init, Extras.init impl.states.length⟩ (some 0)
            (ThreadList.init impl.states.length) = some (sc0, cl0) ∧
          match_loop impl mt rt (addstateFuel impl) (b :: b1 :: rest1) 0 sc0 cl0
            (ThreadList.init impl.states.length)
            = match_loop impl mt rt (addstateFuel impl) rest1 2 sc1 cl1 nl1 ∧
          cl1.n = 0 ∧
          step impl mt rt (addstateFuel impl) sc1 cl1 0 (some 2) nl1 = some (sc2, x, y) ∧
          isMatched sc2.subs = true ∧ span sc2.subs 0 = some (0, 1) := by
        subst himpl
        cases mt <;> cases rt <;> exact ⟨_, _, _, _, _, _, _, _, rfl, rfl, rfl, rfl, rfl, rfl⟩
      obtain ⟨sc0, cl0, sc1, cl1, nl1, sc2, x, y, h0, h1, hn, h2, h3, h4⟩ := key
      rw [match_loop_empty _ _ _ _ _ _ _ _ _ hn] at h1
      exact ⟨_, matchSubs_of_parts _ mt rt _ _ _ _ _ _ _ _ _ _ h0 h1 h2, h3, h4⟩
  · cases mt <;> cases rt <;> exact ⟨_, rfl, rfl⟩

theorem pchar_eq_some {c : Nat} {inp rest : List Nat} :
    pchar c inp = some rest ↔ inp = c :: rest := by
  cases inp with
  | nil => simp [pchar]
  | cons x t =>
    simp only [pchar]
    split
    · subst_vars; simp
    · simp; intro h; exact absurd h ‹_›

theorem pchar_eq_none {c : Nat} {inp : List Nat} :
    pchar c inp = none ↔ ∀ rest, inp ≠ c :: rest := by
  cases inp with
  | nil => simp [pchar]
  | cons x t =>
    simp only [pchar]
    split
    · subst_vars; simp
    · simp; intro h; exact absurd h ‹_›

/-- The three ways `single` succeeds. -/
theorem single_success {altF : REImpl → List Nat → Option PResult} {impl impl1 : REImpl}
    {inp rest : List Nat} {f : Frag}
    (h : regex_grammar.single altF impl inp = some (impl1, some (f, rest))) :
    (∃ r0, inp = 40 :: 63 :: 58 :: r0 ∧ altF impl r0 = some (impl1, some (f, 41 :: rest)))
    ∨ (∃ r0 implA impl2 f0, inp = 40 :: r0 ∧
        regex_grammar.single_nocapture altF impl inp = some (implA, none) ∧
        altF (next_paren implA).1 r0 = some (impl2, some (f0, 41 :: rest)) ∧
        paren impl2 f0 (next_paren implA).2 = (impl1, f))
    ∨ (∃ c, inp = c :: rest ∧ c ≠ 40 ∧
        ((c = 46 ∧ any_char impl = (impl1, f)) ∨
         (c ≠ 46 ∧ c ∉ special ∧ single_char impl c = (impl1, f)))) := by
  unfold regex_grammar.single at h
  split at h
  · simp at h
  · -- nocapture succeeded
    rename_i i1 x hnc
    simp only [Option.some.injEq, Prod.mk.injEq] at h
    obtain ⟨rfl, hx⟩ := h
    left
    unfold regex_grammar.single_nocapture at hnc
    split at hnc
    · simp at hnc
    · rename_i r0 hp
      split at hnc
      · simp at hnc
      · simp at hnc
      · rename_i i2 f2 rest1 hal
        split at hnc
        · simp at hnc
        · rename_i rest2 hp2
          simp only [Option.some.injEq, Prod.mk.injEq] at hnc
          obtain ⟨rfl, hx2⟩ := hnc
          rw [← hx2] at hx
          simp only [Option.some.injEq, Prod.mk.injEq] at hx
          obtain ⟨rfl, rfl⟩ := hx
          rw [pchar_eq_some] at hp2
          subst hp2
          refine ⟨r0, ?_, hal⟩
          simp only [Option.bind_eq_some] at hp
          obtain ⟨a, ha, b, hb, hc⟩ := hp
          rw [pchar_eq_some] at ha hb hc
          subst hc; subst hb; exact ha
  · rename_i implA hnc
    split at h
    · simp at h
    · rename_i i2 x hcap
      simp only [Option.some.injEq, Prod.mk.injEq] at h
      obtain ⟨rfl, hx⟩ := h
      right; left
      unfold regex_grammar.single_capture at hcap
      split at hcap
      · simp at hcap
      · rename_i r0 hp
        rw [pchar_eq_some] at hp
        simp only at hcap
        split at hcap
        · simp at hcap
        · simp at hcap
        · rename_i i3 f3 rest1 hal
          split at hcap
          · simp at hcap
          · rename_i rest2 hp2
            rw [pchar_eq_some] at hp2
            subst hp2
            simp only [Option.some.injEq, Prod.mk.injEq] at hcap
            obtain ⟨h1, h2⟩ := hcap
            rw [← h2] at hx
            simp only [Option.some.injEq, Prod.mk.injEq] at hx
            obtain ⟨h3, rfl⟩ := hx
            refine ⟨r0, implA, i3, f3, hp, hnc, hal, ?_⟩
            rw [← h1, ← h3]
    · rename_i i2 hcap
      right; right
      -- capture failed: if inp starts with 40, single_char_or_any fails
      unfold regex_grammar.single_char_or_any at h
      split at h
      · simp at h
      · rename_i c t
        have hc40 : c ≠ 40 := by
          intro hc
          subst hc
          simp [special] at h
        have e1 : implA = impl := by
          unfold regex_grammar.single_nocapture at hnc
          simp [pchar, hc40] at hnc
          exact hnc.symm
        have e2 : i2 = implA := by
          unfold regex_grammar.single_capture at hcap
          simp [pchar, hc40] at hcap
          exact hcap.symm
        subst e1; subst e2
        split at h
        · rename_i hc46
          simp only [Option.some.injEq, Prod.mk.injEq] at h
          obtain ⟨h1, h2, h3⟩ := h
          subst h3
          exact ⟨c, rfl, hc40, Or.inl ⟨hc46, by rw [← h1, ← h2]⟩⟩
        · rename_i hc46
          split at h
          · simp at h
          · rename_i hsp
            simp only [Option.some.injEq, Prod.mk.injEq] at h
            obtain ⟨h1, h2, h3⟩ := h
            subst h3
            exact ⟨c, rfl, hc40, Or.inr ⟨hc46, hsp, by rw [← h1, ← h2]⟩⟩

theorem single_nocapture_fail {altF : REImpl → List Nat → Option PResult} {impl implA : REImpl}
    {inp : List Nat}
    (h : regex_grammar.single_nocapture altF impl inp = some (implA, none)) :
    implA = impl ∨ ∃ t, inp = 40 :: 63 :: 58 :: t := by
  unfold regex_grammar.single_nocapture at h
  split at h
  · simp at h; exact Or.inl h.symm
  · rename_i r0 hp
    right
    simp only [Option.bind_eq_some] at hp
    obtain ⟨a, ha, b, hb, hc⟩ := hp
    rw [pchar_eq_some] at ha hb hc
    subst hc; subst hb
    exact ⟨r0, ha⟩

theorem single_nocapture_total {altF : REImpl → List Nat → Option PResult} {L : Nat}
    (ht : TotalBelow altF L) (impl : REImpl) (inp : List Nat) (hl : inp.length ≤ L) :
    ∃ res, regex_grammar.single_nocapture altF impl inp = some res := by
  unfold regex_grammar.single_nocapture
  split
  · exact ⟨_, rfl⟩
  · rename_i r0 hp
    simp only [Option.bind_eq_some] at hp
    obtain ⟨a, ha, b, hb, hc⟩ := hp
    rw [pchar_eq_some] at ha hb hc
    subst hc; subst hb; subst ha
    obtain ⟨res, hres⟩ := ht impl r0 (by simp at hl; omega)
    rw [hres]
    rcases res with ⟨i1, _ | ⟨f, rest1⟩⟩
    · exact ⟨_, rfl⟩
    · simp only
      split <;> exact ⟨_, rfl⟩

theorem single_capture_total {altF : REImpl → List Nat → Option PResult} {L : Nat}
    (ht : TotalBelow altF L) (impl : REImpl) (inp : List Nat) (hl : inp.length ≤ L) :
    ∃ res, regex_grammar.single_capture altF impl inp = some res := by
  unfold regex_grammar.single_capture
  split
  · exact ⟨_, rfl⟩
  · rename_i r0 hp
    rw [pchar_eq_some] at hp
    subst hp
    obtain ⟨res, hres⟩ := ht (next_paren impl).1 r0 (by simp at hl; omega)
    simp only
    rw [hres]
    rcases res with ⟨i1, _ | ⟨f, rest1⟩⟩
    · exact ⟨_, rfl⟩
    · simp only
      split <;> exact ⟨_, rfl⟩

theorem single_total {altF : REImpl → List Nat → Option PResult} {L : Nat}
    (ht : TotalBelow altF L) (impl : REImpl) (inp : List Nat) (hl : inp.length ≤ L) :
    ∃ res, regex_grammar.single altF impl inp = some res := by
  unfold regex_grammar.single
  obtain ⟨⟨i1, o1⟩, h1⟩ := single_nocapture_total ht impl inp hl
  rw [h1]
  cases o1 with
  | some x => exact ⟨_, rfl⟩
  | none =>
    simp only
    obtain ⟨⟨i2, o2⟩, h2⟩ := single_capture_total ht i1 inp hl
    rw [h2]
    cases o2 with
    | some x => exact ⟨_, rfl⟩
    | none => exact ⟨_, rfl⟩

theorem single_shrinks {altF : REImpl → List Nat → Option PResult} (hs : Shrinks altF) :
    Shrinks (regex_grammar.single altF) := by
  intro impl inp impl1 f rest h
  rcases single_success h with ⟨r0, rfl, h1⟩ | ⟨r0, implA, impl2, f0, rfl, _, h1, _⟩ | ⟨c, rfl, _⟩
  · have := hs _ _ _ _ _ h1
    simp at this ⊢; omega
  · have := hs _ _ _ _ _ h1
    simp at this ⊢; omega
  · simp

/-- A failing `single` leaves the automaton alone unless the input starts with `(`. -/
theorem single_fail_clean {altF : REImpl → List Nat → Option PResult} {impl impl1 : REImpl}
    {inp : List Nat} (h : regex_grammar.single altF impl inp = some (impl1, none))
    (h40 : ∀ t, inp ≠ 40 :: t) : impl1 = impl := by
  have p40 : pchar 40 inp = none := pchar_eq_none.mpr h40
  unfold regex_grammar.single regex_grammar.single_nocapture regex_grammar.single_capture at h
  simp only [p40, Option.none_bind] at h
  unfold regex_grammar.single_char_or_any at h
  split at h
  · simp at h; exact h.symm
  · split at h
    · simp at h
    · split at h
      · simp at h; exact h.symm
      · simp at h

/-- On an input that starts with `?` the rule `single` fails and changes nothing. -/
theorem single_question (altF : REImpl → List Nat → Option PResult) (impl : REImpl)
    (t : List Nat) : regex_grammar.single altF impl (63 :: t) = some (impl, none) := by
  simp [regex_grammar.single, regex_grammar.single_nocapture, regex_grammar.single_capture,
    regex_grammar.single_char_or_any, pchar, special]

theorem noOp_nil : NoOp [] := by intro c t h; simp at h

theorem repeat_suffix_noOp (impl : REImpl) (val : Frag) (inp : List Nat) (h : NoOp inp) :
    regex_grammar.repeat_suffix impl val inp = (impl, some (val, inp)) := by
  cases inp with
  | nil => simp [regex_grammar.repeat_suffix, pchar]
  | cons c t =>
    obtain ⟨h1, h2, h3⟩ := h c t rfl
    simp [regex_grammar.repeat_suffix, pchar, h1, h2, h3]

theorem repeat_suffix_lazy_star (impl : REImpl) (val : Frag) (rest : List Nat) :
    regex_grammar.repeat_suffix impl val (42 :: 63 :: rest)
      = ((non_greedy_star impl val).1, some ((non_greedy_star impl val).2, rest)) := by
  simp [regex_grammar.repeat_suffix, pchar]

theorem repeat_suffix_lazy_plus (impl : REImpl) (val : Frag) (rest : List Nat) :
    regex_grammar.repeat_suffix impl val (43 :: 63 :: rest)
      = ((non_greedy_plus impl val).1, some ((non_greedy_plus impl val).2, rest)) := by
  simp [regex_grammar.repeat_suffix, pchar]

theorem repeat_suffix_lazy_opt (impl : REImpl) (val : Frag) (rest : List Nat) :
    regex_grammar.repeat_suffix impl val (63 :: 63 :: rest)
      = ((non_greedy_opt impl val).1, some ((non_greedy_opt impl val).2, rest)) := by
  simp [regex_grammar.repeat_suffix, pchar]

theorem repeat_suffix_star (impl : REImpl) (val : Frag) (rest : List Nat)
    (h : ∀ t, rest ≠ 63 :: t) :
    regex_grammar.repeat_suffix impl val (42 :: rest)
      = ((greedy_star impl val).1, some ((greedy_star impl val).2, rest)) := by
  cases rest with
  | nil => simp [regex_grammar.repeat_suffix, pchar]
  | cons x t =>
    have hx : x ≠ 63 := fun e => h t (by rw [e])
    simp [regex_grammar.repeat_suffix, pchar, hx]

theorem repeat_suffix_plus (impl : REImpl) (val : Frag) (rest : List Nat)
    (h : ∀ t, rest ≠ 63 :: t) :
    regex_grammar.repeat_suffix impl val (43 :: rest)
      = ((greedy_plus impl val).1, some ((greedy_plus impl val).2, rest)) := by
  cases rest with
  | nil => simp [regex_grammar.repeat_suffix, pchar]
  | cons x t =>
    have hx : x ≠ 63 := fun e => h t (by rw [e])
    simp [regex_grammar.repeat_suffix, pchar, hx]

theorem repeat_suffix_opt (impl : REImpl) (val : Frag) (rest : List Nat)
    (h : ∀ t, rest ≠ 63 :: t) :
    regex_grammar.repeat_suffix impl val (63 :: rest)
      = ((greedy_opt impl val).1, some ((greedy_opt impl val).2, rest)) := by
  cases rest with
  | nil => simp [regex_grammar.repeat_suffix, pchar]
  | cons x t =>
    have hx : x ≠ 63 := fun e => h t (by rw [e])
    simp [regex_grammar.repeat_suffix, pchar, hx]

/-- The seven outcomes of the operator after `single`. -/
theorem repeat_suffix_cases (impl : REImpl) (val : Frag) (inp : List Nat) :
    (NoOp inp ∧ regex_grammar.repeat_suffix impl val inp = (impl, some (val, inp)))
    ∨ (∃ rest, inp = 42 :: 63 :: rest ∧ regex_grammar.repeat_suffix impl val inp
        = ((non_greedy_star impl val).1, some ((non_greedy_star impl val).2, rest)))
    ∨ (∃ rest, inp = 43 :: 63 :: rest ∧ regex_grammar.repeat_suffix impl val inp
        = ((non_greedy_plus impl val).1, some ((non_greedy_plus impl val).2, rest)))
    ∨ (∃ rest, inp = 63 :: 63 :: rest ∧ regex_grammar.repeat_suffix impl val inp
        = ((non_greedy_opt impl val).1, some ((non_greedy_opt impl val).2, rest)))
    ∨ (∃ rest, inp = 42 :: rest ∧ regex_grammar.repeat_suffix impl val inp
        = ((greedy_star impl val).1, some ((greedy_star impl val).2, rest)))
    ∨ (∃ rest, inp = 43 :: rest ∧ regex_grammar.repeat_suffix impl val inp
        = ((greedy_plus impl val).1, some ((greedy_plus impl val).2, rest)))
    ∨ (∃ rest, inp = 63 :: rest ∧ regex_grammar.repeat_suffix impl val inp
        = ((greedy_opt impl val).1, some ((greedy_opt impl val).2, rest))) := by
  by_cases hno : NoOp inp
  · exact Or.inl ⟨hno, repeat_suffix_noOp impl val inp hno⟩
  · right
    unfold NoOp at hno
    push_neg at hno
    obtain ⟨c, t, rfl, hc⟩ := hno
    by_cases hq : ∃ t1, t = 63 :: t1
    · obtain ⟨t1, rfl⟩ := hq
      by_cases h1 : c = 42
      · subst h1; exact Or.inl ⟨t1, rfl, repeat_suffix_lazy_star impl val t1⟩
      · by_cases h2 : c = 43
        · subst h2; exact Or.inr (Or.inl ⟨t1, rfl, repeat_suffix_lazy_plus impl val t1⟩)
        · have h3 : c = 63 := hc h1 h2
          subst h3; exact Or.inr (Or.inr (Or.inl ⟨t1, rfl, repeat_suffix_lazy_opt impl val t1⟩))
    · have hq1 : ∀ t1, t ≠ 63 :: t1 := fun t1 h => hq ⟨t1, h⟩
      by_cases h1 : c = 42
      · subst h1
        exact Or.inr (Or.inr (Or.inr (Or.inl ⟨t, rfl, repeat_suffix_star impl val t hq1⟩)))
      · by_cases h2 : c = 43
        · subst h2
          exact Or.inr (Or.inr (Or.inr (Or.inr (Or.inl ⟨t, rfl, repeat_suffix_plus impl val t hq1⟩))))
        · have h3 : c = 63 := hc h1 h2
          subst h3
          exact Or.inr (Or.inr (Or.inr (Or.inr (Or.inr ⟨t, rfl, repeat_suffix_opt impl val t hq1⟩))))

theorem repeat_suffix_length (impl : REImpl) (val : Frag) (inp : List Nat) :
    ∃ impl1 f rest, regex_grammar.repeat_suffix impl val inp = (impl1, some (f, rest)) ∧
      rest.length ≤ inp.length := by
  rcases repeat_suffix_cases impl val inp with ⟨_, h⟩ | ⟨r, rfl, h⟩ | ⟨r, rfl, h⟩ | ⟨r, rfl, h⟩ |
    ⟨r, rfl, h⟩ | ⟨r, rfl, h⟩ | ⟨r, rfl, h⟩ <;>
    exact ⟨_, _, _, h, by simp only [List.length_cons, le_refl]; try omega⟩

/-- The two ways `repeat` returns: `single` failed, or `single` succeeded and the operator was read. -/
theorem repeat_cases {altF : REImpl → List Nat → Option PResult} {impl : REImpl}
    {inp : List Nat} {res : PResult} (h : regex_grammar.repeat_ altF impl inp = some res) :
    (res.2 = none ∧ regex_grammar.single altF impl inp = some (res.1, none))
    ∨ (∃ impl1 val rest1, regex_grammar.single altF impl inp = some (impl1, some (val, rest1)) ∧
        res = regex_grammar.repeat_suffix impl1 val rest1) := by
  unfold regex_grammar.repeat_ at h
  split at h
  · simp at h
  · rename_i i1 h1
    simp only [Option.some.injEq] at h
    subst h
    exact Or.inl ⟨rfl, h1⟩
  · rename_i i1 val rest h1
    simp only [Option.some.injEq] at h
    exact Or.inr ⟨i1, val, rest, h1, h.symm⟩

theorem repeat_shrinks {altF : REImpl → List Nat → Option PResult} (hs : Shrinks altF) :
    Shrinks (regex_grammar.repeat_ altF) := by
  intro impl inp impl1 f rest h
  rcases repeat_cases h with ⟨h1, _⟩ | ⟨i1, val, rest1, h1, h2⟩
  · simp at h1
  · have := single_shrinks hs _ _ _ _ _ h1
    obtain ⟨i2, f2, r2, h3, h4⟩ := repeat_suffix_length i1 val rest1
    rw [h3] at h2
    simp only [Prod.mk.injEq, Option.some.injEq] at h2
    obtain ⟨_, _, rfl⟩ := h2
    omega

theorem repeat_total {altF : REImpl → List Nat → Option PResult} {L : Nat}
    (ht : TotalBelow altF L) (impl : REImpl) (inp : List Nat) (hl : inp.length ≤ L) :
    ∃ res, regex_grammar.repeat_ altF impl inp = some res := by
  unfold regex_grammar.repeat_
  obtain ⟨⟨i1, o1⟩, h1⟩ := single_total ht impl inp hl
  rw [h1]
  cases o1 with
  | none => exact ⟨_, rfl⟩
  | some x => exact ⟨_, rfl⟩

theorem repeat_fail_clean {altF : REImpl → List Nat → Option PResult} {impl impl1 : REImpl}
    {inp : List Nat} (h : regex_grammar.repeat_ altF impl inp = some (impl1, none))
    (h40 : ∀ t, inp ≠ 40 :: t) : impl1 = impl := by
  rcases repeat_cases h with ⟨_, h1⟩ | ⟨i1, val, rest1, h1, h2⟩
  · exact single_fail_clean h1 h40
  · obtain ⟨i2, f2, r2, h3, _⟩ := repeat_suffix_length i1 val rest1
    rw [h3] at h2
    simp at h2

theorem repeat_question (altF : REImpl → List Nat → Option PResult) (impl : REImpl)
    (t : List Nat) : regex_grammar.repeat_ altF impl (63 :: t) = some (impl, none) := by
  simp [regex_grammar.repeat_, single_question]

theorem concat_loop_le {altF : REImpl → List Nat → Option PResult} (hs : Shrinks altF) :
    ∀ (k : Nat) (impl : REImpl) (val : Frag) (inp : List Nat) (res : PResult),
      regex_grammar.concat_loop altF k impl val inp = some res →
      ∃ f rest, res.2 = some (f, rest) ∧ rest.length ≤ inp.length := by
  intro k
  induction k with
  | zero => intro impl val inp res h; simp [regex_grammar.concat_loop] at h
  | succ k ih =>
    intro impl val inp res h
    unfold regex_grammar.concat_loop at h
    split at h
    · simp at h
    · simp only [Option.some.injEq] at h
      subst h
      exact ⟨val, inp, rfl, le_refl _⟩
    · rename_i i1 f rest hrep
      have h1 := repeat_shrinks hs _ _ _ _ _ hrep
      obtain ⟨f2, rest2, h2, h3⟩ := ih _ _ _ _ h
      exact ⟨f2, rest2, h2, by omega⟩

theorem concat_shrinks {altF : REImpl → List Nat → Option PResult} (hs : Shrinks altF)
    (k : Nat) : Shrinks (regex_grammar.concat altF k) := by
  intro impl inp impl1 f rest h
  unfold regex_grammar.concat at h
  split at h
  · simp at h
  · simp at h
  · rename_i i1 val rest1 hrep
    have h1 := repeat_shrinks hs _ _ _ _ _ hrep
    obtain ⟨f2, rest2, h2, h3⟩ := concat_loop_le hs _ _ _ _ _ h
    simp only [Option.some.injEq, Prod.mk.injEq] at h2
    obtain ⟨_, rfl⟩ := h2
    omega

theorem concat_loop_total {altF : REImpl → List Nat → Option PResult} {L : Nat}
    (ht : TotalBelow altF L) (hs : Shrinks altF) :
    ∀ (k : Nat) (impl : REImpl) (val : Frag) (inp : List Nat), inp.length ≤ L →
      inp.length < k → ∃ res, regex_grammar.concat_loop altF k impl val inp = some res := by
  intro k
  induction k with
  | zero => intro impl val inp _ h; omega
  | succ k ih =>
    intro impl val inp hl hk
    unfold regex_grammar.concat_loop
    obtain ⟨⟨i1, o1⟩, h1⟩ := repeat_total ht impl inp hl
    rw [h1]
    cases o1 with
    | none => exact ⟨_, rfl⟩
    | some x =>
      obtain ⟨f, rest⟩ := x
      have := repeat_shrinks hs _ _ _ _ _ h1
      simp only
      exact ih _ _ _ (by omega) (by omega)

theorem concat_total {altF : REImpl → List Nat → Option PResult} {L : Nat}
    (ht : TotalBelow altF L) (hs : Shrinks altF) (k : Nat) (impl : REImpl) (inp : List Nat)
    (hl : inp.length ≤ L) (hk : inp.length ≤ k) :
    ∃ res, regex_grammar.concat altF k impl inp = some res := by
  unfold regex_grammar.concat
  obtain ⟨⟨i1, o1⟩, h1⟩ := repeat_total ht impl inp hl
  rw [h1]
  cases o1 with
  | none => exact ⟨_, rfl⟩
  | some x =>
    obtain ⟨f, rest⟩ := x
    have := repeat_shrinks hs _ _ _ _ _ h1
    simp only
    exact concat_loop_total ht hs _ _ _ _ (by omega) (by omega)

theorem alt_loop_le {altF : REImpl → List Nat → Option PResult} (hs : Shrinks altF) :
    ∀ (k : Nat) (impl : REImpl) (val : Frag) (inp : List Nat) (res : PResult),
      regex_grammar.alt_loop altF k impl val inp = some res →
      ∃ f rest, res.2 = some (f, rest) ∧ rest.length ≤ inp.length := by
  intro k
  induction k with
  | zero => intro impl val inp res h; simp [regex_grammar.alt_loop] at h
  | succ k ih =>
    intro impl val inp res h
    unfold regex_grammar.alt_loop at h
    split at h
    · simp only [Option.some.injEq] at h
      subst h
      exact ⟨val, inp, rfl, le_refl _⟩
    · rename_i rest0 hp
      rw [pchar_eq_some] at hp
      subst hp
      split at h
      · simp at h
      · simp only [Option.some.injEq] at h
        subst h
        exact ⟨val, _, rfl, le_refl _⟩
      · rename_i i1 f rest1 hc
        have h1 := concat_shrinks hs _ _ _ _ _ _ hc
        obtain ⟨f2, rest2, h2, h3⟩ := ih _ _ _ _ h
        exact ⟨f2, rest2, h2, by simp only [List.length_cons]; omega⟩

theorem alt_body_shrinks {altF : REImpl → List Nat → Option PResult} (hs : Shrinks altF)
    (k : Nat) : Shrinks (regex_grammar.alt_body altF k) := by
  intro impl inp impl1 f rest h
  unfold regex_grammar.alt_body at h
  split at h
  · simp at h
  · simp at h
  · rename_i i1 val rest1 hc
    have h1 := concat_shrinks hs _ _ _ _ _ _ hc
    obtain ⟨f2, rest2, h2, h3⟩ := alt_loop_le hs _ _ _ _ _ h
    simp only [Option.some.injEq, Prod.mk.injEq] at h2
    obtain ⟨_, rfl⟩ := h2
    omega

theorem alt_shrinks : ∀ n, Shrinks (regex_grammar.alt n) := by
  intro n
  induction n with
  | zero => intro impl inp impl1 f rest h; simp [regex_grammar.alt] at h
  | succ n ih =>
    intro impl inp impl1 f rest h
    exact alt_body_shrinks ih (n + 1) impl inp impl1 f rest h

theorem alt_loop_total {altF : REImpl → List Nat → Option PResult} {L : Nat}
    (ht : TotalBelow altF L) (hs : Shrinks altF) :
    ∀ (k : Nat) (impl : REImpl) (val : Frag) (inp : List Nat), inp.length ≤ L →
      inp.length < k → ∃ res, regex_grammar.alt_loop altF k impl val inp = some res := by
  intro k
  induction k with
  | zero => intro impl val inp _ h; omega
  | succ k ih =>
    intro impl val inp hl hk
    unfold regex_grammar.alt_loop
    split
    · exact ⟨_, rfl⟩
    · rename_i rest0 hp
      rw [pchar_eq_some] at hp
      subst hp
      simp only [List.length_cons] at hl hk
      obtain ⟨⟨i1, o1⟩, h1⟩ := concat_total ht hs k impl rest0 (by omega) (by omega)
      rw [h1]
      cases o1 with
      | none => exact ⟨_, rfl⟩
      | some x =>
        obtain ⟨f, rest⟩ := x
        have := concat_shrinks hs _ _ _ _ _ _ h1
        simp only
        exact ih _ _ _ (by omega) (by omega)

theorem alt_body_total {altF : REImpl → List Nat → Option PResult} {L : Nat}
    (ht : TotalBelow altF L) (hs : Shrinks altF) (k : Nat) (impl : REImpl) (inp : List Nat)
    (hl : inp.length ≤ L) (hk : inp.length ≤ k) :
    ∃ res, regex_grammar.alt_body altF k impl inp = some res := by
  unfold regex_grammar.alt_body
  obtain ⟨⟨i1, o1⟩, h1⟩ := concat_total ht hs k impl inp hl hk
  rw [h1]
  cases o1 with
  | none => exact ⟨_, rfl⟩
  | some x =>
    obtain ⟨f, rest⟩ := x
    have := concat_shrinks hs _ _ _ _ _ _ h1
    simp only
    exact alt_loop_total ht hs _ _ _ _ (by omega) (by omega)

/-- With fuel above the length of the input the rule `alt` returns. -/
theorem alt_total : ∀ n, TotalBelow (regex_grammar.alt n) n := by
  intro n
  induction n with
  | zero => intro impl inp h; omega
  | succ n ih =>
    intro impl inp h
    exact alt_body_total ih (alt_shrinks n) (n + 1) impl inp (by omega) (by omega)

/-- The parse of a pattern always returns: success with the input left, or failure. -/
theorem regex_total (pat : List Nat) (impl : REImpl) :
    ∃ res, regex_grammar.regex (pat.length + 1) impl pat = some res := by
  unfold regex_grammar.regex
  obtain ⟨⟨i1, o1⟩, h1⟩ := alt_total (pat.length + 1) impl pat (by omega)
  rw [h1]
  cases o1 with
  | none => exact ⟨_, rfl⟩
  | some x => exact ⟨_, rfl⟩

theorem single_sound {altF : REImpl → List Nat → Option PResult} (ha : AltSound altF)
    (hq : NoSuccQ altF) {impl impl1 : REImpl} {inp rest : List Nat} {f : Frag}
    (h : regex_grammar.single altF impl inp = some (impl1, some (f, rest))) :
    ∃ w r, inp = w ++ rest ∧ Parses NT.atom w r ∧ build r impl = (impl1, f) := by
  rcases single_success h with ⟨r0, rfl, h1⟩ | ⟨r0, implA, impl2, f0, rfl, hnc, h1, h2⟩ |
    ⟨c, rfl, hc40, hc⟩
  · obtain ⟨w, r, rfl, hp, hb⟩ := ha _ _ _ _ _ h1 (Or.inr ⟨rest, rfl⟩)
    refine ⟨_, _, ?_, Parses.atom_nocapture w r hp, ?_⟩
    · simp
    · simpa [build] using hb
  · have e : implA = impl := by
      rcases single_nocapture_fail hnc with e | ⟨t, ht⟩
      · exact e
      · simp only [List.cons.injEq, true_and] at ht
        subst ht
        exact absurd h1 (hq _ _ _ _ _)
    subst e
    obtain ⟨w, r, rfl, hp, hb⟩ := ha _ _ _ _ _ h1 (Or.inr ⟨rest, rfl⟩)
    refine ⟨_, _, ?_, Parses.atom_capture w r hp, ?_⟩
    · simp
    · simp only [build, if_true]
      rw [hb]
      exact h2
  · rcases hc with ⟨rfl, hb⟩ | ⟨_, hsp, hb⟩
    · exact ⟨[46], Re.any, rfl, Parses.atom_any, by simpa [build] using hb⟩
    · exact ⟨[c], Re.chr c, rfl, Parses.atom_char c hsp, by simpa [build] using hb⟩

theorem repeat_sound {altF : REImpl → List Nat → Option PResult} (ha : AltSound altF)
    (hq : NoSuccQ altF) {impl impl1 : REImpl} {inp rest : List Nat} {f : Frag}
    (h : regex_grammar.repeat_ altF impl inp = some (impl1, some (f, rest))) :
    ∃ w r, inp = w ++ rest ∧ Parses NT.rep w r ∧ build r impl = (impl1, f) := by
  rcases repeat_cases h with ⟨h1, _⟩ | ⟨i1, val, rest1, h1, h2⟩
  · simp at h1
  · obtain ⟨w, r, rfl, hp, hb⟩ := single_sound ha hq h1
    rcases repeat_suffix_cases i1 val rest1 with ⟨_, e⟩ | ⟨t, rfl, e⟩ | ⟨t, rfl, e⟩ | ⟨t, rfl, e⟩ |
      ⟨t, rfl, e⟩ | ⟨t, rfl, e⟩ | ⟨t, rfl, e⟩ <;>
      (rw [e] at h2
       simp only [Prod.mk.injEq, Option.some.injEq] at h2
       obtain ⟨e1, e2, e3⟩ := h2
       subst e3)
    · exact ⟨w, r, rfl, Parses.rep_atom w r hp, by rw [hb, e1, e2]⟩
    · exact ⟨w ++ [42, 63], _, by simp, Parses.rep_star_lazy w r hp, by
        simp only [build, hb]; simp [e1, e2]⟩
    · exact ⟨w ++ [43, 63], _, by simp, Parses.rep_plus_lazy w r hp, by
        simp only [build, hb]; simp [e1, e2]⟩
    · exact ⟨w ++ [63, 63], _, by simp, Parses.rep_opt_lazy w r hp, by
        simp only [build, hb]; simp [e1, e2]⟩
    · exact ⟨w ++ [42], _, by simp, Parses.rep_star w r hp, by
        simp only [build, hb]; simp [e1, e2]⟩
    · exact ⟨w ++ [43], _, by simp, Parses.rep_plus w r hp, by
        simp only [build, hb]; simp [e1, e2]⟩
    · exact ⟨w ++ [63], _, by simp, Parses.rep_opt w r hp, by
        simp only [build, hb]; simp [e1, e2]⟩

theorem concat_loop_sound {altF : REImpl → List Nat → Option PResult} (ha : AltSound altF)
    (hq : NoSuccQ altF) :
    ∀ (k : Nat) (impl : REImpl) (val : Frag) (inp : List Nat) (impl1 : REImpl) (f : Frag)
      (rest : List Nat),
      regex_grammar.concat_loop altF k impl val inp = some (impl1, some (f, rest)) →
      (∀ t, rest ≠ 40 :: t) →
      ∀ (w0 : List Nat) (r0 : Re) (impl0 : REImpl), Parses NT.concat w0 r0 →
        build r0 impl0 = (impl, val) →
        ∃ w r, inp = w ++ rest ∧ Parses NT.concat (w0 ++ w) r ∧ build r impl0 = (impl1, f) := by
  intro k
  induction k with
  | zero => intro impl val inp impl1 f rest h; simp [regex_grammar.concat_loop] at h
  | succ k ih =>
    intro impl val inp impl1 f rest h h40 w0 r0 impl0 hp0 hb0
    unfold regex_grammar.concat_loop at h
    split at h
    · simp at h
    · rename_i i1 hrep
      simp only [Option.some.injEq, Prod.mk.injEq] at h
      obtain ⟨rfl, rfl, rfl⟩ := h
      have e := repeat_fail_clean hrep h40
      subst e
      exact ⟨[], r0, by simp, by simpa using hp0, hb0⟩
    · rename_i i1 f1 rest1 hrep
      obtain ⟨w1, r1, rfl, hp1, hb1⟩ := repeat_sound ha hq hrep
      simp only at h
      obtain ⟨w, r, rfl, hp, hb⟩ := ih _ _ _ _ _ _ h h40 (w0 ++ w1) (Re.cat r0 r1) impl0
        (Parses.concat_more w0 w1 r0 r1 hp0 hp1) (by simp only [build, hb0, hb1])
      exact ⟨w1 ++ w, r, by simp, by simpa using hp, hb⟩

theorem concat_sound {altF : REImpl → List Nat → Option PResult} (ha : AltSound altF)
    (hq : NoSuccQ altF) {k : Nat} {impl impl1 : REImpl} {inp rest : List Nat} {f : Frag}
    (h : regex_grammar.concat altF k impl inp = some (impl1, some (f, rest)))
    (h40 : ∀ t, rest ≠ 40 :: t) :
    ∃ w r, inp = w ++ rest ∧ Parses NT.concat w r ∧ build r impl = (impl1, f) := by
  unfold regex_grammar.concat at h
  split at h
  · simp at h
  · simp at h
  · rename_i i1 val rest1 hrep
    obtain ⟨w1, r1, rfl, hp1, hb1⟩ := repeat_sound ha hq hrep
    obtain ⟨w, r, rfl, hp, hb⟩ := concat_loop_sound ha hq _ _ _ _ _ _ _ h h40 w1 r1 impl
      (Parses.concat_one w1 r1 hp1) hb1
    exact ⟨w1 ++ w, r, by simp, hp, hb⟩

/-- In front of `(` the loop of `alt` stops without consuming anything. -/
theorem alt_loop_open {altF : REImpl → List Nat → Option PResult} {k : Nat} {impl : REImpl}
    {val : Frag} {t : List Nat} {res : PResult}
    (h : regex_grammar.alt_loop altF k impl val (40 :: t) = some res) :
    res = (impl, some (val, 40 :: t)) := by
  cases k with
  | zero => simp [regex_grammar.alt_loop] at h
  | succ k => simp [regex_grammar.alt_loop, pchar] at h; exact h.symm

theorem alt_loop_sound {altF : REImpl → List Nat → Option PResult} (ha : AltSound altF)
    (hq : NoSuccQ altF) :
    ∀ (k : Nat) (impl : REImpl) (val : Frag) (inp : List Nat) (impl1 : REImpl) (f : Frag)
      (rest : List Nat),
      regex_grammar.alt_loop altF k impl val inp = some (impl1, some (f, rest)) →
      StopParen rest →
      ∀ (w0 : List Nat) (r0 : Re) (impl0 : REImpl), Parses NT.alt w0 r0 →
        build r0 impl0 = (impl, val) →
        ∃ w r, inp = w ++ rest ∧ Parses NT.alt (w0 ++ w) r ∧ build r impl0 = (impl1, f) := by
  intro k
  induction k with
  | zero => intro impl val inp impl1 f rest h; simp [regex_grammar.alt_loop] at h
  | succ k ih =>
    intro impl val inp impl1 f rest h hstop w0 r0 impl0 hp0 hb0
    unfold regex_grammar.alt_loop at h
    split at h
    · simp only [Option.some.injEq, Prod.mk.injEq] at h
      obtain ⟨rfl, rfl, rfl⟩ := h
      exact ⟨[], r0, by simp, by simpa using hp0, hb0⟩
    · rename_i rest0 hpc
      rw [pchar_eq_some] at hpc
      subst hpc
      split at h
      · simp at h
      · simp only [Option.some.injEq, Prod.mk.injEq] at h
        obtain ⟨_, _, rfl⟩ := h
        rcases hstop with h0 | ⟨t, h0⟩ <;> simp at h0
      · rename_i i1 f1 rest1 hc
        simp only at h
        have h40 : ∀ t, rest1 ≠ 40 :: t := by
          intro t e
          subst e
          have := alt_loop_open h
          simp only [Prod.mk.injEq, Option.some.injEq] at this
          obtain ⟨_, _, e2⟩ := this
          subst e2
          rcases hstop with h0 | ⟨t1, h0⟩ <;> simp at h0
        obtain ⟨w1, r1, rfl, hp1, hb1⟩ := concat_sound ha hq hc h40
        obtain ⟨w, r, rfl, hp, hb⟩ := ih _ _ _ _ _ _ h hstop (w0 ++ 124 :: w1) (Re.alt r0 r1)
          impl0 (Parses.alt_more w0 w1 r0 r1 hp0 hp1) (by simp only [build, hb0, hb1])
        exact ⟨124 :: (w1 ++ w), r, by simp, by simpa using hp, hb⟩

theorem alt_body_sound {altF : REImpl → List Nat → Option PResult} (ha : AltSound altF)
    (hq : NoSuccQ altF) (k : Nat) : AltSound (regex_grammar.alt_body altF k) := by
  intro impl inp impl1 f rest h hstop
  unfold regex_grammar.alt_body at h
  split at h
  · simp at h
  · simp at h
  · rename_i i1 val rest1 hc
    have h40 : ∀ t, rest1 ≠ 40 :: t := by
      intro t e
      subst e
      have := alt_loop_open h
      simp only [Prod.mk.injEq, Option.some.injEq] at this
      obtain ⟨_, _, e2⟩ := this
      subst e2
      rcases hstop with h0 | ⟨t1, h0⟩ <;> simp at h0
    obtain ⟨w1, r1, rfl, hp1, hb1⟩ := concat_sound ha hq hc h40
    obtain ⟨w, r, rfl, hp, hb⟩ := alt_loop_sound ha hq _ _ _ _ _ _ _ h hstop w1 r1 impl
      (Parses.alt_one w1 r1 hp1) hb1
    exact ⟨w1 ++ w, r, by simp, hp, hb⟩

theorem alt_body_question (altF : REImpl → List Nat → Option PResult) (k : Nat) (impl : REImpl)
    (t : List Nat) : regex_grammar.alt_body altF k impl (63 :: t) = some (impl, none) := by
  simp [regex_grammar.alt_body, regex_grammar.concat, repeat_question]

theorem alt_noSuccQ : ∀ n, NoSuccQ (regex_grammar.alt n) := by
  intro n impl t impl1 f rest
  cases n with
  | zero => simp [regex_grammar.alt]
  | succ n =>
    show regex_grammar.alt_body _ _ _ _ ≠ _
    rw [alt_body_question]
    simp

/-- A successful `alt` that stops at the end of the text or in front of `)` has
read a text of the grammar and built the automaton of its tree. -/
theorem alt_sound : ∀ n, AltSound (regex_grammar.alt n) := by
  intro n
  induction n with
  | zero => intro impl inp impl1 f rest h; simp [regex_grammar.alt] at h
  | succ n ih => exact alt_body_sound ih (alt_noSuccQ n) (n + 1)

/-- Every text of the grammar starts with `(`, `.` or an ordinary character. -/
theorem parses_head {nt : NT} {w : List Nat} {r : Re} (h : Parses nt w r) :
    ∃ c t, w = c :: t ∧ c ≠ 41 ∧ c ≠ 124 ∧ c ≠ 42 ∧ c ≠ 43 ∧ c ≠ 63 := by
  induction h with
  | atom_nocapture w r _ _ => exact ⟨40, _, rfl, by decide, by decide, by decide, by decide, by decide⟩
  | atom_capture w r _ _ => exact ⟨40, _, rfl, by decide, by decide, by decide, by decide, by decide⟩
  | atom_any => exact ⟨46, _, rfl, by decide, by decide, by decide, by decide, by decide⟩
  | atom_char c hc =>
    simp only [special, List.mem_cons, List.mem_singleton, not_or, List.not_mem_nil,
      not_false_eq_true, and_true] at hc
    exact ⟨c, [], rfl, hc.2.2.2.2.2.1, hc.1, hc.2.1, hc.2.2.1, hc.2.2.2.1⟩
  | rep_atom w r _ ih => exact ih
  | rep_star w r _ ih | rep_plus w r _ ih | rep_opt w r _ ih | rep_star_lazy w r _ ih
  | rep_plus_lazy w r _ ih | rep_opt_lazy w r _ ih =>
    obtain ⟨c, t, rfl, h⟩ := ih
    exact ⟨c, _, rfl, h⟩
  | concat_one w r _ ih => exact ih
  | concat_more w1 w2 r1 r2 _ _ ih1 _ =>
    obtain ⟨c, t, rfl, h⟩ := ih1
    exact ⟨c, _, rfl, h⟩
  | alt_one w r _ ih => exact ih
  | alt_more w1 w2 r1 r2 _ _ ih1 _ =>
    obtain ⟨c, t, rfl, h⟩ := ih1
    exact ⟨c, _, rfl, h⟩

theorem single_stop (altF : REImpl → List Nat → Option PResult) (impl : REImpl)
    (rest : List Nat) (h : StopConcat rest) :
    regex_grammar.single altF impl rest = some (impl, none) := by
  rcases h with rfl | ⟨c, t, rfl, rfl | rfl⟩ <;>
    simp [regex_grammar.single, regex_grammar.single_nocapture, regex_grammar.single_capture,
      regex_grammar.single_char_or_any, pchar, special]

theorem concat_loop_stop (altF : REImpl → List Nat → Option PResult) (k : Nat) (impl : REImpl)
    (val : Frag) (rest : List Nat) (hk : 0 < k) (h : StopConcat rest) :
    regex_grammar.concat_loop altF k impl val rest = some (impl, some (val, rest)) := by
  cases k with
  | zero => omega
  | succ k => simp [regex_grammar.concat_loop, regex_grammar.repeat_, single_stop altF impl rest h]

theorem alt_loop_stop (altF : REImpl → List Nat → Option PResult) (k : Nat) (impl : REImpl)
    (val : Frag) (rest : List Nat) (hk : 0 < k) (h : StopParen rest) :
    regex_grammar.alt_loop altF k impl val rest = some (impl, some (val, rest)) := by
  cases k with
  | zero => omega
  | succ k =>
    rcases h with rfl | ⟨t, rfl⟩ <;> simp [regex_grammar.alt_loop, pchar]

theorem stopParen_stopConcat {rest : List Nat} (h : StopParen rest) : StopConcat rest := by
  rcases h with rfl | ⟨t, rfl⟩
  · exact Or.inl rfl
  · exact Or.inr ⟨41, t, rfl, Or.inl rfl⟩

theorem stopConcat_noOp {rest : List Nat} (h : StopConcat rest) : NoOp rest := by
  rcases h with rfl | ⟨c, t, rfl, rfl | rfl⟩
  · exact noOp_nil
  · intro c t h; simp only [List.cons.injEq] at h; obtain ⟨rfl, _⟩ := h; decide
  · intro c t h; simp only [List.cons.injEq] at h; obtain ⟨rfl, _⟩ := h; decide

/-- From the loop form of completeness to the result of `alt` in front of `)` or the end. -/
theorem complete_alt_final {w : List Nat} {r : Re} (hc : Complete NT.alt w r) (m : Nat)
    (impl : REImpl) (rest : List Nat) (hl : (w ++ rest).length ≤ m) (hs : StopParen rest) :
    regex_grammar.alt (m + 1) impl (w ++ rest)
      = some ((build r impl).1, some ((build r impl).2, rest)) := by
  obtain ⟨k1, hk1, e⟩ := hc m (m + 1) impl rest hl (by omega) (stopParen_stopConcat hs)
  show regex_grammar.alt_body _ _ _ _ = _
  rw [e, alt_loop_stop _ _ _ _ _ (by omega) hs]

theorem complete_atom_nocapture {w : List Nat} {r : Re} (ih : Complete NT.alt w r) :
    Complete NT.atom (40 :: 63 :: 58 :: (w ++ [41])) (Re.group false r) := by
  intro n impl rest hl
  simp only [List.cons_append, List.append_assoc, List.singleton_append, List.length_cons,
    List.length_append] at hl
  obtain ⟨m, rfl⟩ : ∃ m, n = m + 1 := ⟨n - 1, by omega⟩
  have e := complete_alt_final ih m impl (41 :: rest)
    (by simp only [List.length_append, List.length_cons]; omega) (Or.inr ⟨rest, rfl⟩)
  simp only [List.cons_append, List.append_assoc, List.singleton_append]
  simp [regex_grammar.single, regex_grammar.single_nocapture, pchar, e, build]

theorem complete_atom_capture {w : List Nat} {r : Re} (hp : Parses NT.alt w r)
    (ih : Complete NT.alt w r) :
    Complete NT.atom (40 :: (w ++ [41])) (Re.group true r) := by
  intro n impl rest hl
  simp only [List.cons_append, List.append_assoc, List.singleton_append, List.length_cons,
    List.length_append] at hl
  obtain ⟨m, rfl⟩ : ∃ m, n = m + 1 := ⟨n - 1, by omega⟩
  have e := complete_alt_final ih m (next_paren impl).1 (41 :: rest)
    (by simp only [List.length_append, List.length_cons]; omega) (Or.inr ⟨rest, rfl⟩)
  obtain ⟨c, t, rfl, _, _, _, _, h63⟩ := parses_head hp
  simp only [List.cons_append, List.append_assoc, List.singleton_append] at e ⊢
  simp [regex_grammar.single, regex_grammar.single_nocapture, regex_grammar.single_capture,
    pchar, e, build, h63]

theorem complete_atom_any : Complete NT.atom [46] Re.any := by
  intro n impl rest _
  simp [regex_grammar.single, regex_grammar.single_nocapture, regex_grammar.single_capture,
    regex_grammar.single_char_or_any, pchar, build]

theorem complete_atom_char (c : Nat) (hc : c ∉ special) : Complete NT.atom [c] (Re.chr c) := by
  intro n impl rest _
  have hc2 := hc
  simp only [special, List.mem_cons, List.mem_singleton, not_or, List.not_mem_nil,
    not_false_eq_true, and_true] at hc2
  have h40 : c ≠ 40 := hc2.2.2.2.2.1
  have h46 : c ≠ 46 := hc2.2.2.2.2.2.2.2
  simp [regex_grammar.single, regex_grammar.single_nocapture, regex_grammar.single_capture,
    regex_grammar.single_char_or_any, pchar, build, h40, h46, hc]

theorem complete_rep_atom {w : List Nat} {r : Re} (ih : Complete NT.atom w r) :
    Complete NT.rep w r := by
  intro n impl rest hl hno
  simp [regex_grammar.repeat_, ih n impl rest hl, repeat_suffix_noOp _ _ _ hno]

theorem noOp_ne_question {rest : List Nat} (h : NoOp rest) : ∀ t, rest ≠ 63 :: t := by
  intro t e
  exact (h 63 t e).2.2 rfl

theorem complete_rep_op {w : List Nat} {r : Re} (ih : Complete NT.atom w r) :
    Complete NT.rep (w ++ [42]) (Re.star true r) ∧ Complete NT.rep (w ++ [43]) (Re.plus true r) ∧
    Complete NT.rep (w ++ [63]) (Re.opt true r) ∧
    Complete NT.rep (w ++ [42, 63]) (Re.star false r) ∧
    Complete NT.rep (w ++ [43, 63]) (Re.plus false r) ∧
    Complete NT.rep (w ++ [63, 63]) (Re.opt false r) := by
  refine ⟨?_, ?_, ?_, ?_, ?_, ?_⟩ <;> intro n impl rest hl hno
  · have e := ih n impl (42 :: rest) (by simpa using hl)
    simp only [List.append_assoc, List.singleton_append]
    simp [regex_grammar.repeat_, e, repeat_suffix_star _ _ _ (noOp_ne_question hno), build]
  · have e := ih n impl (43 :: rest) (by simpa using hl)
    simp only [List.append_assoc, List.singleton_append]
    simp [regex_grammar.repeat_, e, repeat_suffix_plus _ _ _ (noOp_ne_question hno), build]
  · have e := ih n impl (63 :: rest) (by simpa using hl)
    simp only [List.append_assoc, List.singleton_append]
    simp [regex_grammar.repeat_, e, repeat_suffix_opt _ _ _ (noOp_ne_question hno), build]
  · have e := ih n impl (42 :: 63 :: rest) (by simpa using hl)
    simp only [List.append_assoc, List.cons_append, List.nil_append]
    simp [regex_grammar.repeat_, e, repeat_suffix_lazy_star, build]
  · have e := ih n impl (43 :: 63 :: rest) (by simpa using hl)
    simp only [List.append_assoc, List.cons_append, List.nil_append]
    simp [regex_grammar.repeat_, e, repeat_suffix_lazy_plus, build]
  · have e := ih n impl (63 :: 63 :: rest) (by simpa using hl)
    simp only [List.append_assoc, List.cons_append, List.nil_append]
    simp [regex_grammar.repeat_, e, repeat_suffix_lazy_opt, build]

theorem complete_concat_one {w : List Nat} {r : Re} (ih : Complete NT.rep w r) :
    Complete NT.concat w r := by
  intro n k impl rest hl hk hno
  refine ⟨k, ?_, ?_⟩
  · simp only [List.length_append] at hk
    obtain ⟨c, t, rfl, _⟩ : ∃ c t, w = c :: t ∧ True := by
      cases w with
      | nil =>
        exfalso
        have := ih 0 impl [] (by simp) noOp_nil
        simp [regex_grammar.repeat_, regex_grammar.single, regex_grammar.single_nocapture,
          regex_grammar.single_capture, regex_grammar.single_char_or_any, pchar] at this
      | cons c t => exact ⟨c, t, rfl, trivial⟩
    simp only [List.length_cons] at hk
    omega
  · simp [regex_grammar.concat, ih n impl rest hl hno]

theorem noOp_of_head {w rest : List Nat} {nt : NT} {r : Re} (h : Parses nt w r) :
    NoOp (w ++ rest) := by
  obtain ⟨c, t, rfl, _, _, h42, h43, h63⟩ := parses_head h
  intro c1 t1 e
  simp only [List.cons_append, List.cons.injEq] at e
  obtain ⟨rfl, _⟩ := e
  exact ⟨h42, h43, h63⟩

theorem complete_concat_more {w1 w2 : List Nat} {r1 r2 : Re} (hp2 : Parses NT.rep w2 r2)
    (ih1 : Complete NT.concat w1 r1) (ih2 : Complete NT.rep w2 r2) :
    Complete NT.concat (w1 ++ w2) (Re.cat r1 r2) := by
  intro n k impl rest hl hk hno
  simp only [List.append_assoc] at hl hk ⊢
  obtain ⟨k1, hk1, e⟩ := ih1 n k impl (w2 ++ rest) hl hk (noOp_of_head hp2)
  obtain ⟨c, t, rfl, _⟩ := parses_head hp2
  obtain ⟨j, rfl⟩ : ∃ j, k1 = j + 1 := ⟨k1 - 1, by omega⟩
  have e2 := ih2 n (build r1 impl).1 rest
    (by simp only [List.length_append] at hl ⊢; omega) hno
  refine ⟨j, ?_, ?_⟩
  · simp only [List.length_append, List.length_cons] at hk1; omega
  · rw [e]
    simp only [regex_grammar.concat_loop, e2]
    simp [build, do_concat]

theorem stopConcat_bar (t : List Nat) : StopConcat (124 :: t) :=
  Or.inr ⟨124, t, rfl, Or.inr rfl⟩

theorem complete_alt_one {w : List Nat} {r : Re} (hp : Parses NT.concat w r)
    (ih : Complete NT.concat w r) : Complete NT.alt w r := by
  intro n k impl rest hl hk hs
  obtain ⟨k1, hk1, e⟩ := ih n k impl rest hl hk (stopConcat_noOp hs)
  obtain ⟨c, t, rfl, _⟩ := parses_head hp
  refine ⟨k, ?_, ?_⟩
  · simp only [List.length_append, List.length_cons] at hk; omega
  · have e3 := concat_loop_stop (regex_grammar.alt n) k1 (build r impl).1 (build r impl).2 rest
      (by omega) hs
    simp only [regex_grammar.alt_body, e, e3]

theorem complete_alt_more {w1 w2 : List Nat} {r1 r2 : Re} (hp2 : Parses NT.concat w2 r2)
    (ih1 : Complete NT.alt w1 r1) (ih2 : Complete NT.concat w2 r2) :
    Complete NT.alt (w1 ++ 124 :: w2) (Re.alt r1 r2) := by
  intro n k impl rest hl hk hs
  simp only [List.append_assoc, List.cons_append] at hl hk ⊢
  obtain ⟨k1, hk1, e⟩ := ih1 n k impl (124 :: (w2 ++ rest)) hl hk (stopConcat_bar _)
  obtain ⟨j, rfl⟩ : ∃ j, k1 = j + 1 := ⟨k1 - 1, by omega⟩
  simp only [List.length_cons, List.length_append] at hk1 hl
  obtain ⟨k2, hk2, e2⟩ := ih2 n j (build r1 impl).1 rest
    (by simp only [List.length_append]; omega) (by simp only [List.length_append]; omega)
    (stopConcat_noOp hs)
  obtain ⟨c, t, rfl, _⟩ := parses_head hp2
  refine ⟨j, ?_, ?_⟩
  · simp only [List.length_cons] at hk1; omega
  · rw [e]
    have e3 := concat_loop_stop (regex_grammar.alt n) k2 (build r2 (build r1 impl).1).1
      (build r2 (build r1 impl).1).2 rest (by omega) hs
    simp only [regex_grammar.alt_loop, pchar, if_true, e2, e3]
    simp [build, do_alt]

/-- The parser accepts every text of the grammar and builds the automaton of its tree. -/
theorem parses_complete {nt : NT} {w : List Nat} {r : Re} (h : Parses nt w r) :
    Complete nt w r := by
  induction h with
  | atom_nocapture w r _ ih => exact complete_atom_nocapture ih
  | atom_capture w r hp ih => exact complete_atom_capture hp ih
  | atom_any => exact complete_atom_any
  | atom_char c hc => exact complete_atom_char c hc
  | rep_atom w r _ ih => exact complete_rep_atom ih
  | rep_star w r _ ih => exact (complete_rep_op ih).1
  | rep_plus w r _ ih => exact (complete_rep_op ih).2.1
  | rep_opt w r _ ih => exact (complete_rep_op ih).2.2.1
  | rep_star_lazy w r _ ih => exact (complete_rep_op ih).2.2.2.1
  | rep_plus_lazy w r _ ih => exact (complete_rep_op ih).2.2.2.2.1
  | rep_opt_lazy w r _ ih => exact (complete_rep_op ih).2.2.2.2.2
  | concat_one w r _ ih => exact complete_concat_one ih
  | concat_more w1 w2 r1 r2 _ hp2 ih1 ih2 => exact complete_concat_more hp2 ih1 ih2
  | alt_one w r hp ih => exact complete_alt_one hp ih
  | alt_more w1 w2 r1 r2 _ hp2 ih1 ih2 => exact complete_alt_more hp2 ih1 ih2


theorem regex_success_iff (n : Nat) (impl0 impl : REImpl) (pat rest : List Nat) :
    regex_grammar.regex n impl0 pat = some (impl, some rest) ↔
      ∃ impl1 f, regex_grammar.alt n impl0 pat = some (impl1, some (f, rest)) ∧
        impl = do_regex impl1 f := by
  unfold regex_grammar.regex
  constructor
  · intro h
    split at h
    · simp at h
    · simp at h
    · rename_i i1 f r1 hal
      simp only [Option.some.injEq, Prod.mk.injEq] at h
      obtain ⟨rfl, rfl⟩ := h
      exact ⟨i1, f, hal, rfl⟩
  · rintro ⟨i1, f, hal, rfl⟩
    rw [hal]

theorem compile_eq_some_iff_regex (pat : List Nat) (impl : REImpl) :
    compile pat = some impl ↔
      regex_grammar.regex (pat.length + 1) REImpl.init pat = some (impl, some []) := by
  unfold compile
  constructor
  · intro h
    split at h
    · rename_i i1 heq
      simp only [Option.some.injEq] at h
      subst h
      exact heq
    · simp at h
  · intro h
    rw [h]

/-- Compilation succeeds exactly on the texts of the grammar, and its result is
the automaton built for the syntax tree and finished by `do_regex`. -/
theorem compile_eq_some_iff (pat : List Nat) (impl : REImpl) :
    compile pat = some impl ↔
      ∃ r, Parses NT.alt pat r ∧
        impl = do_regex (build r REImpl.init).1 (build r REImpl.init).2 := by
  rw [compile_eq_some_iff_regex, regex_success_iff]
  constructor
  · rintro ⟨impl1, f, hal, rfl⟩
    obtain ⟨w, r, hw, hp, hb⟩ := alt_sound _ _ _ _ _ _ hal (Or.inl rfl)
    simp only [List.append_nil] at hw
    subst hw
    exact ⟨r, hp, by rw [hb]⟩
  · rintro ⟨r, hp, rfl⟩
    have e := complete_alt_final (parses_complete hp) pat.length REImpl.init []
      (by simp) (Or.inl rfl)
    simp only [List.append_nil] at e
    exact ⟨_, _, e, rfl⟩

/-- A text of the grammar leaves the nesting depth where it found it. -/
theorem parses_depth {nt : NT} {w : List Nat} {r : Re} (h : Parses nt w r) :
    ∀ (rest : List Nat) (d : Nat), depthScan (w ++ rest) d = depthScan rest d := by
  induction h with
  | atom_nocapture w r _ ih =>
    intro rest d
    simp [depthScan, ih]
  | atom_capture w r _ ih =>
    intro rest d
    simp [depthScan, ih]
  | atom_any => intro rest d; simp [depthScan]
  | atom_char c hc =>
    intro rest d
    simp only [special, List.mem_cons, List.mem_singleton, not_or, List.not_mem_nil,
      not_false_eq_true, and_true] at hc
    simp [depthScan, hc.2.2.2.2.1, hc.2.2.2.2.2.1]
  | rep_atom w r _ ih => exact ih
  | rep_star w r _ ih | rep_plus w r _ ih | rep_opt w r _ ih | rep_star_lazy w r _ ih
  | rep_plus_lazy w r _ ih | rep_opt_lazy w r _ ih =>
    intro rest d
    simp [depthScan, ih]
  | concat_one w r _ ih => exact ih
  | concat_more w1 w2 r1 r2 _ _ ih1 ih2 =>
    intro rest d
    rw [List.append_assoc, ih1, ih2]
  | alt_one w r _ ih => exact ih
  | alt_more w1 w2 r1 r2 _ _ ih1 ih2 =>
    intro rest d
    rw [List.append_assoc, ih1]
    simp [depthScan, ih2]

theorem parses_balanced {w : List Nat} {r : Re} (h : Parses NT.alt w r) : Balanced w := by
  have := parses_depth h [] 0
  simpa [Balanced, depthScan] using this

/-- Every run of `addstate` that returns is a derivation of `AddRel`. -/
theorem addstate_rel (impl : REImpl) (mt : MatchType) (rt : RepType) (icur : Iter) :
    ∀ (fuel : Nat) (ex : Extras) (l : ThreadList) (s : Nat) (m : Subs)
      (ex1 : Extras) (l1 : ThreadList) (m1 : Subs),
      addstate impl mt rt fuel ex l s m icur = some (ex1, l1, m1) →
      AddRel impl mt rt icur ex l s m ex1 l1 m1 := by
  intro fuel
  induction fuel with
  | zero => intro ex l s m ex1 l1 m1 h; simp [addstate] at h
  | succ fuel ih =>
    intro ex l s m ex1 l1 m1 h
    unfold addstate at h
    split at h
    · rename_i hs
      simp only [Option.some.injEq, Prod.mk.injEq] at h
      obtain ⟨rfl, rfl, rfl⟩ := h
      subst hs
      exact AddRel.null _ _ _
    · rename_i hs
      split at h
      · simp at h
      · rename_i st hst
        generalize hen : addstate_enter mt rt ex.listid (ex.stateex.getD st.id StateEx.init) l m
          = en at h
        obtain ⟨ss, la, go⟩ := en
        simp only at h
        cases go with
        | false =>
          simp only [Bool.not_false, if_true] at h
          simp only [Option.some.injEq, Prod.mk.injEq] at h
          obtain ⟨rfl, rfl, rfl⟩ := h
          exact AddRel.stop _ _ _ _ st ss _ hs hst hen
        | true =>
          simp only [Bool.not_true, Bool.false_eq_true, if_false] at h
          split at h
          · rename_i hop
            split at h
            · simp at h
            · rename_i ex2 l3 m2 h1
              exact AddRel.split _ _ _ _ st ss la ex2 _ l3 _ m2 _ hs hst hen hop
                (ih _ _ _ _ _ _ _ h1) (ih _ _ _ _ _ _ _ h)
          · rename_i hop
            split at h
            · simp at h
            · rename_i ex2 l3 m2 h1
              simp only [Option.some.injEq, Prod.mk.injEq] at h
              obtain ⟨rfl, rfl, rfl⟩ := h
              exact AddRel.lparen _ _ _ _ st ss la _ _ m2 hs hst hen hop (ih _ _ _ _ _ _ _ h1)
          · rename_i hop
            split at h
            · simp at h
            · rename_i ex2 l3 m2 h1
              simp only [Option.some.injEq, Prod.mk.injEq] at h
              obtain ⟨rfl, rfl, rfl⟩ := h
              exact AddRel.rparen _ _ _ _ st ss la _ _ m2 hs hst hen hop (ih _ _ _ _ _ _ _ h1)
          · rename_i hop1 hop2 hop3
            simp only [Option.some.injEq, Prod.mk.injEq] at h
            obtain ⟨rfl, rfl, rfl⟩ := h
            refine AddRel.leaf _ _ _ _ st ss la hs hst hen ?_
            cases hop : st.op <;> simp_all

/-! ### Lists: reading after writing -/

theorem getD_set_eq {α : Type} (l : List α) (i : Nat) (v d : α) (h : i < l.length) :
    (l.set i v).getD i d = v := by
  simp [List.getD_eq_getElem?_getD, List.getElem?_set_self, h]

theorem getD_set_ne {α : Type} (l : List α) (i j : Nat) (v d : α) (h : i ≠ j) :
    (l.set i v).getD j d = l.getD j d := by
  simp [List.getD_eq_getElem?_getD, List.getElem?_set_ne h]

theorem getD_set_of_bound {α : Type} (l : List α) (i j : Nat) (v d : α) :
    (l.set i v).getD j d = if i = j ∧ i < l.length then v else l.getD j d := by
  by_cases h : i = j
  · subst h
    by_cases h2 : i < l.length
    · simp [getD_set_eq, h2]
    · have : l.set i v = l := by
        apply List.set_eq_of_length_le; omega
      simp [this, h2]
  · simp [getD_set_ne _ _ _ _ _ h, h]

theorem sum_map_set {α : Type} (f : α → Nat) (d : α) :
    ∀ (l : List α) (i : Nat) (v : α), i < l.length →
      ((l.set i v).map f).sum + f (l.getD i d) = (l.map f).sum + f v := by
  intro l
  induction l with
  | nil => intro i v h; simp at h
  | cons a t ih =>
    intro i v h
    cases i with
    | zero => simp; omega
    | succ i =>
      simp only [List.length_cons, Nat.add_lt_add_iff_right] at h
      have := ih i v h
      simp only [List.set_cons_succ, List.map_cons, List.sum_cons, List.getD_cons_succ]
      omega

/-! ### The revisit test of `addstate` -/

theorem enter_first (mt : MatchType) (rt : RepType) (g : Nat) (ss : StateEx) (l : ThreadList)
    (m : Subs) (h : ss.lastlist ≠ g) :
    addstate_enter mt rt g ss l m
      = (StateEx.mk g 1 l.n, ThreadList.mk l.t (l.n + 1), true) := by
  simp [addstate_enter, h]

theorem enter_revisit (mt : MatchType) (rt : RepType) (g : Nat) (ss : StateEx) (l : ThreadList)
    (m : Subs) (h : ss.lastlist = g) (hv : 1 ≤ ss.visits) :
    ∃ ss1 go, addstate_enter mt rt g ss l m = (ss1, l, go) ∧ ss1.lastlist = g ∧
      ss1.lastthread = ss.lastthread ∧ ss.visits < ss1.visits ∧
      (go = true → ss1.visits = 2 ∧ ss.visits = 1 ∧ mt = MatchType.LeftmostLongest) := by
  unfold addstate_enter
  simp only [h, if_true]
  by_cases h2 : ss.visits + 1 > 2
  · simp only [h2, if_true]
    exact ⟨_, _, rfl, rfl, rfl, by dsimp only; omega, by simp⟩
  · simp only [h2, if_false]
    have hv1 : ss.visits = 1 := by omega
    cases mt with
    | LeftmostBiased =>
      simp only
      by_cases h3 : rt = RepType.RepeatMinimal
      · simp only [h3, if_true]
        exact ⟨_, _, rfl, rfl, rfl, by dsimp only; omega, by simp⟩
      · simp only [h3, if_false]
        have : ss.visits + 1 + 1 > 2 := by omega
        simp only [this, if_true]
        exact ⟨_, _, rfl, rfl, rfl, by dsimp only; omega, by simp⟩
    | LeftmostLongest =>
      simp only
      split
      · exact ⟨_, _, rfl, rfl, rfl, by dsimp only; omega, by simp⟩
      · exact ⟨_, _, rfl, rfl, rfl, by dsimp only; omega, by intro _; simp [hv1]⟩

/-! ### Observable equality of submatch arrays -/

theorem obs_assign (d s : Sub) : (d.assign s).obs = s.obs := by
  unfold Sub.assign Sub.obs
  cases h : s.matched <;> simp

theorem ObsEq.refl (m : Subs) : ObsEq m m := ⟨rfl, fun _ => rfl⟩

theorem ObsEq.symm {m1 m2 : Subs} (h : ObsEq m1 m2) : ObsEq m2 m1 :=
  ⟨h.1.symm, fun i => (h.2 i).symm⟩

theorem ObsEq.trans {m1 m2 m3 : Subs} (h1 : ObsEq m1 m2) (h2 : ObsEq m2 m3) : ObsEq m1 m3 :=
  ⟨h1.1.trans h2.1, fun i => (h1.2 i).trans (h2.2 i)⟩

theorem getD_zipWith_assign (d s : Subs) (i : Nat) (h : d.length = s.length) :
    ((List.zipWith Sub.assign d s).getD i Sub.init).obs = (s.getD i Sub.init).obs := by
  induction d generalizing s i with
  | nil =>
    cases s with
    | nil => simp
    | cons a t => simp at h
  | cons a t ih =>
    cases s with
    | nil => simp at h
    | cons b u =>
      simp only [List.length_cons, Nat.add_right_cancel_iff] at h
      cases i with
      | zero => simp [obs_assign]
      | succ i => simpa using ih u i h

theorem obsEq_assign (d s : Subs) (h : d.length = s.length) : ObsEq (Subs.assign d s) s := by
  refine ⟨by simp [Subs.assign, h], fun i => ?_⟩
  exact getD_zipWith_assign d s i h

/-- Restoring a slot after the recursion gives back an observably equal array. -/
theorem obsEq_restore (m m2 mid : Subs) (k : Nat) (v : Sub) (hmid : mid = m.set k v)
    (h : ObsEq m2 mid) :
    ObsEq (m2.set k ((m2.getD k Sub.init).assign (m.getD k Sub.init))) m := by
  subst hmid
  obtain ⟨hl, ho⟩ := h
  refine ⟨by simpa using hl, fun i => ?_⟩
  rw [getD_set_of_bound]
  split
  · rename_i hk
    obtain ⟨rfl, _⟩ := hk
    exact obs_assign _ _
  · rename_i hk
    by_cases hik : k = i
    · subst hik
      have hk2 : ¬ k < m2.length := fun h2 => hk ⟨rfl, h2⟩
      have hk3 : ¬ k < m.length := by
        simp only [List.length_set] at hl; omega
      have e1 : m2.getD k Sub.init = Sub.init := by
        simp [List.getD_eq_getElem?_getD, List.getElem?_eq_none (Nat.le_of_not_lt hk2)]
      have e2 : m.getD k Sub.init = Sub.init := by
        simp [List.getD_eq_getElem?_getD, List.getElem?_eq_none (Nat.le_of_not_lt hk3)]
      rw [e1, e2]
    · have := ho i
      rw [getD_set_ne _ _ _ _ _ hik] at this
      exact this

/-- While a state is unstamped the list being filled has room for one more thread. -/
theorem sinv_room {impl : REImpl} {ex : Extras} {l : ThreadList} (h : SInv impl ex l)
    (s : Nat) (hs1 : 1 ≤ s) (hsN : s ≤ impl.states.length) (hns : ¬ Stamped ex s) :
    l.n < impl.states.length := by
  have hmap : ∀ i ∈ Finset.range l.n,
      (l.t.getD i Thread.init).state ∈ (Finset.Icc 1 impl.states.length).erase s := by
    intro i hi
    rw [Finset.mem_range] at hi
    rw [Finset.mem_erase, Finset.mem_Icc]
    refine ⟨?_, h.rng i hi⟩
    intro e
    exact hns (e ▸ (h.inj i hi).1)
  have hinj : Set.InjOn (fun i => (l.t.getD i Thread.init).state) (Finset.range l.n) := by
    intro i hi j hj e
    simp only [Finset.coe_range, Set.mem_Iio] at hi hj
    simp only at e
    have h1 := (h.inj i hi).2
    have h2 := (h.inj j hj).2
    rw [e] at h1
    omega
  have hc := Finset.card_le_card_of_injOn _ hmap hinj
  have hs : s ∈ Finset.Icc 1 impl.states.length := Finset.mem_Icc.mpr ⟨hs1, hsN⟩
  rw [Finset.card_range, Finset.card_erase_of_mem hs, Nat.card_Icc] at hc
  omega

theorem stamped_set (ex : Extras) (s : Nat) (ss : StateEx) (p : Nat)
    (hs : s < ex.stateex.length) :
    Stamped { ex with stateex := ex.stateex.set s ss } p ↔
      (if s = p then ss.lastlist = ex.listid else Stamped ex p) := by
  unfold Stamped
  simp only
  rw [getD_set_of_bound]
  by_cases h : s = p
  · subst h; simp [hs]
  · simp [h]

theorem fuelNeed_set (g : Nat) (ex : Extras) (s : Nat) (ss : StateEx)
    (hs : s < ex.stateex.length) :
    fuelNeed g { ex with stateex := ex.stateex.set s ss }
        + visitsLeft g (ex.stateex.getD s StateEx.init)
      = fuelNeed g ex + visitsLeft g ss := by
  unfold fuelNeed
  exact sum_map_set (visitsLeft g) StateEx.init ex.stateex s ss hs

/-- The first visit of a state in a generation: the state is stamped and a
thread for it is appended to the list. -/
theorem enter_post_first {impl : REImpl} {ex : Extras} {l : ThreadList} (hI : SInv impl ex l)
    (s : Nat) (m : Subs) (hs1 : 1 ≤ s) (hsN : s ≤ impl.states.length)
    (hm : m.length = NSUB) (hns : ¬ Stamped ex s) :
    SInv impl { ex with stateex := ex.stateex.set s (StateEx.mk ex.listid 1 l.n) }
      (enterThread (StateEx.mk ex.listid 1 l.n) (ThreadList.mk l.t (l.n + 1)) s m) ∧
    fuelNeed ex.listid { ex with stateex := ex.stateex.set s (StateEx.mk ex.listid 1 l.n) }
      < fuelNeed ex.listid ex ∧
    Ext l (enterThread (StateEx.mk ex.listid 1 l.n) (ThreadList.mk l.t (l.n + 1)) s m) ∧
    (enterThread (StateEx.mk ex.listid 1 l.n) (ThreadList.mk l.t (l.n + 1)) s m).n = l.n + 1 ∧
    ((enterThread (StateEx.mk ex.listid 1 l.n) (ThreadList.mk l.t (l.n + 1)) s m).t.getD l.n
      Thread.init).state = s ∧
    ObsEq ((enterThread (StateEx.mk ex.listid 1 l.n) (ThreadList.mk l.t (l.n + 1)) s m).t.getD l.n
      Thread.init).subs m := by
  have hroom := sinv_room hI s hs1 hsN hns
  have hsl : s < ex.stateex.length := by rw [hI.len_ex]; omega
  have hnl : l.n < l.t.length := by rw [hI.cap]; exact hroom
  have hst : ∀ p, Stamped { ex with stateex := ex.stateex.set s (StateEx.mk ex.listid 1 l.n) } p ↔
      (p = s ∨ Stamped ex p) := by
    intro p
    rw [stamped_set ex s _ p hsl]
    by_cases e : s = p
    · subst e; simp
    · simp [e, Ne.symm e]
  have hgd : ∀ p, p ≠ s →
      (List.set ex.stateex s (StateEx.mk ex.listid 1 l.n)).getD p StateEx.init
        = ex.stateex.getD p StateEx.init := fun p hp => getD_set_ne _ _ _ _ _ (Ne.symm hp)
  have hgs : (List.set ex.stateex s (StateEx.mk ex.listid 1 l.n)).getD s StateEx.init
      = StateEx.mk ex.listid 1 l.n := getD_set_eq _ _ _ _ hsl
  simp only [enterThread, if_true]
  have htn : (l.t.set l.n (Thread.mk s (Subs.assign (l.t.getD l.n Thread.init).subs m))).getD l.n
      Thread.init = Thread.mk s (Subs.assign (l.t.getD l.n Thread.init).subs m) :=
    getD_set_eq _ _ _ _ hnl
  have hto : ∀ i, i ≠ l.n →
      (l.t.set l.n (Thread.mk s (Subs.assign (l.t.getD l.n Thread.init).subs m))).getD i
        Thread.init = l.t.getD i Thread.init := fun i hi => getD_set_ne _ _ _ _ _ (Ne.symm hi)
  refine ⟨?_, ?_, ?_, trivial, ?_, ?_⟩
  · constructor
    · simp [hI.len_ex]
    · simp [hI.cap]
    · intro p
      by_cases e : p = s
      · subst e; simp only [hgs]; exact le_refl _
      · simp only [hgd p e]; exact hI.le p
    · rw [hst]
      rintro (e | e)
      · omega
      · exact hI.zero e
    · intro p hp
      rw [hst] at hp
      by_cases e : p = s
      · subst e; simp only [hgs]; exact le_refl _
      · simp only [hgd p e]
        exact hI.vis p (hp.resolve_left e)
    · intro p hp
      rw [hst] at hp
      by_cases e : p = s
      · subst e
        simp only [hgs, htn]
        exact ⟨by omega, trivial⟩
      · simp only [hgd p e]
        have := hI.thr p (hp.resolve_left e)
        rw [hto _ (by omega)]
        exact ⟨by omega, this.2⟩
    · intro i hi
      simp only at hi
      by_cases e : i = l.n
      · subst e
        simp only [htn, hgs]
        exact ⟨(hst s).mpr (Or.inl rfl), trivial⟩
      · have hi2 : i < l.n := by omega
        rw [hto i e]
        have := hI.inj i hi2
        have hne : (l.t.getD i Thread.init).state ≠ s := fun e2 => hns (e2 ▸ this.1)
        rw [hgd _ hne]
        exact ⟨(hst _).mpr (Or.inr this.1), this.2⟩
    · intro i hi
      simp only at hi
      by_cases e : i = l.n
      · subst e; simp only [htn]; exact ⟨hs1, hsN⟩
      · rw [hto i e]; exact hI.rng i (by omega)
    · intro i
      by_cases e : i = l.n
      · subst e
        simp only [htn]
        have := hI.sublen l.n
        show (List.zipWith Sub.assign _ _).length = NSUB
        rw [List.length_zipWith, this, hm]
        simp
      · rw [hto i e]; exact hI.sublen i
  · have h := fuelNeed_set ex.listid ex s (StateEx.mk ex.listid 1 l.n) hsl
    have h1 : visitsLeft ex.listid (ex.stateex.getD s StateEx.init) = 2 := by
      have hns1 : ¬ (ex.stateex.getD s StateEx.init).lastlist = ex.listid := hns
      unfold visitsLeft
      rw [if_neg hns1]
    have h2 : visitsLeft ex.listid (StateEx.mk ex.listid 1 l.n) = 1 := by
      simp [visitsLeft]
    omega
  · refine ⟨by simp, by simp, ?_⟩
    intro i hi
    simp only
    exact hto i (by omega)
  · simp only [htn]
  · simp only [htn]
    exact obsEq_assign _ _ (by rw [hI.sublen, hm])

theorem ext_refl (l : ThreadList) : Ext l l := ⟨le_refl _, rfl, fun _ _ => rfl⟩

theorem ext_trans {l1 l2 l3 : ThreadList} (h1 : Ext l1 l2) (h2 : Ext l2 l3) : Ext l1 l3 :=
  ⟨le_trans h1.1 h2.1, h2.2.1.trans h1.2.1,
    fun i hi => (h2.2.2 i (lt_of_lt_of_le hi h1.1)).trans (h1.2.2 i hi)⟩

/-- Entering a state, whatever the outcome of the revisit test. -/
theorem enter_post {impl : REImpl} {ex : Extras} {l : ThreadList} (hI : SInv impl ex l)
    (mt : MatchType) (rt : RepType) (s : Nat) (m : Subs) (hs1 : 1 ≤ s)
    (hsN : s ≤ impl.states.length) (hm : m.length = NSUB) (ss : StateEx) (l1 : ThreadList)
    (go : Bool)
    (hen : addstate_enter mt rt ex.listid (ex.stateex.getD s StateEx.init) l m = (ss, l1, go)) :
    EnterPost impl ex l s m ss l1 go := by
  have hsl : s < ex.stateex.length := by rw [hI.len_ex]; omega
  by_cases hst : Stamped ex s
  · obtain ⟨ss1, go1, e, h1, h2, h3, h4⟩ :=
      enter_revisit mt rt ex.listid (ex.stateex.getD s StateEx.init) l m hst (hI.vis s hst)
    rw [e] at hen
    simp only [Prod.mk.injEq] at hen
    obtain ⟨rfl, rfl, rfl⟩ := hen
    have hv := hI.vis s hst
    have hth : enterThread ss1 l s m = l := by
      unfold enterThread
      rw [if_neg (by omega)]
    have hiff : ∀ p, Stamped { ex with stateex := ex.stateex.set s ss1 } p ↔ Stamped ex p := by
      intro p
      rw [stamped_set ex s _ p hsl]
      by_cases e : s = p
      · subst e; simp [h1, hst]
      · simp [e]
    have hgd : ∀ p, p ≠ s →
        (List.set ex.stateex s ss1).getD p StateEx.init = ex.stateex.getD p StateEx.init :=
      fun p hp => getD_set_ne _ _ _ _ _ (Ne.symm hp)
    have hgs : (List.set ex.stateex s ss1).getD s StateEx.init = ss1 :=
      getD_set_eq _ _ _ _ hsl
    have hneed := fuelNeed_set ex.listid ex s ss1 hsl
    have hv1 : visitsLeft ex.listid (ex.stateex.getD s StateEx.init)
        = 2 - (ex.stateex.getD s StateEx.init).visits := by
      have hst1 : (ex.stateex.getD s StateEx.init).lastlist = ex.listid := hst
      unfold visitsLeft
      rw [if_pos hst1]
    have hv2 : visitsLeft ex.listid ss1 = 2 - ss1.visits := by
      unfold visitsLeft
      rw [if_pos h1]
    constructor
    · rw [hth]
      constructor
      · simp [hI.len_ex]
      · exact hI.cap
      · intro p
        by_cases e : p = s
        · subst e; simp only [hgs]; omega
        · simp only [hgd p e]; exact hI.le p
      · rw [hiff]; exact hI.zero
      · intro p hp
        rw [hiff] at hp
        by_cases e : p = s
        · subst e; simp only [hgs]; omega
        · simp only [hgd p e]; exact hI.vis p hp
      · intro p hp
        rw [hiff] at hp
        by_cases e : p = s
        · subst e; simp only [hgs, h2]; exact hI.thr p hp
        · simp only [hgd p e]; exact hI.thr p hp
      · intro i hi
        have := hI.inj i hi
        rw [hiff]
        refine ⟨this.1, ?_⟩
        by_cases e : (l.t.getD i Thread.init).state = s
        · rw [e, hgs, h2, ← e]; exact this.2
        · rw [hgd _ e]; exact this.2
      · exact hI.rng
      · exact hI.sublen
    · omega
    · intro hgo
      obtain ⟨e1, e2, _⟩ := h4 hgo
      omega
    · rw [hth]; exact ext_refl l
    · intro p
      rw [hiff]
      constructor
      · exact Or.inr
      · rintro (e | e)
        · subst e; exact hst
        · exact e
    · intro _; exact hth
    · exact Or.inl hth
    · intro i hi1 hi2
      rw [hth] at hi2
      omega
    · intro h; exact absurd hst h
  · have e := enter_first mt rt ex.listid (ex.stateex.getD s StateEx.init) l m hst
    rw [e] at hen
    simp only [Prod.mk.injEq] at hen
    obtain ⟨rfl, rfl, rfl⟩ := hen
    obtain ⟨h1, h2, h3, h4, h5, h6⟩ := enter_post_first hI s m hs1 hsN hm hst
    constructor
    · exact h1
    · omega
    · intro _; exact h2
    · exact h3
    · intro p
      rw [stamped_set ex s _ p hsl]
      by_cases e : s = p
      · subst e; simp
      · simp [e, Ne.symm e]
    · intro h; simp at h
    · exact Or.inr hst
    · intro i hi1 hi2
      rw [h4] at hi2
      have : i = l.n := by omega
      subst this
      exact ⟨hst, h5, h6⟩
    · intro _; rfl

theorem obs_eq_parts {a b : Sub} (h : a.obs = b.obs) :
    a.matched = b.matched ∧ (b.matched ≠ SubState.Unmatched → a.first = b.first) ∧
      (b.matched = SubState.Matched → a.second = b.second) := by
  unfold Sub.obs at h
  cases ha : a.matched <;> cases hb : b.matched <;> simp_all

theorem mok_obs {impl : REImpl} {s0 pos p : Nat} {m m1 : Subs} (ho : ObsEq m1 m)
    (h : MOK impl s0 pos p m) : MOK impl s0 pos p m1 := by
  obtain ⟨h1, h2, h3, h4⟩ := h
  obtain ⟨e1, e2, e3⟩ := obs_eq_parts (ho.2 0)
  refine ⟨ho.1.trans h1, ?_, ?_, ?_⟩
  · intro hp; rw [e1]; exact h2 hp
  · intro hp hq
    obtain ⟨a, b⟩ := h3 hp hq
    exact ⟨e1.trans a, (e2 (by rw [a]; simp)).trans b⟩
  · intro hp
    obtain ⟨a, b, c⟩ := h4 hp
    exact ⟨e1.trans a, (e2 (by rw [a]; simp)).trans b, (e3 a).trans c⟩

theorem deref_range {impl : REImpl} {p : Nat} {st : State} (h : impl.deref p = some st) :
    1 ≤ p ∧ p ≤ impl.states.length := by
  unfold REImpl.deref at h
  split at h
  · simp at h
  · rename_i hp
    have := List.getElem?_eq_some_iff.mp h
    obtain ⟨hlt, _⟩ := this
    omega

/-- The transitions that read nothing: the two edges of a Split state and the
edge of an LParen or RParen state. -/
theorem tr_eps_inv {impl : REImpl} {p q : Nat} {b : Bool} {st : State}
    (h : Tr impl p b [] q) (hd : impl.deref p = some st) :
    (st.op = Op.Split ∧ ((b = false ∧ q = st.out) ∨ (b = true ∧ q = st.out1))) ∨
    ((st.op = Op.LParen ∨ st.op = Op.RParen) ∧ b = false ∧ q = st.out) := by
  generalize hw : ([] : List Nat) = w at h
  cases h with
  | char st1 c h1 _ _ => simp at hw
  | any st1 c h1 _ => simp at hw
  | split_out st1 h1 h2 =>
    rw [hd] at h1; simp only [Option.some.injEq] at h1; subst h1
    exact Or.inl ⟨h2, Or.inl ⟨rfl, rfl⟩⟩
  | split_out1 st1 h1 h2 =>
    rw [hd] at h1; simp only [Option.some.injEq] at h1; subst h1
    exact Or.inl ⟨h2, Or.inr ⟨rfl, rfl⟩⟩
  | lparen st1 h1 h2 =>
    rw [hd] at h1; simp only [Option.some.injEq] at h1; subst h1
    exact Or.inr ⟨Or.inl h2, rfl, rfl⟩
  | rparen st1 h1 h2 =>
    rw [hd] at h1; simp only [Option.some.injEq] at h1; subst h1
    exact Or.inr ⟨Or.inr h2, rfl, rfl⟩

theorem tr_deref {impl : REImpl} {p q : Nat} {b : Bool} {w : List Nat} (h : Tr impl p b w q) :
    ∃ st, impl.deref p = some st := by
  cases h <;> exact ⟨_, ‹_›⟩

theorem grow_of_enter {impl : REImpl} {s0 pos : Nat} {ex : Extras} {l : ThreadList} {s : Nat}
    {m : Subs} {ss : StateEx} {l1 : ThreadList} {go : Bool}
    (hen : EnterPost impl ex l s m ss l1 go) (hm : MOK impl s0 pos s m) :
    Grow impl s0 pos s ex l { ex with stateex := ex.stateex.set s ss } (enterThread ss l1 s m) where
  sinv := hen.sinv
  listid := rfl
  need := hen.need_le
  ext := hen.ext
  mono := fun p hp => (hen.stamped_iff p).mpr (Or.inr hp)
  closed := by
    intro p hp hnp hps
    rcases (hen.stamped_iff p).mp hp with e | e
    · exact absurd e hps
    · exact absurd e hnp
  fresh := by
    intro i hi1 hi2
    obtain ⟨h1, h2, h3⟩ := hen.fresh i hi1 hi2
    rw [h2]
    exact ⟨h1, Path.refl s, mok_obs h3 hm⟩

theorem grow_of_post {impl : REImpl} {s0 pos src q : Nat} {b : Bool} {ex ex1 : Extras}
    {l l1 : ThreadList} {m m1 : Subs} (hp : AddPost impl s0 pos ex l q m ex1 l1 m1)
    (ht : Tr impl src b [] q) : Grow impl s0 pos src ex l ex1 l1 where
  sinv := hp.sinv
  listid := hp.listid
  need := hp.need
  ext := hp.ext
  mono := hp.mono
  closed := fun p h1 h2 _ => hp.closed p h1 h2
  fresh := by
    intro i hi1 hi2
    obtain ⟨h1, h2, h3⟩ := hp.fresh i hi1 hi2
    exact ⟨h1, Path.cons src b [] q [] _ ht h2, h3⟩

theorem grow_trans {impl : REImpl} {s0 pos src : Nat} {ex ex1 ex2 : Extras}
    {l l1 l2 : ThreadList} (h1 : Grow impl s0 pos src ex l ex1 l1)
    (h2 : Grow impl s0 pos src ex1 l1 ex2 l2) : Grow impl s0 pos src ex l ex2 l2 where
  sinv := h2.sinv
  listid := h2.listid.trans h1.listid
  need := by
    have a := h1.need
    have b := h2.need
    rw [h1.listid] at b
    exact le_trans b a
  ext := ext_trans h1.ext h2.ext
  mono := fun p hp => h2.mono p (h1.mono p hp)
  closed := by
    intro p hp hnp hps b q ht
    by_cases h : Stamped ex1 p
    · exact h2.mono q (h1.closed p h hnp hps b q ht)
    · exact h2.closed p hp h hps b q ht
  fresh := by
    intro i hi1 hi2
    by_cases h : i < l1.n
    · obtain ⟨a, b, c⟩ := h1.fresh i hi1 h
      rw [h2.ext.2.2 i h]
      exact ⟨a, b, c⟩
    · obtain ⟨a, b, c⟩ := h2.fresh i (by omega) hi2
      exact ⟨fun hs => a (h1.mono _ hs), b, c⟩

theorem addpost_of_grow {impl : REImpl} {s0 pos s : Nat} {ex ex1 : Extras}
    {l l1 : ThreadList} {m m1 : Subs} (hg : Grow impl s0 pos s ex l ex1 l1)
    (ho : ObsEq m1 m) (hs : Stamped ex1 s)
    (hc : ¬ Stamped ex s → ∀ b q, Tr impl s b [] q → Stamped ex1 q) :
    AddPost impl s0 pos ex l s m ex1 l1 m1 where
  sinv := hg.sinv
  listid := hg.listid
  need := hg.need
  ext := hg.ext
  obs := ho
  stamped := fun _ => hs
  mono := hg.mono
  closed := by
    intro p hp hnp b q ht
    by_cases e : p = s
    · subst e; exact hc hnp b q ht
    · exact hg.closed p hp hnp e b q ht
  fresh := hg.fresh

/-- A state is a middle state: neither the start state nor the Match state. -/
theorem wf_succ_middle {impl : REImpl} (hw : WFAut impl) {q : Nat}
    (h : (1 ≤ q ∧ q ≤ impl.states.length - 3) ∨ q = impl.states.length - 1) :
    q ≠ impl.start ∧ q ≠ impl.states.length ∧ q ≠ 0 := by
  have := hw.size
  rw [hw.start_eq]
  omega

/-- The four kinds of states of a compiled automaton. -/
theorem wf_class {impl : REImpl} (hw : WFAut impl) {s : Nat} {st : State}
    (hd : impl.deref s = some st) :
    (s ≠ impl.start ∧ s ≠ impl.states.length ∧ s ≠ impl.states.length - 1 ∧
      st.op ≠ Op.Match ∧
      ((st.op = Op.LParen ∨ st.op = Op.RParen) → 1 ≤ st.data ∧ st.data < NSUB) ∧
      ((1 ≤ st.out ∧ st.out ≤ impl.states.length - 3) ∨ st.out = impl.states.length - 1) ∧
      (st.op = Op.Split →
        ((1 ≤ st.out1 ∧ st.out1 ≤ impl.states.length - 3) ∨
          st.out1 = impl.states.length - 1))) ∨
    (s = impl.start ∧ st.op = Op.LParen ∧ st.data = 0 ∧ 1 ≤ st.out ∧
      st.out ≤ impl.states.length - 3) ∨
    (s = impl.states.length - 1 ∧ s ≠ impl.start ∧ s ≠ impl.states.length ∧
      st.op = Op.RParen ∧ st.data = 0 ∧ st.out = impl.states.length) ∨
    (s = impl.states.length ∧ s ≠ impl.start ∧ st.op = Op.Match) := by
  have hsz := hw.size
  have hse := hw.start_eq
  obtain ⟨h1, h2⟩ := deref_range hd
  by_cases c1 : s ≤ impl.states.length - 3
  · left
    obtain ⟨st1, e, a, b, c, d⟩ := hw.body s h1 c1
    rw [hd] at e
    simp only [Option.some.injEq] at e
    subst e
    exact ⟨by omega, by omega, by omega, a, b, c, d⟩
  · by_cases c2 : s = impl.states.length - 2
    · right; left
      obtain ⟨st1, e, a, b, c, d⟩ := hw.start_state
      rw [← c2, hd] at e
      simp only [Option.some.injEq] at e
      subst e
      exact ⟨by omega, a, b, c, d⟩
    · by_cases c3 : s = impl.states.length - 1
      · right; right; left
        obtain ⟨st1, e, a, b, c⟩ := hw.close_state
        rw [← c3, hd] at e
        simp only [Option.some.injEq] at e
        subst e
        exact ⟨c3, by omega, by omega, a, b, c⟩
      · right; right; right
        have c4 : s = impl.states.length := by omega
        obtain ⟨st1, e, a⟩ := hw.match_state
        rw [← c4, hd] at e
        simp only [Option.some.injEq] at e
        subst e
        exact ⟨c4, by omega, a⟩

theorem mok_middle {impl : REImpl} {s0 pos p q : Nat} {m : Subs}
    (hp : p ≠ impl.start ∧ p ≠ impl.states.length)
    (hq : q ≠ impl.start ∧ q ≠ impl.states.length) (h : MOK impl s0 pos p m) :
    MOK impl s0 pos q m := by
  obtain ⟨h1, h2, h3, h4⟩ := h
  exact ⟨h1, fun e => absurd e hq.1, fun _ _ => h3 hp.1 hp.2, fun e => absurd e hq.2⟩

theorem mok_set_pos {impl : REImpl} {s0 pos p : Nat} {m : Subs} (k : Nat) (v : Sub)
    (hk : 1 ≤ k) (h : MOK impl s0 pos p m) : MOK impl s0 pos p (m.set k v) := by
  obtain ⟨h1, h2, h3, h4⟩ := h
  have e : (m.set k v).getD 0 Sub.init = m.getD 0 Sub.init :=
    getD_set_ne _ _ _ _ _ (by omega)
  refine ⟨by simpa using h1, ?_, ?_, ?_⟩ <;> rw [e] <;> assumption

theorem int_toNat_pos {d : Int} (h : 1 ≤ d) : 1 ≤ d.toNat := by omega

theorem deref_of_range (impl : REImpl) (p : Nat) (h1 : 1 ≤ p) (h2 : p ≤ impl.states.length) :
    ∃ st, impl.deref p = some st := by
  unfold REImpl.deref
  rw [if_neg (by omega)]
  exact ⟨impl.states[p - 1], List.getElem?_eq_getElem (by omega)⟩

/-- The successors of a Split state carry the same slot 0. -/
theorem mok_split {impl : REImpl} (hw : WFAut impl) {s0 pos s : Nat} {st : State} {m : Subs}
    (hd : impl.deref s = some st) (hop : st.op = Op.Split) (hm : MOK impl s0 pos s m) :
    (MOK impl s0 pos st.out m ∧ st.out ≠ impl.start ∧ st.out ≠ 0 ∧
      st.out ≤ impl.states.length) ∧
    (MOK impl s0 pos st.out1 m ∧ st.out1 ≠ impl.start ∧ st.out1 ≠ 0 ∧
      st.out1 ≤ impl.states.length) := by
  have hsz := hw.size
  rcases wf_class hw hd with ⟨c1, c2, _, _, _, co, co1⟩ | ⟨_, e, _⟩ | ⟨_, _, _, e, _⟩ | ⟨_, _, e⟩
  · have mo := wf_succ_middle hw co
    have mo1 := wf_succ_middle hw (co1 hop)
    exact ⟨⟨mok_middle ⟨c1, c2⟩ ⟨mo.1, mo.2.1⟩ hm, mo.1, mo.2.2, by omega⟩,
      ⟨mok_middle ⟨c1, c2⟩ ⟨mo1.1, mo1.2.1⟩ hm, mo1.1, mo1.2.2, by have := co1 hop; omega⟩⟩
  · rw [hop] at e; simp at e
  · rw [hop] at e; simp at e
  · rw [hop] at e; simp at e

/-- The successor of an LParen state carries the slot 0 the state has set up. -/
theorem mok_lparen {impl : REImpl} (hw : WFAut impl) {s0 pos s : Nat} {st : State} {m : Subs}
    (hd : impl.deref s = some st) (hop : st.op = Op.LParen) (hm : MOK impl s0 pos s m)
    (hs0 : s = impl.start → s0 = pos) :
    MOK impl s0 pos st.out (m.set st.data.toNat
        { m.getD st.data.toNat Sub.init with first := some pos, matched := SubState.Incomplete })
      ∧ (st.out = impl.start → s0 = pos) ∧ st.out ≠ 0 ∧ st.out ≤ impl.states.length := by
  have hsz := hw.size
  rcases wf_class hw hd with ⟨c1, c2, _, _, cd, co, _⟩ | ⟨c1, _, cd, co1, co2⟩ |
    ⟨_, _, _, e, _⟩ | ⟨_, _, e⟩
  · have mo := wf_succ_middle hw co
    have hd1 := int_toNat_pos (cd (Or.inl hop)).1
    exact ⟨mok_set_pos _ _ hd1 (mok_middle ⟨c1, c2⟩ ⟨mo.1, mo.2.1⟩ hm),
      fun e => absurd e mo.1, mo.2.2, by omega⟩
  · have mo := wf_succ_middle hw (Or.inl ⟨co1, co2⟩)
    have e0 := hs0 c1
    subst e0
    refine ⟨?_, fun _ => rfl, mo.2.2, by omega⟩
    have hlen : 0 < m.length := by rw [hm.1]; decide
    refine ⟨by simpa using hm.1, fun e => absurd e mo.1, fun _ _ => ?_,
      fun e => absurd e mo.2.1⟩
    rw [cd]
    simp only [Int.toNat_zero]
    rw [getD_set_eq _ _ _ _ hlen]
    exact ⟨rfl, rfl⟩
  · rw [hop] at e; simp at e
  · rw [hop] at e; simp at e

/-- The successor of an RParen state carries the slot 0 the state has set up. -/
theorem mok_rparen {impl : REImpl} (hw : WFAut impl) {s0 pos s : Nat} {st : State} {m : Subs}
    (hd : impl.deref s = some st) (hop : st.op = Op.RParen) (hm : MOK impl s0 pos s m) :
    MOK impl s0 pos st.out (m.set st.data.toNat
        { m.getD st.data.toNat Sub.init with second := some pos, matched := SubState.Matched })
      ∧ (st.out = impl.start → s0 = pos) ∧ st.out ≠ 0 ∧ st.out ≤ impl.states.length := by
  have hsz := hw.size
  have hse := hw.start_eq
  rcases wf_class hw hd with ⟨c1, c2, _, _, cd, co, _⟩ | ⟨_, e, _⟩ |
    ⟨c0, c1, c2, _, cd, co⟩ | ⟨_, _, e⟩
  · have mo := wf_succ_middle hw co
    have hd1 := int_toNat_pos (cd (Or.inr hop)).1
    exact ⟨mok_set_pos _ _ hd1 (mok_middle ⟨c1, c2⟩ ⟨mo.1, mo.2.1⟩ hm),
      fun e => absurd e mo.1, mo.2.2, by omega⟩
  · rw [hop] at e; simp at e
  · refine ⟨?_, fun e => by omega, by omega, by omega⟩
    have hlen : 0 < m.length := by rw [hm.1]; decide
    obtain ⟨hml, _, h3, _⟩ := hm
    obtain ⟨_, hf⟩ := h3 c1 c2
    refine ⟨by simpa using hml, fun e => by omega, fun _ e => absurd co e, fun _ => ?_⟩
    rw [cd]
    simp only [Int.toNat_zero]
    rw [getD_set_eq _ _ _ _ hlen]
    exact ⟨rfl, hf, rfl⟩
  · rw [hop] at e; simp at e

/-- What every returning run of `addstate` on a compiled automaton guarantees:
the bookkeeping invariant, the caller's submatch array observably unchanged,
the state stamped, every newly stamped state closed under the transitions that
read nothing, every new thread reachable from the state and carrying the
right slot 0. -/
theorem addrel_post {impl : REImpl} (hw : WFAut impl) {mt : MatchType} {rt : RepType}
    (pos : Nat) {ex : Extras} {l : ThreadList} {s : Nat} {m : Subs} {ex1 : Extras}
    {l1 : ThreadList} {m1 : Subs} (h : AddRel impl mt rt (some pos) ex l s m ex1 l1 m1) :
    ∀ s0, SInv impl ex l → MOK impl s0 pos s m → (s = impl.start → s0 = pos) →
      AddPost impl s0 pos ex l s m ex1 l1 m1 := by
  induction h with
  | null ex l m =>
    intro s0 hI hm _
    exact ⟨hI, rfl, le_refl _, ext_refl l, ObsEq.refl m, fun h => absurd rfl h, fun _ h => h,
      fun p h1 h2 => absurd h1 h2, fun i h1 h2 => by omega⟩
  | stop ex l s m st ss l1 hs hd hen =>
    intro s0 hI hm _
    have hid := hw.idok s st hd
    obtain ⟨hs1, hsN⟩ := deref_range hd
    rw [hid] at hen ⊢
    have EP := enter_post hI mt rt s m hs1 hsN hm.1 ss l1 false hen
    have G0 := grow_of_enter EP hm
    rw [EP.stop_eq rfl] at G0
    refine addpost_of_grow G0 (ObsEq.refl m) ((EP.stamped_iff s).mpr (Or.inl rfl)) ?_
    intro hns
    have := EP.first_go hns
    simp at this
  | leaf ex l s m st ss l1 hs hd hen hop =>
    intro s0 hI hm _
    have hid := hw.idok s st hd
    obtain ⟨hs1, hsN⟩ := deref_range hd
    rw [hid] at hen ⊢
    have EP := enter_post hI mt rt s m hs1 hsN hm.1 ss l1 true hen
    have G0 := grow_of_enter EP hm
    refine addpost_of_grow G0 (ObsEq.refl m) ((EP.stamped_iff s).mpr (Or.inl rfl)) ?_
    intro _ b q ht
    rcases tr_eps_inv ht hd with ⟨e, _⟩ | ⟨e | e, _⟩ <;> rcases hop with o | o | o <;>
      rw [o] at e <;> simp at e
  | split ex l s m st ss l1 ex2 ex3 l3 l4 m1 m2 hs hd hen hop _ _ ih1 ih2 =>
    intro s0 hI hm _
    have hid := hw.idok s st hd
    obtain ⟨hs1, hsN⟩ := deref_range hd
    rw [hid] at hen ih1
    have EP := enter_post hI mt rt s m hs1 hsN hm.1 ss l1 true hen
    have G0 := grow_of_enter EP hm
    obtain ⟨⟨ha, hb, hc, _⟩, ⟨ha1, hb1, hc1, _⟩⟩ := mok_split hw hd hop hm
    have P1 := ih1 s0 G0.sinv ha (fun e => absurd e hb)
    have P2 := ih2 s0 P1.sinv (mok_obs P1.obs ha1) (fun e => absurd e hb1)
    have G1 := grow_of_post P1 (Tr.split_out s st hd hop)
    have G2 := grow_of_post P2 (Tr.split_out1 s st hd hop)
    have G := grow_trans G0 (grow_trans G1 G2)
    refine addpost_of_grow G (ObsEq.trans P2.obs P1.obs)
      (G2.mono _ (G1.mono _ ((EP.stamped_iff s).mpr (Or.inl rfl)))) ?_
    intro _ b q ht
    rcases tr_eps_inv ht hd with ⟨_, ⟨_, e⟩ | ⟨_, e⟩⟩ | ⟨e | e, _⟩
    · rw [e]; exact P2.mono _ (P1.stamped hc)
    · rw [e]; exact P2.stamped hc1
    · rw [hop] at e; simp at e
    · rw [hop] at e; simp at e
  | lparen ex l s m st ss l1 ex2 l3 m2 hs hd hen hop _ ih =>
    intro s0 hI hm hs0
    have hid := hw.idok s st hd
    obtain ⟨hs1, hsN⟩ := deref_range hd
    rw [hid] at hen ih
    have EP := enter_post hI mt rt s m hs1 hsN hm.1 ss l1 true hen
    have G0 := grow_of_enter EP hm
    have key := mok_lparen hw hd hop hm hs0
    obtain ⟨hk1, hk2, hne, _⟩ := key
    have P1 := ih s0 G0.sinv hk1 hk2
    have G1 := grow_of_post P1 (Tr.lparen s st hd hop)
    have G := grow_trans G0 G1
    refine addpost_of_grow G (obsEq_restore m m2 _ _ _ rfl P1.obs)
      (G1.mono _ ((EP.stamped_iff s).mpr (Or.inl rfl))) ?_
    intro _ b q ht
    rcases tr_eps_inv ht hd with ⟨e, _⟩ | ⟨_, _, e⟩
    · rw [hop] at e; simp at e
    · rw [e]; exact P1.stamped hne
  | rparen ex l s m st ss l1 ex2 l3 m2 hs hd hen hop _ ih =>
    intro s0 hI hm hs0
    have hid := hw.idok s st hd
    obtain ⟨hs1, hsN⟩ := deref_range hd
    rw [hid] at hen ih
    have EP := enter_post hI mt rt s m hs1 hsN hm.1 ss l1 true hen
    have G0 := grow_of_enter EP hm
    have key := mok_rparen hw hd hop hm
    obtain ⟨hk1, hk2, hne, _⟩ := key
    have P1 := ih s0 G0.sinv hk1 hk2
    have G1 := grow_of_post P1 (Tr.rparen s st hd hop)
    have G := grow_trans G0 G1
    refine addpost_of_grow G (obsEq_restore m m2 _ _ _ rfl P1.obs)
      (G1.mono _ ((EP.stamped_iff s).mpr (Or.inl rfl))) ?_
    intro _ b q ht
    rcases tr_eps_inv ht hd with ⟨e, _⟩ | ⟨_, _, e⟩
    · rw [hop] at e; simp at e
    · rw [e]; exact P1.stamped hne

/-- With fuel above the visits left, `addstate` returns. -/
theorem addstate_some {impl : REImpl} (hw : WFAut impl) (mt : MatchType) (rt : RepType)
    (pos : Nat) :
    ∀ (fuel : Nat) (ex : Extras) (l : ThreadList) (s : Nat) (m : Subs) (s0 : Nat),
      SInv impl ex l → MOK impl s0 pos s m → (s = impl.start → s0 = pos) →
      s ≤ impl.states.length → fuelNeed ex.listid ex < fuel →
      ∃ ex1 l1 m1, addstate impl mt rt fuel ex l s m (some pos) = some (ex1, l1, m1) := by
  intro fuel
  induction fuel with
  | zero => intro ex l s m s0 _ _ _ _ h; omega
  | succ fuel ih =>
    intro ex l s m s0 hI hm hs0 hsN hf
    unfold addstate
    by_cases hs : s = 0
    · rw [if_pos hs]; exact ⟨_, _, _, rfl⟩
    · rw [if_neg hs]
      obtain ⟨st, hd⟩ := deref_of_range impl s (by omega) hsN
      rw [hd]
      simp only
      have hid := hw.idok s st hd
      generalize hen : addstate_enter mt rt ex.listid (ex.stateex.getD st.id StateEx.init) l m
        = en
      obtain ⟨ss, la, go⟩ := en
      simp only
      cases go with
      | false => exact ⟨_, _, _, rfl⟩
      | true =>
        simp only [Bool.not_true, Bool.false_eq_true, if_false]
        rw [hid] at hen ⊢
        have EP := enter_post hI mt rt s m (by omega) hsN hm.1 ss la true hen
        have G0 := grow_of_enter EP hm
        have hlt := EP.need_lt rfl
        have hf1 : fuelNeed ex.listid { ex with stateex := ex.stateex.set s ss } < fuel := by
          omega
        cases hop : st.op with
        | Char => exact ⟨_, _, _, rfl⟩
        | Any => exact ⟨_, _, _, rfl⟩
        | Match => exact ⟨_, _, _, rfl⟩
        | Split =>
          simp only
          obtain ⟨⟨ha, hb, hc, hr⟩, ⟨ha1, hb1, hc1, hr1⟩⟩ := mok_split hw hd hop hm
          obtain ⟨ex2, l3, m1, e1⟩ := ih _ (enterThread ss la s m) st.out m s0 G0.sinv ha
            (fun e => absurd e hb) hr hf1
          have P1 := addrel_post hw pos (addstate_rel impl mt rt (some pos) _ _ _ _ _ _ _ _ e1)
            s0 G0.sinv ha (fun e => absurd e hb)
          change ∃ ex1 l1 m1, (match addstate impl mt rt fuel
            { ex with stateex := ex.stateex.set s ss } (enterThread ss la s m) st.out m (some pos)
            with
            | none => none
            | some (ex2, l3, m1) => addstate impl mt rt fuel ex2 l3 st.out1 m1 (some pos))
            = some (ex1, l1, m1)
          rw [e1]
          simp only
          have hn := P1.need
          have hl := P1.listid
          simp only at hn hl
          exact ih ex2 l3 st.out1 m1 s0 P1.sinv (mok_obs P1.obs ha1) (fun e => absurd e hb1) hr1
            (by rw [hl]; omega)
        | LParen =>
          simp only
          obtain ⟨hk1, hk2, _, hr⟩ := mok_lparen hw hd hop hm hs0
          obtain ⟨ex2, l3, m1, e1⟩ := ih _ (enterThread ss la s m) st.out _ s0 G0.sinv hk1 hk2 hr
            hf1
          change ∃ ex1 l1 m1, (match addstate impl mt rt fuel
            { ex with stateex := ex.stateex.set s ss } (enterThread ss la s m) st.out
            (m.set st.data.toNat { m.getD st.data.toNat Sub.init with
              first := some pos, matched := SubState.Incomplete }) (some pos)
            with
            | none => none
            | some (ex2, l3, m2) => some (ex2, l3, m2.set st.data.toNat
                ((m2.getD st.data.toNat Sub.init).assign (m.getD st.data.toNat Sub.init))))
            = some (ex1, l1, m1)
          rw [e1]
          exact ⟨_, _, _, rfl⟩
        | RParen =>
          simp only
          obtain ⟨hk1, hk2, _, hr⟩ := mok_rparen hw hd hop hm
          obtain ⟨ex2, l3, m1, e1⟩ := ih _ (enterThread ss la s m) st.out _ s0 G0.sinv hk1 hk2 hr
            hf1
          change ∃ ex1 l1 m1, (match addstate impl mt rt fuel
            { ex with stateex := ex.stateex.set s ss } (enterThread ss la s m) st.out
            (m.set st.data.toNat { m.getD st.data.toNat Sub.init with
              second := some pos, matched := SubState.Matched }) (some pos)
            with
            | none => none
            | some (ex2, l3, m2) => some (ex2, l3, m2.set st.data.toNat
                ((m2.getD st.data.toNat Sub.init).assign (m.getD st.data.toNat Sub.init))))
            = some (ex1, l1, m1)
          rw [e1]
          exact ⟨_, _, _, rfl⟩

theorem sinv_n_le {impl : REImpl} {ex : Extras} {l : ThreadList} (h : SInv impl ex l) :
    l.n ≤ impl.states.length := by
  have hmap : ∀ i ∈ Finset.range l.n,
      (l.t.getD i Thread.init).state ∈ Finset.Icc 1 impl.states.length := by
    intro i hi
    rw [Finset.mem_range] at hi
    rw [Finset.mem_Icc]
    exact h.rng i hi
  have hinj : Set.InjOn (fun i => (l.t.getD i Thread.init).state) (Finset.range l.n) := by
    intro i hi j hj e
    simp only [Finset.coe_range, Set.mem_Iio] at hi hj
    simp only at e
    have h1 := (h.inj i hi).2
    have h2 := (h.inj j hj).2
    rw [e] at h1
    omega
  have hc := Finset.card_le_card_of_injOn _ hmap hinj
  rw [Finset.card_range, Nat.card_Icc] at hc
  omega

theorem sameThreads_refl (cl : ThreadList) : SameThreads cl cl :=
  ⟨rfl, rfl, fun _ => ⟨rfl, ObsEq.refl _⟩⟩

theorem sameThreads_trans {a b c : ThreadList} (h1 : SameThreads a b) (h2 : SameThreads b c) :
    SameThreads a c :=
  ⟨h2.1.trans h1.1, h2.2.1.trans h1.2.1,
    fun i => ⟨(h2.2.2 i).1.trans (h1.2.2 i).1, ObsEq.trans (h2.2.2 i).2 (h1.2.2 i).2⟩⟩

/-- Writing back an observably equal submatch array into a thread keeps the threads the same. -/
theorem sameThreads_set (cl : ThreadList) (i : Nat) (m1 : Subs)
    (h : ObsEq m1 (cl.t.getD i Thread.init).subs) :
    SameThreads cl
      { cl with t := cl.t.set i { cl.t.getD i Thread.init with subs := m1 } } := by
  refine ⟨rfl, by simp, fun j => ?_⟩
  simp only
  rw [getD_set_of_bound]
  split
  · rename_i hij
    obtain ⟨rfl, _⟩ := hij
    exact ⟨rfl, h⟩
  · exact ⟨rfl, ObsEq.refl _⟩

theorem tstart_obs {t t1 : Thread} (ho : ObsEq t1.subs t.subs)
    (hne : (t.subs.getD 0 Sub.init).matched ≠ SubState.Unmatched) : tstart t1 = tstart t := by
  obtain ⟨_, e2, _⟩ := obs_eq_parts (ho.2 0)
  unfold tstart
  rw [e2 hne]

/-- At a middle state slot 0 does not depend on the offset of the list. -/
theorem mok_middle_pos {impl : REImpl} {s0 pos pos1 p q : Nat} {m : Subs}
    (hp : p ≠ impl.start ∧ p ≠ impl.states.length)
    (hq : q ≠ impl.start ∧ q ≠ impl.states.length) (h : MOK impl s0 pos p m) :
    MOK impl s0 pos1 q m := by
  obtain ⟨h1, h2, h3, h4⟩ := h
  exact ⟨h1, fun e => absurd e hq.1, fun _ _ => h3 hp.1 hp.2, fun e => absurd e hq.2⟩

/-- A thread that fires stands at a middle state, and so does the state it moves to. -/
theorem fires_middle {impl : REImpl} (hw : WFAut impl) {c : Nat} {t : Thread} {q : Nat}
    (h : Fires impl c t q) :
    (t.state ≠ impl.start ∧ t.state ≠ impl.states.length) ∧
    (q ≠ impl.start ∧ q ≠ impl.states.length) ∧ q ≠ 0 ∧ q ≤ impl.states.length := by
  obtain ⟨st, hd, rfl, hop⟩ := h
  have hsz := hw.size
  rcases wf_class hw hd with ⟨c1, c2, _, _, _, co, _⟩ | ⟨_, e, _⟩ | ⟨_, _, _, e, _⟩ | ⟨_, _, e⟩
  · have mo := wf_succ_middle hw co
    exact ⟨⟨c1, c2⟩, ⟨mo.1, mo.2.1⟩, mo.2.2, by omega⟩
  · rcases hop with o | ⟨o, _⟩ <;> rw [o] at e <;> simp at e
  · rcases hop with o | ⟨o, _⟩ <;> rw [o] at e <;> simp at e
  · rcases hop with o | ⟨o, _⟩ <;> rw [o] at e <;> simp at e

theorem fires_unique {impl : REImpl} {c : Nat} {t : Thread} {q q1 : Nat}
    (h : Fires impl c t q) (h1 : Fires impl c t q1) : q1 = q := by
  obtain ⟨st, hd, rfl, _⟩ := h
  obtain ⟨st1, hd1, rfl, _⟩ := h1
  rw [hd] at hd1
  simp only [Option.some.injEq] at hd1
  rw [hd1]

/-- The value of `longer a b` when slot 0 of `a` is Matched with both positions
set and slot 0 of `b` is well formed. -/
theorem longer_eq {a b : Subs} {sa ea : Nat}
    (ha : (a.getD 0 Sub.init).matched = SubState.Matched)
    (hf : (a.getD 0 Sub.init).first = some sa) (hs : (a.getD 0 Sub.init).second = some ea)
    (hb : SubsOK b) :
    (longer a b = true ↔ ¬ GeMatch b sa ea) := by
  obtain ⟨_, hb2⟩ := hb
  unfold longer GeMatch
  generalize a.getD 0 Sub.init = A at *
  generalize b.getD 0 Sub.init = B at *
  obtain ⟨af, as, am⟩ := A
  obtain ⟨bf, bs, bm⟩ := B
  simp only at ha hf hs hb2
  subst ha hf hs
  rcases hb2 with hu | ⟨hm, s, e, h1, h2⟩
  · subst hu
    simp
  · subst hm h1 h2
    simp only [reduceCtorEq, if_false, Bool.false_or, Iter.lt, decide_eq_true_eq,
      Option.some.injEq, Bool.and_eq_true, true_and, exists_and_left, exists_eq_left']
    by_cases c1 : sa < s <;> by_cases c2 : sa = s <;> by_cases c3 : e < ea <;>
      simp [c1, c2, c3] <;> omega

/-- A set of stamped states that is closed under unlabeled arrows holds every
state an unlabeled path leads to from one of its states. -/
theorem stamped_path {impl : REImpl} {ex : Extras}
    (hcl : ∀ p, Stamped ex p → ∀ b q, Tr impl p b [] q → Stamped ex q) {p q : Nat}
    (hp : Stamped ex p) (h : Path impl p [] q) : Stamped ex q := by
  generalize hw : ([] : List Nat) = w at h
  induction h with
  | refl p => exact hp
  | cons p b lab q1 w1 q2 ht _ ih =>
    have e := List.append_eq_nil.mp hw.symm
    obtain ⟨e1, e2⟩ := e
    subst e1
    exact ih (hcl p hp b q1 ht) e2.symm

/-- The loop of `step` moves on past a thread that neither fires nor stands at the Match state. -/
theorem loopInv_advance {impl : REImpl} {mt : MatchType} {c pos npos fuel : Nat} {sc0 : Scratch}
    {cl0 : ThreadList} {i : Nat} {sc : Scratch} {cl nl : ThreadList}
    (h : LoopInv impl mt c pos npos fuel sc0 cl0 i sc cl nl)
    (hnf : ∀ q, ¬ Fires impl c (cl0.t.getD i Thread.init) q)
    (hnm : (cl0.t.getD i Thread.init).state ≠ impl.states.length) :
    LoopInv impl mt c pos npos fuel sc0 cl0 (i + 1) sc cl nl where
  frame := h.frame
  sinv := h.sinv
  listid := h.listid
  dummy := h.dummy
  need := h.need
  src := by
    obtain ⟨f, hf1, hf2, hf3⟩ := h.src
    refine ⟨f, fun k hk => ⟨by have := (hf1 k hk).1; omega, (hf1 k hk).2⟩, hf2, ?_⟩
    intro j hj q hq
    by_cases e : j = i
    · subst e; exact absurd hq (hnf q)
    · exact hf3 j (by omega) q hq
  closed := h.closed
  fired := by
    intro j hj q hq
    by_cases e : j = i
    · subst e; exact absurd hq (hnf q)
    · exact h.fired j (by omega) q hq
  subsok := h.subsok
  biased := by
    intro hm
    obtain ⟨a, b⟩ := h.biased hm
    refine ⟨a, fun j hj => ?_⟩
    by_cases e : j = i
    · subst e; exact hnm
    · exact b j (by omega)
  origin := by
    rcases h.origin with e | ⟨j, hj, a, b⟩
    · exact Or.inl e
    · exact Or.inr ⟨j, by omega, a, b⟩
  best := by
    intro j hj hs
    by_cases e : j = i
    · subst e; exact absurd hs hnm
    · exact h.best j (by omega) hs
  keep := h.keep

/-- The loop of `step` after a thread has fired and `addstate` has returned. -/
theorem loopInv_fire {impl : REImpl} (hw : WFAut impl) {mt : MatchType}
    {c pos npos fuel : Nat} {sc0 : Scratch}
    {cl0 : ThreadList} {i : Nat} {sc : Scratch} {cl nl : ThreadList}
    (h : LoopInv impl mt c pos npos fuel sc0 cl0 i sc cl nl) {q : Nat}
    (hf : Fires impl c (cl0.t.getD i Thread.init) q) {ex1 : Extras} {nl1 : ThreadList}
    {m1 : Subs}
    (P : AddPost impl (tstart (cl0.t.getD i Thread.init)) npos sc.extras nl q
      (cl.t.getD i Thread.init).subs ex1 nl1 m1) :
    LoopInv impl mt c pos npos fuel sc0 cl0 (i + 1) { sc with extras := ex1 }
      { cl with t := cl.t.set i { cl.t.getD i Thread.init with subs := m1 } } nl1 where
  frame := sameThreads_trans h.frame (sameThreads_set cl i m1 P.obs)
  sinv := P.sinv
  listid := P.listid.trans h.listid
  dummy := h.dummy
  need := by
    have a := P.need
    have b := h.need
    have e : ex1.listid = sc.extras.listid := P.listid
    simp only
    rw [e]
    omega
  src := by
    obtain ⟨f, hf1, hf2, hf3⟩ := h.src
    refine ⟨fun k => if k < nl.n then f k else i, fun k hk => ?_, fun k1 k2 h12 hk2 => ?_,
      fun j hj q0 hq0 q1 hq1 => ?_⟩
    · by_cases hkn : k < nl.n
      · simp only [hkn, if_true]
        obtain ⟨a, q1, b1, b2, b3⟩ := hf1 k hkn
        rw [P.ext.2.2 k hkn]
        exact ⟨by omega, q1, b1, b2, b3⟩
      · simp only [hkn, if_false]
        obtain ⟨_, b2, b3⟩ := P.fresh k (by omega) hk
        exact ⟨by omega, q, hf, b2, b3⟩
    · simp only
      by_cases hk2n : k2 < nl.n
      · have hk1n : k1 < nl.n := by omega
        simp only [hk1n, hk2n, if_true]
        exact hf2 k1 k2 h12 hk2n
      · simp only [hk2n, if_false]
        by_cases hk1n : k1 < nl.n
        · simp only [hk1n, if_true]
          have := (hf1 k1 hk1n).1
          omega
        · simp only [hk1n, if_false]
          exact le_refl _
    · by_cases e : j = i
      · subst e
        rw [fires_unique hf hq0] at hq1
        have hcl : ∀ p, Stamped ex1 p → ∀ b q2, Tr impl p b [] q2 → Stamped ex1 q2 := by
          intro p hp b q2 ht
          by_cases e : Stamped sc.extras p
          · exact P.mono q2 (h.closed p e b q2 ht)
          · exact P.closed p hp e b q2 ht
        have hst := stamped_path hcl (P.stamped (fires_middle hw hf).2.2.1) hq1
        obtain ⟨hk, hks⟩ := P.sinv.thr q1 hst
        refine ⟨_, hk, hks, ?_⟩
        simp only
        split
        · rename_i hlt
          have := (hf1 _ hlt).1
          omega
        · exact le_refl _
      · obtain ⟨k, hk, hks, hkf⟩ := hf3 j (by omega) q0 hq0 q1 hq1
        refine ⟨k, by have := P.ext.1; omega, ?_, ?_⟩
        · rw [P.ext.2.2 k hk]; exact hks
        · simp only [hk, if_true]; exact hkf
  closed := by
    intro p hp b q1 ht
    by_cases e : Stamped sc.extras p
    · exact P.mono q1 (h.closed p e b q1 ht)
    · exact P.closed p hp e b q1 ht
  fired := by
    intro j hj q1 hq
    by_cases e : j = i
    · subst e
      rw [fires_unique hf hq]
      exact P.stamped (fires_middle hw hf).2.2.1
    · exact P.mono q1 (h.fired j (by omega) q1 hq)
  subsok := h.subsok
  biased := by
    intro hm
    obtain ⟨a, b⟩ := h.biased hm
    refine ⟨a, fun j hj => ?_⟩
    by_cases e : j = i
    · subst e; exact (fires_middle hw hf).1.2
    · exact b j (by omega)
  origin := by
    rcases h.origin with e | ⟨j, hj, a, b⟩
    · exact Or.inl e
    · exact Or.inr ⟨j, by omega, a, b⟩
  best := by
    intro j hj hs
    by_cases e : j = i
    · subst e; exact absurd hs (fires_middle hw hf).1.2
    · exact h.best j (by omega) hs
  keep := h.keep

theorem geMatch_obs {a b : Subs} {s e : Nat} (ho : ObsEq a b) (h : GeMatch b s e) :
    GeMatch a s e := by
  obtain ⟨e1, e2, e3⟩ := obs_eq_parts (ho.2 0)
  obtain ⟨hm, s1, e4, hf, hs, hc⟩ := h
  exact ⟨e1.trans hm, s1, e4, (e2 (by rw [hm]; simp)).trans hf, (e3 hm).trans hs, hc⟩

theorem subsOK_obs {a b : Subs} (ho : ObsEq a b) (h : SubsOK b) : SubsOK a := by
  obtain ⟨e1, e2, e3⟩ := obs_eq_parts (ho.2 0)
  obtain ⟨hl, hc⟩ := h
  refine ⟨ho.1.trans hl, ?_⟩
  rcases hc with hu | ⟨hm, s, e, hf, hs⟩
  · exact Or.inl (e1.trans hu)
  · exact Or.inr ⟨e1.trans hm, s, e, (e2 (by rw [hm]; simp)).trans hf, (e3 hm).trans hs⟩

/-- A better match replaces the best match: what was at least as good as
`(s1, e1)` before is so afterwards. -/
theorem geMatch_replace {b : Subs} {sa ea s1 e1 : Nat} (hb : ¬ GeMatch b sa ea)
    (h : GeMatch b s1 e1) : sa < s1 ∨ (sa = s1 ∧ e1 ≤ ea) := by
  obtain ⟨hm, s, e, hf, hs, hc⟩ := h
  by_contra hcon
  apply hb
  refine ⟨hm, s, e, hf, hs, ?_⟩
  omega

/-- The loop of `step` after a thread at the Match state has been compared with
the best match in the leftmost-longest mode. -/
theorem loopInv_match {impl : REImpl} (hw : WFAut impl) {mt : MatchType}
    {c pos npos fuel : Nat} {sc0 : Scratch}
    {cl0 : ThreadList} {i : Nat} {sc : Scratch} {cl nl : ThreadList}
    (h : LoopInv impl mt c pos npos fuel sc0 cl0 i sc cl nl)
    (hst : (cl0.t.getD i Thread.init).state = impl.states.length)
    (hmt : mt = MatchType.LeftmostLongest)
    (hmok : MOK impl (tstart (cl0.t.getD i Thread.init)) pos
      (cl0.t.getD i Thread.init).state (cl0.t.getD i Thread.init).subs) :
    LoopInv impl mt c pos npos fuel sc0 cl0 (i + 1)
      (if longer (cl.t.getD i Thread.init).subs sc.subs = true then
        { sc with subs := Subs.assign sc.subs (cl.t.getD i Thread.init).subs } else sc)
      cl nl := by
  have hobs : ObsEq (cl.t.getD i Thread.init).subs (cl0.t.getD i Thread.init).subs :=
    (h.frame.2.2 i).2
  have hm1 := mok_obs hobs hmok
  obtain ⟨hlen, _, _, h4⟩ := hm1
  obtain ⟨ha, hf, hs⟩ := h4 hst
  have hnf : ∀ q, ¬ Fires impl c (cl0.t.getD i Thread.init) q :=
    fun q hq => (fires_middle hw hq).1.2 hst
  have hle := longer_eq ha hf hs h.subsok
  by_cases hlong : longer (cl.t.getD i Thread.init).subs sc.subs = true
  · rw [if_pos hlong]
    have hnot := hle.mp hlong
    have hoa : ObsEq (Subs.assign sc.subs (cl.t.getD i Thread.init).subs)
        (cl.t.getD i Thread.init).subs := obsEq_assign _ _ (by rw [h.subsok.1, hlen])
    have hge : ∀ s1 e1, GeMatch sc.subs s1 e1 →
        GeMatch (Subs.assign sc.subs (cl.t.getD i Thread.init).subs) s1 e1 := by
      intro s1 e1 hg
      have := geMatch_replace hnot hg
      exact geMatch_obs hoa ⟨ha, _, _, hf, hs, this⟩
    exact {
      frame := h.frame
      sinv := h.sinv
      listid := h.listid
      dummy := h.dummy
      need := h.need
      src := by
        obtain ⟨f, hf1, hf2, hf3⟩ := h.src
        refine ⟨f, fun k hk => ⟨by have := (hf1 k hk).1; omega, (hf1 k hk).2⟩, hf2, ?_⟩
        intro j hj q hq
        by_cases e : j = i
        · subst e; exact absurd hq (hnf q)
        · exact hf3 j (by omega) q hq
      closed := h.closed
      fired := by
        intro j hj q hq
        by_cases e : j = i
        · subst e; exact absurd hq (hnf q)
        · exact h.fired j (by omega) q hq
      subsok := subsOK_obs hoa ⟨hlen, Or.inr ⟨ha, _, _, hf, hs⟩⟩
      biased := by intro hm; rw [hmt] at hm; simp at hm
      origin := Or.inr ⟨i, by omega, hst, ObsEq.trans hoa hobs⟩
      best := by
        intro j hj hs1
        by_cases e : j = i
        · subst e
          exact geMatch_obs hoa ⟨ha, _, _, hf, hs, Or.inr ⟨rfl, le_refl _⟩⟩
        · exact hge _ _ (h.best j (by omega) hs1)
      keep := fun s e hg => hge _ _ (h.keep s e hg) }
  · rw [if_neg hlong]
    have hge : GeMatch sc.subs (tstart (cl0.t.getD i Thread.init)) pos := by
      by_contra hcon
      exact hlong (hle.mpr hcon)
    exact {
      frame := h.frame
      sinv := h.sinv
      listid := h.listid
      dummy := h.dummy
      need := h.need
      src := by
        obtain ⟨f, hf1, hf2, hf3⟩ := h.src
        refine ⟨f, fun k hk => ⟨by have := (hf1 k hk).1; omega, (hf1 k hk).2⟩, hf2, ?_⟩
        intro j hj q hq
        by_cases e : j = i
        · subst e; exact absurd hq (hnf q)
        · exact hf3 j (by omega) q hq
      closed := h.closed
      fired := by
        intro j hj q hq
        by_cases e : j = i
        · subst e; exact absurd hq (hnf q)
        · exact h.fired j (by omega) q hq
      subsok := h.subsok
      biased := by intro hm; rw [hmt] at hm; simp at hm
      origin := by
        rcases h.origin with e | ⟨j, hj, a, b⟩
        · exact Or.inl e
        · exact Or.inr ⟨j, by omega, a, b⟩
      best := by
        intro j hj hs1
        by_cases e : j = i
        · subst e; exact hge
        · exact h.best j (by omega) hs1
      keep := h.keep }

/-- The loop of `step` returns, and ends in one of the three ways of `LoopEnd`
with the loop invariant at the index where it stopped. -/
theorem step_loop_post {impl : REImpl} (hw : WFAut impl) (mt : MatchType) (rt : RepType)
    (fuel c pos npos : Nat) (sc0 : Scratch) (cl0 : ThreadList) (hC : CInv impl pos cl0) :
    ∀ (k i : Nat) (sc : Scratch) (cl nl : ThreadList), i + k = cl0.n →
      LoopInv impl mt c pos npos fuel sc0 cl0 i sc cl nl →
      ∃ sc1 cl1 nl1 ret,
        step_loop impl mt rt fuel c (some npos) k i sc cl nl = some (sc1, cl1, nl1, ret) ∧
        LoopEnd impl mt c pos npos fuel sc0 cl0 sc1 cl1 nl1 ret := by
  intro k
  induction k with
  | zero =>
    intro i sc cl nl hik h
    exact ⟨sc, cl, nl, false, rfl, i, sc, by omega, h, Or.inl ⟨by omega, rfl, rfl⟩⟩
  | succ k ih =>
    intro i sc cl nl hik h
    have hi : i < cl0.n := by omega
    obtain ⟨hs1, hsN, hmok⟩ := hC.2 i hi
    have hstate : (cl.t.getD i Thread.init).state = (cl0.t.getD i Thread.init).state :=
      (h.frame.2.2 i).1
    have hobs : ObsEq (cl.t.getD i Thread.init).subs (cl0.t.getD i Thread.init).subs :=
      (h.frame.2.2 i).2
    unfold step_loop
    simp only
    by_cases hb : (decide (mt = MatchType.LeftmostLongest)
        && decide ((sc.subs.getD 0 Sub.init).matched ≠ SubState.Unmatched)
        && Iter.lt (sc.subs.getD 0 Sub.init).first
          ((cl.t.getD i Thread.init).subs.getD 0 Sub.init).first) = true
    · rw [if_pos hb]
      simp only [Bool.and_eq_true, decide_eq_true_eq] at hb
      exact ⟨sc, cl, nl, false, rfl, i, sc, by omega, h,
        Or.inr (Or.inl ⟨hi, rfl, rfl, hb.1.1, hb.1.2, hb.2⟩)⟩
    · rw [if_neg hb]
      obtain ⟨st, hd⟩ := deref_of_range impl (cl0.t.getD i Thread.init).state hs1 hsN
      have hd1 : impl.deref (cl.t.getD i Thread.init).state = some st := by rw [hstate]; exact hd
      rw [hd1]
      simp only
      have fire_case : ∀ q, Fires impl c (cl0.t.getD i Thread.init) q → q = st.out →
          ∃ sc1 cl1 nl1 ret,
            (match addstate impl mt rt fuel sc.extras nl st.out (cl.t.getD i Thread.init).subs
                (some npos) with
              | none => none
              | some (ex1, nlist1, m1) =>
                step_loop impl mt rt fuel c (some npos) k (i + 1) { sc with extras := ex1 }
                  { cl with t := cl.t.set i { cl.t.getD i Thread.init with subs := m1 } } nlist1)
              = some (sc1, cl1, nl1, ret) ∧
            LoopEnd impl mt c pos npos fuel sc0 cl0 sc1 cl1 nl1 ret := by
        intro q hf hq
        subst hq
        obtain ⟨hm1, hm2, hq0, hqN⟩ := fires_middle hw hf
        have hmq : MOK impl (tstart (cl0.t.getD i Thread.init)) npos st.out
            (cl.t.getD i Thread.init).subs := mok_obs hobs (mok_middle_pos hm1 hm2 hmok)
        obtain ⟨ex1, nl1, m1, e1⟩ := addstate_some hw mt rt npos fuel sc.extras nl st.out
          (cl.t.getD i Thread.init).subs _ h.sinv hmq (fun e => absurd e hm2.1) hqN h.need
        have P := addrel_post hw npos (addstate_rel impl mt rt (some npos) _ _ _ _ _ _ _ _ e1)
          _ h.sinv hmq (fun e => absurd e hm2.1)
        rw [e1]
        simp only
        exact ih (i + 1) _ _ _ (by omega) (loopInv_fire hw h hf P)
      cases hop : st.op with
      | Char =>
        simp only
        by_cases hc : (c : Int) = st.data
        · rw [if_pos hc]
          exact fire_case st.out ⟨st, hd, rfl, Or.inr ⟨hop, hc⟩⟩ rfl
        · rw [if_neg hc]
          refine ih (i + 1) sc cl nl (by omega) (loopInv_advance h ?_ ?_)
          · rintro q ⟨st1, hd1, _, ho⟩
            rw [hd] at hd1
            simp only [Option.some.injEq] at hd1
            subst hd1
            rcases ho with o | ⟨_, o⟩
            · rw [hop] at o; simp at o
            · exact hc o
          · intro e
            obtain ⟨st1, hd1, ho⟩ := hw.match_state
            rw [← e, hd] at hd1
            simp only [Option.some.injEq] at hd1
            subst hd1
            rw [hop] at ho; simp at ho
      | Any =>
        simp only
        exact fire_case st.out ⟨st, hd, rfl, Or.inl hop⟩ rfl
      | Match =>
        simp only
        have hN : (cl0.t.getD i Thread.init).state = impl.states.length := by
          rcases wf_class hw hd with ⟨_, _, _, e, _⟩ | ⟨_, e, _⟩ | ⟨_, _, _, e, _⟩ | ⟨e, _⟩
          · exact absurd hop e
          · rw [hop] at e; simp at e
          · rw [hop] at e; simp at e
          · exact e
        cases mt with
        | LeftmostBiased =>
          simp only
          exact ⟨_, cl, nl, true, rfl, i, sc, by omega, h, Or.inr (Or.inr ⟨hi, rfl, rfl, hN, rfl⟩)⟩
        | LeftmostLongest =>
          simp only
          have hL := loopInv_match hw h hN rfl hmok
          by_cases hlong : longer (cl.t.getD i Thread.init).subs sc.subs = true
          · rw [if_pos hlong] at hL ⊢
            exact ih (i + 1) _ cl nl (by omega) hL
          · rw [if_neg hlong] at hL ⊢
            exact ih (i + 1) _ cl nl (by omega) hL
      | Split | LParen | RParen =>
        simp only
        refine ih (i + 1) sc cl nl (by omega) (loopInv_advance h ?_ ?_)
        · rintro q ⟨st1, hd1, _, ho⟩
          rw [hd] at hd1
          simp only [Option.some.injEq] at hd1
          subst hd1
          rcases ho with o | ⟨o, _⟩ <;> rw [hop] at o <;> simp at o
        · intro e
          obtain ⟨st1, hd1, ho⟩ := hw.match_state
          rw [← e, hd] at hd1
          simp only [Option.some.injEq] at hd1
          subst hd1
          rw [hop] at ho; simp at ho

/-! ### Slices of the subject and paths -/

theorem slice_self (input : List Nat) (s : Nat) : slice input s s = [] := by
  simp [slice]

theorem slice_append (input : List Nat) {s m e : Nat} (h1 : s ≤ m) (h2 : m ≤ e) :
    slice input s e = slice input s m ++ slice input m e := by
  unfold slice
  have e1 : e - s = (m - s) + (e - m) := by omega
  rw [e1, List.take_add, List.drop_drop]
  have e2 : s + (m - s) = m := by omega
  rw [e2]

theorem slice_one {input : List Nat} {pos b : Nat} {rest : List Nat}
    (hd : input.drop pos = b :: rest) : slice input pos (pos + 1) = [b] := by
  unfold slice
  rw [hd]
  simp

theorem slice_snoc {input : List Nat} {s pos b : Nat} {rest : List Nat} (hs : s ≤ pos)
    (hd : input.drop pos = b :: rest) :
    slice input s (pos + 1) = slice input s pos ++ [b] := by
  rw [slice_append input hs (Nat.le_succ pos), slice_one hd]

theorem slice_cons {input : List Nat} {pos e b : Nat} {rest : List Nat}
    (hd : input.drop pos = b :: rest) (he : pos < e) :
    slice input pos e = b :: slice input (pos + 1) e := by
  rw [slice_append input (Nat.le_succ pos) he, slice_one hd]
  rfl

theorem drop_length_lt {input : List Nat} {pos b : Nat} {rest : List Nat}
    (hd : input.drop pos = b :: rest) : pos < input.length := by
  by_contra h
  rw [List.drop_of_length_le (by omega)] at hd
  simp at hd

theorem tr_label {impl : REImpl} {p q : Nat} {b : Bool} {lab : List Nat}
    (h : Tr impl p b lab q) : lab = [] ∨ ∃ x, lab = [x] := by
  cases h
  · exact Or.inr ⟨_, rfl⟩
  · exact Or.inr ⟨_, rfl⟩
  all_goals exact Or.inl rfl

theorem path_one {impl : REImpl} {p q : Nat} {b : Bool} {lab : List Nat}
    (h : Tr impl p b lab q) : Path impl p lab q := by
  have := Path.cons p b lab q [] q h (Path.refl q)
  simpa using this

theorem path_trans {impl : REImpl} {p q r : Nat} {u v : List Nat} (h1 : Path impl p u q)
    (h2 : Path impl q v r) : Path impl p (u ++ v) r := by
  induction h1 with
  | refl p => simpa using h2
  | cons p b lab q1 w q2 ht _ ih =>
    rw [List.append_assoc]
    exact Path.cons p b lab q1 _ r ht (ih h2)

theorem path_split {impl : REImpl} {a b : Nat} {w : List Nat} (h : Path impl a w b) :
    ∀ u v, w = u ++ v → ∃ q, Path impl a u q ∧ Path impl q v b := by
  induction h with
  | refl p =>
    intro u v e
    obtain ⟨e1, e2⟩ := List.append_eq_nil.mp e.symm
    subst e1 e2
    exact ⟨p, Path.refl p, Path.refl p⟩
  | cons p bo lab q w1 q1 ht hp ih =>
    intro u v e
    rcases tr_label ht with hl | ⟨x, hl⟩
    · subst hl
      simp only [List.nil_append] at e
      obtain ⟨q2, a1, a2⟩ := ih u v e
      exact ⟨q2, by simpa using Path.cons p bo [] q u q2 ht a1, a2⟩
    · subst hl
      cases u with
      | nil =>
        simp only [List.nil_append] at e
        subst e
        exact ⟨p, Path.refl p, Path.cons p bo [x] q w1 q1 ht hp⟩
      | cons y u1 =>
        simp only [List.singleton_append, List.cons_append, List.cons.injEq] at e
        obtain ⟨e1, e2⟩ := e
        subst e1
        obtain ⟨q2, a1, a2⟩ := ih u1 v e2
        exact ⟨q2, by simpa using Path.cons p bo [x] q u1 q2 ht a1, a2⟩

/-- A path that reads one byte: unlabeled arrows, the arrow that reads the byte,
unlabeled arrows. -/
theorem path_single {impl : REImpl} {a b : Nat} {w : List Nat} (h : Path impl a w b) :
    ∀ x, w = [x] → ∃ p q, Path impl a [] p ∧ Tr impl p false [x] q ∧ Path impl q [] b := by
  induction h with
  | refl p => intro x e; simp at e
  | cons p bo lab q w1 q1 ht hp ih =>
    intro x e
    rcases tr_label ht with hl | ⟨y, hl⟩
    · subst hl
      simp only [List.nil_append] at e
      obtain ⟨p2, q2, a1, a2, a3⟩ := ih x e
      exact ⟨p2, q2, by simpa using Path.cons p bo [] q [] p2 ht a1, a2, a3⟩
    · subst hl
      simp only [List.singleton_append, List.cons.injEq] at e
      obtain ⟨e1, e2⟩ := e
      subst e1 e2
      have hb : bo = false := by cases ht <;> rfl
      subst hb
      exact ⟨p, q, Path.refl p, ht, hp⟩

/-- A path that reads `u` and then one more byte. -/
theorem path_snoc_inv {impl : REImpl} {a b : Nat} {u : List Nat} {x : Nat}
    (h : Path impl a (u ++ [x]) b) :
    ∃ p q, Path impl a u p ∧ Tr impl p false [x] q ∧ Path impl q [] b := by
  obtain ⟨q0, h1, h2⟩ := path_split h u [x] rfl
  obtain ⟨p, q, a1, a2, a3⟩ := path_single h2 x rfl
  exact ⟨p, q, by simpa using path_trans h1 a1, a2, a3⟩

theorem tr_fires {impl : REImpl} {p q x : Nat} {bo : Bool} (h : Tr impl p bo [x] q)
    (t : Thread) (ht : t.state = p) : Fires impl (x % 256) t q := by
  generalize hw : [x] = w at h
  cases h with
  | char st c h1 h2 h3 =>
    simp only [List.cons.injEq, and_true] at hw
    subst hw
    exact ⟨st, by rw [ht]; exact h1, rfl, Or.inr ⟨h2, h3⟩⟩
  | any st c h1 h2 =>
    exact ⟨st, by rw [ht]; exact h1, rfl, Or.inl h2⟩
  | split_out st h1 h2 => simp at hw
  | split_out1 st h1 h2 => simp at hw
  | lparen st h1 h2 => simp at hw
  | rparen st h1 h2 => simp at hw

theorem fires_tr {impl : REImpl} {x : Nat} {t : Thread} {q : Nat}
    (h : Fires impl (x % 256) t q) : Tr impl t.state false [x] q := by
  obtain ⟨st, hd, rfl, ho | ⟨ho, hc⟩⟩ := h
  · exact Tr.any _ st x hd ho
  · exact Tr.char _ st x hd ho hc

/-- No arrow leads to the start state or leaves the arena. -/
theorem tr_target {impl : REImpl} (hw : WFAut impl) {p q : Nat} {bo : Bool} {lab : List Nat}
    (h : Tr impl p bo lab q) : q ≠ impl.start ∧ 1 ≤ q ∧ q ≤ impl.states.length := by
  have hsz := hw.size
  have hse := hw.start_eq
  have key : ∀ st, impl.deref p = some st → st.op ≠ Op.Match →
      (q = st.out ∨ (st.op = Op.Split ∧ q = st.out1)) →
      q ≠ impl.start ∧ 1 ≤ q ∧ q ≤ impl.states.length := by
    intro st hd hop hq
    rcases wf_class hw hd with ⟨_, _, _, _, _, co, co1⟩ | ⟨_, e, _, c1, c2⟩ | ⟨_, _, _, e, _, c⟩ | ⟨_, e⟩
    · rcases hq with hq | ⟨hs, hq⟩
      · subst hq; omega
      · subst hq; have := co1 hs; omega
    · rcases hq with hq | ⟨hs, hq⟩
      · subst hq; omega
      · rw [e] at hs; simp at hs
    · rcases hq with hq | ⟨hs, hq⟩
      · subst hq; omega
      · rw [e] at hs; simp at hs
    · exact absurd e.2 hop
  cases h with
  | char st c h1 h2 h3 => exact key st h1 (by rw [h2]; simp) (Or.inl rfl)
  | any st c h1 h2 => exact key st h1 (by rw [h2]; simp) (Or.inl rfl)
  | split_out st h1 h2 => exact key st h1 (by rw [h2]; simp) (Or.inl rfl)
  | split_out1 st h1 h2 => exact key st h1 (by rw [h2]; simp) (Or.inr ⟨h2, rfl⟩)
  | lparen st h1 h2 => exact key st h1 (by rw [h2]; simp) (Or.inl rfl)
  | rparen st h1 h2 => exact key st h1 (by rw [h2]; simp) (Or.inl rfl)

theorem path_target {impl : REImpl} (hw : WFAut impl) {p q : Nat} {w : List Nat}
    (h : Path impl p w q) : q = p ∨ (q ≠ impl.start ∧ 1 ≤ q ∧ q ≤ impl.states.length) := by
  induction h with
  | refl p => exact Or.inl rfl
  | cons p bo lab q1 w1 q2 ht _ ih =>
    rcases ih with e | e
    · subst e; exact Or.inr (tr_target hw ht)
    · exact Or.inr e

/-- No arrow leaves the Match state. -/
theorem tr_source {impl : REImpl} (hw : WFAut impl) {p q : Nat} {bo : Bool} {lab : List Nat}
    (h : Tr impl p bo lab q) : p ≠ impl.states.length := by
  intro e
  obtain ⟨st, hd, ho⟩ := hw.match_state
  subst e
  have key : ∀ st1, impl.deref impl.states.length = some st1 → st1.op ≠ Op.Match → False := by
    intro st1 h1 h2
    rw [hd] at h1
    simp only [Option.some.injEq] at h1
    subst h1
    exact h2 ho
  cases h with
  | char st c h1 h2 h3 => exact key st h1 (by rw [h2]; simp)
  | any st c h1 h2 => exact key st h1 (by rw [h2]; simp)
  | split_out st h1 h2 => exact key st h1 (by rw [h2]; simp)
  | split_out1 st h1 h2 => exact key st h1 (by rw [h2]; simp)
  | lparen st h1 h2 => exact key st h1 (by rw [h2]; simp)
  | rparen st h1 h2 => exact key st h1 (by rw [h2]; simp)

theorem path_from_match {impl : REImpl} (hw : WFAut impl) {q : Nat} {w : List Nat}
    (h : Path impl impl.states.length w q) : q = impl.states.length ∧ w = [] := by
  generalize hp : impl.states.length = p at h
  cases h with
  | refl p => exact ⟨rfl, rfl⟩
  | cons p bo lab q1 w1 q2 ht _ => exact absurd hp.symm (tr_source hw ht)

theorem sum_visitsLeft_fresh (g : Nat) :
    ∀ l : List StateEx, (∀ ss ∈ l, ss.lastlist ≠ g) → (l.map (visitsLeft g)).sum = 2 * l.length
  | [], _ => rfl
  | a :: l, h => by
    have ha : visitsLeft g a = 2 := by
      unfold visitsLeft
      rw [if_neg (h a (List.mem_cons_self _ _))]
    have := sum_visitsLeft_fresh g l (fun ss hs => h ss (List.mem_cons_of_mem _ hs))
    simp only [List.map_cons, List.sum_cons, List.length_cons, ha, this]
    omega

theorem mem_getD {α : Type} (d : α) {l : List α} {a : α} (h : a ∈ l) : ∃ i, l.getD i d = a := by
  obtain ⟨i, hi, e⟩ := List.mem_iff_getElem.mp h
  refine ⟨i, ?_⟩
  rw [List.getD_eq_getElem _ _ hi]
  exact e

/-- The loop invariant holds when `step` enters its loop. -/
theorem loopInv_init {impl : REImpl} (mt : MatchType) (c pos npos fuel : Nat) {sc : Scratch}
    {cl nl : ThreadList} (hp : StepPre impl pos sc cl nl)
    (hfuel : 2 * impl.states.length + 3 ≤ fuel) :
    LoopInv impl mt c pos npos fuel (bump sc) cl 0 (bump sc) cl { nl with n := 0 } := by
  have hns : ∀ p, ¬ Stamped (bump sc).extras p := by
    intro p h
    have := hp.ex_le p
    unfold Stamped bump at h
    simp only at h
    omega
  exact {
    frame := sameThreads_refl cl
    sinv := {
      len_ex := hp.ex_len
      cap := hp.cap_nl
      le := by
        intro p
        have := hp.ex_le p
        show _ ≤ sc.extras.listid + 1
        exact Nat.le_succ_of_le this
      zero := hns 0
      vis := fun p h => absurd h (hns p)
      thr := fun p h => absurd h (hns p)
      inj := fun i hi => absurd hi (Nat.not_lt_zero i)
      rng := fun i hi => absurd hi (Nat.not_lt_zero i)
      sublen := hp.sub_nl }
    listid := rfl
    dummy := rfl
    need := by
      have : fuelNeed (bump sc).extras.listid (bump sc).extras = 2 * (impl.states.length + 1) := by
        unfold fuelNeed
        rw [sum_visitsLeft_fresh]
        · show 2 * sc.extras.stateex.length = _
          rw [hp.ex_len]
        · intro ss hss
          obtain ⟨i, hi⟩ := mem_getD StateEx.init hss
          have := hp.ex_le i
          show ss.lastlist ≠ sc.extras.listid + 1
          have e : (sc.extras.stateex.getD i StateEx.init) = ss := hi
          rw [e] at this
          omega
      rw [this]
      omega
    src := ⟨fun _ => 0, fun k hk => absurd hk (Nat.not_lt_zero k),
      fun k1 k2 _ hk => absurd hk (Nat.not_lt_zero k2),
      fun j hj => absurd hj (Nat.not_lt_zero j)⟩
    closed := fun p h => absurd h (hns p)
    fired := fun j hj => absurd hj (Nat.not_lt_zero j)
    subsok := hp.subsok
    biased := fun _ => ⟨rfl, fun j hj => absurd hj (Nat.not_lt_zero j)⟩
    origin := Or.inl rfl
    best := fun j hj => absurd hj (Nat.not_lt_zero j)
    keep := fun _ _ h => h }

/-- Within the loop of `step` no thread of the next list stands at the start state. -/
theorem loopInv_no_start {impl : REImpl} (hw : WFAut impl) {mt : MatchType}
    {c pos npos fuel : Nat} {sc0 : Scratch} {cl0 : ThreadList} {i : Nat} {sc : Scratch}
    {cl nl : ThreadList} (h : LoopInv impl mt c pos npos fuel sc0 cl0 i sc cl nl) :
    (∀ k, k < nl.n → (nl.t.getD k Thread.init).state ≠ impl.start) ∧
    ¬ Stamped sc.extras impl.start := by
  have h1 : ∀ k, k < nl.n → (nl.t.getD k Thread.init).state ≠ impl.start := by
    intro k hk
    obtain ⟨f, hf1, _⟩ := h.src
    obtain ⟨_, q, hq, hpath, _⟩ := hf1 k hk
    have hm := fires_middle hw hq
    rcases path_target hw hpath with e | e
    · rw [e]; exact hm.2.1.1
    · exact e.1
  refine ⟨h1, fun hs => ?_⟩
  obtain ⟨a, b⟩ := h.sinv.thr _ hs
  exact h1 _ a b

/-- A call of `step` returns and has done what `StepPost` says. -/
theorem step_post {impl : REImpl} (hw : WFAut impl) (mt : MatchType) (rt : RepType)
    (fuel c pos npos : Nat) {sc : Scratch} {cl nl : ThreadList}
    (hp : StepPre impl pos sc cl nl) (hfuel : 2 * impl.states.length + 3 ≤ fuel) :
    ∃ sc1 cl1 nl1, step impl mt rt fuel sc cl c (some npos) nl = some (sc1, cl1, nl1) ∧
      StepPost impl mt rt c pos npos fuel sc cl sc1 cl1 nl1 := by
  have hinit := loopInv_init mt c pos npos fuel hp hfuel
  obtain ⟨scl, cl1, nll, ret, hrun, stop, sc2, hstop, hL, hend⟩ :=
    step_loop_post hw mt rt fuel c pos npos (bump sc) cl hp.cinv cl.n 0 (bump sc) cl
      { nl with n := 0 } (by omega) hinit
  unfold step
  simp only
  have hrun1 : step_loop impl mt rt fuel c (some npos) cl.n 0
      { sc with extras := { sc.extras with listid := sc.extras.listid + 1 } } cl
      { nl with n := 0 } = some (scl, cl1, nll, ret) := hrun
  rw [hrun1]
  rcases hend with ⟨h1, h2, h3⟩ | ⟨h1, h2, h3, h4, h5, h6⟩ | ⟨h1, h2, h3, h4, h5⟩
  · subst h2 h3
    simp only
    by_cases hu : (scl.subs.getD 0 Sub.init).matched = SubState.Unmatched
    · rw [if_pos hu]
      have hns := (loopInv_no_start hw hL).2
      have hd : scl.dummy = sc.dummy := hL.dummy
      have hmok : MOK impl npos npos impl.start scl.dummy := by
        rw [hd]
        have hsz := hw.size
        have hse := hw.start_eq
        exact ⟨hp.dummy.1, fun _ => hp.dummy.2, fun e => absurd rfl e, fun e => by omega⟩
      have hsN : impl.start ≤ impl.states.length := by
        have hse := hw.start_eq; omega
      have hneed : fuelNeed scl.extras.listid scl.extras < fuel := hL.need
      obtain ⟨ex2, nl2, m2, e2⟩ := addstate_some hw mt rt npos fuel scl.extras nll impl.start
        scl.dummy npos hL.sinv hmok (fun _ => rfl) hsN hneed
      rw [e2]
      simp only
      refine ⟨_, _, _, rfl, stop, scl, nll, hstop, hL, Or.inr (Or.inl ⟨h1, hu, rfl, ?_⟩)⟩
      exact addstate_rel impl mt rt (some npos) _ _ _ _ _ _ _ _ e2
    · rw [if_neg hu]
      exact ⟨_, _, _, rfl, stop, scl, nll, hstop, hL,
        Or.inl ⟨hu, rfl, rfl, fun hlt => absurd h1 (by omega)⟩⟩
  · subst h2 h3
    simp only
    rw [if_neg h5]
    exact ⟨_, _, _, rfl, stop, scl, nll, hstop, hL, Or.inl ⟨h5, rfl, rfl, fun _ => ⟨h4, h6⟩⟩⟩
  · subst h2
    simp only
    exact ⟨_, _, _, rfl, stop, sc2, nll, hstop, hL, Or.inr (Or.inr ⟨h1, h3, h4, h5, rfl⟩)⟩

theorem enterThread_first (l : ThreadList) (s : Nat) (m : Subs) (g : Nat) :
    enterThread (StateEx.mk g 1 l.n) (ThreadList.mk l.t (l.n + 1)) s m = firstList l s m := by
  simp [enterThread, firstList]

/-- The first visit of a state by `addstate`, unfolded once: the state is
stamped, a thread for it is appended, and the recursive calls follow. -/
theorem addrel_first {impl : REImpl} (hid : ∀ p st, impl.deref p = some st → st.id = p)
    {mt : MatchType} {rt : RepType} {icur : Iter} {ex : Extras} {l : ThreadList} {s : Nat}
    {m : Subs} {ex1 : Extras} {l1 : ThreadList} {m1 : Subs}
    (h : AddRel impl mt rt icur ex l s m ex1 l1 m1) (hs : s ≠ 0) (hns : ¬ Stamped ex s) :
    ∃ st, impl.deref s = some st ∧
      (((st.op = Op.Char ∨ st.op = Op.Any ∨ st.op = Op.Match) ∧
          ex1 = firstEx ex l s ∧ l1 = firstList l s m ∧ m1 = m) ∨
       (st.op = Op.Split ∧ ∃ ex2 l3 m2,
          AddRel impl mt rt icur (firstEx ex l s) (firstList l s m) st.out m ex2 l3 m2 ∧
          AddRel impl mt rt icur ex2 l3 st.out1 m2 ex1 l1 m1) ∨
       (st.op = Op.LParen ∧ ∃ m2,
          AddRel impl mt rt icur (firstEx ex l s) (firstList l s m) st.out
            (m.set st.data.toNat
              { m.getD st.data.toNat Sub.init with first := icur, matched := SubState.Incomplete })
            ex1 l1 m2 ∧
          m1 = m2.set st.data.toNat
            ((m2.getD st.data.toNat Sub.init).assign (m.getD st.data.toNat Sub.init))) ∨
       (st.op = Op.RParen ∧ ∃ m2,
          AddRel impl mt rt icur (firstEx ex l s) (firstList l s m) st.out
            (m.set st.data.toNat
              { m.getD st.data.toNat Sub.init with second := icur, matched := SubState.Matched })
            ex1 l1 m2 ∧
          m1 = m2.set st.data.toNat
            ((m2.getD st.data.toNat Sub.init).assign (m.getD st.data.toNat Sub.init)))) := by
  have hne : ∀ st, impl.deref s = some st →
      (ex.stateex.getD st.id StateEx.init).lastlist ≠ ex.listid := by
    intro st hd
    rw [hid s st hd]
    exact hns
  have key : ∀ st ss l2 go, impl.deref s = some st →
      addstate_enter mt rt ex.listid (ex.stateex.getD st.id StateEx.init) l m = (ss, l2, go) →
      go = true ∧ { ex with stateex := ex.stateex.set st.id ss } = firstEx ex l s ∧
        enterThread ss l2 s m = firstList l s m := by
    intro st ss l2 go hd hen
    rw [enter_first mt rt ex.listid _ l m (hne st hd)] at hen
    simp only [Prod.mk.injEq] at hen
    obtain ⟨rfl, rfl, rfl⟩ := hen
    refine ⟨rfl, ?_, enterThread_first l s m ex.listid⟩
    rw [hid s st hd]
    rfl
  cases h
  case null => exact absurd rfl hs
  case stop st ss h0 hd hen =>
    have := (key st ss _ false hd hen).1
    simp at this
  case leaf st ss l2 hop h0 hd hen =>
    obtain ⟨_, e1, e2⟩ := key st ss l2 true hd hen
    exact ⟨st, hd, Or.inl ⟨hop, e1, e2, rfl⟩⟩
  case split st ss l2 ex2 l3 m2 hop h0 hd hen r1 r2 =>
    obtain ⟨_, e1, e2⟩ := key st ss l2 true hd hen
    rw [e1, e2] at r1
    exact ⟨st, hd, Or.inr (Or.inl ⟨hop, ex2, l3, m2, r1, r2⟩)⟩
  case lparen st ss l2 m2 hop h0 hd hen r1 =>
    obtain ⟨_, e1, e2⟩ := key st ss l2 true hd hen
    rw [e1, e2] at r1
    exact ⟨st, hd, Or.inr (Or.inr (Or.inl ⟨hop, m2, r1, rfl⟩))⟩
  case rparen st ss l2 m2 hop h0 hd hen r1 =>
    obtain ⟨_, e1, e2⟩ := key st ss l2 true hd hen
    rw [e1, e2] at r1
    exact ⟨st, hd, Or.inr (Or.inr (Or.inr ⟨hop, m2, r1, rfl⟩))⟩

/-- The scratch data and the list after a first visit. -/
theorem first_post {impl : REImpl} {ex : Extras} {l : ThreadList} (hI : SInv impl ex l)
    (s : Nat) (m : Subs) (hs1 : 1 ≤ s) (hsN : s ≤ impl.states.length)
    (hm : m.length = NSUB) (hns : ¬ Stamped ex s) :
    SInv impl (firstEx ex l s) (firstList l s m) ∧
    fuelNeed ex.listid (firstEx ex l s) < fuelNeed ex.listid ex ∧
    Ext l (firstList l s m) ∧ (firstList l s m).n = l.n + 1 ∧
    ((firstList l s m).t.getD l.n Thread.init).state = s ∧
    ObsEq ((firstList l s m).t.getD l.n Thread.init).subs m ∧
    (∀ p, Stamped (firstEx ex l s) p ↔ (p = s ∨ Stamped ex p)) := by
  have h := enter_post_first hI s m hs1 hsN hm hns
  rw [enterThread_first] at h
  obtain ⟨a, b, c, d, e, f⟩ := h
  refine ⟨a, b, c, d, e, f, ?_⟩
  have hen := enter_post hI MatchType.LeftmostBiased RepType.RepeatMinimal s m hs1 hsN hm _ _ _
    (enter_first MatchType.LeftmostBiased RepType.RepeatMinimal ex.listid
      (ex.stateex.getD s StateEx.init) l m hns)
  exact hen.stamped_iff

/-- Adding the start state to the next list: the start state is the first
thread added. -/
theorem seed_post {impl : REImpl} (hw : WFAut impl) {mt : MatchType} {rt : RepType}
    {npos : Nat} {ex : Extras} {l : ThreadList} {m : Subs} {ex1 : Extras} {l1 : ThreadList}
    {m1 : Subs} (h : AddRel impl mt rt (some npos) ex l impl.start m ex1 l1 m1)
    (hI : SInv impl ex l) (hm : MOK impl npos npos impl.start m)
    (hns : ¬ Stamped ex impl.start) :
    AddPost impl npos npos ex l impl.start m ex1 l1 m1 ∧ l.n < l1.n ∧
      (l1.t.getD l.n Thread.init).state = impl.start := by
  have hsz := hw.size
  have hse := hw.start_eq
  refine ⟨addrel_post hw npos h npos hI hm (fun _ => rfl), ?_⟩
  obtain ⟨st0, hd0, hop0, _, _, _⟩ := hw.start_state
  rw [← hse] at hd0
  have hs0 : impl.start ≠ 0 := by omega
  obtain ⟨st, hd, hcase⟩ := addrel_first hw.idok h hs0 hns
  rw [hd0] at hd
  simp only [Option.some.injEq] at hd
  subst hd
  obtain ⟨hI1, _, _, hn, hst, _, _⟩ :=
    first_post hI impl.start m (by omega) (by omega) hm.1 hns
  rcases hcase with ⟨ho, _⟩ | ⟨ho, _⟩ | ⟨_, m2, r1, _⟩ | ⟨ho, _⟩
  · rw [hop0] at ho; simp at ho
  · rw [hop0] at ho; simp at ho
  · obtain ⟨hm1, hs1, _, _⟩ := mok_lparen hw hd0 hop0 hm (fun _ => rfl)
    have P := addrel_post hw npos r1 npos hI1 hm1 hs1
    have hext := P.ext
    refine ⟨by have := hext.1; omega, ?_⟩
    rw [hext.2.2 l.n (by omega)]
    exact hst
  · rw [hop0] at ho; simp at ho

/-- The next list and the best match a call of `step` leaves. -/
theorem step_next {impl : REImpl} (hw : WFAut impl) {mt : MatchType} {rt : RepType}
    {c pos npos fuel : Nat} {sc : Scratch} {cl : ThreadList} {sc1 : Scratch}
    {cl1 nl1 nl0 : ThreadList} (hp : StepPre impl pos sc cl nl0)
    (h : StepPost impl mt rt c pos npos fuel sc cl sc1 cl1 nl1) :
    ∃ stop scl nll f, stop ≤ cl.n ∧
      LoopInv impl mt c pos npos fuel (bump sc) cl stop scl cl1 nll ∧
      NextList impl c npos cl stop sc1.extras nl1 nll.n f ∧
      StepCase impl mt sc cl stop scl nll sc1 cl1 nl1 := by
  obtain ⟨stop, scl, nll, hstop, hL, hcase⟩ := h
  obtain ⟨f, hf1, hf2, hf3⟩ := hL.src
  have plain : NextList impl c npos cl stop scl.extras nll nll.n f := {
    sinv := hL.sinv
    old_le := le_refl _
    src := hf1
    mono := hf2
    early := hf3
    seed_head := fun hlt => absurd hlt (lt_irrefl _)
    seed := fun k h1 h2 => absurd h2 (by omega)
    seed_all := fun hlt => absurd hlt (lt_irrefl _) }
  rcases hcase with ⟨h1, rfl, rfl, h4⟩ | ⟨h1, h2, h3, hadd⟩ | ⟨h1, h2, h3, rfl, rfl⟩
  · exact ⟨stop, _, _, f, hstop, hL, plain, Or.inl ⟨h1, rfl, rfl, h4⟩⟩
  · have hsz := hw.size
    have hse := hw.start_eq
    have hns := (loopInv_no_start hw hL).2
    have hd : scl.dummy = sc.dummy := hL.dummy
    have hmok : MOK impl npos npos impl.start scl.dummy := by
      rw [hd]
      exact ⟨hp.dummy.1, fun _ => hp.dummy.2, fun e => absurd rfl e, fun e => by omega⟩
    obtain ⟨P, hlt, hhead⟩ := seed_post hw hadd hL.sinv hmok hns
    have hcl : ∀ p, Stamped sc1.extras p → ∀ b q2, Tr impl p b [] q2 → Stamped sc1.extras q2 := by
      intro p hp b q2 ht
      by_cases e : Stamped scl.extras p
      · exact P.mono q2 (hL.closed p e b q2 ht)
      · exact P.closed p hp e b q2 ht
    refine ⟨stop, scl, nll, f, hstop, hL, ?_, Or.inr (Or.inl ⟨h1, h2, h3, hlt, ?_⟩)⟩
    · exact {
        sinv := P.sinv
        old_le := P.ext.1
        src := by
          intro k hk
          rw [P.ext.2.2 k hk]
          exact hf1 k hk
        mono := hf2
        early := by
          intro j hj q hq q1 hq1
          obtain ⟨k, hk, hks, hkf⟩ := hf3 j hj q hq q1 hq1
          exact ⟨k, hk, by rw [P.ext.2.2 k hk]; exact hks, hkf⟩
        seed_head := fun _ => hhead
        seed := by
          intro k h1 h2
          exact (P.fresh k h1 h2).2
        seed_all := by
          intro _ q hq
          have hst := stamped_path hcl (P.stamped (by omega)) hq
          obtain ⟨a, b⟩ := P.sinv.thr q hst
          exact ⟨_, a, b⟩ }
    · rw [← hd]
      exact P.obs
  · exact ⟨stop, scl, _, f, hstop, hL, plain, Or.inr (Or.inr ⟨h1, h2, h3, rfl, rfl⟩)⟩

/-- The offset a thread away from the start state started at is the one slot 0 records. -/
theorem mok_tstart {impl : REImpl} {s0 pos : Nat} {t : Thread}
    (h : MOK impl s0 pos t.state t.subs) (hs : t.state ≠ impl.start) :
    tstart t = s0 ∧ (t.subs.getD 0 Sub.init).first = some s0 ∧
      (t.subs.getD 0 Sub.init).matched ≠ SubState.Unmatched := by
  obtain ⟨_, _, h3, h4⟩ := h
  unfold tstart
  by_cases e : t.state = impl.states.length
  · obtain ⟨a, b, _⟩ := h4 e
    rw [b, a]
    simp
  · obtain ⟨a, b⟩ := h3 hs e
    rw [b, a]
    simp

theorem mok_self {impl : REImpl} {s0 pos : Nat} {t : Thread}
    (h : MOK impl s0 pos t.state t.subs) : MOK impl (tstart t) pos t.state t.subs := by
  by_cases hs : t.state = impl.start
  · obtain ⟨h1, h2, h3, h4⟩ := h
    exact ⟨h1, h2, fun e => absurd hs e, fun e => by
      obtain ⟨a, _, _⟩ := h4 e
      have := h2 hs
      rw [a] at this
      simp at this⟩
  · rw [(mok_tstart h hs).1]
    exact h

/-- A thread at the Match state of the list at offset `pos` is an accepted part of the subject. -/
theorem match_thread {impl : REImpl} {mt : MatchType} {input : List Nat} {pos : Nat}
    {sc : Scratch} {cl nl : ThreadList} (hw : WFAut impl) (h : MInv impl mt input pos sc cl nl)
    {j : Nat} (hj : j < cl.n) (hs : (cl.t.getD j Thread.init).state = impl.states.length) :
    ((cl.t.getD j Thread.init).subs.getD 0 Sub.init).matched = SubState.Matched ∧
    ((cl.t.getD j Thread.init).subs.getD 0 Sub.init).first
      = some (tstart (cl.t.getD j Thread.init)) ∧
    ((cl.t.getD j Thread.init).subs.getD 0 Sub.init).second = some pos ∧
    tstart (cl.t.getD j Thread.init) ≤ pos ∧
    Accepts impl (slice input (tstart (cl.t.getD j Thread.init)) pos) := by
  have hsz := hw.size
  have hse := hw.start_eq
  obtain ⟨_, _, hmok⟩ := h.pre.cinv.2 j hj
  obtain ⟨a, b, c⟩ := hmok.2.2.2 hs
  have hns : (cl.t.getD j Thread.init).state ≠ impl.start := by rw [hs]; omega
  obtain ⟨v1, v2⟩ := h.valid j hj hns
  refine ⟨a, b, c, v1, ?_⟩
  unfold Accepts
  rw [← hs]
  exact v2

/-- Slot 0 of an array observably equal to that of a thread at the Match state. -/
theorem obs_match {a b : Subs} (ho : ObsEq a b) {s e : Nat}
    (h1 : (b.getD 0 Sub.init).matched = SubState.Matched)
    (h2 : (b.getD 0 Sub.init).first = some s) (h3 : (b.getD 0 Sub.init).second = some e) :
    (a.getD 0 Sub.init).matched = SubState.Matched ∧ (a.getD 0 Sub.init).first = some s ∧
      (a.getD 0 Sub.init).second = some e := by
  obtain ⟨e1, e2, e3⟩ := obs_eq_parts (ho.2 0)
  exact ⟨e1.trans h1, (e2 (by rw [h1]; simp)).trans h2, (e3 h1).trans h3⟩

theorem geMatch_matched {subs : Subs} {s e : Nat} (h : GeMatch subs s e) :
    (subs.getD 0 Sub.init).matched = SubState.Matched := h.1

theorem subsOK_cases {subs : Subs} (h : SubsOK subs) :
    (subs.getD 0 Sub.init).matched = SubState.Unmatched ∨
    ∃ s e, (subs.getD 0 Sub.init).matched = SubState.Matched ∧
      (subs.getD 0 Sub.init).first = some s ∧ (subs.getD 0 Sub.init).second = some e := by
  rcases h.2 with hu | ⟨hm, s, e, a, b⟩
  · exact Or.inl hu
  · exact Or.inr ⟨s, e, hm, a, b⟩

/-- The best match inside the loop of `step` is an accepted part of the subject
that ends at the offset of the current list or before. -/
theorem loop_found {impl : REImpl} {mt : MatchType} {input : List Nat} {pos : Nat}
    {sc : Scratch} {cl nl : ThreadList} (hw : WFAut impl) (h : MInv impl mt input pos sc cl nl)
    {c npos fuel stop : Nat} {scl : Scratch} {cl1 nll : ThreadList} (hstop : stop ≤ cl.n)
    (hL : LoopInv impl mt c pos npos fuel (bump sc) cl stop scl cl1 nll) :
    ∀ s e, (scl.subs.getD 0 Sub.init).matched = SubState.Matched →
      (scl.subs.getD 0 Sub.init).first = some s → (scl.subs.getD 0 Sub.init).second = some e →
      s ≤ e ∧ e ≤ pos ∧ Accepts impl (slice input s e) := by
  intro s e h1 h2 h3
  rcases hL.origin with ho | ⟨j, hj, hjs, ho⟩
  · have ho1 : scl.subs = sc.subs := ho
    rw [ho1] at h1 h2 h3
    obtain ⟨a, b, c⟩ := h.found s e h1 h2 h3
    exact ⟨a, by omega, c⟩
  · obtain ⟨a, b, c, d, e1⟩ := match_thread hw h (by omega : j < cl.n) hjs
    obtain ⟨_, b1, c1⟩ := obs_match ho a b c
    rw [b1] at h2
    rw [c1] at h3
    simp only [Option.some.injEq] at h2 h3
    subst h2 h3
    exact ⟨d, le_refl _, e1⟩

/-- Once a best match is known one stays known. -/
theorem loop_keep_matched {impl : REImpl} {mt : MatchType} {c pos npos fuel stop : Nat}
    {sc : Scratch} {cl : ThreadList} {scl : Scratch} {cl1 nll : ThreadList}
    (hok : SubsOK sc.subs)
    (hL : LoopInv impl mt c pos npos fuel (bump sc) cl stop scl cl1 nll)
    (hu : (scl.subs.getD 0 Sub.init).matched = SubState.Unmatched) :
    (sc.subs.getD 0 Sub.init).matched = SubState.Unmatched := by
  rcases subsOK_cases hok with h | ⟨s, e, a, b, c⟩
  · exact h
  · have hg : GeMatch (bump sc).subs s e := ⟨a, s, e, b, c, Or.inr ⟨rfl, le_refl _⟩⟩
    have := (hL.keep s e hg).1
    rw [hu] at this
    simp at this

/-- In the leftmost-longest mode the loop of `step` does not stop before a
thread that started at a lower bound of the starts of the accepted parts. -/
theorem not_cut {impl : REImpl} {mt : MatchType} {input : List Nat} {pos : Nat}
    {sc : Scratch} {cl nl : ThreadList} (hw : WFAut impl) (h : MInv impl mt input pos sc cl nl)
    {c npos fuel stop : Nat} {scl : Scratch} {cl1 nll : ThreadList} {sc1 : Scratch}
    {nl1 : ThreadList}
    (hL : LoopInv impl mt c pos npos fuel (bump sc) cl stop scl cl1 nll)
    (hcase : StepCase impl mt sc cl stop scl nll sc1 cl1 nl1)
    (hmt : mt = MatchType.LeftmostLongest) {p i : Nat} (hp : LowStart impl input p)
    (hi : i < cl.n) (his : (cl.t.getD i Thread.init).state ≠ impl.start)
    (hit : tstart (cl.t.getD i Thread.init) = p) : i < stop := by
  by_contra hge
  have hstop : stop ≤ cl.n := by omega
  rcases hcase with ⟨h1, _, _, h4⟩ | ⟨h1, _⟩ | ⟨_, h2, _⟩
  · obtain ⟨_, hlt⟩ := h4 (by omega)
    rcases subsOK_cases hL.subsok with hu | ⟨s1, e1, a, b, c⟩
    · exact h1 hu
    · obtain ⟨v1, v2, v3⟩ := loop_found hw h hstop hL s1 e1 a b c
      have hps := hp s1 e1 v1 (le_trans v2 h.pos_le) v3
      rw [b] at hlt
      by_cases hr : (cl.t.getD stop Thread.init).state = impl.start
      · have hsi : stop < i := by
          rcases Nat.lt_or_ge stop i with x | x
          · exact x
          · have : stop = i := by omega
            subst this
            exact absurd hr his
        have hpe := h.root_eq stop i hsi hi hr
        rcases hL.origin with ho | ⟨j, hj, hjs, ho⟩
        · have hu := h.root.mp ⟨stop, by omega, hr⟩
          have ho1 : scl.subs = sc.subs := ho
          rw [ho1] at h1
          exact h1 hu
        · obtain ⟨a1, b1, c1, _, _⟩ := match_thread hw h (by omega : j < cl.n) hjs
          obtain ⟨_, b2, _⟩ := obs_match ho a1 b1 c1
          rw [b2] at b
          simp only [Option.some.injEq] at b
          have := h.root_lt j stop hj (by omega) hr
          omega
      · obtain ⟨_, _, hmok⟩ := h.pre.cinv.2 stop (by omega)
        obtain ⟨_, t2, t3⟩ := mok_tstart hmok hr
        obtain ⟨_, o2, _⟩ := obs_eq_parts ((hL.frame.2.2 stop).2.2 0)
        rw [o2 t3, t2] at hlt
        simp only [Iter.lt, decide_eq_true_eq] at hlt
        have := h.sorted stop i (by omega) hi hr his
        omega
  · omega
  · rw [hmt] at h2; simp at h2

/-- The best match a call of `step` leaves. -/
theorem step_result {impl : REImpl} {mt : MatchType} {input : List Nat} {pos : Nat}
    {sc : Scratch} {cl nl : ThreadList} (hw : WFAut impl) (h : MInv impl mt input pos sc cl nl)
    {c npos fuel stop : Nat} {scl : Scratch} {cl1 nll : ThreadList} {sc1 : Scratch}
    {nl1 : ThreadList} (hstop : stop ≤ cl.n)
    (hL : LoopInv impl mt c pos npos fuel (bump sc) cl stop scl cl1 nll)
    (hcase : StepCase impl mt sc cl stop scl nll sc1 cl1 nl1) :
    SubsOK sc1.subs ∧
    (∀ s e, (sc1.subs.getD 0 Sub.init).matched = SubState.Matched →
      (sc1.subs.getD 0 Sub.init).first = some s → (sc1.subs.getD 0 Sub.init).second = some e →
      s ≤ e ∧ e ≤ pos ∧ Accepts impl (slice input s e)) ∧
    ((sc1.subs.getD 0 Sub.init).matched = SubState.Unmatched →
      stop = cl.n ∧ (sc.subs.getD 0 Sub.init).matched = SubState.Unmatched ∧
      (∀ j, j < cl.n → (cl.t.getD j Thread.init).state ≠ impl.states.length) ∧
      nll.n < nl1.n ∧
      ∀ s e, s ≤ e → e ≤ pos → ¬ Accepts impl (slice input s e)) ∧
    (mt = MatchType.LeftmostLongest → ∀ p e, LowStart impl input p → p ≤ e → e ≤ pos →
      Accepts impl (slice input p e) → GeMatch sc1.subs p e) := by
  have hCobs : ∀ (hlt : stop < cl.n)
      (hs : (cl.t.getD stop Thread.init).state = impl.states.length),
      ObsEq (Subs.assign scl.subs (cl1.t.getD stop Thread.init).subs)
        (cl.t.getD stop Thread.init).subs := by
    intro hlt hs
    have hfr := (hL.frame.2.2 stop).2
    have hlen : (cl.t.getD stop Thread.init).subs.length = NSUB := h.sub_cl stop
    exact ObsEq.trans (obsEq_assign _ _ (by rw [hL.subsok.1, hfr.1, hlen])) hfr
  refine ⟨?_, ?_, ?_, ?_⟩
  · rcases hcase with ⟨_, rfl, _, _⟩ | ⟨_, _, e, _⟩ | ⟨h1, _, h3, rfl, _⟩
    · exact hL.subsok
    · have := hL.subsok
      unfold SubsOK at this ⊢
      rw [e]
      exact this
    · obtain ⟨a, b, c, _, _⟩ := match_thread hw h h1 h3
      exact subsOK_obs (hCobs h1 h3) ⟨h.sub_cl stop, Or.inr ⟨a, _, _, b, c⟩⟩
  · intro s e m1 m2 m3
    rcases hcase with ⟨_, rfl, _, _⟩ | ⟨_, _, e1, _⟩ | ⟨h1, _, h3, rfl, _⟩
    · exact loop_found hw h hstop hL s e m1 m2 m3
    · rw [e1] at m1 m2 m3
      exact loop_found hw h hstop hL s e m1 m2 m3
    · obtain ⟨a, b, c, d, e2⟩ := match_thread hw h h1 h3
      obtain ⟨_, b1, c1⟩ := obs_match (hCobs h1 h3) a b c
      have m2a : ((Subs.assign scl.subs (cl1.t.getD stop Thread.init).subs).getD 0
        Sub.init).first = some s := m2
      have m3a : ((Subs.assign scl.subs (cl1.t.getD stop Thread.init).subs).getD 0
        Sub.init).second = some e := m3
      rw [b1] at m2a
      rw [c1] at m3a
      simp only [Option.some.injEq] at m2a m3a
      subst m2a m3a
      exact ⟨d, le_refl _, e2⟩
  · intro hu
    rcases hcase with ⟨h1, rfl, _, _⟩ | ⟨h1, h2, e1, h4, _⟩ | ⟨h1, _, h3, rfl, _⟩
    · exact absurd hu h1
    · have hscu := loop_keep_matched h.pre.subsok hL h2
      have hnm : ∀ j, j < cl.n → (cl.t.getD j Thread.init).state ≠ impl.states.length := by
        intro j hj hs
        have := (hL.best j (by omega) hs).1
        rw [h2] at this
        simp at this
      refine ⟨h1, hscu, hnm, h4, ?_⟩
      intro s e hse hep hacc
      rcases Nat.lt_or_ge e pos with x | x
      · exact h.none_yet hscu s e hse x hacc
      · have : e = pos := by omega
        subst this
        have hsz := hw.size
        have hse1 := hw.start_eq
        obtain ⟨i, hi, his⟩ := h.complete hscu s impl.states.length hse (by omega) hacc
        exact hnm i hi his
    · obtain ⟨a, b, c, _, _⟩ := match_thread hw h h1 h3
      obtain ⟨a1, _, _⟩ := obs_match (hCobs h1 h3) a b c
      have hu1 : ((Subs.assign scl.subs (cl1.t.getD stop Thread.init).subs).getD 0
        Sub.init).matched = SubState.Unmatched := hu
      rw [a1] at hu1
      simp at hu1
  · intro hmt p e hp hpe hep hacc
    have hsz := hw.size
    have hse1 := hw.start_eq
    have key : GeMatch scl.subs p e := by
      rcases Nat.lt_or_ge e pos with x | x
      · exact hL.keep p e (h.best hmt p e hp hpe x hacc)
      · have : e = pos := by omega
        subst this
        obtain ⟨i, hi, his, hit⟩ := h.lbest hmt p hp hpe impl.states.length e (by omega)
          (le_refl _) h.pos_le hacc (by rw [slice_self]; exact Path.refl _)
        have hlt := not_cut hw h hL hcase hmt hp hi (by rw [his]; omega) hit
        have := hL.best i hlt his
        rw [hit] at this
        exact this
    rcases hcase with ⟨_, rfl, _, _⟩ | ⟨_, _, e1, _⟩ | ⟨_, h2, _⟩
    · exact key
    · unfold GeMatch at key ⊢
      rw [e1]
      exact key
    · rw [hmt] at h2; simp at h2

/-- A thread of the next list that comes from a thread that fired. -/
theorem next_old {impl : REImpl} {mt : MatchType} {input : List Nat} {pos : Nat}
    {sc : Scratch} {cl nl : ThreadList} (hw : WFAut impl) (h : MInv impl mt input pos sc cl nl)
    {b : Nat} {rest : List Nat} (hd : input.drop pos = b :: rest)
    {stop nOld : Nat} {ex1 : Extras} {nl1 : ThreadList} {f : Nat → Nat}
    (hN : NextList impl (b % 256) (pos + 1) cl stop ex1 nl1 nOld f) (hstop : stop ≤ cl.n)
    {k : Nat} (hk : k < nOld) :
    (nl1.t.getD k Thread.init).state ≠ impl.start ∧ f k < stop ∧
    (cl.t.getD (f k) Thread.init).state ≠ impl.start ∧
    tstart (nl1.t.getD k Thread.init) = tstart (cl.t.getD (f k) Thread.init) ∧
    tstart (nl1.t.getD k Thread.init) ≤ pos ∧
    Path impl impl.start (slice input (tstart (nl1.t.getD k Thread.init)) (pos + 1))
      (nl1.t.getD k Thread.init).state := by
  obtain ⟨hfk, q, hq, hpath, hmok⟩ := hN.src k hk
  have hm := fires_middle hw hq
  have hns : (nl1.t.getD k Thread.init).state ≠ impl.start := by
    rcases path_target hw hpath with e | e
    · rw [e]; exact hm.2.1.1
    · exact e.1
  have hts := (mok_tstart hmok hns).1
  obtain ⟨v1, v2⟩ := h.valid (f k) (by omega) hm.1.1
  refine ⟨hns, hfk, hm.1.1, hts, by rw [hts]; exact v1, ?_⟩
  rw [hts, slice_snoc v1 hd]
  have h3 := path_trans (path_trans v2 (path_one (fires_tr hq))) hpath
  simpa using h3

/-- A thread of the next list that comes from the start state. -/
theorem next_seed {impl : REImpl} {c npos : Nat} {cl : ThreadList} {stop nOld : Nat}
    {ex1 : Extras} {nl1 : ThreadList} {f : Nat → Nat}
    (hN : NextList impl c npos cl stop ex1 nl1 nOld f) {k : Nat} (h1 : nOld ≤ k)
    (h2 : k < nl1.n) :
    ((nl1.t.getD k Thread.init).state ≠ impl.start → tstart (nl1.t.getD k Thread.init) = npos) ∧
    Path impl impl.start [] (nl1.t.getD k Thread.init).state := by
  obtain ⟨a, b⟩ := hN.seed k h1 h2
  exact ⟨fun hs => (mok_tstart b hs).1, a⟩

theorem next_uniq {impl : REImpl} {c npos : Nat} {cl : ThreadList} {stop nOld : Nat}
    {ex1 : Extras} {nl1 : ThreadList} {f : Nat → Nat}
    (hN : NextList impl c npos cl stop ex1 nl1 nOld f) {i j : Nat} (hi : i < nl1.n)
    (hj : j < nl1.n)
    (e : (nl1.t.getD i Thread.init).state = (nl1.t.getD j Thread.init).state) : i = j := by
  have h1 := (hN.sinv.inj i hi).2
  have h2 := (hN.sinv.inj j hj).2
  rw [e] at h1
  omega

/-- One round of the loop of `match` keeps the invariant: after `step` on the
byte at offset `pos` the next list stands at offset `pos + 1`. -/
theorem minv_step {impl : REImpl} {mt : MatchType} {input : List Nat} {pos : Nat}
    {sc : Scratch} {cl nl : ThreadList} (hw : WFAut impl) (h : MInv impl mt input pos sc cl nl)
    {b : Nat} {rest : List Nat} (hd : input.drop pos = b :: rest)
    {rt : RepType} {fuel : Nat} {sc1 : Scratch} {cl1 nl1 : ThreadList}
    (hP : StepPost impl mt rt (b % 256) pos (pos + 1) fuel sc cl sc1 cl1 nl1) :
    MInv impl mt input (pos + 1) sc1 nl1 cl1 := by
  obtain ⟨stop, scl, nll, f, hstop, hL, hN, hcase⟩ := step_next hw h.pre hP
  obtain ⟨rOK, rFound, rUn, rBest⟩ := step_result hw h hstop hL hcase
  have hsz := hw.size
  have hse := hw.start_eq
  have hlen := drop_length_lt hd
  have hold := hN.old_le
  have hseedU : nll.n < nl1.n → (sc1.subs.getD 0 Sub.init).matched = SubState.Unmatched := by
    intro hlt
    rcases hcase with ⟨_, _, e, _⟩ | ⟨_, h2, e, _⟩ | ⟨_, _, _, _, e⟩
    · rw [e] at hlt; omega
    · rw [e]; exact h2
    · rw [e] at hlt; omega
  have hdummy : sc1.dummy.length = NSUB ∧
      (sc1.dummy.getD 0 Sub.init).matched = SubState.Unmatched := by
    have hd0 : scl.dummy = sc.dummy := hL.dummy
    rcases hcase with ⟨_, e, _, _⟩ | ⟨_, _, _, _, ho⟩ | ⟨_, _, _, e, _⟩
    · rw [e, hd0]; exact h.pre.dummy
    · obtain ⟨e1, _, _⟩ := obs_eq_parts (ho.2 0)
      exact ⟨ho.1.trans h.pre.dummy.1, e1.trans h.pre.dummy.2⟩
    · rw [e]
      show scl.dummy.length = _ ∧ (scl.dummy.getD 0 Sub.init).matched = _
      rw [hd0]; exact h.pre.dummy
  have hroot : ∀ j, j < nl1.n → (nl1.t.getD j Thread.init).state = impl.start →
      j = nll.n ∧ nll.n < nl1.n := by
    intro j hj hs
    rcases Nat.lt_or_ge j nll.n with x | x
    · exact absurd hs (next_old hw h hd hN hstop x).1
    · have hlt : nll.n < nl1.n := by omega
      exact ⟨next_uniq hN hj hlt (hs.trans (hN.seed_head hlt).symm), hlt⟩
  have hacc : ∀ k e, k < nl1.n → pos + 1 ≤ e →
      (nl1.t.getD k Thread.init).state ≠ impl.start →
      Path impl (nl1.t.getD k Thread.init).state (slice input (pos + 1) e) impl.states.length →
      tstart (nl1.t.getD k Thread.init) ≤ pos + 1 ∧
      Accepts impl (slice input (tstart (nl1.t.getD k Thread.init)) e) := by
    intro k e hk hpe hks P2
    rcases Nat.lt_or_ge k nll.n with x | x
    · obtain ⟨o1, o2, o3, o4, o5, o6⟩ := next_old hw h hd hN hstop x
      refine ⟨by omega, ?_⟩
      unfold Accepts
      rw [slice_append input (by omega : tstart (nl1.t.getD k Thread.init) ≤ pos + 1) hpe]
      exact path_trans o6 P2
    · obtain ⟨o1, o2⟩ := next_seed hN x hk
      rw [o1 hks]
      refine ⟨le_refl _, ?_⟩
      unfold Accepts
      have := path_trans o2 P2
      simpa using this
  exact {
    pre := {
      cinv := by
        refine ⟨by have := sinv_n_le hN.sinv; rw [hN.sinv.cap]; exact this, fun k hk => ?_⟩
        obtain ⟨r1, r2⟩ := hN.sinv.rng k hk
        refine ⟨r1, r2, ?_⟩
        rcases Nat.lt_or_ge k nll.n with x | x
        · obtain ⟨_, q, _, _, hm⟩ := hN.src k x
          exact mok_self hm
        · exact mok_self (hN.seed k x hk).2
      cap_nl := by rw [hL.frame.2.1]; exact h.cap_cl
      sub_nl := by
        intro i
        rw [(hL.frame.2.2 i).2.1]
        exact h.sub_cl i
      ex_len := hN.sinv.len_ex
      ex_le := hN.sinv.le
      dummy := hdummy
      subsok := rOK }
    pos_le := hlen
    cap_cl := hN.sinv.cap
    sub_cl := hN.sinv.sublen
    uniq := fun i j hi hj e => next_uniq hN hi hj e
    valid := by
      intro k hk hks
      rcases Nat.lt_or_ge k nll.n with x | x
      · obtain ⟨o1, o2, o3, o4, o5, o6⟩ := next_old hw h hd hN hstop x
        exact ⟨by omega, o6⟩
      · obtain ⟨o1, o2⟩ := next_seed hN x hk
        rw [o1 hks, slice_self]
        exact ⟨le_refl _, o2⟩
    found := by
      intro s e m1 m2 m3
      obtain ⟨a, b1, c⟩ := rFound s e m1 m2 m3
      exact ⟨a, by omega, c⟩
    sorted := by
      intro i j hij hj hi0 hj0
      rcases Nat.lt_or_ge j nll.n with x | x
      · obtain ⟨_, o2, o3, o4, _, _⟩ := next_old hw h hd hN hstop x
        obtain ⟨_, p2, p3, p4, _, _⟩ := next_old hw h hd hN hstop (by omega : i < nll.n)
        rw [o4, p4]
        exact h.sorted (f i) (f j) (hN.mono i j hij x) (by omega) p3 o3
      · rw [(next_seed hN x hj).1 hj0]
        rcases Nat.lt_or_ge i nll.n with y | y
        · have := (next_old hw h hd hN hstop y).2.2.2.2.1
          omega
        · rw [(next_seed hN y (by omega)).1 hi0]
    root_lt := by
      intro i j hij hj hs
      obtain ⟨e, _⟩ := hroot j hj hs
      have := (next_old hw h hd hN hstop (by omega : i < nll.n)).2.2.2.2.1
      omega
    root_eq := by
      intro i j hij hj hs
      obtain ⟨e, _⟩ := hroot i (by omega) hs
      refine (next_seed hN (by omega) hj).1 ?_
      intro hs1
      have := next_uniq hN (by omega : i < nl1.n) hj (hs.trans hs1.symm)
      omega
    root := by
      constructor
      · rintro ⟨i, hi, hs⟩
        exact hseedU (hroot i hi hs).2
      · intro hu
        obtain ⟨_, _, _, hlt, _⟩ := rUn hu
        exact ⟨nll.n, hlt, hN.seed_head hlt⟩
    complete := by
      intro hu s0 q hs0 hq hpath
      obtain ⟨hst, hscu, _, hlt, _⟩ := rUn hu
      by_cases e0 : s0 = pos + 1
      · subst e0
        rw [slice_self] at hpath
        exact hN.seed_all hlt q hpath
      · have hs1 : s0 ≤ pos := by omega
        rw [slice_snoc hs1 hd] at hpath
        obtain ⟨p0, q1, a1, a2, a3⟩ := path_snoc_inv hpath
        have hp0 := (fires_middle hw (tr_fires a2 (Thread.mk p0 Subs.init) rfl)).1.1
        obtain ⟨i, hi, his⟩ := h.complete hscu s0 p0 hs1 hp0 a1
        obtain ⟨k, hk, hks, _⟩ := hN.early i (by omega) q1 (tr_fires a2 _ his) q a3
        exact ⟨k, by omega, hks⟩
    none_yet := by
      intro hu s e hse hep
      exact (rUn hu).2.2.2.2 s e hse (by omega)
    lbest := by
      intro hmt p hp hpp q e hq hpe hel P1 P2
      by_cases hpn : p = pos + 1
      · subst hpn
        rw [slice_self] at P1
        have hu : (sc1.subs.getD 0 Sub.init).matched = SubState.Unmatched := by
          rcases subsOK_cases rOK with hu | ⟨s1, e1, a, b1, c⟩
          · exact hu
          · obtain ⟨v1, v2, v3⟩ := rFound s1 e1 a b1 c
            have := hp s1 e1 v1 (by omega) v3
            omega
        obtain ⟨_, _, _, hlt, _⟩ := rUn hu
        obtain ⟨k, hk, hks⟩ := hN.seed_all hlt q P1
        refine ⟨k, hk, hks, ?_⟩
        obtain ⟨t1, t2⟩ := hacc k e hk hpe (by rw [hks]; exact hq) (by rw [hks]; exact P2)
        have := hp _ _ (by omega) hel t2
        omega
      · have hpp1 : p ≤ pos := by omega
        rw [slice_snoc hpp1 hd] at P1
        obtain ⟨p0, q1, a1, a2, a3⟩ := path_snoc_inv P1
        have hp0 := (fires_middle hw (tr_fires a2 (Thread.mk p0 Subs.init) rfl)).1.1
        have hco : Path impl p0 (slice input pos e) impl.states.length := by
          rw [slice_cons hd (by omega)]
          have := Path.cons p0 false [b] q1 _ _ a2 (path_trans a3 P2)
          simpa using this
        obtain ⟨i, hi, his, hit⟩ := h.lbest hmt p hp hpp1 p0 e hp0 (by omega) hel a1 hco
        have hlt := not_cut hw h hL hcase hmt hp hi (by rw [his]; exact hp0) hit
        obtain ⟨k, hk, hks, hkf⟩ := hN.early i hlt q1 (tr_fires a2 _ his) q a3
        obtain ⟨o1, o2, o3, o4, o5, o6⟩ := next_old hw h hd hN hstop hk
        refine ⟨k, by omega, hks, ?_⟩
        have hle : tstart (nl1.t.getD k Thread.init) ≤ p := by
          rw [o4, ← hit]
          exact h.sorted (f k) i hkf hi o3 (by rw [his]; exact hp0)
        obtain ⟨t1, t2⟩ := hacc k e (by omega) hpe o1 (by rw [hks]; exact P2)
        have := hp _ _ (by omega) hel t2
        omega
    best := by
      intro hmt p e hp hpe hep hacc1
      exact rBest hmt p e hp hpe (by omega) hacc1 }

theorem path_to_start {impl : REImpl} (hw : WFAut impl) {a : Nat} {w : List Nat}
    (h : Path impl a w impl.start) : a = impl.start ∧ w = [] := by
  generalize hq : impl.start = q at h
  induction h with
  | refl p => exact ⟨rfl, rfl⟩
  | cons p bo lab q1 w1 q2 ht _ ih =>
    obtain ⟨e, _⟩ := ih hq
    subst hq
    exact absurd e (tr_target hw ht).1

theorem slice_length (input : List Nat) {s e : Nat} (h2 : e ≤ input.length) :
    (slice input s e).length = e - s := by
  unfold slice
  simp only [List.length_take, List.length_drop]
  omega

theorem getD_replicate {α : Type} (n i : Nat) (a : α) : (List.replicate n a).getD i a = a := by
  by_cases h : i < n
  · rw [List.getD_eq_getElem _ _ (by simpa using h)]
    simp
  · rw [List.getD_eq_default _ _ (by simpa using h)]

/-- The invariant of the loop of `match` holds after `startlist`. -/
theorem minv_start {impl : REImpl} (hw : WFAut impl) (mt : MatchType) (rt : RepType)
    (input : List Nat) (fuel : Nat) (hfuel : 2 * impl.states.length + 3 ≤ fuel) :
    ∃ sc cl, startlist impl mt rt fuel
        ⟨Subs.init, Subs.init, Extras.init impl.states.length⟩ (some 0)
        (ThreadList.init impl.states.length) = some (sc, cl) ∧
      MInv impl mt input 0 sc cl (ThreadList.init impl.states.length) := by
  have hsz := hw.size
  have hse := hw.start_eq
  have hpre : StepPre impl 0
      { subs := Subs.assign Subs.init Subs.init, dummy := Subs.init,
        extras := Extras.init impl.states.length }
      (ThreadList.init 0) (ThreadList.init impl.states.length) := {
    cinv := ⟨le_refl _, fun i hi => absurd hi (Nat.not_lt_zero i)⟩
    cap_nl := by simp [ThreadList.init]
    sub_nl := by
      intro i
      show ((List.replicate impl.states.length Thread.init).getD i Thread.init).subs.length = _
      rw [getD_replicate]
      rfl
    ex_len := by simp [Extras.init]
    ex_le := by
      intro p
      show ((List.replicate (impl.states.length + 1) StateEx.init).getD p StateEx.init).lastlist
        ≤ 0
      rw [getD_replicate]
      exact le_refl _
    dummy := ⟨rfl, rfl⟩
    subsok := ⟨rfl, Or.inl rfl⟩ }
  obtain ⟨sc1, cl1, nl1, hrun, hP⟩ := step_post hw mt rt fuel 0 0 0 hpre hfuel
  refine ⟨sc1, nl1, ?_, ?_⟩
  · unfold startlist
    simp only
    rw [hrun]
  obtain ⟨stop, scl, nll, f, hstop, hL, hN, hcase⟩ := step_next hw hpre hP
  have hstop0 : stop = 0 := Nat.le_zero.mp hstop
  subst hstop0
  have hn0 : nll.n = 0 := by
    by_contra hne
    have := (hN.src 0 (by omega)).1
    omega
  have hscl : scl.subs = Subs.assign Subs.init Subs.init := by
    rcases hL.origin with e | ⟨j, hj, _⟩
    · exact e
    · omega
  have hB : (sc1.subs.getD 0 Sub.init).matched = SubState.Unmatched ∧ 0 < nl1.n ∧
      SubsOK sc1.subs ∧
      (sc1.dummy.length = NSUB ∧ (sc1.dummy.getD 0 Sub.init).matched = SubState.Unmatched) := by
    rcases hcase with ⟨h1, _⟩ | ⟨_, h2, e, hlt, ho⟩ | ⟨h1, _⟩
    · rw [hscl] at h1
      exact absurd rfl h1
    · obtain ⟨e1, _, _⟩ := obs_eq_parts (ho.2 0)
      refine ⟨by rw [e]; exact h2, by omega, ?_, ho.1.trans rfl, e1.trans rfl⟩
      have := hL.subsok
      unfold SubsOK at this ⊢
      rw [e]
      exact this
    · exact absurd h1 (Nat.not_lt_zero _)
  obtain ⟨hu, hlt, hok, hdum⟩ := hB
  have hseed : ∀ k, k < nl1.n →
      ((nl1.t.getD k Thread.init).state ≠ impl.start → tstart (nl1.t.getD k Thread.init) = 0) ∧
      Path impl impl.start [] (nl1.t.getD k Thread.init).state := by
    intro k hk
    exact next_seed hN (by omega) hk
  have hroot : ∀ j, j < nl1.n → (nl1.t.getD j Thread.init).state = impl.start → j = 0 := by
    intro j hj hs
    have h0 := hN.seed_head (by omega : nll.n < nl1.n)
    rw [hn0] at h0
    exact next_uniq hN hj hlt (hs.trans h0.symm)
  exact {
    pre := {
      cinv := by
        refine ⟨by have := sinv_n_le hN.sinv; rw [hN.sinv.cap]; exact this, fun k hk => ?_⟩
        obtain ⟨r1, r2⟩ := hN.sinv.rng k hk
        exact ⟨r1, r2, mok_self (hN.seed k (by omega) hk).2⟩
      cap_nl := by simp [ThreadList.init]
      sub_nl := hpre.sub_nl
      ex_len := hN.sinv.len_ex
      ex_le := hN.sinv.le
      dummy := hdum
      subsok := hok }
    pos_le := Nat.zero_le _
    cap_cl := hN.sinv.cap
    sub_cl := hN.sinv.sublen
    uniq := fun i j hi hj e => next_uniq hN hi hj e
    valid := by
      intro k hk hks
      obtain ⟨o1, o2⟩ := hseed k hk
      rw [o1 hks, slice_self]
      exact ⟨le_refl _, o2⟩
    found := by
      intro s e m1
      rw [hu] at m1
      simp at m1
    sorted := by
      intro i j hij hj hi0 hj0
      rw [(hseed i (by omega)).1 hi0, (hseed j hj).1 hj0]
    root_lt := by
      intro i j hij hj hs
      have := hroot j hj hs
      omega
    root_eq := by
      intro i j hij hj hs
      refine (hseed j hj).1 ?_
      intro hs1
      have := hroot j hj hs1
      omega
    root := by
      constructor
      · intro _; exact hu
      · intro _
        have h0 := hN.seed_head (by omega : nll.n < nl1.n)
        rw [hn0] at h0
        exact ⟨0, hlt, h0⟩
    complete := by
      intro _ s0 q hs0 hq hpath
      have : s0 = 0 := by omega
      subst this
      rw [slice_self] at hpath
      exact hN.seed_all (by omega) q hpath
    none_yet := fun _ s e _ he => absurd he (Nat.not_lt_zero e)
    lbest := by
      intro hmt p hp hpp q e hq hpe hel P1 P2
      have : p = 0 := by omega
      subst this
      rw [slice_self] at P1
      obtain ⟨k, hk, hks⟩ := hN.seed_all (by omega) q P1
      exact ⟨k, hk, hks, (hseed k hk).1 (by rw [hks]; exact hq)⟩
    best := fun _ p e _ _ he => absurd he (Nat.not_lt_zero e) }

/-- The loop of `match` returns, with the invariant at the offset where it
stopped: the end of the subject, or an offset whose list is empty. -/
theorem match_loop_post {impl : REImpl} (hw : WFAut impl) (mt : MatchType) (rt : RepType)
    (input : List Nat) (fuel : Nat) (hfuel : 2 * impl.states.length + 3 ≤ fuel) :
    ∀ (rest : List Nat) (pos : Nat) (sc : Scratch) (cl nl : ThreadList),
      MInv impl mt input pos sc cl nl → input.drop pos = rest →
      ∃ pos1 sc1 cl1 nl1,
        match_loop impl mt rt fuel rest pos sc cl nl = some (pos1, sc1, cl1, nl1) ∧
        MInv impl mt input pos1 sc1 cl1 nl1 ∧ (pos1 = input.length ∨ cl1.n = 0) := by
  intro rest
  induction rest with
  | nil =>
    intro pos sc cl nl h hd
    have : input.length ≤ pos := by
      have := congrArg List.length hd
      simp only [List.length_drop, List.length_nil] at this
      omega
    exact ⟨pos, sc, cl, nl, rfl, h, Or.inl (by have := h.pos_le; omega)⟩
  | cons b rest ih =>
    intro pos sc cl nl h hd
    unfold match_loop
    by_cases hn : cl.n > 0
    · rw [if_pos hn]
      obtain ⟨sc1, cl1, nl1, hrun, hP⟩ :=
        step_post hw mt rt fuel (b % 256) pos (pos + 1) h.pre hfuel
      rw [hrun]
      simp only
      have h1 := minv_step hw h hd hP
      have hd1 : input.drop (pos + 1) = rest := by
        have := congrArg (List.drop 1) hd
        simpa [List.drop_drop, Nat.add_comm] using this
      exact ih (pos + 1) sc1 nl1 cl1 h1 hd1
    · rw [if_neg hn]
      exact ⟨pos, sc, cl, nl, rfl, h, Or.inr (by omega)⟩

/-- While a part of the subject that starts at a lower bound of the accepted
starts and ends later is accepted, the current list is not empty in the
leftmost-longest mode. -/
theorem alive {impl : REImpl} {mt : MatchType} {input : List Nat} {pos : Nat}
    {sc : Scratch} {cl nl : ThreadList} (hw : WFAut impl) (h : MInv impl mt input pos sc cl nl)
    (hmt : mt = MatchType.LeftmostLongest) {p e : Nat} (hp : LowStart impl input p)
    (hpos : pos < e) (hel : e ≤ input.length)
    (hacc : Accepts impl (slice input p e)) : 0 < cl.n := by
  have hroot : (sc.subs.getD 0 Sub.init).matched = SubState.Unmatched → 0 < cl.n := by
    intro hu
    obtain ⟨i, hi, _⟩ := h.root.mpr hu
    omega
  have hun : pos ≤ p → (sc.subs.getD 0 Sub.init).matched = SubState.Unmatched := by
    intro hle
    rcases subsOK_cases h.pre.subsok with hu | ⟨s1, e1, a, b, c⟩
    · exact hu
    · obtain ⟨v1, v2, v3⟩ := h.found s1 e1 a b c
      have := hp s1 e1 v1 (by omega) v3
      omega
  rcases Nat.lt_or_ge pos p with x | x
  · exact hroot (hun (by omega))
  · unfold Accepts at hacc
    rw [slice_append input x (by omega : pos ≤ e)] at hacc
    obtain ⟨q, P1, P2⟩ := path_split hacc _ _ rfl
    by_cases hq : q = impl.start
    · subst hq
      obtain ⟨_, hnil⟩ := path_to_start hw P1
      have hl := slice_length input (s := p) (by omega : pos ≤ input.length)
      rw [hnil] at hl
      simp only [List.length_nil] at hl
      exact hroot (hun (by omega))
    · obtain ⟨i, hi, _⟩ := h.lbest hmt p hp x q e hq (by omega) hel P1 P2
      omega

/-- The run of `match` with a fresh matcher returns, and the best match it
leaves is an accepted part of the subject; it leaves none only when no part of
the subject is accepted; in the leftmost-longest mode it is at least as good as
every accepted part that starts at a lower bound of the accepted starts. -/
theorem run_post {impl : REImpl} (hw : WFAut impl) (mt : MatchType) (rt : RepType)
    (input : List Nat) :
    ∃ subs, matchSubs impl mt rt input = some subs ∧ SubsOK subs ∧
      (∀ s e, (subs.getD 0 Sub.init).matched = SubState.Matched →
        (subs.getD 0 Sub.init).first = some s → (subs.getD 0 Sub.init).second = some e →
        s ≤ e ∧ e ≤ input.length ∧ Accepts impl (slice input s e)) ∧
      ((subs.getD 0 Sub.init).matched = SubState.Unmatched →
        ∀ s e, s ≤ e → e ≤ input.length → ¬ Accepts impl (slice input s e)) ∧
      (mt = MatchType.LeftmostLongest → ∀ p e, LowStart impl input p → p ≤ e →
        e ≤ input.length → Accepts impl (slice input p e) → GeMatch subs p e) := by
  have hfuel : 2 * impl.states.length + 3 ≤ addstateFuel impl := le_refl _
  obtain ⟨sc, cl, hstart, h0⟩ := minv_start hw mt rt input (addstateFuel impl) hfuel
  obtain ⟨pos1, sc1, cl1, nl1, hloop, h1, hend⟩ :=
    match_loop_post hw mt rt input (addstateFuel impl) hfuel input 0 sc cl
      (ThreadList.init impl.states.length) h0 rfl
  obtain ⟨sc2, cl2, nl2, hfin, hP⟩ :=
    step_post hw mt rt (addstateFuel impl) 0 pos1 pos1 h1.pre hfuel
  obtain ⟨stop, scl, nll, f, hstop, hL, hN, hcase⟩ := step_next hw h1.pre hP
  obtain ⟨rOK, rFound, rUn, rBest⟩ := step_result hw h1 hstop hL hcase
  have hrun : matchSubs impl mt rt input = some sc2.subs := by
    unfold matchSubs Matcher.run Matcher.init
    simp only
    rw [hstart]
    simp only
    rw [hloop]
    simp only
    rw [hfin]
    rfl
  have hp1 := h1.pos_le
  refine ⟨sc2.subs, hrun, rOK, ?_, ?_, ?_⟩
  · intro s e m1 m2 m3
    obtain ⟨a, b, c⟩ := rFound s e m1 m2 m3
    exact ⟨a, by omega, c⟩
  · intro hu s e hse hel
    obtain ⟨_, hscu, _, _, hnone⟩ := rUn hu
    have hpos : pos1 = input.length := by
      rcases hend with x | x
      · exact x
      · obtain ⟨i, hi, _⟩ := h1.root.mpr hscu
        omega
    exact hnone s e hse (by omega)
  · intro hmt p e hp hpe hel hacc
    rcases Nat.lt_or_ge pos1 e with x | x
    · have hal := alive hw h1 hmt hp x hel hacc
      rcases hend with y | y
      · omega
      · omega
    · exact rBest hmt p e hp hpe x hacc

/-! ### Fragments of the compiled automaton and the language of a pattern -/

theorem tr_inv {impl : REImpl} {p q : Nat} {b : Bool} {lab : List Nat}
    (h : Tr impl p b lab q) :
    ∃ st, impl.deref p = some st ∧ st.op ≠ Op.Match ∧
      (q = st.out ∨ (st.op = Op.Split ∧ q = st.out1)) := by
  cases h with
  | char st c h1 h2 h3 => exact ⟨st, h1, by rw [h2]; simp, Or.inl rfl⟩
  | any st c h1 h2 => exact ⟨st, h1, by rw [h2]; simp, Or.inl rfl⟩
  | split_out st h1 h2 => exact ⟨st, h1, by rw [h2]; simp, Or.inl rfl⟩
  | split_out1 st h1 h2 => exact ⟨st, h1, by rw [h2]; simp, Or.inr ⟨h2, rfl⟩⟩
  | lparen st h1 h2 => exact ⟨st, h1, by rw [h2]; simp, Or.inl rfl⟩
  | rparen st h1 h2 => exact ⟨st, h1, by rw [h2]; simp, Or.inl rfl⟩

theorem built_range {impl : REImpl} {r : Re} {c0 c1 lo hi e t : Nat}
    (h : Built impl r c0 c1 lo hi e t) : lo < e ∧ e ≤ hi := by
  induction h with
  | chr => omega
  | any => omega
  | cat a b c0 c1 c2 lo mid hi e1 e2 t _ _ ih1 ih2 => omega
  | alt a b c0 c1 c2 lo mid hi e1 e2 t st _ _ _ _ _ _ ih1 ih2 => omega
  | star g a c0 c1 lo hi e t st _ _ _ _ _ ih => omega
  | plus g a c0 c1 lo hi e t st _ _ _ _ _ ih => omega
  | opt g a c0 c1 lo hi e t st _ _ _ _ _ ih => omega
  | group_plain a c0 c1 lo hi e t _ ih => exact ih
  | group_capture a c0 c1 lo hi e t st1 st2 _ _ _ _ _ _ _ _ _ _ ih => omega
  | group_dropped a c0 c1 lo hi e t _ _ ih => exact ih

/-- The states of a fragment: none is a Match state, the parentheses have an
index from 1 to 9, the edges stay in the fragment or lead to its target. -/
theorem built_state {impl : REImpl} {r : Re} {c0 c1 lo hi e t : Nat}
    (h : Built impl r c0 c1 lo hi e t) :
    ∀ p, lo < p → p ≤ hi → ∃ st, impl.deref p = some st ∧ st.op ≠ Op.Match ∧
      ((st.op = Op.LParen ∨ st.op = Op.RParen) → 1 ≤ st.data ∧ st.data < NSUB) ∧
      ((lo < st.out ∧ st.out ≤ hi) ∨ st.out = t) ∧
      (st.op = Op.Split → ((lo < st.out1 ∧ st.out1 ≤ hi) ∨ st.out1 = t)) := by
  induction h with
  | chr c c0 lo t st hd hop hdat hout =>
    intro p h1 h2
    have : p = lo + 1 := by omega
    subst this
    exact ⟨st, hd, by rw [hop]; simp, by rw [hop]; simp, Or.inr hout, by rw [hop]; simp⟩
  | any c0 lo t st hd hop hout =>
    intro p h1 h2
    have : p = lo + 1 := by omega
    subst this
    exact ⟨st, hd, by rw [hop]; simp, by rw [hop]; simp, Or.inr hout, by rw [hop]; simp⟩
  | cat a b c0 c1 c2 lo mid hi e1 e2 t ha hb ih1 ih2 =>
    intro p h1 h2
    have r1 := built_range ha
    have r2 := built_range hb
    by_cases hp : p ≤ mid
    · obtain ⟨st, d, o, pa, ou, ou1⟩ := ih1 p h1 hp
      refine ⟨st, d, o, pa, ?_, fun hs => ?_⟩
      · rcases ou with x | x
        · exact Or.inl (by omega)
        · exact Or.inl (by omega)
      · rcases ou1 hs with x | x
        · exact Or.inl (by omega)
        · exact Or.inl (by omega)
    · obtain ⟨st, d, o, pa, ou, ou1⟩ := ih2 p (by omega) h2
      refine ⟨st, d, o, pa, ?_, fun hs => ?_⟩
      · rcases ou with x | x
        · exact Or.inl (by omega)
        · exact Or.inr x
      · rcases ou1 hs with x | x
        · exact Or.inl (by omega)
        · exact Or.inr x
  | alt a b c0 c1 c2 lo mid hi e1 e2 t st ha hb hd hop hout hout1 ih1 ih2 =>
    intro p h1 h2
    have r1 := built_range ha
    have r2 := built_range hb
    by_cases hp : p ≤ mid
    · obtain ⟨st, d, o, pa, ou, ou1⟩ := ih1 p h1 hp
      refine ⟨st, d, o, pa, ?_, fun hs => ?_⟩
      · rcases ou with x | x
        · exact Or.inl (by omega)
        · exact Or.inr x
      · rcases ou1 hs with x | x
        · exact Or.inl (by omega)
        · exact Or.inr x
    · by_cases hp2 : p ≤ hi
      · obtain ⟨st, d, o, pa, ou, ou1⟩ := ih2 p (by omega) hp2
        refine ⟨st, d, o, pa, ?_, fun hs => ?_⟩
        · rcases ou with x | x
          · exact Or.inl (by omega)
          · exact Or.inr x
        · rcases ou1 hs with x | x
          · exact Or.inl (by omega)
          · exact Or.inr x
      · have : p = hi + 1 := by omega
        subst this
        exact ⟨st, hd, by rw [hop]; simp, by rw [hop]; simp, Or.inl (by omega),
          fun _ => Or.inl (by omega)⟩
  | star g a c0 c1 lo hi e t st ha hd hop hout hout1 ih =>
    intro p h1 h2
    have r1 := built_range ha
    by_cases hp : p ≤ hi
    · obtain ⟨st, d, o, pa, ou, ou1⟩ := ih p h1 hp
      refine ⟨st, d, o, pa, ?_, fun hs => ?_⟩
      · rcases ou with x | x
        · exact Or.inl (by omega)
        · exact Or.inl (by omega)
      · rcases ou1 hs with x | x
        · exact Or.inl (by omega)
        · exact Or.inl (by omega)
    · have : p = hi + 1 := by omega
      subst this
      refine ⟨st, hd, by rw [hop]; simp, by rw [hop]; simp, ?_, fun _ => ?_⟩
      · cases g
        · exact Or.inr (by simpa using hout)
        · exact Or.inl (by simp at hout; omega)
      · cases g
        · exact Or.inl (by simp at hout1; omega)
        · exact Or.inr (by simpa using hout1)
  | plus g a c0 c1 lo hi e t st ha hd hop hout hout1 ih =>
    intro p h1 h2
    have r1 := built_range ha
    by_cases hp : p ≤ hi
    · obtain ⟨st, d, o, pa, ou, ou1⟩ := ih p h1 hp
      refine ⟨st, d, o, pa, ?_, fun hs => ?_⟩
      · rcases ou with x | x
        · exact Or.inl (by omega)
        · exact Or.inl (by omega)
      · rcases ou1 hs with x | x
        · exact Or.inl (by omega)
        · exact Or.inl (by omega)
    · have : p = hi + 1 := by omega
      subst this
      refine ⟨st, hd, by rw [hop]; simp, by rw [hop]; simp, ?_, fun _ => ?_⟩
      · cases g
        · exact Or.inr (by simpa using hout)
        · exact Or.inl (by simp at hout; omega)
      · cases g
        · exact Or.inl (by simp at hout1; omega)
        · exact Or.inr (by simpa using hout1)
  | opt g a c0 c1 lo hi e t st ha hd hop hout hout1 ih =>
    intro p h1 h2
    have r1 := built_range ha
    by_cases hp : p ≤ hi
    · obtain ⟨st, d, o, pa, ou, ou1⟩ := ih p h1 hp
      refine ⟨st, d, o, pa, ?_, fun hs => ?_⟩
      · rcases ou with x | x
        · exact Or.inl (by omega)
        · exact Or.inr x
      · rcases ou1 hs with x | x
        · exact Or.inl (by omega)
        · exact Or.inr x
    · have : p = hi + 1 := by omega
      subst this
      refine ⟨st, hd, by rw [hop]; simp, by rw [hop]; simp, ?_, fun _ => ?_⟩
      · cases g
        · exact Or.inr (by simpa using hout)
        · exact Or.inl (by simp at hout; omega)
      · cases g
        · exact Or.inl (by simp at hout1; omega)
        · exact Or.inr (by simpa using hout1)
  | group_plain a c0 c1 lo hi e t _ ih => exact ih
  | group_capture a c0 c1 lo hi e t st1 st2 hn ha hd1 hop1 hdat1 hout1 hd2 hop2 hdat2 hout2 ih =>
    intro p h1 h2
    have r1 := built_range ha
    have hdata : ∀ d : Int, d = ((c0 + 1 : Nat) : Int) → 1 ≤ d ∧ d < NSUB := by
      intro d hd
      subst hd
      constructor
      · exact_mod_cast Nat.succ_le_succ (Nat.zero_le c0)
      · exact_mod_cast hn
    by_cases hp : p ≤ hi
    · obtain ⟨st, d, o, pa, ou, ou1⟩ := ih p h1 hp
      refine ⟨st, d, o, pa, ?_, fun hs => ?_⟩
      · rcases ou with x | x
        · exact Or.inl (by omega)
        · exact Or.inl (by omega)
      · rcases ou1 hs with x | x
        · exact Or.inl (by omega)
        · exact Or.inl (by omega)
    · by_cases hp1 : p = hi + 1
      · subst hp1
        exact ⟨st1, hd1, by rw [hop1]; simp, fun _ => hdata _ hdat1, Or.inl (by omega),
          by rw [hop1]; simp⟩
      · have : p = hi + 2 := by omega
        subst this
        exact ⟨st2, hd2, by rw [hop2]; simp, fun _ => hdata _ hdat2, Or.inr hout2,
          by rw [hop2]; simp⟩
  | group_dropped a c0 c1 lo hi e t _ _ ih => exact ih

theorem built_closed {impl : REImpl} {r : Re} {c0 c1 lo hi e t : Nat}
    (h : Built impl r c0 c1 lo hi e t) : ClosedIn impl lo hi t := by
  intro p b lab q h1 h2 ht
  obtain ⟨st, hd, _, _, ou, ou1⟩ := built_state h p h1 h2
  obtain ⟨st1, hd1, _, hq⟩ := tr_inv ht
  rw [hd] at hd1
  simp only [Option.some.injEq] at hd1
  subst hd1
  rcases hq with x | ⟨hs, x⟩
  · rw [x]; exact ou
  · rw [x]; exact ou1 hs

theorem pathTo_path {impl : REImpl} {t p : Nat} {w : List Nat} (h : PathTo impl t p w) :
    Path impl p w t := by
  induction h with
  | last p b lab ht => exact path_one ht
  | step p b lab q w ht _ _ ih => exact Path.cons p b lab q w t ht ih

/-- A path out of a closed set of states to a state outside first arrives at the exit of the set. -/
theorem pathTo_split {impl : REImpl} {lo hi x t : Nat} (hc : ClosedIn impl lo hi x)
    (hx : x ≤ lo ∨ hi < x) (ht : t ≤ lo ∨ hi < t) (hxt : x ≠ t) {p : Nat} {w : List Nat}
    (h : PathTo impl t p w) : lo < p → p ≤ hi →
    ∃ u v, w = u ++ v ∧ PathTo impl x p u ∧ PathTo impl t x v := by
  induction h with
  | last p b lab htr =>
    intro h1 h2
    rcases hc p b lab t h1 h2 htr with y | y
    · omega
    · exact absurd y.symm hxt
  | step p b lab q w htr hq hp ih =>
    intro h1 h2
    rcases hc p b lab q h1 h2 htr with y | y
    · obtain ⟨u, v, e, a1, a2⟩ := ih y.1 y.2
      refine ⟨lab ++ u, v, by rw [e, List.append_assoc], ?_, a2⟩
      exact PathTo.step p b lab q u htr (by omega) a1
    · subst y
      exact ⟨lab, w, rfl, PathTo.last p b lab htr, hp⟩

/-- A path through a closed set of states to its exit, followed by a path from the exit. -/
theorem pathTo_trans {impl : REImpl} {lo hi x t : Nat} (hc : ClosedIn impl lo hi x)
    (ht : t ≤ lo ∨ hi < t) (hxt : x ≠ t) {p : Nat} {u v : List Nat}
    (h1 : PathTo impl x p u) (h2 : PathTo impl t x v) : lo < p → p ≤ hi →
    PathTo impl t p (u ++ v) := by
  induction h1 with
  | last p b lab htr =>
    intro _ _
    exact PathTo.step p b lab x v htr hxt h2
  | step p b lab q w htr hq hp ih =>
    intro a1 a2
    rcases hc p b lab q a1 a2 htr with y | y
    · rw [List.append_assoc]
      exact PathTo.step p b lab q (w ++ v) htr (by omega) (ih y.1 y.2)
    · exact absurd y hq

/-- The arrows out of a state, by the kind of the state. -/
theorem tr_cases {impl : REImpl} {p q : Nat} {b : Bool} {lab : List Nat} {st : State}
    (h : Tr impl p b lab q) (hd : impl.deref p = some st) :
    (st.op = Op.Char ∧ q = st.out ∧ ∃ x, lab = [x] ∧ ((x % 256 : Nat) : Int) = st.data) ∨
    (st.op = Op.Any ∧ q = st.out ∧ ∃ x, lab = [x]) ∨
    (st.op = Op.Split ∧ lab = [] ∧ (q = st.out ∨ q = st.out1)) ∨
    ((st.op = Op.LParen ∨ st.op = Op.RParen) ∧ lab = [] ∧ q = st.out) := by
  have key : ∀ st1, impl.deref p = some st1 → st1 = st := by
    intro st1 h1
    rw [hd] at h1
    simp only [Option.some.injEq] at h1
    exact h1.symm
  cases h with
  | char st1 c h1 h2 h3 =>
    have := key st1 h1; subst this
    exact Or.inl ⟨h2, rfl, c, rfl, h3⟩
  | any st1 c h1 h2 =>
    have := key st1 h1; subst this
    exact Or.inr (Or.inl ⟨h2, rfl, c, rfl⟩)
  | split_out st1 h1 h2 =>
    have := key st1 h1; subst this
    exact Or.inr (Or.inr (Or.inl ⟨h2, rfl, Or.inl rfl⟩))
  | split_out1 st1 h1 h2 =>
    have := key st1 h1; subst this
    exact Or.inr (Or.inr (Or.inl ⟨h2, rfl, Or.inr rfl⟩))
  | lparen st1 h1 h2 =>
    have := key st1 h1; subst this
    exact Or.inr (Or.inr (Or.inr ⟨Or.inl h2, rfl, rfl⟩))
  | rparen st1 h1 h2 =>
    have := key st1 h1; subst this
    exact Or.inr (Or.inr (Or.inr ⟨Or.inr h2, rfl, rfl⟩))

theorem tr_split_inv {impl : REImpl} {p q : Nat} {b : Bool} {lab : List Nat} {st : State}
    (h : Tr impl p b lab q) (hd : impl.deref p = some st) (hop : st.op = Op.Split) :
    lab = [] ∧ (q = st.out ∨ q = st.out1) := by
  rcases tr_cases h hd with ⟨o, _⟩ | ⟨o, _⟩ | ⟨_, a, c⟩ | ⟨o | o, _⟩
  · rw [hop] at o; simp at o
  · rw [hop] at o; simp at o
  · exact ⟨a, c⟩
  · rw [hop] at o; simp at o
  · rw [hop] at o; simp at o

theorem tr_paren_inv {impl : REImpl} {p q : Nat} {b : Bool} {lab : List Nat} {st : State}
    (h : Tr impl p b lab q) (hd : impl.deref p = some st)
    (hop : st.op = Op.LParen ∨ st.op = Op.RParen) : lab = [] ∧ q = st.out := by
  rcases tr_cases h hd with ⟨o, _⟩ | ⟨o, _⟩ | ⟨o, _⟩ | ⟨_, a, c⟩
  · rcases hop with x | x <;> rw [x] at o <;> simp at o
  · rcases hop with x | x <;> rw [x] at o <;> simp at o
  · rcases hop with x | x <;> rw [x] at o <;> simp at o
  · exact ⟨a, c⟩

/-- The arrows of a Split state whose two edges are `e` and `t` in some order. -/
theorem split_edges {impl : REImpl} {s e t : Nat} {st : State} {g : Bool}
    (hd : impl.deref s = some st) (hop : st.op = Op.Split)
    (hout : st.out = (if g then e else t)) (hout1 : st.out1 = (if g then t else e)) :
    (∃ b, Tr impl s b [] e) ∧ (∃ b, Tr impl s b [] t) ∧
    (∀ b lab q, Tr impl s b lab q → lab = [] ∧ (q = e ∨ q = t)) := by
  have t1 := Tr.split_out s st hd hop
  have t2 := Tr.split_out1 s st hd hop
  cases g
  · simp only [Bool.false_eq_true, if_false] at hout hout1
    rw [hout] at t1
    rw [hout1] at t2
    refine ⟨⟨_, t2⟩, ⟨_, t1⟩, ?_⟩
    intro b lab q h
    obtain ⟨a, c⟩ := tr_split_inv h hd hop
    rw [hout, hout1] at c
    exact ⟨a, c.symm⟩
  · simp only [if_true] at hout hout1
    rw [hout] at t1
    rw [hout1] at t2
    refine ⟨⟨_, t1⟩, ⟨_, t2⟩, ?_⟩
    intro b lab q h
    obtain ⟨a, c⟩ := tr_split_inv h hd hop
    rw [hout, hout1] at c
    exact ⟨a, c⟩

/-- The loop of a star or plus: from its Split state `s`, whose edges are the
entry `e` of the body and the target `t`, the paths to `t` read the words of
`Star L` when the paths through the body read the words of `L`. -/
theorem loop_lang {impl : REImpl} {lo hi e t : Nat} (hc : ClosedIn impl lo hi (hi + 1))
    (he : lo < e ∧ e ≤ hi) (ht : t ≤ lo ∨ hi + 1 < t)
    (h1 : ∃ b, Tr impl (hi + 1) b [] e) (h2 : ∃ b, Tr impl (hi + 1) b [] t)
    (h3 : ∀ b lab q, Tr impl (hi + 1) b lab q → lab = [] ∧ (q = e ∨ q = t))
    (L : List Nat → Prop)
    (ih : ∀ w, PathTo impl (hi + 1) e w ↔ L w) :
    ∀ w, PathTo impl t (hi + 1) w ↔ Star L w := by
  have fwd : ∀ p w, PathTo impl t p w →
      ((lo < p ∧ p ≤ hi) ∨ p = hi + 1) →
      ∃ u v, w = u ++ v ∧ ((p = hi + 1 ∧ u = []) ∨ (p ≠ hi + 1 ∧ PathTo impl (hi + 1) p u)) ∧
        Star L v := by
    intro p w h
    induction h with
    | last p b lab htr =>
      intro hp
      rcases hp with hp | hp
      · rcases hc p b lab t hp.1 hp.2 htr with y | y <;> omega
      · subst hp
        obtain ⟨a, _⟩ := h3 b lab t htr
        subst a
        exact ⟨[], [], rfl, Or.inl ⟨rfl, rfl⟩, Star.nil⟩
    | step p b lab q w1 htr hq hp1 ih1 =>
      intro hp
      rcases hp with hp | hp
      · have hq1 := hc p b lab q hp.1 hp.2 htr
        obtain ⟨u1, v1, e1, c1, s1⟩ := ih1 (by
          rcases hq1 with y | y
          · exact Or.inl y
          · exact Or.inr y)
        rcases c1 with ⟨c1, c2⟩ | ⟨c1, c2⟩
        · subst c1 c2
          refine ⟨lab, v1, by simp [e1], Or.inr ⟨by omega, PathTo.last p b lab htr⟩, s1⟩
        · refine ⟨lab ++ u1, v1, by rw [e1, List.append_assoc],
            Or.inr ⟨by omega, PathTo.step p b lab q u1 htr c1 c2⟩, s1⟩
      · subst hp
        obtain ⟨a, c⟩ := h3 b lab q htr
        subst a
        have hqe : q = e := by
          rcases c with c | c
          · exact c
          · exact absurd c hq
        subst hqe
        obtain ⟨u1, v1, e1, c1, s1⟩ := ih1 (Or.inl he)
        rcases c1 with ⟨c1, _⟩ | ⟨_, c2⟩
        · omega
        · refine ⟨[], u1 ++ v1, by simp [e1], Or.inl ⟨rfl, rfl⟩, ?_⟩
          exact Star.app u1 v1 ((ih u1).mp c2) s1
  intro w
  constructor
  · intro h
    obtain ⟨u, v, e1, c1, s1⟩ := fwd _ w h (Or.inr rfl)
    rcases c1 with ⟨_, c2⟩ | ⟨c1, _⟩
    · subst c2
      rw [e1]
      exact s1
    · exact absurd rfl c1
  · intro h
    induction h with
    | nil =>
      obtain ⟨b, htr⟩ := h2
      exact PathTo.last _ b [] htr
    | app u v hu hv ih2 =>
      obtain ⟨b, htr⟩ := h1
      have p1 := (ih u).mpr hu
      have p2 := ih2
      have p3 := pathTo_trans hc (by omega) (by omega) p1 p2 he.1 he.2
      have := PathTo.step _ b [] e _ htr (by omega) p3
      simpa using this

theorem charToInt_ascii {c : Nat} (h : c < 128) : charToInt c = ((c : Nat) : Int) := by
  unfold charToInt
  have e : c % 256 = c := Nat.mod_eq_of_lt (by omega)
  rw [e, if_pos h]

/-- The paths through a fragment, from its entry to the first arrival at its
target, read the words the automaton of the pattern reads. -/
theorem built_autLang {impl : REImpl} {r : Re} {c0 c1 lo hi e t : Nat}
    (h : Built impl r c0 c1 lo hi e t) :
    (t ≤ lo ∨ hi < t) → ∀ w, (PathTo impl t e w ↔ AutLang r w) := by
  induction h with
  | chr c c0 lo t st hd hop hdat hout =>
    intro ht w
    show _ ↔ ∃ b, w = [b] ∧ ((b % 256 : Nat) : Int) = charToInt c
    constructor
    · intro h
      cases h with
      | last _ b _ htr =>
        rcases tr_cases htr hd with ⟨_, _, x, e1, e2⟩ | ⟨o, _⟩ | ⟨o, _⟩ | ⟨o | o, _⟩
        · exact ⟨x, e1, by rw [e2, hdat]⟩
        · rw [hop] at o; simp at o
        · rw [hop] at o; simp at o
        · rw [hop] at o; simp at o
        · rw [hop] at o; simp at o
      | step _ b lab q w1 htr hq hp =>
        obtain ⟨st1, hd1, _, hq1⟩ := tr_inv htr
        rw [hd] at hd1
        simp only [Option.some.injEq] at hd1
        subst hd1
        rcases hq1 with x | ⟨o, _⟩
        · rw [hout] at x; exact absurd x hq
        · rw [hop] at o; simp at o
    · rintro ⟨x, rfl, hx⟩
      have htr := Tr.char (lo + 1) st x hd hop (by rw [hx, hdat])
      rw [hout] at htr
      exact PathTo.last _ false [x] htr
  | any c0 lo t st hd hop hout =>
    intro ht w
    show _ ↔ ∃ b, w = [b]
    constructor
    · intro h
      cases h with
      | last _ b _ htr =>
        rcases tr_cases htr hd with ⟨o, _⟩ | ⟨_, _, x, e1⟩ | ⟨o, _⟩ | ⟨o | o, _⟩
        · rw [hop] at o; simp at o
        · exact ⟨x, e1⟩
        · rw [hop] at o; simp at o
        · rw [hop] at o; simp at o
        · rw [hop] at o; simp at o
      | step _ b lab q w1 htr hq hp =>
        obtain ⟨st1, hd1, _, hq1⟩ := tr_inv htr
        rw [hd] at hd1
        simp only [Option.some.injEq] at hd1
        subst hd1
        rcases hq1 with x | ⟨o, _⟩
        · rw [hout] at x; exact absurd x hq
        · rw [hop] at o; simp at o
    · rintro ⟨x, rfl⟩
      have htr := Tr.any (lo + 1) st x hd hop
      rw [hout] at htr
      exact PathTo.last _ false [x] htr
  | cat a b c0 c1 c2 lo mid hi e1 e2 t ha hb ih1 ih2 =>
    intro ht w
    have r1 := built_range ha
    have r2 := built_range hb
    have hca := built_closed ha
    show _ ↔ ∃ u v, w = u ++ v ∧ AutLang a u ∧ AutLang b v
    constructor
    · intro h
      obtain ⟨u, v, e, p1, p2⟩ := pathTo_split hca (by omega) (by omega) (by omega) h r1.1 r1.2
      subst e
      exact ⟨u, v, rfl,
        (ih1 (by omega) u).mp p1,
        (ih2 (by omega) v).mp p2⟩
    · rintro ⟨u, v, rfl, l1, l2⟩
      have p1 := (ih1 (by omega) u).mpr l1
      have p2 := (ih2 (by omega) v).mpr l2
      exact pathTo_trans hca (by omega) (by omega) p1 p2 r1.1 r1.2
  | alt a b c0 c1 c2 lo mid hi e1 e2 t st ha hb hd hop hout hout1 ih1 ih2 =>
    intro ht w
    have r1 := built_range ha
    have r2 := built_range hb
    show _ ↔ (AutLang a w ∨ AutLang b w)
    constructor
    · intro h
      cases h with
      | last _ bo _ htr =>
        obtain ⟨_, c⟩ := tr_split_inv htr hd hop
        rw [hout, hout1] at c
        omega
      | step _ bo lab q w1 htr hq hp =>
        obtain ⟨a1, c⟩ := tr_split_inv htr hd hop
        subst a1
        rw [hout, hout1] at c
        rcases c with c | c
        · subst c
          exact Or.inl ((ih1 (by omega) _).mp hp)
        · subst c
          exact Or.inr ((ih2 (by omega) _).mp hp)
    · intro h
      rcases h with l1 | l2
      · have p1 := (ih1 (by omega) w).mpr l1
        have htr := Tr.split_out (hi + 1) st hd hop
        rw [hout] at htr
        have := PathTo.step _ false [] e1 w htr (by omega) p1
        simpa using this
      · have p1 := (ih2 (by omega) w).mpr l2
        have htr := Tr.split_out1 (hi + 1) st hd hop
        rw [hout1] at htr
        have := PathTo.step _ true [] e2 w htr (by omega) p1
        simpa using this
  | star g a c0 c1 lo hi e t st ha hd hop hout hout1 ih =>
    intro ht w
    obtain ⟨h1, h2, h3⟩ := split_edges hd hop hout hout1
    exact loop_lang (built_closed ha) (built_range ha) (by omega) h1 h2 h3 (AutLang a)
      (fun w1 => ih (by omega) w1) w
  | plus g a c0 c1 lo hi e t st ha hd hop hout hout1 ih =>
    intro ht w
    obtain ⟨h1, h2, h3⟩ := split_edges hd hop hout hout1
    have r1 := built_range ha
    have hca := built_closed ha
    have hloop := loop_lang hca r1 (by omega : t ≤ lo ∨ hi + 1 < t) h1 h2 h3 (AutLang a)
      (fun w1 => ih (by omega) w1)
    show _ ↔ ∃ u v, w = u ++ v ∧ AutLang a u ∧ Star (AutLang a) v
    constructor
    · intro h
      obtain ⟨u, v, e1, p1, p2⟩ :=
        pathTo_split hca (by omega) (by omega) (by omega) h r1.1 r1.2
      subst e1
      exact ⟨u, v, rfl,
        (ih (by omega) u).mp p1,
        (hloop v).mp p2⟩
    · rintro ⟨u, v, rfl, l1, l2⟩
      have p1 := (ih (by omega) u).mpr l1
      have p2 := (hloop v).mpr l2
      exact pathTo_trans hca (by omega) (by omega) p1 p2 r1.1 r1.2
  | opt g a c0 c1 lo hi e t st ha hd hop hout hout1 ih =>
    intro ht w
    obtain ⟨⟨b1, h1⟩, ⟨b2, h2⟩, h3⟩ := split_edges hd hop hout hout1
    have r1 := built_range ha
    show _ ↔ (w = [] ∨ AutLang a w)
    constructor
    · intro h
      cases h with
      | last _ bo _ htr => exact Or.inl (h3 _ _ _ htr).1
      | step _ bo lab q w1 htr hq hp =>
        obtain ⟨a1, c⟩ := h3 _ _ _ htr
        subst a1
        rcases c with c | c
        · subst c
          exact Or.inr ((ih (by omega) _).mp hp)
        · exact absurd c hq
    · intro h
      rcases h with l1 | l2
      · subst l1
        exact PathTo.last _ b2 [] h2
      · have p1 := (ih (by omega) w).mpr l2
        have := PathTo.step _ b1 [] e w h1 (by omega) p1
        simpa using this
  | group_plain a c0 c1 lo hi e t _ ih => exact ih
  | group_capture a c0 c1 lo hi e t st1 st2 hn ha hd1 hop1 hdat1 hout1 hd2 hop2 hdat2 hout2 ih =>
    intro ht w
    have r1 := built_range ha
    have hca := built_closed ha
    have htr1 := Tr.lparen (hi + 1) st1 hd1 hop1
    rw [hout1] at htr1
    have htr2 := Tr.rparen (hi + 2) st2 hd2 hop2
    rw [hout2] at htr2
    show _ ↔ AutLang a w
    constructor
    · intro h
      cases h with
      | last _ bo _ htr =>
        obtain ⟨_, c⟩ := tr_paren_inv htr hd1 (Or.inl hop1)
        rw [hout1] at c
        omega
      | step _ bo lab q w1 htr hq hp =>
        obtain ⟨a1, c⟩ := tr_paren_inv htr hd1 (Or.inl hop1)
        subst a1
        rw [hout1] at c
        subst c
        obtain ⟨u, v, e1, p1, p2⟩ :=
          pathTo_split hca (by omega) (by omega) (by omega) hp r1.1 r1.2
        have hv : v = [] := by
          cases p2 with
          | last _ bo2 _ htr3 => exact (tr_paren_inv htr3 hd2 (Or.inr hop2)).1
          | step _ bo2 lab2 q2 w2 htr3 hq2 hp2 =>
            obtain ⟨_, c2⟩ := tr_paren_inv htr3 hd2 (Or.inr hop2)
            rw [hout2] at c2
            exact absurd c2 hq2
        subst hv
        simp only [List.append_nil] at e1
        subst e1
        simp only [List.nil_append]
        exact (ih (by omega) _).mp p1
    · intro h
      have p1 := (ih (by omega) w).mpr h
      have p2 : PathTo impl t (hi + 2) [] := PathTo.last _ false [] htr2
      have p3 := pathTo_trans hca (by omega) (by omega) p1 p2 r1.1 r1.2
      have := PathTo.step _ false [] e _ htr1 (by omega) p3
      simpa using this
  | group_dropped a c0 c1 lo hi e t _ _ ih => exact ih

/-- A star of a language is monotone in the language, on the parts of a word. -/
theorem star_mono {L1 L2 : List Nat → Prop} {P : List Nat → Prop}
    (hP : ∀ u v, P (u ++ v) → P u ∧ P v) (h12 : ∀ w, P w → L1 w → L2 w) {w : List Nat}
    (h : Star L1 w) : P w → Star L2 w := by
  induction h with
  | nil => intro _; exact Star.nil
  | app u v hu _ ih =>
    intro hp
    obtain ⟨p1, p2⟩ := hP u v hp
    exact Star.app u v (h12 u p1 hu) (ih p2)

/-- On a subject of bytes the automaton of a pattern of bytes reads only words
of the language of the pattern. -/
theorem autLang_lang : ∀ (r : Re), r.Bytes → ∀ w, (∀ x ∈ w, x < 256) → AutLang r w → Lang r w := by
  have hsplit : ∀ u v : List Nat, (∀ x ∈ u ++ v, x < 256) →
      (∀ x ∈ u, x < 256) ∧ (∀ x ∈ v, x < 256) := fun u v h =>
    ⟨fun x hx => h x (List.mem_append_left _ hx), fun x hx => h x (List.mem_append_right _ hx)⟩
  intro r
  induction r with
  | chr c =>
    intro hc w hb h
    obtain ⟨b, e1, e2⟩ := h
    subst e1
    have hx := hb b (List.mem_singleton_self b)
    have hc1 : c < 256 := hc
    show [b] = [c]
    have e3 : b % 256 = b := Nat.mod_eq_of_lt hx
    have e4 : c % 256 = c := Nat.mod_eq_of_lt hc1
    unfold charToInt at e2
    rw [e3, e4] at e2
    split at e2
    · have : b = c := by exact_mod_cast e2
      rw [this]
    · omega
  | any => intro _ w _ h; exact h
  | cat a b iha ihb =>
    intro hr w hb h
    obtain ⟨u, v, e, h1, h2⟩ := h
    subst e
    obtain ⟨p1, p2⟩ := hsplit u v hb
    exact ⟨u, v, rfl, iha hr.1 u p1 h1, ihb hr.2 v p2 h2⟩
  | alt a b iha ihb =>
    intro hr w hb h
    rcases h with h | h
    · exact Or.inl (iha hr.1 w hb h)
    · exact Or.inr (ihb hr.2 w hb h)
  | star g a ih =>
    intro hr w hb h
    exact star_mono hsplit (fun u hu h1 => ih hr u hu h1) h hb
  | plus g a ih =>
    intro hr w hb h
    obtain ⟨u, v, e, h1, h2⟩ := h
    subst e
    obtain ⟨p1, p2⟩ := hsplit u v hb
    exact ⟨u, v, rfl, ih hr u p1 h1, star_mono hsplit (fun u hu h1 => ih hr u hu h1) h2 p2⟩
  | opt g a ih =>
    intro hr w hb h
    rcases h with h | h
    · exact Or.inl h
    · exact Or.inr (ih hr w hb h)
  | group c a ih => intro hr w hb h; exact ih hr w hb h

/-- The automaton of a 7-bit pattern reads every word of bytes of the language of the pattern. -/
theorem lang_autLang : ∀ (r : Re), r.Ascii → ∀ w, Lang r w → AutLang r w := by
  intro r
  induction r with
  | chr c =>
    intro hc w h
    have h1 : w = [c] := h
    subst h1
    have hc1 : c < 128 := hc
    refine ⟨c, rfl, ?_⟩
    rw [charToInt_ascii hc1, Nat.mod_eq_of_lt (by omega)]
  | any => intro _ w h; exact h
  | cat a b iha ihb =>
    intro hr w h
    obtain ⟨u, v, e, h1, h2⟩ := h
    exact ⟨u, v, e, iha hr.1 u h1, ihb hr.2 v h2⟩
  | alt a b iha ihb =>
    intro hr w h
    rcases h with h | h
    · exact Or.inl (iha hr.1 w h)
    · exact Or.inr (ihb hr.2 w h)
  | star g a ih =>
    intro hr w h
    exact star_mono (P := fun _ => True) (fun _ _ _ => ⟨trivial, trivial⟩)
      (fun u _ h1 => ih hr u h1) h trivial
  | plus g a ih =>
    intro hr w h
    obtain ⟨u, v, e, h1, h2⟩ := h
    exact ⟨u, v, e, ih hr u h1, star_mono (P := fun _ => True) (fun _ _ _ => ⟨trivial, trivial⟩)
      (fun u _ h1 => ih hr u h1) h2 trivial⟩
  | opt g a ih =>
    intro hr w h
    rcases h with h | h
    · exact Or.inl h
    · exact Or.inr (ih hr w h)
  | group c a ih => intro hr w h; exact ih hr w h

/-- A 7-bit pattern is a pattern of bytes. -/
theorem ascii_bytes : ∀ (r : Re), r.Ascii → r.Bytes := by
  intro r
  induction r with
  | chr c => intro h; exact Nat.lt_trans h (by decide)
  | any => intro _; trivial
  | cat a b iha ihb => intro h; exact ⟨iha h.1, ihb h.2⟩
  | alt a b iha ihb => intro h; exact ⟨iha h.1, ihb h.2⟩
  | star g a ih => exact ih
  | plus g a ih => exact ih
  | opt g a ih => exact ih
  | group c a ih => exact ih

/-- The paths through a fragment of a 7-bit pattern, from its entry to the
first arrival at its target, read the words of the language of the pattern. -/
theorem built_lang {impl : REImpl} {r : Re} {c0 c1 lo hi e t : Nat}
    (h : Built impl r c0 c1 lo hi e t) :
    r.Ascii → (t ≤ lo ∨ hi < t) → ∀ w, (∀ x ∈ w, x < 256) → (PathTo impl t e w ↔ Lang r w) := by
  intro hA ht w hb
  rw [built_autLang h ht w]
  exact ⟨autLang_lang r (ascii_bytes r hA) w hb, lang_autLang r hA w⟩

/-! ### The arena under `state` and `patch` -/

theorem deref_state (impl : REImpl) (op : Op) (d : Int) (o o1 : Nat) (p : Nat) :
    (impl.state op d o o1).1.deref p =
      if p = impl.states.length + 1 then some ⟨op, d, o, o1, impl.states.length + 1⟩
      else impl.deref p := by
  unfold REImpl.deref REImpl.state
  simp only
  by_cases h0 : p = 0
  · subst h0
    simp
  · rw [if_neg h0, if_neg h0]
    by_cases h1 : p = impl.states.length + 1
    · subst h1
      simp
    · rw [if_neg h1]
      by_cases h2 : p - 1 < impl.states.length
      · rw [List.getElem?_append_left h2]
      · rw [List.getElem?_eq_none (by simp; omega), List.getElem?_eq_none (by omega)]

theorem state_length (impl : REImpl) (op : Op) (d : Int) (o o1 : Nat) :
    (impl.state op d o o1).1.states.length = impl.states.length + 1 := by
  simp [REImpl.state]

theorem setSlot_length (S : List State) (sl : Slot) (t : Nat) :
    (setSlot S sl t).length = S.length := by
  unfold setSlot
  split
  · split <;> simp
  · rfl

theorem patchStates_length (l : Ptrlist) (t : Nat) :
    ∀ S : List State, (patchStates S l t).length = S.length := by
  induction l with
  | nil => intro S; rfl
  | cons sl l ih =>
    intro S
    simp only [patchStates]
    rw [ih, setSlot_length]

theorem patch_length (impl : REImpl) (l : Ptrlist) (t : Nat) :
    (patch impl l t).states.length = impl.states.length := by
  simp [patch, patchStates_length]

theorem setSlot_get (S : List State) (sl : Slot) (t : Nat) (i : Nat) :
    (setSlot S sl t)[i]? = (S[i]?).map (fun st =>
      if sl.s = i + 1 then (if sl.isOut1 then { st with out1 := t } else { st with out := t })
      else st) := by
  unfold setSlot
  by_cases h0 : sl.s = 0
  · have hne : ¬ sl.s = i + 1 := by omega
    simp only [hne, if_false]
    split
    · rw [if_pos h0]; simp
    · simp
  · by_cases hi : sl.s = i + 1
    · have e : sl.s - 1 = i := by omega
      rw [e]
      simp only [hi, if_true]
      cases hS : S[i]? with
      | none => simp [hS]
      | some st =>
        simp only [Option.map_some']
        have hlt : i < S.length := by
          by_contra hc
          rw [List.getElem?_eq_none (by omega)] at hS
          simp at hS
        simp [List.getElem?_set, hlt]
    · simp only [hi, if_false]
      split
      · rw [if_neg h0]
        rw [List.getElem?_set_ne (by omega)]
        simp
      · simp

theorem pst_cons (sl : Slot) (l : Ptrlist) (t p : Nat) (st : State) :
    pst (sl :: l) t p st = pst l t p
      (if sl.s = p then (if sl.isOut1 then { st with out1 := t } else { st with out := t })
        else st) := rfl

theorem patchStates_get (l : Ptrlist) (t : Nat) :
    ∀ (S : List State) (i : Nat), (patchStates S l t)[i]? = (S[i]?).map (pst l t (i + 1)) := by
  induction l with
  | nil =>
    intro S i
    have : pst [] t (i + 1) = id := by funext st; rfl
    simp [patchStates, this]
  | cons sl l ih =>
    intro S i
    simp only [patchStates]
    rw [ih, setSlot_get, Option.map_map]
    rfl

theorem deref_patch (impl : REImpl) (l : Ptrlist) (t p : Nat) :
    (patch impl l t).deref p = (impl.deref p).map (pst l t p) := by
  unfold REImpl.deref patch
  simp only
  by_cases h0 : p = 0
  · simp [h0]
  · rw [if_neg h0, if_neg h0, patchStates_get]
    have : p - 1 + 1 = p := by omega
    rw [this]

theorem pst_not (l : Ptrlist) (t p : Nat) (st : State) (h : ∀ sl ∈ l, sl.s ≠ p) :
    pst l t p st = st := by
  induction l generalizing st with
  | nil => rfl
  | cons sl l ih =>
    rw [pst_cons, if_neg (h sl (List.mem_cons_self _ _))]
    exact ih st (fun s hs => h s (List.mem_cons_of_mem _ hs))

theorem map_pst_not (l : Ptrlist) (t p : Nat) (o : Option State) (h : ∀ sl ∈ l, sl.s ≠ p) :
    o.map (pst l t p) = o := by
  cases o with
  | none => rfl
  | some st => simp [pst_not l t p st h]

theorem pst_append (l1 l2 : Ptrlist) (t p : Nat) (st : State) :
    pst (l1 ++ l2) t p st = pst l2 t p (pst l1 t p st) := by
  unfold pst
  rw [List.foldl_append]

theorem pst_fields (l : Ptrlist) (t p : Nat) (st : State) :
    (pst l t p st).op = st.op ∧ (pst l t p st).data = st.data ∧ (pst l t p st).id = st.id := by
  induction l generalizing st with
  | nil => exact ⟨rfl, rfl, rfl⟩
  | cons sl l ih =>
    rw [pst_cons]
    split
    · split
      · exact ih _
      · exact ih _
    · exact ih _

/-- Patching a list of `out` slots leaves the `out1` fields. -/
theorem pst_out1 (l : Ptrlist) (t p : Nat) (st : State) (h : ∀ sl ∈ l, sl.s = p → sl.isOut1 = false) :
    (pst l t p st).out1 = st.out1 := by
  induction l generalizing st with
  | nil => rfl
  | cons sl l ih =>
    rw [pst_cons]
    have ih1 := fun st1 => ih st1 (fun s hs => h s (List.mem_cons_of_mem _ hs))
    split
    · rename_i e
      rw [h sl (List.mem_cons_self _ _) e]
      simp only [Bool.false_eq_true, if_false]
      rw [ih1]
    · exact ih1 st

/-! ### The builders lay out fragments -/

theorem idok_state {impl : REImpl} (h : ∀ p st, impl.deref p = some st → st.id = p)
    (op : Op) (d : Int) (o o1 : Nat) :
    ∀ p st, (impl.state op d o o1).1.deref p = some st → st.id = p := by
  intro p st hd
  rw [deref_state] at hd
  split at hd
  · rename_i e
    simp only [Option.some.injEq] at hd
    subst hd
    exact e.symm
  · exact h p st hd

theorem idok_patch {impl : REImpl} (h : ∀ p st, impl.deref p = some st → st.id = p)
    (l : Ptrlist) (t : Nat) :
    ∀ p st, (patch impl l t).deref p = some st → st.id = p := by
  intro p st hd
  rw [deref_patch] at hd
  cases h0 : impl.deref p with
  | none => rw [h0] at hd; simp at hd
  | some st0 =>
    rw [h0] at hd
    simp only [Option.map_some', Option.some.injEq] at hd
    subst hd
    rw [(pst_fields l t p st0).2.2]
    exact h p st0 h0

theorem pst_single (s t : Nat) (b : Bool) (st : State) :
    pst [⟨s, b⟩] t s st = (if b then { st with out1 := t } else { st with out := t }) := by
  simp [pst]

theorem fragOK_chr (impl : REImpl) (c : Nat) :
    FragOK (Re.chr c) impl (single_char impl c).1 (single_char impl c).2
      impl.states.length (impl.states.length + 1) where
  lo_eq := rfl
  hi_eq := state_length _ _ _ _ _
  grow := Nat.lt_succ_self _
  start_eq := rfl
  frame := by
    intro p hp
    show (impl.state Op.Char (charToInt c) 0 0).1.deref p = _
    rw [deref_state, if_neg (by omega)]
  slots := by
    intro sl hsl
    have : sl = ⟨impl.states.length + 1, false⟩ := by
      simpa [single_char, REImpl.state, list1] using hsl
    subst this
    exact ⟨Nat.lt_succ_self _, le_refl _⟩
  idok := fun h => idok_state h _ _ _ _
  built := by
    intro t A hA
    have h1 := hA (impl.states.length + 1) (Nat.lt_succ_self _) (le_refl _)
    have h2 : (single_char impl c).1.deref (impl.states.length + 1)
        = some ⟨Op.Char, charToInt c, 0, 0, impl.states.length + 1⟩ := by
      show (impl.state Op.Char (charToInt c) 0 0).1.deref _ = _
      rw [deref_state, if_pos rfl]
    rw [h2] at h1
    have h3 : (single_char impl c).2.out = [⟨impl.states.length + 1, false⟩] := rfl
    rw [h3, Option.map_some', pst_single] at h1
    exact Built.chr c impl.nparen impl.states.length t _ h1 rfl rfl rfl

theorem fragOK_any (impl : REImpl) :
    FragOK Re.any impl (any_char impl).1 (any_char impl).2
      impl.states.length (impl.states.length + 1) where
  lo_eq := rfl
  hi_eq := state_length _ _ _ _ _
  grow := Nat.lt_succ_self _
  start_eq := rfl
  frame := by
    intro p hp
    show (impl.state Op.Any 0 0 0).1.deref p = _
    rw [deref_state, if_neg (by omega)]
  slots := by
    intro sl hsl
    have : sl = ⟨impl.states.length + 1, false⟩ := by
      simpa [any_char, REImpl.state, list1] using hsl
    subst this
    exact ⟨Nat.lt_succ_self _, le_refl _⟩
  idok := fun h => idok_state h _ _ _ _
  built := by
    intro t A hA
    have h1 := hA (impl.states.length + 1) (Nat.lt_succ_self _) (le_refl _)
    have h2 : (any_char impl).1.deref (impl.states.length + 1)
        = some ⟨Op.Any, 0, 0, 0, impl.states.length + 1⟩ := by
      show (impl.state Op.Any 0 0 0).1.deref _ = _
      rw [deref_state, if_pos rfl]
    rw [h2] at h1
    have h3 : (any_char impl).2.out = [⟨impl.states.length + 1, false⟩] := rfl
    rw [h3, Option.map_some', pst_single] at h1
    exact Built.any impl.nparen impl.states.length t _ h1 rfl rfl

theorem fragOK_concat {a b : Re} {impl impl1 impl2 : REImpl} {f1 f2 : Frag} {lo mid hi : Nat}
    (ha : FragOK a impl impl1 f1 lo mid) (hb : FragOK b impl1 impl2 f2 mid hi) :
    FragOK (Re.cat a b) impl (do_concat impl2 f1 f2).1 (do_concat impl2 f1 f2).2 lo hi := by
  have hga := ha.grow
  have hgb := hb.grow
  have hs1 : ∀ p, p ≤ lo → ∀ sl ∈ f1.out, sl.s ≠ p := by
    intro p hp sl hsl
    have := (ha.slots sl hsl).1
    omega
  have hs1b : ∀ p, mid < p → ∀ sl ∈ f1.out, sl.s ≠ p := by
    intro p hp sl hsl
    have := (ha.slots sl hsl).2
    omega
  have hs2 : ∀ p, p ≤ mid → ∀ sl ∈ f2.out, sl.s ≠ p := by
    intro p hp sl hsl
    have := (hb.slots sl hsl).1
    omega
  exact {
    lo_eq := ha.lo_eq
    hi_eq := by
      show (patch impl2 f1.out f2.start).states.length = hi
      rw [patch_length]; exact hb.hi_eq
    grow := by omega
    start_eq := by
      show impl2.start = impl.start
      rw [hb.start_eq, ha.start_eq]
    frame := by
      intro p hp
      show (patch impl2 f1.out f2.start).deref p = _
      rw [deref_patch, map_pst_not _ _ _ _ (hs1 p hp), hb.frame p (by omega), ha.frame p hp]
    slots := by
      intro sl hsl
      have := hb.slots sl hsl
      omega
    idok := fun h => idok_patch (hb.idok (ha.idok h)) _ _
    built := by
      intro t A hA
      have hA1 : ∀ p, lo < p → p ≤ hi →
          A.deref p = ((impl2.deref p).map (pst f1.out f2.start p)).map (pst f2.out t p) := by
        intro p h1 h2
        rw [hA p h1 h2]
        show ((patch impl2 f1.out f2.start).deref p).map (pst f2.out t p) = _
        rw [deref_patch]
      refine Built.cat a b impl.nparen impl1.nparen impl2.nparen lo mid hi f1.start f2.start t
        (ha.built f2.start A ?_) (hb.built t A ?_)
      · intro p h1 h2
        rw [hA1 p h1 (by omega), map_pst_not _ _ _ _ (hs2 p h2), hb.frame p h2]
      · intro p h1 h2
        rw [hA1 p (by omega) h2, map_pst_not f1.out _ _ _ (hs1b p h1)] }

theorem fragOK_alt {a b : Re} {impl impl1 impl2 : REImpl} {f1 f2 : Frag} {lo mid hi : Nat}
    (ha : FragOK a impl impl1 f1 lo mid) (hb : FragOK b impl1 impl2 f2 mid hi) :
    FragOK (Re.alt a b) impl (do_alt impl2 f1 f2).1 (do_alt impl2 f1 f2).2 lo (hi + 1) := by
  have hga := ha.grow
  have hgb := hb.grow
  have hl2 := hb.hi_eq
  have hs1 : ∀ p, mid < p → ∀ sl ∈ f1.out, sl.s ≠ p := by
    intro p hp sl hsl
    have := (ha.slots sl hsl).2
    omega
  have hs2 : ∀ p, p ≤ mid ∨ hi < p → ∀ sl ∈ f2.out, sl.s ≠ p := by
    intro p hp sl hsl
    have := hb.slots sl hsl
    omega
  have hd : ∀ p, (do_alt impl2 f1 f2).1.deref p =
      if p = hi + 1 then some ⟨Op.Split, 0, f1.start, f2.start, hi + 1⟩ else impl2.deref p := by
    intro p
    show (impl2.state Op.Split 0 f1.start f2.start).1.deref p = _
    rw [deref_state, hl2]
  exact {
    lo_eq := ha.lo_eq
    hi_eq := by
      show (impl2.state Op.Split 0 f1.start f2.start).1.states.length = _
      rw [state_length, hl2]
    grow := by omega
    start_eq := by
      show impl2.start = impl.start
      rw [hb.start_eq, ha.start_eq]
    frame := by
      intro p hp
      rw [hd, if_neg (by omega), hb.frame p (by omega), ha.frame p hp]
    slots := by
      intro sl hsl
      have hsl1 : sl ∈ f1.out ++ f2.out := hsl
      rcases List.mem_append.mp hsl1 with x | x
      · have := ha.slots sl x; omega
      · have := hb.slots sl x; omega
    idok := fun h => idok_state (hb.idok (ha.idok h)) _ _ _ _
    built := by
      intro t A hA
      have hout : (do_alt impl2 f1 f2).2.out = f1.out ++ f2.out := rfl
      have hA1 : ∀ p, lo < p → p ≤ hi + 1 →
          A.deref p = ((if p = hi + 1 then some ⟨Op.Split, 0, f1.start, f2.start, hi + 1⟩
            else impl2.deref p).map (pst f1.out t p)).map (pst f2.out t p) := by
        intro p h1 h2
        rw [hA p h1 h2, hd, hout, Option.map_map]
        congr 1
        funext st
        exact pst_append _ _ _ _ _
      have hsp : A.deref (hi + 1) = some ⟨Op.Split, 0, f1.start, f2.start, hi + 1⟩ := by
        rw [hA1 (hi + 1) (by omega) (le_refl _), if_pos rfl,
          map_pst_not f1.out _ _ _ (hs1 _ (by omega)),
          map_pst_not f2.out _ _ _ (hs2 _ (Or.inr (by omega)))]
      show Built A _ impl.nparen impl2.nparen lo (hi + 1) (impl2.states.length + 1) t
      rw [hl2]
      refine Built.alt a b impl.nparen impl1.nparen impl2.nparen lo mid hi f1.start f2.start t _
        (ha.built t A ?_) (hb.built t A ?_) hsp rfl rfl rfl
      · intro p h1 h2
        rw [hA1 p h1 (by omega), if_neg (by omega),
          map_pst_not f2.out _ _ _ (hs2 p (Or.inl h2)), hb.frame p h2]
      · intro p h1 h2
        rw [hA1 p (by omega) (by omega), if_neg (by omega),
          map_pst_not f1.out _ _ _ (hs1 p h1)] }

/-- The Split state a star or plus appends, with the pending edges of the body
connected to it. -/
theorem fragOK_loop {a : Re} {impl impl1 : REImpl} {f : Frag} {lo hi : Nat}
    (ha : FragOK a impl impl1 f lo hi) (g : Bool) (isStar : Bool) (X : REImpl) (fr : Frag)
    (hX : X = patch (impl1.state Op.Split 0 (if g then f.start else 0)
      (if g then 0 else f.start)).1 f.out (impl1.states.length + 1))
    (hfr : fr = ⟨if isStar then impl1.states.length + 1 else f.start,
      [⟨impl1.states.length + 1, g⟩]⟩) :
    FragOK (if isStar then Re.star g a else Re.plus g a) impl X fr lo (hi + 1) := by
  have hga := ha.grow
  have hl := ha.hi_eq
  rw [hl] at hX hfr
  subst hX hfr
  have hs1 : ∀ p, p ≤ lo ∨ hi < p → ∀ sl ∈ f.out, sl.s ≠ p := by
    intro p hp sl hsl
    have := ha.slots sl hsl
    omega
  have hd : ∀ p, (patch (impl1.state Op.Split 0 (if g then f.start else 0)
      (if g then 0 else f.start)).1 f.out (hi + 1)).deref p =
      (if p = hi + 1 then some ⟨Op.Split, 0, (if g then f.start else 0),
        (if g then 0 else f.start), hi + 1⟩ else impl1.deref p).map (pst f.out (hi + 1) p) := by
    intro p
    rw [deref_patch, deref_state, hl]
  exact {
    lo_eq := ha.lo_eq
    hi_eq := by rw [patch_length, state_length, hl]
    grow := by omega
    start_eq := ha.start_eq
    frame := by
      intro p hp
      rw [hd, if_neg (by omega), map_pst_not _ _ _ _ (hs1 p (Or.inl hp)), ha.frame p hp]
    slots := by
      intro sl hsl
      have : sl = ⟨hi + 1, g⟩ := by simpa using hsl
      subst this
      exact ⟨by show lo < hi + 1; omega, le_refl _⟩
    idok := fun h => idok_patch (idok_state (ha.idok h) _ _ _ _) _ _
    built := by
      intro t A hA
      have hA1 : ∀ p, lo < p → p ≤ hi + 1 → A.deref p =
          ((if p = hi + 1 then some ⟨Op.Split, 0, (if g then f.start else 0),
            (if g then 0 else f.start), hi + 1⟩ else impl1.deref p).map
              (pst f.out (hi + 1) p)).map (pst [⟨hi + 1, g⟩] t p) := by
        intro p h1 h2
        rw [hA p h1 h2, hd]
      have hin : Built A a impl.nparen impl1.nparen lo hi f.start (hi + 1) := by
        refine ha.built (hi + 1) A ?_
        intro p h1 h2
        rw [hA1 p h1 (by omega), if_neg (by omega)]
        exact map_pst_not _ _ _ _ (by
          intro sl hsl
          have : sl = ⟨hi + 1, g⟩ := by simpa using hsl
          subst this
          show hi + 1 ≠ p
          omega)
      have hsp : A.deref (hi + 1) = some (if g then ⟨Op.Split, 0, f.start, t, hi + 1⟩
          else ⟨Op.Split, 0, t, f.start, hi + 1⟩) := by
        rw [hA1 (hi + 1) (by omega) (le_refl _), if_pos rfl,
          map_pst_not f.out _ _ _ (hs1 _ (Or.inr (by omega))), Option.map_some', pst_single]
        cases g <;> rfl
      cases isStar
      · simp only [Bool.false_eq_true, if_false]
        refine Built.plus g a impl.nparen impl1.nparen lo hi f.start t _ hin hsp ?_ ?_ ?_
        · cases g <;> rfl
        · cases g <;> rfl
        · cases g <;> rfl
      · simp only [if_true]
        refine Built.star g a impl.nparen impl1.nparen lo hi f.start t _ hin hsp ?_ ?_ ?_
        · cases g <;> rfl
        · cases g <;> rfl
        · cases g <;> rfl }

/-- The Split state an optional pattern appends. -/
theorem fragOK_opt {a : Re} {impl impl1 : REImpl} {f : Frag} {lo hi : Nat}
    (ha : FragOK a impl impl1 f lo hi) (g : Bool) (X : REImpl) (fr : Frag)
    (hX : X = (impl1.state Op.Split 0 (if g then f.start else 0)
      (if g then 0 else f.start)).1)
    (hfr : fr = ⟨impl1.states.length + 1, f.out ++ [⟨impl1.states.length + 1, g⟩]⟩) :
    FragOK (Re.opt g a) impl X fr lo (hi + 1) := by
  have hga := ha.grow
  have hl := ha.hi_eq
  rw [hl] at hfr
  subst hX hfr
  have hs1 : ∀ p, p ≤ lo ∨ hi < p → ∀ sl ∈ f.out, sl.s ≠ p := by
    intro p hp sl hsl
    have := ha.slots sl hsl
    omega
  have hd : ∀ p, (impl1.state Op.Split 0 (if g then f.start else 0)
      (if g then 0 else f.start)).1.deref p =
      (if p = hi + 1 then some ⟨Op.Split, 0, (if g then f.start else 0),
        (if g then 0 else f.start), hi + 1⟩ else impl1.deref p) := by
    intro p
    rw [deref_state, hl]
  exact {
    lo_eq := ha.lo_eq
    hi_eq := by rw [state_length, hl]
    grow := by omega
    start_eq := ha.start_eq
    frame := by
      intro p hp
      rw [hd, if_neg (by omega), ha.frame p hp]
    slots := by
      intro sl hsl
      have hsl1 : sl ∈ f.out ++ [⟨hi + 1, g⟩] := hsl
      rcases List.mem_append.mp hsl1 with x | x
      · have := ha.slots sl x; omega
      · have : sl = ⟨hi + 1, g⟩ := by simpa using x
        subst this
        exact ⟨by show lo < hi + 1; omega, le_refl _⟩
    idok := fun h => idok_state (ha.idok h) _ _ _ _
    built := by
      intro t A hA
      have hA1 : ∀ p, lo < p → p ≤ hi + 1 → A.deref p =
          ((if p = hi + 1 then some ⟨Op.Split, 0, (if g then f.start else 0),
            (if g then 0 else f.start), hi + 1⟩ else impl1.deref p).map
              (pst f.out t p)).map (pst [⟨hi + 1, g⟩] t p) := by
        intro p h1 h2
        rw [hA p h1 h2, hd, Option.map_map]
        congr 1
        funext st
        exact pst_append _ _ _ _ _
      have hin : Built A a impl.nparen impl1.nparen lo hi f.start t := by
        refine ha.built t A ?_
        intro p h1 h2
        rw [hA1 p h1 (by omega), if_neg (by omega)]
        exact map_pst_not _ _ _ _ (by
          intro sl hsl
          have : sl = ⟨hi + 1, g⟩ := by simpa using hsl
          subst this
          show hi + 1 ≠ p
          omega)
      have hsp : A.deref (hi + 1) = some (if g then ⟨Op.Split, 0, f.start, t, hi + 1⟩
          else ⟨Op.Split, 0, t, f.start, hi + 1⟩) := by
        rw [hA1 (hi + 1) (by omega) (le_refl _), if_pos rfl,
          map_pst_not f.out _ _ _ (hs1 _ (Or.inr (by omega))), Option.map_some', pst_single]
        cases g <;> rfl
      refine Built.opt g a impl.nparen impl1.nparen lo hi f.start t _ hin hsp ?_ ?_ ?_
      · cases g <;> rfl
      · cases g <;> rfl
      · cases g <;> rfl }

/-- The two states a capturing group appends, when its index is below `NSUB`. -/
theorem fragOK_paren {a : Re} {impl impl1 : REImpl} {f : Frag} {lo hi : Nat} (c0 n : Nat)
    (ha : ∀ t (A : REImpl),
      (∀ p, lo < p → p ≤ hi → A.deref p = (impl1.deref p).map (pst f.out t p)) →
      Built A a (c0 + 1) impl1.nparen lo hi f.start t)
    (hlo : impl.states.length = lo) (hhi : impl1.states.length = hi) (hg : lo < hi)
    (hst : impl1.start = impl.start)
    (hfr : ∀ p, p ≤ lo → impl1.deref p = impl.deref p)
    (hsl : ∀ sl ∈ f.out, lo < sl.s ∧ sl.s ≤ hi)
    (hid : (∀ p st, impl.deref p = some st → st.id = p) →
      ∀ p st, impl1.deref p = some st → st.id = p)
    (hc : impl.nparen = c0) (hn : n = c0 + 1) (hlt : n < NSUB) :
    FragOK (Re.group true a) impl (paren impl1 f n).1 (paren impl1 f n).2 lo (hi + 2) := by
  have hp : paren impl1 f n =
      (patch ((impl1.state Op.LParen n f.start 0).1.state Op.RParen n 0 0).1 f.out (hi + 2),
        ⟨hi + 1, [⟨hi + 2, false⟩]⟩) := by
    unfold paren
    rw [if_neg (by omega)]
    simp only [REImpl.state, list1, hhi, List.length_append, List.length_singleton]
  rw [hp]
  have hs1 : ∀ p, p ≤ lo ∨ hi < p → ∀ sl ∈ f.out, sl.s ≠ p := by
    intro p hp sl hsl1
    have := hsl sl hsl1
    omega
  have hd : ∀ p, (patch ((impl1.state Op.LParen n f.start 0).1.state Op.RParen n 0 0).1 f.out
      (hi + 2)).deref p =
      (if p = hi + 2 then some ⟨Op.RParen, n, 0, 0, hi + 2⟩
        else if p = hi + 1 then some ⟨Op.LParen, n, f.start, 0, hi + 1⟩
        else impl1.deref p).map (pst f.out (hi + 2) p) := by
    intro p
    rw [deref_patch, deref_state, deref_state, state_length, hhi]
  exact {
    lo_eq := hlo
    hi_eq := by
      show (patch _ _ _).states.length = _
      rw [patch_length, state_length, state_length, hhi]
    grow := by omega
    start_eq := hst
    frame := by
      intro p hp
      show (patch _ _ _).deref p = _
      rw [hd, if_neg (by omega), if_neg (by omega), map_pst_not _ _ _ _ (hs1 p (Or.inl hp)),
        hfr p hp]
    slots := by
      intro sl hsl1
      have : sl = ⟨hi + 2, false⟩ := by simpa using hsl1
      subst this
      exact ⟨by show lo < hi + 2; omega, le_refl _⟩
    idok := fun h => idok_patch (idok_state (idok_state (hid h) _ _ _ _) _ _ _ _) _ _
    built := by
      intro t A hA
      have hA1 : ∀ p, lo < p → p ≤ hi + 2 → A.deref p =
          ((if p = hi + 2 then some ⟨Op.RParen, n, 0, 0, hi + 2⟩
            else if p = hi + 1 then some ⟨Op.LParen, n, f.start, 0, hi + 1⟩
            else impl1.deref p).map (pst f.out (hi + 2) p)).map (pst [⟨hi + 2, false⟩] t p) := by
        intro p h1 h2
        rw [hA p h1 h2]
        show ((patch _ _ _).deref p).map _ = _
        rw [hd]
      have hin : Built A a (c0 + 1) impl1.nparen lo hi f.start (hi + 2) := by
        refine ha (hi + 2) A ?_
        intro p h1 h2
        rw [hA1 p h1 (by omega), if_neg (by omega), if_neg (by omega)]
        exact map_pst_not _ _ _ _ (by
          intro sl hsl1
          have : sl = ⟨hi + 2, false⟩ := by simpa using hsl1
          subst this
          show hi + 2 ≠ p
          omega)
      have hL : A.deref (hi + 1) = some ⟨Op.LParen, n, f.start, 0, hi + 1⟩ := by
        rw [hA1 (hi + 1) (by omega) (by omega), if_neg (by omega), if_pos rfl,
          map_pst_not f.out _ _ _ (hs1 _ (Or.inr (by omega)))]
        exact map_pst_not _ _ _ _ (by
          intro sl hsl1
          have : sl = ⟨hi + 2, false⟩ := by simpa using hsl1
          subst this
          show hi + 2 ≠ hi + 1
          omega)
      have hR : A.deref (hi + 2) = some ⟨Op.RParen, n, t, 0, hi + 2⟩ := by
        rw [hA1 (hi + 2) (by omega) (le_refl _), if_pos rfl,
          map_pst_not f.out _ _ _ (hs1 _ (Or.inr (by omega))), Option.map_some', pst_single]
        rfl
      show Built A (Re.group true a) impl.nparen impl1.nparen lo (hi + 2) (hi + 1) t
      rw [hc]
      exact Built.group_capture a c0 impl1.nparen lo hi f.start t _ _ (by omega) hin
        hL rfl (by show ((n : Nat) : Int) = _; rw [hn]) rfl
        hR rfl (by show ((n : Nat) : Int) = _; rw [hn]) rfl }

/-- The semantic actions lay out the fragment of every pattern. -/
theorem build_ok : ∀ (r : Re) (impl : REImpl),
    ∃ hi, FragOK r impl (build r impl).1 (build r impl).2 impl.states.length hi := by
  intro r
  induction r with
  | chr c => intro impl; exact ⟨_, fragOK_chr impl c⟩
  | any => intro impl; exact ⟨_, fragOK_any impl⟩
  | cat a b iha ihb =>
    intro impl
    obtain ⟨mid, ha⟩ := iha impl
    obtain ⟨hi, hb⟩ := ihb (build a impl).1
    rw [ha.hi_eq] at hb
    exact ⟨hi, fragOK_concat ha hb⟩
  | alt a b iha ihb =>
    intro impl
    obtain ⟨mid, ha⟩ := iha impl
    obtain ⟨hi, hb⟩ := ihb (build a impl).1
    rw [ha.hi_eq] at hb
    exact ⟨hi + 1, fragOK_alt ha hb⟩
  | star g a iha =>
    intro impl
    obtain ⟨hi, ha⟩ := iha impl
    have := fragOK_loop ha g true (build (Re.star g a) impl).1 (build (Re.star g a) impl).2
      (by cases g <;> rfl) (by cases g <;> rfl)
    exact ⟨hi + 1, this⟩
  | plus g a iha =>
    intro impl
    obtain ⟨hi, ha⟩ := iha impl
    have := fragOK_loop ha g false (build (Re.plus g a) impl).1 (build (Re.plus g a) impl).2
      (by cases g <;> rfl) (by cases g <;> rfl)
    exact ⟨hi + 1, this⟩
  | opt g a iha =>
    intro impl
    obtain ⟨hi, ha⟩ := iha impl
    have := fragOK_opt ha g (build (Re.opt g a) impl).1 (build (Re.opt g a) impl).2
      (by cases g <;> rfl) (by cases g <;> rfl)
    exact ⟨hi + 1, this⟩
  | group c a iha =>
    intro impl
    cases c with
    | false =>
      obtain ⟨hi, ha⟩ := iha impl
      refine ⟨hi, ?_⟩
      show FragOK (Re.group false a) impl (build a impl).1 (build a impl).2 _ hi
      exact {
        lo_eq := ha.lo_eq
        hi_eq := ha.hi_eq
        grow := ha.grow
        start_eq := ha.start_eq
        frame := ha.frame
        slots := ha.slots
        idok := ha.idok
        built := fun t A hA => Built.group_plain a _ _ _ _ _ _ (ha.built t A hA) }
    | true =>
      obtain ⟨hi, ha⟩ := iha (next_paren impl).1
      have hb : build (Re.group true a) impl =
          paren (build a (next_paren impl).1).1 (build a (next_paren impl).1).2
            (impl.nparen + 1) := rfl
      rw [hb]
      by_cases hn : impl.nparen + 1 < NSUB
      · exact ⟨hi + 2, fragOK_paren impl.nparen (impl.nparen + 1) ha.built ha.lo_eq ha.hi_eq
          ha.grow ha.start_eq ha.frame ha.slots ha.idok rfl rfl hn⟩
      · have hp : paren (build a (next_paren impl).1).1 (build a (next_paren impl).1).2
            (impl.nparen + 1)
            = ((build a (next_paren impl).1).1, (build a (next_paren impl).1).2) := by
          unfold paren
          rw [if_pos (by omega)]
        rw [hp]
        refine ⟨hi, ?_⟩
        exact {
          lo_eq := ha.lo_eq
          hi_eq := ha.hi_eq
          grow := ha.grow
          start_eq := ha.start_eq
          frame := ha.frame
          slots := ha.slots
          idok := ha.idok
          built := fun t A hA =>
            Built.group_dropped a _ _ _ _ _ _ (by omega) (ha.built t A hA) }

/-- The layout of the automaton `do_regex` finishes: the fragment of the
pattern, then the LParen and RParen of group 0 and the Match state. -/
theorem compiled_layout (r : Re) :
    ∃ hi e c1, 1 ≤ hi ∧
      (do_regex (build r REImpl.init).1 (build r REImpl.init).2).states.length = hi + 3 ∧
      (do_regex (build r REImpl.init).1 (build r REImpl.init).2).start = hi + 1 ∧
      Built (do_regex (build r REImpl.init).1 (build r REImpl.init).2) r 0 c1 0 hi e (hi + 2) ∧
      (do_regex (build r REImpl.init).1 (build r REImpl.init).2).deref (hi + 1)
        = some ⟨Op.LParen, 0, e, 0, hi + 1⟩ ∧
      (do_regex (build r REImpl.init).1 (build r REImpl.init).2).deref (hi + 2)
        = some ⟨Op.RParen, 0, hi + 3, 0, hi + 2⟩ ∧
      (do_regex (build r REImpl.init).1 (build r REImpl.init).2).deref (hi + 3)
        = some ⟨Op.Match, 0, 0, 0, hi + 3⟩ ∧
      (∀ p st, (do_regex (build r REImpl.init).1 (build r REImpl.init).2).deref p = some st →
        st.id = p) := by
  obtain ⟨hi, h⟩ := build_ok r REImpl.init
  generalize (build r REImpl.init).1 = impl1 at h
  generalize (build r REImpl.init).2 = f at h
  have hlo : REImpl.init.states.length = 0 := rfl
  rw [hlo] at h
  have hhi := h.hi_eq
  have hg := h.grow
  have hs1 : ∀ p, hi < p → ∀ sl ∈ f.out, sl.s ≠ p := by
    intro p hp sl hsl
    have := h.slots sl hsl
    omega
  have hdr : do_regex impl1 f =
      { patch ((patch ((impl1.state Op.LParen 0 f.start 0).1.state Op.RParen 0 0 0).1 f.out
          (hi + 2)).state Op.Match 0 0 0).1 [⟨hi + 2, false⟩] (hi + 3) with start := hi + 1 } := by
    unfold do_regex paren
    rw [if_neg (by decide)]
    simp only [REImpl.state, list1, hhi, List.length_append, List.length_singleton, patch,
      patchStates_length]
    rfl
  rw [hdr]
  have hd : ∀ p, REImpl.deref
      { patch ((patch ((impl1.state Op.LParen 0 f.start 0).1.state Op.RParen 0 0 0).1 f.out
          (hi + 2)).state Op.Match 0 0 0).1 [⟨hi + 2, false⟩] (hi + 3) with start := hi + 1 } p =
      (if p = hi + 3 then some ⟨Op.Match, 0, 0, 0, hi + 3⟩
        else ((if p = hi + 2 then some ⟨Op.RParen, 0, 0, 0, hi + 2⟩
          else if p = hi + 1 then some ⟨Op.LParen, 0, f.start, 0, hi + 1⟩
          else impl1.deref p).map (pst f.out (hi + 2) p))).map (pst [⟨hi + 2, false⟩] (hi + 3) p) := by
    intro p
    show (patch _ _ _).deref p = _
    rw [deref_patch, deref_state, patch_length, state_length, state_length, hhi, deref_patch,
      deref_state, deref_state, state_length, hhi]
  have hne : ∀ p, p ≠ hi + 2 → ∀ sl ∈ [(⟨hi + 2, false⟩ : Slot)], sl.s ≠ p := by
    intro p hp sl hsl
    have : sl = ⟨hi + 2, false⟩ := by simpa using hsl
    subst this
    exact fun e => hp e.symm
  refine ⟨hi, f.start, impl1.nparen, by omega, ?_, rfl, ?_, ?_, ?_, ?_, ?_⟩
  · show (patch _ _ _).states.length = _
    rw [patch_length, state_length, patch_length, state_length, state_length, hhi]
  · refine h.built (hi + 2) _ ?_
    intro p h1 h2
    rw [hd, if_neg (by omega), if_neg (by omega), if_neg (by omega)]
    exact map_pst_not _ _ _ _ (hne p (by omega))
  · rw [hd, if_neg (by omega), if_neg (by omega), if_pos rfl,
      map_pst_not f.out _ _ _ (hs1 _ (by omega))]
    exact map_pst_not _ _ _ _ (hne _ (by omega))
  · rw [hd, if_neg (by omega), if_pos rfl, map_pst_not f.out _ _ _ (hs1 _ (by omega)),
      Option.map_some', pst_single]
    rfl
  · rw [hd, if_pos rfl]
    exact map_pst_not _ _ _ _ (hne _ (by omega))
  · have h0 : ∀ p st, REImpl.init.deref p = some st → st.id = p := by
      intro p st hp
      unfold REImpl.deref REImpl.init at hp
      split at hp
      · simp at hp
      · simp at hp
    have h1 := h.idok h0
    intro p st hp
    have h2 := idok_patch (idok_state (idok_patch (idok_state (idok_state h1 Op.LParen 0 f.start 0)
      Op.RParen 0 0 0) f.out (hi + 2)) Op.Match 0 0 0) [⟨hi + 2, false⟩] (hi + 3)
    exact h2 p st hp

/-- A path out of a closed set of states first arrives at the exit of the set. -/
theorem path_exit {impl : REImpl} {lo hi x : Nat} (hc : ClosedIn impl lo hi x)
    (hx : x ≤ lo ∨ hi < x) {p q : Nat} {w : List Nat} (h : Path impl p w q) :
    lo < p → p ≤ hi → (q ≤ lo ∨ hi < q) →
    ∃ u v, w = u ++ v ∧ PathTo impl x p u ∧ Path impl x v q := by
  induction h with
  | refl p => intro h1 h2 h3; omega
  | cons p b lab q1 w1 q2 ht hp ih =>
    intro h1 h2 h3
    rcases hc p b lab q1 h1 h2 ht with y | y
    · obtain ⟨u, v, e, a1, a2⟩ := ih y.1 y.2 h3
      exact ⟨lab ++ u, v, by rw [e, List.append_assoc],
        PathTo.step p b lab q1 u ht (by omega) a1, a2⟩
    · subst y
      exact ⟨lab, w1, rfl, PathTo.last p b lab ht, hp⟩

/-- Every automaton `do_regex` finishes has the shape `WFAut`. -/
theorem compiled_wf (r : Re) :
    WFAut (do_regex (build r REImpl.init).1 (build r REImpl.init).2) := by
  obtain ⟨hi, e, c1, h1, hlen, hstart, hB, hL, hR, hM, hid⟩ := compiled_layout r
  generalize do_regex (build r REImpl.init).1 (build r REImpl.init).2 = impl at *
  have hr := built_range hB
  have e1 : impl.states.length - 2 = hi + 1 := by omega
  have e2 : impl.states.length - 1 = hi + 2 := by omega
  have e3 : impl.states.length - 3 = hi := by omega
  exact {
    size := by omega
    idok := hid
    start_eq := by rw [hstart, e1]
    start_state := by
      rw [e1, e3]
      exact ⟨_, hL, rfl, rfl, by show 1 ≤ e; omega, hr.2⟩
    close_state := by
      rw [e2, hlen]
      exact ⟨_, hR, rfl, rfl, rfl⟩
    match_state := by
      rw [hlen]
      exact ⟨_, hM, rfl⟩
    body := by
      intro p hp1 hp2
      rw [e3] at hp2
      obtain ⟨st, d, o, pa, ou, ou1⟩ := built_state hB p (by omega) hp2
      rw [e3, e2]
      refine ⟨st, d, o, pa, ?_, fun hs => ?_⟩
      · rcases ou with x | x
        · exact Or.inl ⟨by omega, x.2⟩
        · exact Or.inr x
      · rcases ou1 hs with x | x
        · exact Or.inl ⟨by omega, x.2⟩
        · exact Or.inr x }

/-- The automaton compiled for a pattern of 7-bit bytes accepts the byte
strings of the language of the pattern. -/
theorem compiled_accepts (r : Re) (hA : r.Ascii) (w : List Nat) (hb : ∀ x ∈ w, x < 256) :
    Accepts (do_regex (build r REImpl.init).1 (build r REImpl.init).2) w ↔ Lang r w := by
  have hw := compiled_wf r
  obtain ⟨hi, e, c1, h1, hlen, hstart, hB, hL, hR, hM, hid⟩ := compiled_layout r
  generalize do_regex (build r REImpl.init).1 (build r REImpl.init).2 = impl at *
  have hr := built_range hB
  have hlang := built_lang hB hA (by omega : hi + 2 ≤ 0 ∨ hi < hi + 2) w hb
  rw [← hlang]
  unfold Accepts
  rw [hstart, hlen]
  have t1 : Tr impl (hi + 1) false [] e := Tr.lparen (hi + 1) _ hL rfl
  have t2 : Tr impl (hi + 2) false [] (hi + 3) := Tr.rparen (hi + 2) _ hR rfl
  constructor
  · intro h
    cases h with
    | cons _ b lab q w1 _ ht hp =>
      obtain ⟨a1, a2⟩ := tr_paren_inv ht hL (Or.inl rfl)
      subst a1
      have a3 : q = e := a2
      subst a3
      obtain ⟨u, v, e4, p1, p2⟩ := path_exit (built_closed hB) (by omega) hp hr.1 hr.2
        (by omega : hi + 3 ≤ 0 ∨ hi < hi + 3)
      have hv : v = [] := by
        cases p2 with
        | cons _ b2 lab2 q2 w2 _ ht2 hp2 =>
          obtain ⟨b1, b2⟩ := tr_paren_inv ht2 hR (Or.inr rfl)
          subst b1
          have b3 : q2 = hi + 3 := b2
          subst b3
          rw [← hlen] at hp2
          exact (path_from_match hw hp2).2
      subst hv
      simp only [List.append_nil] at e4
      subst e4
      exact p1
  · intro h
    have p1 := pathTo_path h
    have p2 := path_trans (path_one t1) (path_trans p1 (path_one t2))
    simpa using p2

/-! ### The result of `match` on a compiled automaton -/

theorem parses_ascii {nt : NT} {w : List Nat} {r : Re} (h : Parses nt w r) :
    (∀ c ∈ w, c < 128) → r.Ascii := by
  induction h with
  | atom_nocapture w r _ ih =>
    intro hb
    exact ih (fun c hc => hb c (by simp [hc]))
  | atom_capture w r _ ih =>
    intro hb
    exact ih (fun c hc => hb c (by simp [hc]))
  | atom_any => intro _; trivial
  | atom_char c _ =>
    intro hb
    exact hb c (List.mem_singleton_self c)
  | rep_atom w r _ ih => exact ih
  | rep_star w r _ ih => intro hb; exact ih (fun c hc => hb c (by simp [hc]))
  | rep_plus w r _ ih => intro hb; exact ih (fun c hc => hb c (by simp [hc]))
  | rep_opt w r _ ih => intro hb; exact ih (fun c hc => hb c (by simp [hc]))
  | rep_star_lazy w r _ ih => intro hb; exact ih (fun c hc => hb c (by simp [hc]))
  | rep_plus_lazy w r _ ih => intro hb; exact ih (fun c hc => hb c (by simp [hc]))
  | rep_opt_lazy w r _ ih => intro hb; exact ih (fun c hc => hb c (by simp [hc]))
  | concat_one w r _ ih => exact ih
  | concat_more w1 w2 r1 r2 _ _ ih1 ih2 =>
    intro hb
    exact ⟨ih1 (fun c hc => hb c (by simp [hc])), ih2 (fun c hc => hb c (by simp [hc]))⟩
  | alt_one w r _ ih => exact ih
  | alt_more w1 w2 r1 r2 _ _ ih1 ih2 =>
    intro hb
    exact ⟨ih1 (fun c hc => hb c (by simp [hc])), ih2 (fun c hc => hb c (by simp [hc]))⟩

theorem compiled_of_parse {pat : List Nat} {r : Re} {impl : REImpl}
    (hr : Parses NT.alt pat r) (hc : compile pat = some impl) :
    impl = do_regex (build r REImpl.init).1 (build r REImpl.init).2 := by
  have := (compile_eq_some_iff pat _).mpr ⟨r, hr, rfl⟩
  rw [hc] at this
  simpa using this

theorem compiled_wf_of {pat : List Nat} {impl : REImpl} (hc : compile pat = some impl) :
    WFAut impl := by
  obtain ⟨r, _, rfl⟩ := (compile_eq_some_iff pat impl).mp hc
  exact compiled_wf r

theorem slice_bytes {input : List Nat} (hb : ∀ x ∈ input, x < 256) (s e : Nat) :
    ∀ x ∈ slice input s e, x < 256 := by
  intro x hx
  unfold slice at hx
  exact hb x (List.mem_of_mem_drop (List.mem_of_mem_take hx))

theorem span_eq_some {subs : Subs} {i s e : Nat} :
    span subs i = some (s, e) ↔
      ((subs.getD i Sub.init).matched = SubState.Matched ∧
        (subs.getD i Sub.init).first = some s ∧ (subs.getD i Sub.init).second = some e) := by
  unfold span
  generalize subs.getD i Sub.init = A
  obtain ⟨f, sd, m⟩ := A
  cases m <;> cases f <;> cases sd <;> simp

/-- Among the accepted parts of the subject one starts leftmost. -/
theorem exists_lowstart {impl : REImpl} {input : List Nat}
    (h : ∃ s e, s ≤ e ∧ e ≤ input.length ∧ Accepts impl (slice input s e)) :
    ∃ p e, LowStart impl input p ∧ p ≤ e ∧ e ≤ input.length ∧
      Accepts impl (slice input p e) := by
  classical
  have hex : ∃ s, ∃ e, s ≤ e ∧ e ≤ input.length ∧ Accepts impl (slice input s e) := h
  obtain ⟨e, h1, h2, h3⟩ := Nat.find_spec hex
  refine ⟨Nat.find hex, e, ?_, h1, h2, h3⟩
  intro s1 e1 a b c
  exact Nat.find_min' hex ⟨e1, a, b, c⟩

/-- The span `match` reports is an accepted part of the subject. -/
theorem run_valid {impl : REImpl} (hw : WFAut impl) {mt : MatchType} {rt : RepType}
    {input : List Nat} {subs : Subs} {s e : Nat} (h : matchSubs impl mt rt input = some subs)
    (hs : span subs 0 = some (s, e)) :
    s ≤ e ∧ e ≤ input.length ∧ Accepts impl (slice input s e) := by
  obtain ⟨subs1, h1, _, hf, _, _⟩ := run_post hw mt rt input
  rw [h] at h1
  simp only [Option.some.injEq] at h1
  subst h1
  obtain ⟨a, b, c⟩ := span_eq_some.mp hs
  exact hf s e a b c

/-- The run of `match` returns, and it reports a span exactly when some part
of the subject is accepted. -/
theorem run_matched_iff {impl : REImpl} (hw : WFAut impl) (mt : MatchType) (rt : RepType)
    (input : List Nat) :
    ∃ subs, matchSubs impl mt rt input = some subs ∧
      (isMatched subs = true ↔
        ∃ s e, s ≤ e ∧ e ≤ input.length ∧ Accepts impl (slice input s e)) ∧
      (isMatched subs = true → ∃ s e, span subs 0 = some (s, e)) := by
  obtain ⟨subs, h1, hok, hf, hu, _⟩ := run_post hw mt rt input
  refine ⟨subs, h1, ?_, ?_⟩
  · unfold isMatched
    rw [decide_eq_true_eq]
    constructor
    · intro hm
      rcases subsOK_cases hok with x | ⟨s, e, a, b, c⟩
      · rw [x] at hm; simp at hm
      · exact ⟨s, e, hf s e a b c⟩
    · rintro ⟨s, e, a, b, c⟩
      rcases subsOK_cases hok with x | ⟨s1, e1, a1, _, _⟩
      · exact absurd c (hu x s e a b)
      · exact a1
  · unfold isMatched
    rw [decide_eq_true_eq]
    intro hm
    rcases subsOK_cases hok with x | ⟨s, e, a, b, c⟩
    · rw [x] at hm; simp at hm
    · exact ⟨s, e, span_eq_some.mpr ⟨a, b, c⟩⟩

/-- In the leftmost-longest mode `match` reports the accepted part that starts
leftmost and, among those, ends last. -/
theorem run_longest {impl : REImpl} (hw : WFAut impl) (rt : RepType) (input : List Nat)
    (hex : ∃ s e, s ≤ e ∧ e ≤ input.length ∧ Accepts impl (slice input s e)) :
    ∃ subs s e, matchSubs impl MatchType.LeftmostLongest rt input = some subs ∧
      span subs 0 = some (s, e) ∧ s ≤ e ∧ e ≤ input.length ∧
      Accepts impl (slice input s e) ∧ LowStart impl input s ∧
      ∀ e1, s ≤ e1 → e1 ≤ input.length → Accepts impl (slice input s e1) → e1 ≤ e := by
  obtain ⟨subs, h1, hok, hf, hu, hbest⟩ := run_post hw MatchType.LeftmostLongest rt input
  rcases subsOK_cases hok with x | ⟨s, e, a, b, c⟩
  · obtain ⟨s, e, p, q, r⟩ := hex
    exact absurd r (hu x s e p q)
  · obtain ⟨v1, v2, v3⟩ := hf s e a b c
    obtain ⟨p, e0, hp, hpe, hel, hacc⟩ := exists_lowstart hex
    have hg := hbest rfl p e0 hp hpe hel hacc
    obtain ⟨_, s1, e1, b1, c1, hor⟩ := hg
    rw [b] at b1
    rw [c] at c1
    simp only [Option.some.injEq] at b1 c1
    subst b1 c1
    have hps := hp s e v1 v2 v3
    have hsp : s = p := by omega
    subst hsp
    refine ⟨subs, s, e, h1, span_eq_some.mpr ⟨a, b, c⟩, v1, v2, v3, hp, ?_⟩
    intro e2 h2 h3 h4
    obtain ⟨_, s3, e3, b3, c3, hor3⟩ := hbest rfl s e2 hp h2 h3 h4
    rw [b] at b3
    rw [c] at c3
    simp only [Option.some.injEq] at b3 c3
    subst b3 c3
    omega

/-! ### Single rounds of the loop of `step` in the leftmost-biased mode -/

theorem step_loop_skip {impl : REImpl} (rt : RepType) (fuel c : Nat) (icur : Iter) (k i : Nat)
    (sc : Scratch) (cl nl : ThreadList) {st : State}
    (hd : impl.deref (cl.t.getD i Thread.init).state = some st)
    (hop : st.op = Op.Split ∨ st.op = Op.LParen ∨ st.op = Op.RParen ∨
      (st.op = Op.Char ∧ (c : Int) ≠ st.data)) :
    step_loop impl MatchType.LeftmostBiased rt fuel c icur (k + 1) i sc cl nl
      = step_loop impl MatchType.LeftmostBiased rt fuel c icur k (i + 1) sc cl nl := by
  rw [step_loop]
  simp only [reduceCtorEq, decide_False, Bool.false_and, Bool.false_eq_true, if_false, hd]
  rcases hop with h | h | h | ⟨h, h1⟩
  · rw [h]
  · rw [h]
  · rw [h]
  · rw [h]
    simp only
    rw [if_neg h1]

theorem step_loop_fire {impl : REImpl} (rt : RepType) (fuel c : Nat) (icur : Iter) (k i : Nat)
    (sc : Scratch) (cl nl : ThreadList) {st : State} {ex1 : Extras} {nl1 : ThreadList}
    {m1 : Subs} (hd : impl.deref (cl.t.getD i Thread.init).state = some st)
    (hop : st.op = Op.Char) (hc : (c : Int) = st.data)
    (ha : addstate impl MatchType.LeftmostBiased rt fuel sc.extras nl st.out
      (cl.t.getD i Thread.init).subs icur = some (ex1, nl1, m1)) :
    step_loop impl MatchType.LeftmostBiased rt fuel c icur (k + 1) i sc cl nl
      = step_loop impl MatchType.LeftmostBiased rt fuel c icur k (i + 1)
          { sc with extras := ex1 }
          { cl with t := cl.t.set i { cl.t.getD i Thread.init with subs := m1 } } nl1 := by
  rw [step_loop]
  simp only [reduceCtorEq, decide_False, Bool.false_and, Bool.false_eq_true, if_false, hd]
  rw [hop]
  simp only
  rw [if_pos hc, ha]

theorem step_loop_return {impl : REImpl} (rt : RepType) (fuel c : Nat) (icur : Iter) (k i : Nat)
    (sc : Scratch) (cl nl : ThreadList) {st : State}
    (hd : impl.deref (cl.t.getD i Thread.init).state = some st) (hop : st.op = Op.Match) :
    step_loop impl MatchType.LeftmostBiased rt fuel c icur (k + 1) i sc cl nl
      = some ({ sc with subs := Subs.assign sc.subs (cl.t.getD i Thread.init).subs },
          cl, nl, true) := by
  rw [step_loop]
  simp only [reduceCtorEq, decide_False, Bool.false_and, Bool.false_eq_true, if_false, hd]
  rw [hop]

theorem aStar_wf : WFAut aStar := @compiled_wf_of (bytes "a*") aStar rfl

/-- The closure `addstate` computes for the Split state of `a*` on an empty
list: the Split state, the Char state, the RParen of group 0 and the Match state,
in this order. -/
theorem astar_closure {rt : RepType} {pos : Nat} {ex : Extras} {nl0 : ThreadList} {m : Subs}
    {ex1 : Extras} {l1 : ThreadList} {m1 : Subs}
    (h : AddRel aStar MatchType.LeftmostBiased rt (some pos) ex nl0 2 m ex1 l1 m1)
    (hI : SInv aStar ex nl0) (hn : nl0.n = 0) (hm : m.length = NSUB) :
    l1.n = 4 ∧ (l1.t.getD 0 Thread.init).state = 2 ∧ (l1.t.getD 1 Thread.init).state = 1 ∧
    (l1.t.getD 2 Thread.init).state = 4 ∧ (l1.t.getD 3 Thread.init).state = 5 ∧
    ObsEq (l1.t.getD 1 Thread.init).subs m ∧
    ObsEq (l1.t.getD 3 Thread.init).subs
      (m.set 0 (Sub.mk (m.getD 0 Sub.init).first (some pos) SubState.Matched)) := by
  have hw := aStar_wf
  have hlen : aStar.states.length = 5 := rfl
  have hns : ∀ p, ¬ Stamped ex p := by
    intro p hp
    have := (hI.thr p hp).1
    omega
  -- the Split state
  obtain ⟨st, hd, hc⟩ := addrel_first hw.idok h (by decide) (hns 2)
  have hst : st = ⟨Op.Split, 0, 1, 4, 2⟩ := by
    have e : aStar.deref 2 = some ⟨Op.Split, 0, 1, 4, 2⟩ := rfl
    rw [e] at hd
    simp only [Option.some.injEq] at hd
    exact hd.symm
  subst hst
  obtain ⟨I1, _, E1, n1, s1, _, S1⟩ :=
    first_post hI 2 m (by decide) (by rw [hlen]; decide) hm (hns 2)
  have hsplit : ∃ ex2 l3 m2,
      AddRel aStar MatchType.LeftmostBiased rt (some pos) (firstEx ex nl0 2) (firstList nl0 2 m)
        1 m ex2 l3 m2 ∧
      AddRel aStar MatchType.LeftmostBiased rt (some pos) ex2 l3 4 m2 ex1 l1 m1 := by
    rcases hc with ⟨ho, _⟩ | ⟨_, ex2, l3, m2, r1, r2⟩ | ⟨ho, _⟩ | ⟨ho, _⟩
    · simp at ho
    · exact ⟨ex2, l3, m2, r1, r2⟩
    · simp at ho
    · simp at ho
  obtain ⟨ex2, l3, m2, r1, r2⟩ := hsplit
  -- the Char state
  have hns1 : ¬ Stamped (firstEx ex nl0 2) 1 := by
    rw [S1]
    rintro (x | x)
    · omega
    · exact hns 1 x
  obtain ⟨st, hd, hc⟩ := addrel_first hw.idok r1 (by decide) hns1
  have hst : st = ⟨Op.Char, 97, 2, 0, 1⟩ := by
    have e : aStar.deref 1 = some ⟨Op.Char, 97, 2, 0, 1⟩ := rfl
    rw [e] at hd
    simp only [Option.some.injEq] at hd
    exact hd.symm
  subst hst
  obtain ⟨I2, _, E2, n2, s2, o2, S2⟩ :=
    first_post I1 1 m (by decide) (by rw [hlen]; decide) hm hns1
  have hchar : ex2 = firstEx (firstEx ex nl0 2) (firstList nl0 2 m) 1 ∧
      l3 = firstList (firstList nl0 2 m) 1 m ∧ m2 = m := by
    rcases hc with ⟨_, e1, e2, e3⟩ | ⟨ho, _⟩ | ⟨ho, _⟩ | ⟨ho, _⟩
    · exact ⟨e1, e2, e3⟩
    · simp at ho
    · simp at ho
    · simp at ho
  obtain ⟨e1, e2, e3⟩ := hchar
  rw [e1, e2, e3] at r2
  -- the RParen of group 0
  have hns2 : ¬ Stamped (firstEx (firstEx ex nl0 2) (firstList nl0 2 m) 1) 4 := by
    rw [S2, S1]
    rintro (x | x | x)
    · omega
    · omega
    · exact hns 4 x
  obtain ⟨st, hd, hc⟩ := addrel_first hw.idok r2 (by decide) hns2
  have hst : st = ⟨Op.RParen, 0, 5, 0, 4⟩ := by
    have e : aStar.deref 4 = some ⟨Op.RParen, 0, 5, 0, 4⟩ := rfl
    rw [e] at hd
    simp only [Option.some.injEq] at hd
    exact hd.symm
  subst hst
  obtain ⟨I3, _, E3, n3, s3, _, S3⟩ :=
    first_post I2 4 m (by decide) (by rw [hlen]; decide) hm hns2
  have hrp : ∃ m3, AddRel aStar MatchType.LeftmostBiased rt (some pos)
      (firstEx (firstEx (firstEx ex nl0 2) (firstList nl0 2 m) 1)
        (firstList (firstList nl0 2 m) 1 m) 4)
      (firstList (firstList (firstList nl0 2 m) 1 m) 4 m) 5
      (m.set 0 (Sub.mk (m.getD 0 Sub.init).first (some pos) SubState.Matched)) ex1 l1 m3 := by
    rcases hc with ⟨ho, _⟩ | ⟨ho, _⟩ | ⟨ho, _⟩ | ⟨_, m3, r3, _⟩
    · simp at ho
    · simp at ho
    · simp at ho
    · exact ⟨m3, r3⟩
  obtain ⟨m3, r3⟩ := hrp
  -- the Match state
  have hns3 : ¬ Stamped (firstEx (firstEx (firstEx ex nl0 2) (firstList nl0 2 m) 1)
      (firstList (firstList nl0 2 m) 1 m) 4) 5 := by
    rw [S3, S2, S1]
    rintro (x | x | x | x)
    · omega
    · omega
    · omega
    · exact hns 5 x
  obtain ⟨st, hd, hc⟩ := addrel_first hw.idok r3 (by decide) hns3
  have hst : st = ⟨Op.Match, 0, 0, 0, 5⟩ := by
    have e : aStar.deref 5 = some ⟨Op.Match, 0, 0, 0, 5⟩ := rfl
    rw [e] at hd
    simp only [Option.some.injEq] at hd
    exact hd.symm
  subst hst
  have hm4 : (m.set 0 (Sub.mk (m.getD 0 Sub.init).first (some pos) SubState.Matched)).length
      = NSUB := by
    simpa using hm
  obtain ⟨I4, _, E4, n4, s4, o4, _⟩ :=
    first_post I3 5 _ (by decide) (le_of_eq hlen.symm) hm4 hns3
  have hmatch : l1 = firstList (firstList (firstList (firstList nl0 2 m) 1 m) 4 m) 5
      (m.set 0 (Sub.mk (m.getD 0 Sub.init).first (some pos) SubState.Matched)) := by
    rcases hc with ⟨_, _, e2, _⟩ | ⟨ho, _⟩ | ⟨ho, _⟩ | ⟨ho, _⟩
    · exact e2
    · simp at ho
    · simp at ho
    · simp at ho
  subst hmatch
  have a1 := E1.1
  have a2 := E2.1
  have a3 := E3.1
  have a4 := E4.1
  refine ⟨by omega, ?_, ?_, ?_, ?_, ?_, ?_⟩
  · rw [E4.2.2 0 (by omega), E3.2.2 0 (by omega), E2.2.2 0 (by omega)]
    rw [hn] at s1
    exact s1
  · rw [E4.2.2 1 (by omega), E3.2.2 1 (by omega)]
    rw [n1, hn] at s2
    exact s2
  · rw [E4.2.2 2 (by omega)]
    rw [n2, n1, hn] at s3
    exact s3
  · rw [n3, n2, n1, hn] at s4
    exact s4
  · rw [E4.2.2 1 (by omega), E3.2.2 1 (by omega)]
    rw [n1, hn] at o2
    exact o2
  · rw [n3, n2, n1, hn] at o4
    exact o4

/-- The loop of `step` moves past threads that neither fire nor stand at the Match state. -/
theorem step_loop_skip_many {impl : REImpl} (rt : RepType) (fuel c : Nat) (icur : Iter)
    (sc : Scratch) (cl nl : ThreadList) (k : Nat) :
    ∀ (n i : Nat),
      (∀ j, i ≤ j → j < i + n → ∃ st, impl.deref (cl.t.getD j Thread.init).state = some st ∧
        (st.op = Op.Split ∨ st.op = Op.LParen ∨ st.op = Op.RParen ∨
          (st.op = Op.Char ∧ (c : Int) ≠ st.data))) →
      step_loop impl MatchType.LeftmostBiased rt fuel c icur (k + n) i sc cl nl
        = step_loop impl MatchType.LeftmostBiased rt fuel c icur k (i + n) sc cl nl := by
  intro n
  induction n with
  | zero => intro i _; rfl
  | succ n ih =>
    intro i h
    obtain ⟨st, hd, hop⟩ := h i (le_refl _) (by omega)
    have e1 : k + (n + 1) = (k + n) + 1 := by omega
    rw [e1, step_loop_skip rt fuel c icur (k + n) i sc cl nl hd hop,
      ih (i + 1) (fun j h1 h2 => h j (by omega) (by omega))]
    have e2 : i + 1 + n = i + (n + 1) := by omega
    rw [e2]

/-- In the leftmost-biased mode, when the current list holds a thread at the
Match state, `step` leaves the span of that thread as the best match. -/
theorem step_biased_match {impl : REImpl} (hw : WFAut impl) {input : List Nat} {pos : Nat}
    {sc : Scratch} {cl nl : ThreadList}
    (hM : MInv impl MatchType.LeftmostBiased input pos sc cl nl) {rt : RepType}
    {c npos fuel : Nat} {sc1 : Scratch} {cl1 nl1 : ThreadList}
    (hP : StepPost impl MatchType.LeftmostBiased rt c pos npos fuel sc cl sc1 cl1 nl1)
    {i : Nat} (hi : i < cl.n) (hs : (cl.t.getD i Thread.init).state = impl.states.length) :
    span sc1.subs 0 = some (tstart (cl.t.getD i Thread.init), pos) := by
  obtain ⟨stop, scl, nll, f, hstop, hL, hN, hcase⟩ := step_next hw hM.pre hP
  have hb := (hL.biased rfl).2
  rcases hcase with ⟨_, _, _, h4⟩ | ⟨h1, _⟩ | ⟨h1, _, h3, h4, _⟩
  · have : stop = cl.n := by
      by_contra hne
      have := (h4 (by omega)).1
      simp at this
    exact absurd hs (hb i (by omega))
  · exact absurd hs (hb i (by omega))
  · have e : stop = i := hM.uniq stop i h1 hi (h3.trans hs.symm)
    subst e
    obtain ⟨a, b, c1, _, _⟩ := match_thread hw hM hi hs
    have hfr := (hL.frame.2.2 stop).2
    have hlen : (cl.t.getD stop Thread.init).subs.length = NSUB := hM.sub_cl stop
    have ho : ObsEq (Subs.assign scl.subs (cl1.t.getD stop Thread.init).subs)
        (cl.t.getD stop Thread.init).subs :=
      ObsEq.trans (obsEq_assign _ _ (by rw [hL.subsok.1, hfr.1, hlen])) hfr
    obtain ⟨a1, b1, c2⟩ := obs_match ho a b c1
    rw [h4]
    exact span_eq_some.mpr ⟨a1, b1, c2⟩

/-- One round of the loop of `match` for `a*` on a byte `a`: the list keeps its shape. -/
theorem astar_step (rt : RepType) {input : List Nat} {k : Nat} {sc : Scratch}
    {cl nl : ThreadList} {rest : List Nat} {i0 : Nat}
    (hM : MInv aStar MatchType.LeftmostBiased input k sc cl nl)
    (hd : input.drop k = 97 :: rest) (hS : AStarList cl i0) :
    ∃ sc1 cl1 nl1,
      step aStar MatchType.LeftmostBiased rt (addstateFuel aStar) sc cl (97 % 256)
        (some (k + 1)) nl = some (sc1, cl1, nl1) ∧
      MInv aStar MatchType.LeftmostBiased input (k + 1) sc1 nl1 cl1 ∧ AStarList nl1 0 := by
  have hw := aStar_wf
  have hfuel : 2 * aStar.states.length + 3 ≤ addstateFuel aStar := le_refl _
  obtain ⟨sc1, cl1, nl1, hrun, hP⟩ := step_post hw MatchType.LeftmostBiased rt
    (addstateFuel aStar) (97 % 256) k (k + 1) hM.pre hfuel
  have hM1 := minv_step hw hM hd hP
  refine ⟨sc1, cl1, nl1, hrun, hM1, ?_⟩
  obtain ⟨hn, h3, s0, s1, s2, s3, t1, t3⟩ := hS
  have L0 := loopInv_init MatchType.LeftmostBiased (97 % 256) k (k + 1) (addstateFuel aStar)
    hM.pre hfuel
  have d1 : aStar.deref 1 = some ⟨Op.Char, 97, 2, 0, 1⟩ := rfl
  have d2 : aStar.deref 2 = some ⟨Op.Split, 0, 1, 4, 2⟩ := rfl
  have d3 : aStar.deref 3 = some ⟨Op.LParen, 0, 2, 0, 3⟩ := rfl
  have d4 : aStar.deref 4 = some ⟨Op.RParen, 0, 5, 0, 4⟩ := rfl
  have d5 : aStar.deref 5 = some ⟨Op.Match, 0, 0, 0, 5⟩ := rfl
  -- the call of addstate by the thread at the Char state
  obtain ⟨_, _, hmok⟩ := hM.pre.cinv.2 (i0 + 1) (by omega)
  have hmok2 : MOK aStar (tstart (cl.t.getD (i0 + 1) Thread.init)) (k + 1) 2
      (cl.t.getD (i0 + 1) Thread.init).subs := by
    rw [s1] at hmok
    exact mok_middle_pos (by decide) (by decide) hmok
  obtain ⟨ex1, l1, m1, he⟩ := addstate_some hw MatchType.LeftmostBiased rt (k + 1)
    (addstateFuel aStar) (bump sc).extras { nl with n := 0 } 2
    (cl.t.getD (i0 + 1) Thread.init).subs _ L0.sinv hmok2 (fun e => absurd e (by decide))
    (by decide) L0.need
  have hrel := addstate_rel aStar MatchType.LeftmostBiased rt (some (k + 1)) _ _ _ _ _ _ _ _ he
  obtain ⟨c1, c2, c3, c4, c5, c6, c7⟩ := astar_closure hrel L0.sinv rfl hmok2.1
  -- the loop
  have A : step_loop aStar MatchType.LeftmostBiased rt (addstateFuel aStar) (97 % 256)
      (some (k + 1)) (i0 + 4) 0 (bump sc) cl { nl with n := 0 }
      = step_loop aStar MatchType.LeftmostBiased rt (addstateFuel aStar) (97 % 256)
        (some (k + 1)) 3 (i0 + 1) (bump sc) cl { nl with n := 0 } := by
    have h := step_loop_skip_many rt (addstateFuel aStar) (97 % 256) (some (k + 1)) (bump sc) cl
      { nl with n := 0 } 3 (i0 + 1) 0 (by
        intro j _ hj
        by_cases e : j = i0
        · subst e
          rw [s0]
          exact ⟨_, d2, Or.inl rfl⟩
        · rw [h3 j (by omega)]
          exact ⟨_, d3, Or.inr (Or.inl rfl)⟩)
    rw [Nat.zero_add] at h
    have e1 : i0 + 4 = 3 + (i0 + 1) := by omega
    rw [e1]
    exact h
  have B := step_loop_fire rt (addstateFuel aStar) (97 % 256) (some (k + 1)) 2 (i0 + 1)
    (bump sc) cl { nl with n := 0 } (by rw [s1]; exact d1) rfl (by decide) he
  have hg2 : (cl.t.set (i0 + 1)
      { cl.t.getD (i0 + 1) Thread.init with subs := m1 }).getD (i0 + 2) Thread.init
      = cl.t.getD (i0 + 2) Thread.init := getD_set_ne _ _ _ _ _ (by omega)
  have hg3 : (cl.t.set (i0 + 1)
      { cl.t.getD (i0 + 1) Thread.init with subs := m1 }).getD (i0 + 3) Thread.init
      = cl.t.getD (i0 + 3) Thread.init := getD_set_ne _ _ _ _ _ (by omega)
  have C := step_loop_skip rt (addstateFuel aStar) (97 % 256) (some (k + 1)) 1 (i0 + 2)
    { bump sc with extras := ex1 }
    { cl with t := cl.t.set (i0 + 1) { cl.t.getD (i0 + 1) Thread.init with subs := m1 } } l1
    (by show aStar.deref ((cl.t.set _ _).getD _ _).state = _; rw [hg2, s2]; exact d4)
    (Or.inr (Or.inr (Or.inl rfl)))
  have D := step_loop_return rt (addstateFuel aStar) (97 % 256) (some (k + 1)) 0 (i0 + 3)
    { bump sc with extras := ex1 }
    { cl with t := cl.t.set (i0 + 1) { cl.t.getD (i0 + 1) Thread.init with subs := m1 } } l1
    (by show aStar.deref ((cl.t.set _ _).getD _ _).state = _; rw [hg3, s3]; exact d5) rfl
  have hloop := A.trans (B.trans (C.trans D))
  have hloop1 : step_loop aStar MatchType.LeftmostBiased rt (addstateFuel aStar) (97 % 256)
      (some (k + 1)) (i0 + 4) 0
      { sc with extras := { sc.extras with listid := sc.extras.listid + 1 } } cl
      { nl with n := 0 } = _ := hloop
  have hrun2 := hrun
  unfold step at hrun2
  simp only at hrun2
  rw [hn, hloop1] at hrun2
  simp only [Option.some.injEq, Prod.mk.injEq] at hrun2
  obtain ⟨_, _, e3⟩ := hrun2
  subst e3
  have hne : ((cl.t.getD (i0 + 1) Thread.init).subs.getD 0 Sub.init).matched
      ≠ SubState.Unmatched := by
    have := (hmok2.2.2.1 (by decide) (by decide)).1
    rw [this]
    simp
  refine ⟨c1, fun j hj => absurd hj (Nat.not_lt_zero j), c2, c3, c4, c5, ?_, ?_⟩
  · have := @tstart_obs (cl.t.getD (i0 + 1) Thread.init)
      (l1.t.getD 1 Thread.init) c6 hne
    rw [this, t1]
  · have hfirst := (hmok2.2.2.1 (by decide) (by decide)).2
    have hlen := hmok2.1
    have hget : ((List.set (cl.t.getD (i0 + 1) Thread.init).subs 0
        (Sub.mk ((cl.t.getD (i0 + 1) Thread.init).subs.getD 0 Sub.init).first (some (k + 1))
          SubState.Matched)).getD 0 Sub.init)
        = Sub.mk ((cl.t.getD (i0 + 1) Thread.init).subs.getD 0 Sub.init).first (some (k + 1))
          SubState.Matched := by
      rw [getD_set_of_bound, if_pos ⟨rfl, by rw [hlen]; decide⟩]
    obtain ⟨_, o2, _⟩ := obs_eq_parts (c7.2 0)
    rw [hget] at o2
    have o3 := o2 (by simp)
    unfold tstart
    show (((l1.t.getD 3 Thread.init).subs.getD 0 Sub.init).first).getD 0 = 0
    rw [o3]
    show (((cl.t.getD (i0 + 1) Thread.init).subs.getD 0 Sub.init).first).getD 0 = 0
    exact t1

/-- The loop of `match` for `a*` on bytes `a` runs to the end of the subject
and keeps the shape of the list. -/
theorem astar_loop (rt : RepType) (input : List Nat) :
    ∀ (rest : List Nat) (k : Nat) (sc : Scratch) (cl nl : ThreadList) (i0 : Nat),
      MInv aStar MatchType.LeftmostBiased input k sc cl nl → input.drop k = rest →
      (∀ x ∈ rest, x = 97) → AStarList cl i0 →
      ∃ sc1 cl1 nl1 i1,
        match_loop aStar MatchType.LeftmostBiased rt (addstateFuel aStar) rest k sc cl nl
          = some (input.length, sc1, cl1, nl1) ∧
        MInv aStar MatchType.LeftmostBiased input input.length sc1 cl1 nl1 ∧
        AStarList cl1 i1 := by
  intro rest
  induction rest with
  | nil =>
    intro k sc cl nl i0 hM hd _ hS
    have : input.length ≤ k := by
      have := congrArg List.length hd
      simp only [List.length_drop, List.length_nil] at this
      omega
    have hk : k = input.length := by have := hM.pos_le; omega
    subst hk
    exact ⟨sc, cl, nl, i0, rfl, hM, hS⟩
  | cons b rest ih =>
    intro k sc cl nl i0 hM hd hb hS
    have hb97 : b = 97 := hb b (List.mem_cons_self _ _)
    subst hb97
    obtain ⟨sc1, cl1, nl1, hrun, hM1, hS1⟩ := astar_step rt hM hd hS
    have hd1 : input.drop (k + 1) = rest := by
      have := congrArg (List.drop 1) hd
      simpa [List.drop_drop, Nat.add_comm] using this
    obtain ⟨sc2, cl2, nl2, i1, h2, hM2, hS2⟩ :=
      ih (k + 1) sc1 nl1 cl1 0 hM1 hd1 (fun x hx => hb x (List.mem_cons_of_mem _ hx)) hS1
    refine ⟨sc2, cl2, nl2, i1, ?_, hM2, hS2⟩
    unfold match_loop
    rw [if_pos (by rw [hS.1]; omega), hrun]
    exact h2

/-- The run of the pattern `a*` on `n` bytes `a`: the whole match is `(0, n)`. -/
theorem astar_run (rt : RepType) (n : Nat) :
    ∃ subs, matchSubs aStar MatchType.LeftmostBiased rt (List.replicate n 97) = some subs ∧
      isMatched subs = true ∧ span subs 0 = some (0, n) := by
  have hw := aStar_wf
  have hfuel : 2 * aStar.states.length + 3 ≤ addstateFuel aStar := le_refl _
  obtain ⟨sc0, cl0, hs, hM0⟩ := minv_start hw MatchType.LeftmostBiased rt
    (List.replicate n 97) (addstateFuel aStar) hfuel
  have hshape : ∃ sc cl, startlist aStar MatchType.LeftmostBiased rt (addstateFuel aStar)
      ⟨Subs.init, Subs.init, Extras.init aStar.states.length⟩ (some 0)
      (ThreadList.init aStar.states.length) = some (sc, cl) ∧ AStarList cl 1 := by
    cases rt <;>
      exact ⟨_, _, rfl, rfl, fun j hj => by
        have : j = 0 := by omega
        subst this
        rfl, rfl, rfl, rfl, rfl, rfl, rfl⟩
  obtain ⟨sc0a, cl0a, hsa, hS0⟩ := hshape
  rw [hs] at hsa
  simp only [Option.some.injEq, Prod.mk.injEq] at hsa
  obtain ⟨e1, e2⟩ := hsa
  subst e1 e2
  obtain ⟨sc1, cl1, nl1, i1, hloop, hM1, hS1⟩ :=
    astar_loop rt (List.replicate n 97) (List.replicate n 97) 0 sc0 cl0 _ 1 hM0 rfl
      (fun x hx => (List.mem_replicate.mp hx).2) hS0
  obtain ⟨sc2, cl2, nl2, hfin, hP⟩ := step_post hw MatchType.LeftmostBiased rt
    (addstateFuel aStar) 0 (List.replicate n 97).length (List.replicate n 97).length hM1.pre hfuel
  have hsp := step_biased_match hw hM1 hP (i := i1 + 3) (by rw [hS1.1]; omega) hS1.2.2.2.2.2.1
  rw [hS1.2.2.2.2.2.2.2, List.length_replicate] at hsp
  refine ⟨sc2.subs, matchSubs_of_parts _ _ rt _ _ _ _ _ _ _ _ _ _ hs hloop hfin, ?_, hsp⟩
  unfold isMatched
  rw [decide_eq_true_eq]
  exact (span_eq_some.mp hsp).1

/-- The run of the pattern `a*?`: on every subject the whole match is `(0, 0)`. -/
theorem astar_lazy_run (rt : RepType) (input : List Nat) :
    ∃ subs, matchSubs aStarLazy MatchType.LeftmostBiased rt input = some subs ∧
      isMatched subs = true ∧ span subs 0 = some (0, 0) := by
  cases input with
  | nil => cases rt <;> exact ⟨_, rfl, rfl, rfl⟩
  | cons b rest =>
    have key : ∃ sc0 cl0 sc1 cl1 nl1 sc2 x y,
        startlist aStarLazy MatchType.LeftmostBiased rt (addstateFuel aStarLazy)
          ⟨Subs.init, Subs.init, Extras.init aStarLazy.states.length⟩ (some 0)
          (ThreadList.init aStarLazy.states.length) = some (sc0, cl0) ∧
        match_loop aStarLazy MatchType.LeftmostBiased rt (addstateFuel aStarLazy) (b :: rest) 0
          sc0 cl0 (ThreadList.init aStarLazy.states.length)
          = match_loop aStarLazy MatchType.LeftmostBiased rt (addstateFuel aStarLazy) rest 1
            sc1 cl1 nl1 ∧
        cl1.n = 0 ∧
        step aStarLazy MatchType.LeftmostBiased rt (addstateFuel aStarLazy) sc1 cl1 0 (some 1) nl1
          = some (sc2, x, y) ∧
        isMatched sc2.subs = true ∧ span sc2.subs 0 = some (0, 0) := by
      cases rt <;> exact ⟨_, _, _, _, _, _, _, _, rfl, rfl, rfl, rfl, rfl, rfl⟩
    obtain ⟨sc0, cl0, sc1, cl1, nl1, sc2, x, y, h0, h1, hn, h2, h3, h4⟩ := key
    rw [match_loop_empty _ _ _ _ _ _ _ _ _ hn] at h1
    exact ⟨_, matchSubs_of_parts _ _ rt _ _ _ _ _ _ _ _ _ _ h0 h1 h2, h3, h4⟩

/-- A spine is a path that reads nothing. -/
theorem spine_path {impl : REImpl} {a eA s : Nat} (h : Spine impl a eA s) :
    Path impl s [] eA := by
  induction h with
  | here => exact Path.refl _
  | split s st _ hd hop _ _ ih => exact Path.cons s false [] st.out [] eA (Tr.split_out s st hd hop) ih
  | lparen s st _ hd hop _ _ ih => exact Path.cons s false [] st.out [] eA (Tr.lparen s st hd hop) ih

/-- A run of `addstate` entered at the top of a spine none of whose states is
stamped contains a run entered at the bottom of the spine, before which only the
states of the spine were stamped and given threads. -/
theorem spine_descent {impl : REImpl} (hw : WFAut impl) {mt : MatchType} {rt : RepType}
    {pos a eA : Nat} {s : Nat} (hsp : Spine impl a eA s) :
    ∀ (ex : Extras) (l : ThreadList) (m : Subs) (ex1 : Extras) (l1 : ThreadList) (m1 : Subs),
      AddRel impl mt rt (some pos) ex l s m ex1 l1 m1 → SInv impl ex l →
      MOK impl pos pos s m →
      (∀ x, x ≤ s → Path impl x [] eA → ¬ Stamped ex x) →
      ∃ ex2 l2 m2 ex3 l3 m3, AddRel impl mt rt (some pos) ex2 l2 eA m2 ex3 l3 m3 ∧
        SInv impl ex2 l2 ∧ MOK impl pos pos eA m2 ∧ Ext l l2 ∧ Ext l3 l1 ∧
        (∀ i, l.n ≤ i → i < l2.n → ∃ st, impl.deref (l2.t.getD i Thread.init).state = some st ∧
          (st.op = Op.Split ∨ st.op = Op.LParen)) ∧
        (∀ x, Stamped ex2 x → Stamped ex x ∨ (a < x ∧ x ≤ s)) := by
  induction hsp with
  | here =>
    intro ex l m ex1 l1 m1 h hI hm _
    exact ⟨ex, l, m, ex1, l1, m1, h, hI, hm, ext_refl l, ext_refl l1,
      fun i h1 h2 => absurd h2 (by omega), fun x hx => Or.inl hx⟩
  | split s st has hd hop hlt hsp ih =>
    intro ex l m ex1 l1 m1 h hI hm hU
    have hs0 : s ≠ 0 := by omega
    have hns : ¬ Stamped ex s :=
      hU s (le_refl _) (spine_path (Spine.split s st has hd hop hlt hsp))
    obtain ⟨hs1, hsN⟩ := deref_range hd
    obtain ⟨st1, hd1, hcase⟩ := addrel_first hw.idok h hs0 hns
    rw [hd] at hd1
    simp only [Option.some.injEq] at hd1
    subst hd1
    obtain ⟨hI1, _, hext, hn, hst, _, hiff⟩ := first_post hI s m hs1 hsN hm.1 hns
    rcases hcase with ⟨ho, _⟩ | ⟨_, ex2, l3, m2, r1, r2⟩ | ⟨ho, _⟩ | ⟨ho, _⟩
    · rcases ho with o | o | o <;> rw [hop] at o <;> simp at o
    · obtain ⟨⟨ha, hb, hc, _⟩, ⟨ha1, hb1, hc1, _⟩⟩ := mok_split hw hd hop hm
      have P1 := addrel_post hw pos r1 pos hI1 ha (fun _ => rfl)
      have P2 := addrel_post hw pos r2 pos P1.sinv (mok_obs P1.obs ha1) (fun _ => rfl)
      obtain ⟨e2, k2, n2, e3, k3, n3, hadd, hI2, hm2, hx1, hx2, hthr, hstamp⟩ :=
        ih _ _ _ _ _ _ r1 hI1 ha (by
          intro x hx hp hsx
          rcases (hiff x).mp hsx with e | e
          · omega
          · exact hU x (by omega) hp e)
      refine ⟨e2, k2, n2, e3, k3, n3, hadd, hI2, hm2, ext_trans hext hx1,
        ext_trans hx2 P2.ext, ?_, ?_⟩
      · intro i h1 h2
        rcases Nat.lt_or_ge l.n i with c | c
        · exact hthr i (by omega) h2
        · have hi : i = l.n := by omega
          subst hi
          rw [hx1.2.2 l.n (by omega), hst]
          exact ⟨st, hd, Or.inl hop⟩
      · intro x hx
        rcases hstamp x hx with e | ⟨e1, e2⟩
        · rcases (hiff x).mp e with e | e
          · exact Or.inr ⟨by omega, by omega⟩
          · exact Or.inl e
        · exact Or.inr ⟨e1, by omega⟩
    · rw [hop] at ho; simp at ho
    · rw [hop] at ho; simp at ho
  | lparen s st has hd hop hlt hsp ih =>
    intro ex l m ex1 l1 m1 h hI hm hU
    have hs0 : s ≠ 0 := by omega
    have hns : ¬ Stamped ex s :=
      hU s (le_refl _) (spine_path (Spine.lparen s st has hd hop hlt hsp))
    obtain ⟨hs1, hsN⟩ := deref_range hd
    obtain ⟨st1, hd1, hcase⟩ := addrel_first hw.idok h hs0 hns
    rw [hd] at hd1
    simp only [Option.some.injEq] at hd1
    subst hd1
    obtain ⟨hI1, _, hext, hn, hst, _, hiff⟩ := first_post hI s m hs1 hsN hm.1 hns
    rcases hcase with ⟨ho, _⟩ | ⟨ho, _⟩ | ⟨_, m2, r1, _⟩ | ⟨ho, _⟩
    · rcases ho with o | o | o <;> rw [hop] at o <;> simp at o
    · rw [hop] at ho; simp at ho
    · obtain ⟨hm1, hs1, _, _⟩ := mok_lparen hw hd hop hm (fun _ => rfl)
      obtain ⟨e2, k2, n2, e3, k3, n3, hadd, hI2, hm2, hx1, hx2, hthr, hstamp⟩ :=
        ih _ _ _ _ _ _ r1 hI1 hm1 (by
          intro x hx hp hsx
          rcases (hiff x).mp hsx with e | e
          · omega
          · exact hU x (by omega) hp e)
      refine ⟨e2, k2, n2, e3, k3, n3, hadd, hI2, hm2, ext_trans hext hx1, hx2, ?_, ?_⟩
      · intro i h1 h2
        rcases Nat.lt_or_ge l.n i with c | c
        · exact hthr i (by omega) h2
        · have hi : i = l.n := by omega
          subst hi
          rw [hx1.2.2 l.n (by omega), hst]
          exact ⟨st, hd, Or.inr hop⟩
      · intro x hx
        rcases hstamp x hx with e | ⟨e1, e2⟩
        · rcases (hiff x).mp e with e | e
          · exact Or.inr ⟨by omega, by omega⟩
          · exact Or.inl e
        · exact Or.inr ⟨e1, by omega⟩
    · rw [hop] at ho; simp at ho

/-- A state reached from a stamped state without reading is stamped, when the
stamped states between the two pass their stamp on. -/
theorem stamped_between {impl : REImpl} {ex : Extras} {e0 x q : Nat} {w : List Nat}
    (h : Path impl x w q) :
    w = [] → Path impl e0 [] x → Stamped ex x →
    (∀ y, Path impl e0 [] y → Path impl y [] q → Stamped ex y →
      ∀ b z, Tr impl y b [] z → Stamped ex z) → Stamped ex q := by
  induction h with
  | refl x => intro _ _ hx _; exact hx
  | cons x b lab x1 w1 q ht hp ih =>
    intro hw0 h0 hx hcl
    have hl : lab = [] := (List.append_eq_nil.mp hw0).1
    have hw1 : w1 = [] := (List.append_eq_nil.mp hw0).2
    subst hl
    subst hw1
    have hx1 : Stamped ex x1 :=
      hcl x h0 (Path.cons x b [] x1 [] q ht hp) hx b x1 ht
    have h1 : Path impl e0 [] x1 := by
      have := path_trans h0 (path_one ht)
      simpa using this
    exact ih rfl h1 hx1 hcl

/-- A path from a state of a closed region whose exit is the RParen of group 0
stays in the region or ends at that RParen or at the Match state. -/
theorem closed_path {impl : REImpl} (hw : WFAut impl) {a : Nat}
    (hcl : ClosedIn impl 0 a (impl.states.length - 1)) {x q : Nat} {w : List Nat}
    (h : Path impl x w q) :
    ((0 < x ∧ x ≤ a) ∨ x = impl.states.length - 1 ∨ x = impl.states.length) →
    ((0 < q ∧ q ≤ a) ∨ q = impl.states.length - 1 ∨ q = impl.states.length) := by
  induction h with
  | refl x => exact fun h => h
  | cons x b lab x1 w1 q ht hp ih =>
    intro hx
    apply ih
    rcases hx with ⟨h1, h2⟩ | h1 | h1
    · rcases hcl x b lab x1 h1 h2 ht with c | c
      · exact Or.inl c
      · exact Or.inr (Or.inl c)
    · obtain ⟨st, hd, hop, _, hout⟩ := hw.close_state
      rw [← h1] at hd
      rcases tr_cases ht hd with ⟨o, _⟩ | ⟨o, _⟩ | ⟨o, _⟩ | ⟨_, _, e⟩
      · rw [hop] at o; simp at o
      · rw [hop] at o; simp at o
      · rw [hop] at o; simp at o
      · exact Or.inr (Or.inr (e.trans hout))
    · exact absurd h1 (tr_source hw ht)

/-- The list after the start state has been added at offset `p`, a lower bound
of the accepted starts at which a part of the subject is read along a path from
the bottom `eA` of a spine: the threads of the closure of `eA` come before
every thread that neither started before `p` nor stands on the spine. -/
theorem prio_seed {impl : REImpl} (hw : WFAut impl) {a eA : Nat}
    (hsp : Spine impl a eA impl.start) (hcl : ClosedIn impl 0 a (impl.states.length - 1))
    (he1 : 0 < eA) (he2 : eA ≤ a) (ha : a ≤ impl.states.length - 3)
    {input : List Nat} {p : Nat} (hp : LowStart impl input p) {eE : Nat} (hpe : p ≤ eE)
    (hel : eE ≤ input.length) (hA : Path impl eA (slice input p eE) impl.states.length)
    {mt : MatchType} {rt : RepType} {c pos fuel stop : Nat} {sc0 scl sc1 : Scratch}
    {cl0 cl1 nll nl1 cl2 : ThreadList}
    (hL : LoopInv impl mt c pos p fuel sc0 cl0 stop scl cl1 nll)
    (hdum : MOK impl p p impl.start scl.dummy)
    (hadd : AddRel impl mt rt (some p) scl.extras nll impl.start scl.dummy
      sc1.extras nl1 sc1.dummy)
    (hM1 : MInv impl mt input p sc1 nl1 cl2) :
    Prio1 impl input p eA p nl1 := by
  have hsz := hw.size
  have hse := hw.start_eq
  have hns := (loopInv_no_start hw hL).2
  obtain ⟨P, hlt, hhead⟩ := seed_post hw hadd hL.sinv hdum hns
  have hold : ∀ k, k < nll.n → tstart (nl1.t.getD k Thread.init) < p :=
    fun k hk => hM1.root_lt k nll.n hk hlt hhead
  have hnoN : ∀ k, k < nll.n → (nl1.t.getD k Thread.init).state ≠ impl.states.length := by
    intro k hk hs
    have hv := hM1.valid k (by omega) (by rw [hs]; omega)
    rw [hs] at hv
    have := hp _ _ hv.1 hM1.pos_le hv.2
    have := hold k hk
    omega
  have U : ∀ x e, p ≤ e → e ≤ input.length → Path impl x (slice input p e) impl.states.length →
      ¬ Stamped scl.extras x := by
    intro x e h1 h2 hx hst
    obtain ⟨k1, k2⟩ := hL.sinv.thr x hst
    generalize (scl.extras.stateex.getD x StateEx.init).lastthread = k at k1 k2
    have hk := P.ext.2.2 k k1
    by_cases hxs : x = impl.start
    · rw [hxs] at hst
      exact hns hst
    · have hkn : k < nl1.n := by have := P.ext.1; omega
      have hv := hM1.valid k hkn (by rw [hk, k2]; exact hxs)
      have hts := hold k k1
      rw [hk, k2] at hv
      rw [hk] at hts
      have hacc : Accepts impl (slice input (tstart (nll.t.getD k Thread.init)) e) := by
        unfold Accepts
        rw [slice_append input hv.1 h1]
        exact path_trans hv.2 hx
      have := hp _ _ (by omega) h2 hacc
      omega
  have hU1 : ∀ x, x ≤ impl.start → Path impl x [] eA → ¬ Stamped scl.extras x := by
    intro x _ hx
    have := path_trans hx hA
    exact U x eE hpe hel (by simpa using this)
  obtain ⟨ex2, l2, m2, ex3, l3, m3, hadd2, hI2, hm2, hx1, hx2, hthr, hstamp⟩ :=
    spine_descent hw hsp _ _ _ _ _ _ hadd hL.sinv hdum hU1
  have P2 := addrel_post hw p hadd2 p hI2 hm2 (fun _ => rfl)
  have hlive : ∀ q, LiveA impl input p eA p q →
      ∃ j, j < l3.n ∧ (nl1.t.getD j Thread.init).state = q := by
    intro q ⟨h1, e, h2, h3, h4⟩
    rw [slice_self] at h1
    have hst : Stamped ex3 q := by
      refine stamped_between h1 rfl (Path.refl eA) (P2.stamped (by omega)) ?_
      intro y hy1 hy2 hys b z htr
      by_cases hy : Stamped ex2 y
      · rcases hstamp y hy with e0 | ⟨e1, e2⟩
        · have := path_trans hy2 h4
          exact absurd e0 (U y e h2 h3 (by simpa using this))
        · have := closed_path hw hcl hy1 (Or.inl ⟨he1, he2⟩)
          omega
      · exact P2.closed y hys hy b z htr
    obtain ⟨j1, j2⟩ := P2.sinv.thr q hst
    exact ⟨_, j1, by rw [hx2.2.2 _ j1]; exact j2⟩
  have hn1 := hx1.1
  have hn2 := P2.ext.1
  have hn3 := hx2.1
  exact {
    ge := le_refl _
    order := by
      intro i hi
      rcases Nat.lt_or_ge i l3.n with c3 | c3
      · left
        rcases Nat.lt_or_ge i l2.n with c2 | c2
        · left
          rcases Nat.lt_or_ge i nll.n with c1 | c1
          · exact ⟨hnoN i c1, fun _ _ _ => hold i c1⟩
          · obtain ⟨st, hd, hop⟩ := hthr i c1 c2
            rw [← P2.ext.2.2 i c2, ← hx2.2.2 i c3] at hd
            constructor
            · intro hs
              obtain ⟨stM, hdM, hopM⟩ := hw.match_state
              rw [hs, hdM] at hd
              simp only [Option.some.injEq] at hd
              subst hd
              rcases hop with o | o <;> rw [hopM] at o <;> simp at o
            · intro c0 q ⟨st1, hd1, _, hf⟩
              rw [hd] at hd1
              simp only [Option.some.injEq] at hd1
              subst hd1
              rcases hop with o | o <;> rcases hf with f | ⟨f, _⟩ <;> rw [o] at f <;> simp at f
        · right
          obtain ⟨_, f2, f3⟩ := P2.fresh i c2 c3
          rw [← hx2.2.2 i c3] at f2 f3
          have hne : (nl1.t.getD i Thread.init).state ≠ impl.start := by
            rcases path_target hw f2 with e | ⟨e, _⟩
            · rw [e]; omega
            · exact e
          refine ⟨(mok_tstart f3 hne).1, ?_⟩
          rw [slice_self]
          exact f2
      · right
        intro q hq
        obtain ⟨j, j1, j2⟩ := hlive q hq
        exact ⟨j, by omega, j2⟩
    complete := by
      intro q hq
      obtain ⟨j, j1, j2⟩ := hlive q hq
      exact ⟨j, by omega, j2⟩
    none_yet := fun e h1 h2 => absurd h2 (by omega) }

/-- A thread of the next list whose source is `Early` or `ViaA` is so itself. -/
theorem good_next {impl : REImpl} {mt : MatchType} {input : List Nat} {pos : Nat}
    {sc : Scratch} {cl nl : ThreadList} (hw : WFAut impl) (h : MInv impl mt input pos sc cl nl)
    {b : Nat} {rest : List Nat} (hd : input.drop pos = b :: rest)
    {stop nOld : Nat} {ex1 : Extras} {nl1 : ThreadList} {f : Nat → Nat}
    (hN : NextList impl (b % 256) (pos + 1) cl stop ex1 nl1 nOld f) (hstop : stop ≤ cl.n)
    {p eA : Nat} (hp : LowStart impl input p) (hge : p ≤ pos) {k : Nat} (hk : k < nOld)
    (hg : Early impl p (cl.t.getD (f k) Thread.init) ∨
      ViaA impl input p eA pos (cl.t.getD (f k) Thread.init)) :
    Early impl p (nl1.t.getD k Thread.init) ∨
      ViaA impl input p eA (pos + 1) (nl1.t.getD k Thread.init) := by
  obtain ⟨o1, o2, o3, o4, o5, o6⟩ := next_old hw h hd hN hstop hk
  obtain ⟨_, q, hf, hq, _⟩ := hN.src k hk
  have hlen : pos + 1 ≤ input.length := by
    have := drop_length_lt hd
    omega
  rcases hg with ⟨_, g2⟩ | ⟨g1, g2⟩
  · left
    have hlt := g2 _ _ hf
    refine ⟨?_, fun _ _ _ => by rw [o4]; exact hlt⟩
    intro hs
    rw [hs] at o6
    have := hp _ _ (by omega) hlen o6
    omega
  · right
    refine ⟨by rw [o4]; exact g1, ?_⟩
    rw [slice_snoc hge hd]
    have := path_trans g2 (Path.cons _ false [b] q [] _ (fires_tr hf) hq)
    simpa using this

/-- A state that is live after one more byte has a live predecessor that fires on the byte. -/
theorem live_prev {impl : REImpl} {input : List Nat} {pos b : Nat} {rest : List Nat}
    (hd : input.drop pos = b :: rest) {p eA q : Nat} (hge : p ≤ pos)
    (h : LiveA impl input p eA (pos + 1) q) :
    ∃ src q1, LiveA impl input p eA pos src ∧ Tr impl src false [b] q1 ∧ Path impl q1 [] q := by
  obtain ⟨h1, e, h2, h3, h4⟩ := h
  rw [slice_snoc hge hd] at h1
  obtain ⟨src, q1, P1, T, P2⟩ := path_snoc_inv h1
  refine ⟨src, q1, ⟨P1, e, by omega, h3, ?_⟩, T, P2⟩
  rw [slice_cons hd (by omega : pos < e)]
  have := Path.cons src false [b] q1 _ _ T (path_trans P2 h4)
  simpa using this

/-- The invariant `Prio1` passes to the next list when the loop of `step`
handled the threads of all live states and none of them stood at the Match state. -/
theorem prio1_next {impl : REImpl} {mt : MatchType} {input : List Nat} {pos : Nat}
    {sc : Scratch} {cl nl : ThreadList} (hw : WFAut impl) (h : MInv impl mt input pos sc cl nl)
    {b : Nat} {rest : List Nat} (hd : input.drop pos = b :: rest)
    {stop nOld : Nat} {ex1 : Extras} {nl1 : ThreadList} {f : Nat → Nat}
    (hN : NextList impl (b % 256) (pos + 1) cl stop ex1 nl1 nOld f) (hstop : stop ≤ cl.n)
    {p eA : Nat} (hp : LowStart impl input p) (h1 : Prio1 impl input p eA pos cl)
    (hall : ∀ q, LiveA impl input p eA pos q →
      ∃ j, j < stop ∧ (cl.t.getD j Thread.init).state = q)
    (hnm : ∀ j, j < stop → (cl.t.getD j Thread.init).state ≠ impl.states.length) :
    Prio1 impl input p eA (pos + 1) nl1 := by
  have hge := h1.ge
  have hcomp : ∀ q, LiveA impl input p eA (pos + 1) q → ∀ bound,
      (∀ src, LiveA impl input p eA pos src →
        ∃ j, j < bound ∧ j < stop ∧ (cl.t.getD j Thread.init).state = src) →
      ∃ k, k < nOld ∧ (nl1.t.getD k Thread.init).state = q ∧ f k < bound := by
    intro q hq bound hb
    obtain ⟨src, q1, hl, T, P2⟩ := live_prev hd hge hq
    obtain ⟨j, j1, j2, j3⟩ := hb src hl
    obtain ⟨k, k1, k2, k3⟩ := hN.early j j2 q1 (tr_fires T _ j3) q P2
    exact ⟨k, k1, k2, by omega⟩
  exact {
    ge := by omega
    order := by
      intro i hi
      rcases Nat.lt_or_ge i nOld with c | c
      · rcases h1.order (f i) (by have := (hN.src i c).1; omega) with g | g
        · exact Or.inl (good_next hw h hd hN hstop hp hge c g)
        · right
          intro q hq
          obtain ⟨k, k1, k2, k3⟩ := hcomp q hq (f i) (by
            intro src hs
            obtain ⟨j, j1, j2⟩ := g src hs
            exact ⟨j, j1, by have := (hN.src i c).1; omega, j2⟩)
          refine ⟨k, ?_, k2⟩
          by_contra hki
          have := hN.mono i k (by omega) k1
          omega
      · right
        intro q hq
        obtain ⟨k, k1, k2, _⟩ := hcomp q hq stop (by
          intro src hs
          obtain ⟨j, j1, j2⟩ := hall src hs
          exact ⟨j, j1, j1, j2⟩)
        exact ⟨k, by omega, k2⟩
    complete := by
      intro q hq
      obtain ⟨k, k1, k2, _⟩ := hcomp q hq stop (by
        intro src hs
        obtain ⟨j, j1, j2⟩ := hall src hs
        exact ⟨j, j1, j1, j2⟩)
      exact ⟨k, by have := hN.old_le; omega, k2⟩
    none_yet := by
      intro e e1 e2 hpath
      rcases Nat.lt_or_ge e pos with c | c
      · exact h1.none_yet e e1 c hpath
      · have he : e = pos := by omega
        subst he
        obtain ⟨j, j1, j2⟩ := hall impl.states.length
          ⟨hpath, e, le_refl _, h.pos_le, by rw [slice_self]; exact Path.refl _⟩
        exact hnm j j1 j2 }

/-- A thread at the Match state of a list with the invariant `Prio1` started
at offset `p` and has read the subject along a path from `eA`. -/
theorem prio1_match {impl : REImpl} {mt : MatchType} {input : List Nat} {pos : Nat}
    {sc : Scratch} {cl nl : ThreadList} (h : MInv impl mt input pos sc cl nl)
    {p eA : Nat} (h1 : Prio1 impl input p eA pos cl) {i : Nat} (hi : i < cl.n)
    (hs : (cl.t.getD i Thread.init).state = impl.states.length)
    (hlive : Path impl eA (slice input p pos) impl.states.length) :
    tstart (cl.t.getD i Thread.init) = p := by
  rcases h1.order i hi with (⟨g, _⟩ | ⟨g, _⟩) | g
  · exact absurd hs g
  · exact g
  · obtain ⟨j, j1, j2⟩ := g impl.states.length
      ⟨hlive, pos, le_refl _, h.pos_le, by rw [slice_self]; exact Path.refl _⟩
    have := h.uniq j i (by omega) hi (j2.trans hs.symm)
    omega

/-- One step of the leftmost-biased run from a list with the invariant `Prio1`. -/
theorem prio1_step {impl : REImpl} {input : List Nat} {pos : Nat}
    {sc : Scratch} {cl nl : ThreadList} (hw : WFAut impl)
    (hM : MInv impl MatchType.LeftmostBiased input pos sc cl nl)
    {b : Nat} {rest : List Nat} (hd : input.drop pos = b :: rest)
    {rt : RepType} {fuel : Nat} {sc1 : Scratch} {cl1 nl1 : ThreadList}
    (hP : StepPost impl MatchType.LeftmostBiased rt (b % 256) pos (pos + 1) fuel sc cl sc1 cl1 nl1)
    {p eA : Nat} (hp : LowStart impl input p) (h1 : Prio1 impl input p eA pos cl) :
    Prio1 impl input p eA (pos + 1) nl1 ∨ Prio2 impl input p eA (pos + 1) sc1 nl1 := by
  obtain ⟨stop, scl, nll, f, hstop, hL, hN, hcase⟩ := step_next hw hM.pre hP
  obtain ⟨hsub, hnm⟩ := hL.biased rfl
  have hfull : stop = cl.n → Prio1 impl input p eA (pos + 1) nl1 := by
    intro e
    refine prio1_next hw hM hd hN hstop hp h1 ?_ hnm
    intro q hq
    rw [e]
    exact h1.complete q hq
  rcases hcase with ⟨_, _, _, h4⟩ | ⟨h2, _⟩ | ⟨h2, _, hs, e1, e2⟩
  · left
    apply hfull
    by_contra hne
    have := (h4 (by omega)).1
    simp at this
  · exact Or.inl (hfull h2)
  · rcases h1.order stop h2 with (⟨g, _⟩ | ⟨g1, g2⟩) | g
    · exact absurd hs g
    · right
      rw [hs] at g2
      have hsp := step_biased_match hw hM hP h2 hs
      rw [g1] at hsp
      refine ⟨by have := h1.ge; omega, ⟨pos, hsp, g2⟩, ?_⟩
      intro k hk
      rw [e2] at hk
      have hfk := (hN.src k hk).1
      rcases h1.order (f k) (by omega) with g | g
      · exact good_next hw hM hd hN hstop hp h1.ge hk g
      · obtain ⟨j, j1, j2⟩ := g impl.states.length
          ⟨g2, pos, le_refl _, hM.pos_le, by rw [slice_self]; exact Path.refl _⟩
        exact absurd j2 (hnm j (by omega))
    · exact Or.inl (prio1_next hw hM hd hN hstop hp h1 g hnm)

/-- The best match after a call of `step` on a list with the invariant `Prio2`. -/
theorem prio2_found {impl : REImpl} {input : List Nat} {pos : Nat}
    {sc : Scratch} {cl nl : ThreadList} (hw : WFAut impl)
    (hM : MInv impl MatchType.LeftmostBiased input pos sc cl nl)
    {rt : RepType} {c npos fuel : Nat} {sc1 : Scratch} {cl1 nl1 : ThreadList}
    (hP : StepPost impl MatchType.LeftmostBiased rt c pos npos fuel sc cl sc1 cl1 nl1)
    {p eA : Nat} (h2 : Prio2 impl input p eA pos sc cl) :
    (∃ e, span sc1.subs 0 = some (p, e) ∧ Path impl eA (slice input p e) impl.states.length) ∧
    ∃ stop nll f, stop ≤ cl.n ∧
      NextList impl c npos cl stop sc1.extras nl1 nll.n f ∧ nl1 = nll := by
  obtain ⟨stop, scl, nll, f, hstop, hL, hN, hcase⟩ := step_next hw hM.pre hP
  obtain ⟨hsub, hnm⟩ := hL.biased rfl
  have hsub1 : scl.subs = sc.subs := hsub
  obtain ⟨e, hf1, hf2⟩ := h2.found
  rcases hcase with ⟨_, e1, e2, _⟩ | ⟨_, hu, _⟩ | ⟨h3, _, hs, e1, e2⟩
  · refine ⟨⟨e, ?_, hf2⟩, stop, nll, f, hstop, hN, e2⟩
    rw [e1, hsub1]
    exact hf1
  · rw [hsub1] at hu
    rw [span_eq_some] at hf1
    rw [hf1.1] at hu
    simp at hu
  · refine ⟨?_, stop, nll, f, hstop, hN, e2⟩
    have hsp := step_biased_match hw hM hP h3 hs
    rcases h2.good stop h3 with ⟨g, _⟩ | ⟨g1, g2⟩
    · exact absurd hs g
    · rw [g1] at hsp
      rw [hs] at g2
      exact ⟨pos, hsp, g2⟩

/-- One step of the leftmost-biased run from a list with the invariant `Prio2`. -/
theorem prio2_step {impl : REImpl} {input : List Nat} {pos : Nat}
    {sc : Scratch} {cl nl : ThreadList} (hw : WFAut impl)
    (hM : MInv impl MatchType.LeftmostBiased input pos sc cl nl)
    {b : Nat} {rest : List Nat} (hd : input.drop pos = b :: rest)
    {rt : RepType} {fuel : Nat} {sc1 : Scratch} {cl1 nl1 : ThreadList}
    (hP : StepPost impl MatchType.LeftmostBiased rt (b % 256) pos (pos + 1) fuel sc cl sc1 cl1 nl1)
    {p eA : Nat} (hp : LowStart impl input p) (h2 : Prio2 impl input p eA pos sc cl) :
    Prio2 impl input p eA (pos + 1) sc1 nl1 := by
  obtain ⟨hfound, stop, nll, f, hstop, hN, e2⟩ := prio2_found hw hM hP h2
  refine ⟨by have := h2.ge; omega, hfound, ?_⟩
  intro k hk
  rw [e2] at hk
  have hfk := (hN.src k hk).1
  exact good_next hw hM hd hN hstop hp h2.ge hk (h2.good (f k) (by omega))

/-- No best match is known at an offset up to a lower bound of the accepted starts. -/
theorem minv_unmatched {impl : REImpl} {mt : MatchType} {input : List Nat} {pos : Nat}
    {sc : Scratch} {cl nl : ThreadList} (h : MInv impl mt input pos sc cl nl) {p : Nat}
    (hp : LowStart impl input p) (hle : pos ≤ p) :
    (sc.subs.getD 0 Sub.init).matched = SubState.Unmatched := by
  rcases subsOK_cases h.pre.subsok with hu | ⟨s1, e1, a, b, c⟩
  · exact hu
  · obtain ⟨v1, v2, v3⟩ := h.found s1 e1 a b c
    have := hp s1 e1 v1 (by have := h.pos_le; omega) v3
    omega

/-- One step of the leftmost-biased run keeps the invariant of the priority of a spine. -/
theorem prio_step {impl : REImpl} (hw : WFAut impl) {a eA : Nat}
    (hsp : Spine impl a eA impl.start) (hcl : ClosedIn impl 0 a (impl.states.length - 1))
    (he1 : 0 < eA) (he2 : eA ≤ a) (ha : a ≤ impl.states.length - 3)
    {input : List Nat} {p : Nat} (hp : LowStart impl input p) {eE : Nat} (hpe : p ≤ eE)
    (hel : eE ≤ input.length) (hA : Path impl eA (slice input p eE) impl.states.length)
    {pos : Nat} {sc : Scratch} {cl nl : ThreadList}
    (hM : MInv impl MatchType.LeftmostBiased input pos sc cl nl)
    {b : Nat} {rest : List Nat} (hd : input.drop pos = b :: rest)
    {rt : RepType} {fuel : Nat} {sc1 : Scratch} {cl1 nl1 : ThreadList}
    (hP : StepPost impl MatchType.LeftmostBiased rt (b % 256) pos (pos + 1) fuel sc cl sc1 cl1 nl1)
    (h : pos < p ∨ Prio1 impl input p eA pos cl ∨ Prio2 impl input p eA pos sc cl) :
    pos + 1 < p ∨ Prio1 impl input p eA (pos + 1) nl1 ∨
      Prio2 impl input p eA (pos + 1) sc1 nl1 := by
  rcases h with c | c | c
  · rcases Nat.lt_or_ge (pos + 1) p with x | x
    · exact Or.inl x
    · right
      left
      have hpp : p = pos + 1 := by omega
      subst hpp
      have hM1 := minv_step hw hM hd hP
      have hun := minv_unmatched hM1 hp (le_refl _)
      have hP2 := hP
      obtain ⟨stop, scl, nll, hstop, hL, hcase⟩ := hP2
      rcases hcase with ⟨h1, e1, _⟩ | ⟨_, _, _, hadd⟩ | ⟨h1, _, hs, _⟩
      · rw [e1] at hun
        exact absurd hun h1
      · have hdm : scl.dummy = sc.dummy := hL.dummy
        have hdum : MOK impl (pos + 1) (pos + 1) impl.start scl.dummy := by
          rw [hdm]
          have hsz := hw.size
          have hse := hw.start_eq
          exact ⟨hM.pre.dummy.1, fun _ => hM.pre.dummy.2, fun e => absurd rfl e,
            fun e => by omega⟩
        exact prio_seed hw hsp hcl he1 he2 ha hp hpe hel hA hL hdum hadd hM1
      · have hsp := step_biased_match hw hM hP h1 hs
        rw [span_eq_some] at hsp
        rw [hsp.1] at hun
        simp at hun
  · rcases prio1_step hw hM hd hP hp c with r | r
    · exact Or.inr (Or.inl r)
    · exact Or.inr (Or.inr r)
  · exact Or.inr (Or.inr (prio2_step hw hM hd hP hp c))

/-- The initial list has the invariant of the priority of a spine. -/
theorem prio_start {impl : REImpl} (hw : WFAut impl) {a eA : Nat}
    (hsp : Spine impl a eA impl.start) (hcl : ClosedIn impl 0 a (impl.states.length - 1))
    (he1 : 0 < eA) (he2 : eA ≤ a) (ha : a ≤ impl.states.length - 3)
    {input : List Nat} {p : Nat} (hp : LowStart impl input p) {eE : Nat} (hpe : p ≤ eE)
    (hel : eE ≤ input.length) (hA : Path impl eA (slice input p eE) impl.states.length)
    {mt : MatchType} {rt : RepType} {fuel : Nat} (hfuel : 2 * impl.states.length + 3 ≤ fuel)
    {sc : Scratch} {cl : ThreadList}
    (hstart : startlist impl mt rt fuel
        ⟨Subs.init, Subs.init, Extras.init impl.states.length⟩ (some 0)
        (ThreadList.init impl.states.length) = some (sc, cl))
    (hM : MInv impl mt input 0 sc cl (ThreadList.init impl.states.length)) :
    0 < p ∨ Prio1 impl input p eA 0 cl ∨ Prio2 impl input p eA 0 sc cl := by
  rcases Nat.eq_zero_or_pos p with hp0 | hp0
  swap
  · exact Or.inl hp0
  subst hp0
  right
  left
  have hsz := hw.size
  have hse := hw.start_eq
  have hpre : StepPre impl 0
      { subs := Subs.assign Subs.init Subs.init, dummy := Subs.init,
        extras := Extras.init impl.states.length }
      (ThreadList.init 0) (ThreadList.init impl.states.length) := {
    cinv := ⟨le_refl _, fun i hi => absurd hi (Nat.not_lt_zero i)⟩
    cap_nl := by simp [ThreadList.init]
    sub_nl := by
      intro i
      show ((List.replicate impl.states.length Thread.init).getD i Thread.init).subs.length = _
      rw [getD_replicate]
      rfl
    ex_len := by simp [Extras.init]
    ex_le := by
      intro p
      show ((List.replicate (impl.states.length + 1) StateEx.init).getD p StateEx.init).lastlist
        ≤ 0
      rw [getD_replicate]
      exact le_refl _
    dummy := ⟨rfl, rfl⟩
    subsok := ⟨rfl, Or.inl rfl⟩ }
  obtain ⟨sc1, cl1, nl1, hrun, hP⟩ := step_post hw mt rt fuel 0 0 0 hpre hfuel
  unfold startlist at hstart
  simp only at hstart
  rw [hrun] at hstart
  simp only [Option.some.injEq, Prod.mk.injEq] at hstart
  obtain ⟨e1, e2⟩ := hstart
  subst e1
  subst e2
  have hun := minv_unmatched hM hp (le_refl _)
  obtain ⟨stop, scl, nll, hstop, hL, hcase⟩ := hP
  rcases hcase with ⟨h1, e1, _⟩ | ⟨_, _, _, hadd⟩ | ⟨h1, _⟩
  · rw [e1] at hun
    exact absurd hun h1
  · have hdm : scl.dummy = Subs.init := hL.dummy
    have hdum : MOK impl 0 0 impl.start scl.dummy := by
      rw [hdm]
      exact ⟨rfl, fun _ => rfl, fun e => absurd rfl e, fun e => by omega⟩
    exact prio_seed hw hsp hcl he1 he2 ha hp hpe hel hA hL hdum hadd hM
  · exact absurd h1 (by
      have : (ThreadList.init 0).n = 0 := rfl
      omega)

/-- The loop of `match` keeps the invariant of the priority of a spine. -/
theorem prio_loop {impl : REImpl} (hw : WFAut impl) {a eA : Nat}
    (hsp : Spine impl a eA impl.start) (hcl : ClosedIn impl 0 a (impl.states.length - 1))
    (he1 : 0 < eA) (he2 : eA ≤ a) (ha : a ≤ impl.states.length - 3)
    {input : List Nat} {p : Nat} (hp : LowStart impl input p) {eE : Nat} (hpe : p ≤ eE)
    (hel : eE ≤ input.length) (hA : Path impl eA (slice input p eE) impl.states.length)
    (rt : RepType) (fuel : Nat) (hfuel : 2 * impl.states.length + 3 ≤ fuel) :
    ∀ (rest : List Nat) (pos : Nat) (sc : Scratch) (cl nl : ThreadList),
      MInv impl MatchType.LeftmostBiased input pos sc cl nl → input.drop pos = rest →
      (pos < p ∨ Prio1 impl input p eA pos cl ∨ Prio2 impl input p eA pos sc cl) →
      ∀ pos1 sc1 cl1 nl1,
        match_loop impl MatchType.LeftmostBiased rt fuel rest pos sc cl nl
          = some (pos1, sc1, cl1, nl1) →
        (pos1 < p ∨ Prio1 impl input p eA pos1 cl1 ∨ Prio2 impl input p eA pos1 sc1 cl1) := by
  intro rest
  induction rest with
  | nil =>
    intro pos sc cl nl h hd hI pos1 sc1 cl1 nl1 hrun
    unfold match_loop at hrun
    simp only [Option.some.injEq, Prod.mk.injEq] at hrun
    obtain ⟨e1, e2, e3, _⟩ := hrun
    subst e1 e2 e3
    exact hI
  | cons b rest ih =>
    intro pos sc cl nl h hd hI pos1 sc1 cl1 nl1 hrun
    unfold match_loop at hrun
    by_cases hn : cl.n > 0
    · rw [if_pos hn] at hrun
      obtain ⟨sc2, cl2, nl2, hstep, hP⟩ :=
        step_post hw MatchType.LeftmostBiased rt fuel (b % 256) pos (pos + 1) h.pre hfuel
      rw [hstep] at hrun
      simp only at hrun
      have h1 := minv_step hw h hd hP
      have hd1 : input.drop (pos + 1) = rest := by
        have := congrArg (List.drop 1) hd
        simpa [List.drop_drop, Nat.add_comm] using this
      exact ih (pos + 1) sc2 nl2 cl2 h1 hd1
        (prio_step hw hsp hcl he1 he2 ha hp hpe hel hA h hd hP hI) pos1 sc1 cl1 nl1 hrun
    · rw [if_neg hn] at hrun
      simp only [Option.some.injEq, Prod.mk.injEq] at hrun
      obtain ⟨e1, e2, e3, _⟩ := hrun
      subst e1 e2 e3
      exact hI

/-- Priority of a spine: the automaton has a chain of states from the start
state to a state `eA` of a closed region, each entered through the `out` edge of
the one before; `p` is a lower bound of the accepted starts, and from `p` a part
of the subject is read along a path from `eA` to the Match state. Then the
leftmost-biased run reports a match `(p, e)` that is read along a path from `eA`. -/
theorem biased_priority {impl : REImpl} (hw : WFAut impl) {a eA : Nat}
    (hsp : Spine impl a eA impl.start) (hcl : ClosedIn impl 0 a (impl.states.length - 1))
    (he1 : 0 < eA) (he2 : eA ≤ a) (ha : a ≤ impl.states.length - 3)
    {input : List Nat} {p : Nat} (hp : LowStart impl input p) {eE : Nat} (hpe : p ≤ eE)
    (hel : eE ≤ input.length) (hA : Path impl eA (slice input p eE) impl.states.length)
    (rt : RepType) :
    ∃ subs e, matchSubs impl MatchType.LeftmostBiased rt input = some subs ∧
      span subs 0 = some (p, e) ∧ Path impl eA (slice input p e) impl.states.length := by
  have hfuel : 2 * impl.states.length + 3 ≤ addstateFuel impl := le_refl _
  obtain ⟨sc, cl, hstart, h0⟩ :=
    minv_start hw MatchType.LeftmostBiased rt input (addstateFuel impl) hfuel
  have hI0 := prio_start hw hsp hcl he1 he2 ha hp hpe hel hA hfuel hstart h0
  obtain ⟨pos1, sc1, cl1, nl1, hloop, h1, hend⟩ :=
    match_loop_post hw MatchType.LeftmostBiased rt input (addstateFuel impl) hfuel input 0 sc cl
      (ThreadList.init impl.states.length) h0 rfl
  have hI1 := prio_loop hw hsp hcl he1 he2 ha hp hpe hel hA rt (addstateFuel impl) hfuel
    input 0 sc cl (ThreadList.init impl.states.length) h0 rfl hI0 pos1 sc1 cl1 nl1 hloop
  obtain ⟨sc2, cl2, nl2, hfin, hP⟩ :=
    step_post hw MatchType.LeftmostBiased rt (addstateFuel impl) 0 pos1 pos1 h1.pre hfuel
  have hrun : matchSubs impl MatchType.LeftmostBiased rt input = some sc2.subs := by
    unfold matchSubs Matcher.run Matcher.init
    simp only
    rw [hstart]
    simp only
    rw [hloop]
    simp only
    rw [hfin]
    rfl
  refine ⟨sc2.subs, ?_⟩
  have hp1 := h1.pos_le
  rcases hI1 with c | c | c
  · exfalso
    have hun := minv_unmatched h1 hp (by omega)
    obtain ⟨i, hi, _⟩ := h1.root.mpr hun
    rcases hend with x | x
    · omega
    · omega
  · have hge : pos1 ≤ eE := by
      by_contra hlt
      exact c.none_yet eE hpe (by omega) hA
    have hsplit := hA
    rw [slice_append input c.ge hge] at hsplit
    obtain ⟨q, P1, P2⟩ := path_split hsplit _ _ rfl
    obtain ⟨j, j1, _⟩ := c.complete q ⟨P1, eE, hge, hel, P2⟩
    have hpos : pos1 = input.length := by
      rcases hend with x | x
      · exact x
      · omega
    have hee : eE = pos1 := by omega
    subst hee
    obtain ⟨i, i1, i2⟩ := c.complete impl.states.length
      ⟨hA, eE, le_refl _, hel, by rw [slice_self]; exact Path.refl _⟩
    have hts := prio1_match h1 c i1 i2 hA
    have hsp := step_biased_match hw h1 hP i1 i2
    rw [hts] at hsp
    exact ⟨eE, hrun, hsp, hA⟩
  · obtain ⟨⟨e, f1, f2⟩, _⟩ := prio2_found hw h1 hP c
    exact ⟨e, hrun, f1, f2⟩

/-- The text `A|B` of two alternations parses to an alternation whose first
alternative is the tree of `A`. -/
theorem parses_alt_append {A B : List Nat} {rA rB : Re} (hA : Parses NT.alt A rA)
    (hB : Parses NT.alt B rB) : ∃ r, Parses NT.alt (A ++ 124 :: B) r ∧ LeftAlt rA r := by
  generalize hnt : NT.alt = nt at hB
  induction hB with
  | alt_one w r hc _ => exact ⟨_, Parses.alt_more A w rA r hA hc, LeftAlt.base r⟩
  | alt_more w1 w2 r1 r2 h1 h2 ih1 _ =>
    obtain ⟨r, hr, hl⟩ := ih1 rfl
    refine ⟨Re.alt r r2, ?_, LeftAlt.more r r2 hl⟩
    have := Parses.alt_more (A ++ 124 :: w1) w2 r r2 hr h2
    simpa using this
  | atom_nocapture => cases hnt
  | atom_capture => cases hnt
  | atom_any => cases hnt
  | atom_char => cases hnt
  | rep_atom => cases hnt
  | rep_star => cases hnt
  | rep_plus => cases hnt
  | rep_opt => cases hnt
  | rep_star_lazy => cases hnt
  | rep_plus_lazy => cases hnt
  | rep_opt_lazy => cases hnt
  | concat_one => cases hnt
  | concat_more => cases hnt

/-- In the fragment of an alternation the fragment of its first alternative
comes first, and a spine of Split states leads from the entry of the alternation
to the entry of the first alternative. -/
theorem built_left {impl : REImpl} {rA r : Re} (hl : LeftAlt rA r) :
    ∀ {c0 c1 lo hi e t : Nat}, Built impl r c0 c1 lo hi e t →
      ∃ a cA eA, Built impl rA c0 cA lo a eA t ∧ a < hi ∧ Spine impl a eA e := by
  induction hl with
  | base c =>
    intro c0 c1 lo hi e t h
    cases h with
    | alt _ _ _ c1 _ _ mid hi e1 e2 _ st ha hb hd hop hout hout1 =>
      have r1 := built_range ha
      have r2 := built_range hb
      refine ⟨mid, c1, e1, ha, by omega, ?_⟩
      exact Spine.split (hi + 1) st (by omega) hd hop (by rw [hout]; omega)
        (by rw [hout]; exact Spine.here)
  | more r c _ ih =>
    intro c0 c1 lo hi e t h
    cases h with
    | alt _ _ _ c1 _ _ mid hi e1 e2 _ st ha hb hd hop hout hout1 =>
      have r1 := built_range ha
      have r2 := built_range hb
      obtain ⟨a, cA, eA, hBA, hlt, hsp⟩ := ih ha
      refine ⟨a, cA, eA, hBA, by omega, ?_⟩
      exact Spine.split (hi + 1) st (by omega) hd hop (by rw [hout]; omega)
        (by rw [hout]; exact hsp)

/-- The compiled automaton accepts the words the automaton of the pattern reads. -/
theorem compiled_autLang (r : Re) (w : List Nat) :
    Accepts (do_regex (build r REImpl.init).1 (build r REImpl.init).2) w ↔ AutLang r w := by
  have hw := compiled_wf r
  obtain ⟨hi, e, c1, h1, hlen, hstart, hB, hL, hR, hM, hid⟩ := compiled_layout r
  generalize do_regex (build r REImpl.init).1 (build r REImpl.init).2 = impl at *
  have hr := built_range hB
  have hlang := built_autLang hB (by omega : hi + 2 ≤ 0 ∨ hi < hi + 2) w
  rw [← hlang]
  unfold Accepts
  rw [hstart, hlen]
  have t1 : Tr impl (hi + 1) false [] e := Tr.lparen (hi + 1) _ hL rfl
  have t2 : Tr impl (hi + 2) false [] (hi + 3) := Tr.rparen (hi + 2) _ hR rfl
  constructor
  · intro h
    cases h with
    | cons _ b lab q w1 _ ht hp =>
      obtain ⟨a1, a2⟩ := tr_paren_inv ht hL (Or.inl rfl)
      subst a1
      have a3 : q = e := a2
      subst a3
      obtain ⟨u, v, e4, p1, p2⟩ := path_exit (built_closed hB) (by omega) hp hr.1 hr.2
        (by omega : hi + 3 ≤ 0 ∨ hi < hi + 3)
      have hv : v = [] := by
        cases p2 with
        | cons _ b2 lab2 q2 w2 _ ht2 hp2 =>
          obtain ⟨b1, b2⟩ := tr_paren_inv ht2 hR (Or.inr rfl)
          subst b1
          have b3 : q2 = hi + 3 := b2
          subst b3
          rw [← hlen] at hp2
          exact (path_from_match hw hp2).2
      subst hv
      simp only [List.append_nil] at e4
      subst e4
      exact p1
  · intro h
    have p1 := pathTo_path h
    have p2 := path_trans (path_one t1) (path_trans p1 (path_one t2))
    simpa using p2

/-- The layout of the automaton compiled for an alternation with first
alternative `rA`: a spine from the start state to the entry `eA` of the closed
region of `rA`, from where the paths to the Match state read the words that the
automaton of `rA` reads. -/
theorem compiled_left {rA r : Re} (hl : LeftAlt rA r) :
    ∃ a eA, Spine (do_regex (build r REImpl.init).1 (build r REImpl.init).2) a eA
        (do_regex (build r REImpl.init).1 (build r REImpl.init).2).start ∧
      ClosedIn (do_regex (build r REImpl.init).1 (build r REImpl.init).2) 0 a
        ((do_regex (build r REImpl.init).1 (build r REImpl.init).2).states.length - 1) ∧
      0 < eA ∧ eA ≤ a ∧
      a ≤ (do_regex (build r REImpl.init).1 (build r REImpl.init).2).states.length - 3 ∧
      ∀ w, Path (do_regex (build r REImpl.init).1 (build r REImpl.init).2) eA w
          (do_regex (build r REImpl.init).1 (build r REImpl.init).2).states.length ↔
        AutLang rA w := by
  have hw := compiled_wf r
  obtain ⟨hi, e, c1, h1, hlen, hstart, hB, hL, hR, hM, hid⟩ := compiled_layout r
  generalize do_regex (build r REImpl.init).1 (build r REImpl.init).2 = impl at *
  have hr := built_range hB
  obtain ⟨a, cA, eA, hBA, hlt, hsp⟩ := built_left hl hB
  have hrA := built_range hBA
  have hcl := built_closed hBA
  have t2 : Tr impl (hi + 2) false [] (hi + 3) := Tr.rparen (hi + 2) _ hR rfl
  refine ⟨a, eA, ?_, ?_, hrA.1, hrA.2, by omega, ?_⟩
  · rw [hstart]
    exact Spine.lparen (hi + 1) _ (by omega) hL rfl (by show e < hi + 1; omega) hsp
  · rw [hlen]
    exact hcl
  · intro w
    rw [← built_autLang hBA (by omega : hi + 2 ≤ 0 ∨ a < hi + 2) w, hlen]
    constructor
    · intro hp
      obtain ⟨u, v, e4, p1, p2⟩ := path_exit hcl (by omega) hp hrA.1 hrA.2
        (by omega : hi + 3 ≤ 0 ∨ a < hi + 3)
      have hv : v = [] := by
        cases p2 with
        | cons _ b2 lab2 q2 w2 _ ht2 hp2 =>
          obtain ⟨b1, b2⟩ := tr_paren_inv ht2 hR (Or.inr rfl)
          subst b1
          have b3 : q2 = hi + 3 := b2
          subst b3
          rw [← hlen] at hp2
          exact (path_from_match hw hp2).2
      subst hv
      simp only [List.append_nil] at e4
      subst e4
      exact p1
    · intro h
      have p1 := pathTo_path h
      have p2 := path_trans p1 (path_one t2)
      simpa using p2

/-- Priority of the first alternative: when `p` is a lower bound of the starts
of the parts of the subject that the automaton of `A|B` accepts and the
automaton of `A` accepts a part that starts at `p`, the leftmost-biased run of
`A|B` reports a match `(p, e)` that the automaton of `A` accepts. -/
theorem alt_priority {A B : List Nat} {rA rB : Re} {implA impl : REImpl}
    (hrA : Parses NT.alt A rA) (hrB : Parses NT.alt B rB) (hcA : compile A = some implA)
    (hc : compile (A ++ 124 :: B) = some impl) (input : List Nat) (rt : RepType) {p eE : Nat}
    (hlow : LowStart impl input p) (hpe : p ≤ eE) (hel : eE ≤ input.length)
    (hacc : Accepts implA (slice input p eE)) :
    ∃ subs e, matchSubs impl MatchType.LeftmostBiased rt input = some subs ∧
      span subs 0 = some (p, e) ∧ p ≤ e ∧ e ≤ input.length ∧
      Accepts implA (slice input p e) ∧ AutLang rA (slice input p e) := by
  obtain ⟨r, hr, hl⟩ := parses_alt_append hrA hrB
  have e1 := compiled_of_parse hr hc
  have e2 := compiled_of_parse hrA hcA
  have hw := compiled_wf r
  obtain ⟨a, eA, hsp, hcl, he1, he2, ha, hpath⟩ := compiled_left hl
  rw [← e1] at hw hsp hcl ha hpath
  have hreads : ∀ w, Accepts implA w ↔ AutLang rA w := by
    intro w
    rw [e2]
    exact compiled_autLang rA w
  have hA := (hpath _).mpr ((hreads _).mp hacc)
  obtain ⟨subs, e, hrun, hspan, hp⟩ := biased_priority hw hsp hcl he1 he2 ha hlow hpe hel hA rt
  obtain ⟨v1, v2, _⟩ := run_valid hw hrun hspan
  have hL := (hpath _).mp hp
  exact ⟨subs, e, hrun, hspan, v1, v2, (hreads _).mpr hL, hL⟩

/-- The literals of the tree of a text of bytes are bytes. -/
theorem parses_bytes {nt : NT} {w : List Nat} {r : Re} (h : Parses nt w r) :
    (∀ c ∈ w, c < 256) → r.Bytes := by
  induction h with
  | atom_nocapture w r _ ih =>
    intro hb
    exact ih (fun c hc => hb c (by simp [hc]))
  | atom_capture w r _ ih =>
    intro hb
    exact ih (fun c hc => hb c (by simp [hc]))
  | atom_any => intro _; trivial
  | atom_char c _ =>
    intro hb
    exact hb c (List.mem_singleton_self c)
  | rep_atom w r _ ih => exact ih
  | rep_star w r _ ih => intro hb; exact ih (fun c hc => hb c (by simp [hc]))
  | rep_plus w r _ ih => intro hb; exact ih (fun c hc => hb c (by simp [hc]))
  | rep_opt w r _ ih => intro hb; exact ih (fun c hc => hb c (by simp [hc]))
  | rep_star_lazy w r _ ih => intro hb; exact ih (fun c hc => hb c (by simp [hc]))
  | rep_plus_lazy w r _ ih => intro hb; exact ih (fun c hc => hb c (by simp [hc]))
  | rep_opt_lazy w r _ ih => intro hb; exact ih (fun c hc => hb c (by simp [hc]))
  | concat_one w r _ ih => exact ih
  | concat_more w1 w2 r1 r2 _ _ ih1 ih2 =>
    intro hb
    exact ⟨ih1 (fun c hc => hb c (by simp [hc])), ih2 (fun c hc => hb c (by simp [hc]))⟩
  | alt_one w r _ ih => exact ih
  | alt_more w1 w2 r1 r2 _ _ ih1 ih2 =>
    intro hb
    exact ⟨ih1 (fun c hc => hb c (by simp [hc])), ih2 (fun c hc => hb c (by simp [hc]))⟩

/-- The tree of the text `A|B` of two alternations denotes the union of the
languages of the trees of `A` and `B`. -/
theorem parses_alt_lang {A B : List Nat} {rA rB : Re} (hA : Parses NT.alt A rA)
    (hB : Parses NT.alt B rB) :
    ∃ r, Parses NT.alt (A ++ 124 :: B) r ∧ ∀ w, Lang r w ↔ (Lang rA w ∨ Lang rB w) := by
  generalize hnt : NT.alt = nt at hB
  induction hB with
  | alt_one w r hc _ => exact ⟨_, Parses.alt_more A w rA r hA hc, fun _ => Iff.rfl⟩
  | alt_more w1 w2 r1 r2 h1 h2 ih1 _ =>
    obtain ⟨r, hr, hl⟩ := ih1 rfl
    refine ⟨Re.alt r r2, ?_, ?_⟩
    · have := Parses.alt_more (A ++ 124 :: w1) w2 r r2 hr h2
      simpa using this
    · intro w
      show (Lang r w ∨ Lang r2 w) ↔ (Lang rA w ∨ (Lang r1 w ∨ Lang r2 w))
      rw [hl w, or_assoc]
  | atom_nocapture => cases hnt
  | atom_capture => cases hnt
  | atom_any => cases hnt
  | atom_char => cases hnt
  | rep_atom => cases hnt
  | rep_star => cases hnt
  | rep_plus => cases hnt
  | rep_opt => cases hnt
  | rep_star_lazy => cases hnt
  | rep_plus_lazy => cases hnt
  | rep_opt_lazy => cases hnt
  | concat_one => cases hnt
  | concat_more => cases hnt

/-- Priority of the first alternative in terms of the languages, for 7-bit
patterns `A` and `B` with trees `rA` and `rB` and a subject of bytes: when `p`
is the leftmost offset at which a part of the subject in the language of `rA`
or of `rB` starts and a part in the language of `rA` starts at `p`, the
leftmost-biased run of `A|B` reports a match `(p, e)` in the language of `rA`. -/
theorem alt_priority_lang {A B : List Nat} {rA rB : Re} {impl : REImpl}
    (h7A : ∀ c ∈ A, c < 128) (h7B : ∀ c ∈ B, c < 128)
    (hrA : Parses NT.alt A rA) (hrB : Parses NT.alt B rB)
    (hc : compile (A ++ 124 :: B) = some impl) (input : List Nat)
    (hb : ∀ x ∈ input, x < 256) (rt : RepType) {p eE : Nat}
    (hmin : ∀ s e, s ≤ e → e ≤ input.length →
      (Lang rA (slice input s e) ∨ Lang rB (slice input s e)) → p ≤ s)
    (hpe : p ≤ eE) (hel : eE ≤ input.length) (hLA : Lang rA (slice input p eE)) :
    ∃ subs e, matchSubs impl MatchType.LeftmostBiased rt input = some subs ∧
      span subs 0 = some (p, e) ∧ p ≤ e ∧ e ≤ input.length ∧ Lang rA (slice input p e) := by
  obtain ⟨r, hr, hl⟩ := parses_alt_lang hrA hrB
  have e1 := compiled_of_parse hr hc
  have h7 : ∀ c ∈ A ++ 124 :: B, c < 128 := by
    intro c hcm
    rcases List.mem_append.mp hcm with m | m
    · exact h7A c m
    · rcases List.mem_cons.mp m with m | m
      · rw [m]; decide
      · exact h7B c m
  have hAsc := parses_ascii hr h7
  have hAscA := parses_ascii hrA h7A
  have hcA : compile A = some (do_regex (build rA REImpl.init).1 (build rA REImpl.init).2) :=
    (compile_eq_some_iff A _).mpr ⟨rA, hrA, rfl⟩
  have hlow : LowStart impl input p := by
    intro s e hse hel1 hacc
    rw [e1] at hacc
    exact hmin s e hse hel1 ((hl _).mp ((compiled_accepts r hAsc _ (slice_bytes hb s e)).mp hacc))
  obtain ⟨subs, e, h1, h2, h3, h4, h5, _⟩ :=
    alt_priority hrA hrB hcA hc input rt hlow hpe hel
      ((compiled_accepts rA hAscA _ (slice_bytes hb p eE)).mpr hLA)
  exact ⟨subs, e, h1, h2, h3, h4, (compiled_accepts rA hAscA _ (slice_bytes hb p e)).mp h5⟩

/-- What `patch` does to one state: the `out` field is overwritten when it is
in the list of pending edges, and so the `out1` field. -/
theorem pst_eq (l : Ptrlist) (t p : Nat) (st : State) :
    pst l t p st = { st with
      out := if (⟨p, false⟩ : Slot) ∈ l then t else st.out,
      out1 := if (⟨p, true⟩ : Slot) ∈ l then t else st.out1 } := by
  induction l generalizing st with
  | nil => simp [pst]
  | cons sl l ih =>
    rw [pst_cons, ih]
    obtain ⟨s, b⟩ := sl
    by_cases hs : s = p
    · subst hs
      cases b <;> simp
    · have h1 : (⟨p, false⟩ : Slot) ≠ ⟨s, b⟩ := by
        intro e
        injection e with e1 _
        exact hs e1.symm
      have h2 : (⟨p, true⟩ : Slot) ≠ ⟨s, b⟩ := by
        intro e
        injection e with e1 _
        exact hs e1.symm
      simp [hs, h1, h2]

/-- A returning run of `addstate` hands back a submatch array that is
observably equal to the one it was given, whatever the automaton. -/
theorem addrel_obs {impl : REImpl} {mt : MatchType} {rt : RepType} {icur : Iter}
    {ex : Extras} {l : ThreadList} {s : Nat} {m : Subs} {ex1 : Extras} {l1 : ThreadList}
    {m1 : Subs} (h : AddRel impl mt rt icur ex l s m ex1 l1 m1) : ObsEq m1 m := by
  induction h with
  | null ex l m => exact ObsEq.refl m
  | stop ex l s m st ss l1 _ _ _ => exact ObsEq.refl m
  | leaf ex l s m st ss l1 _ _ _ _ => exact ObsEq.refl m
  | split ex l s m st ss l1 ex2 ex3 l3 l4 m1 m2 _ _ _ _ _ _ ih1 ih2 =>
    exact ObsEq.trans ih2 ih1
  | lparen ex l s m st ss l1 ex2 l3 m2 _ _ _ _ _ ih =>
    exact obsEq_restore m m2 _ _ _ rfl ih
  | rparen ex l s m st ss l1 ex2 l3 m2 _ _ _ _ _ ih =>
    exact obsEq_restore m m2 _ _ _ rfl ih

/-- The tags and the observable positions of observably equal arrays. -/
theorem obsEq_fields {m1 m : Subs} (h : ObsEq m1 m) (i : Nat) :
    (m1.getD i Sub.init).matched = (m.getD i Sub.init).matched ∧
    ((m.getD i Sub.init).matched ≠ SubState.Unmatched →
      (m1.getD i Sub.init).first = (m.getD i Sub.init).first) ∧
    ((m.getD i Sub.init).matched = SubState.Matched →
      (m1.getD i Sub.init).second = (m.getD i Sub.init).second) := by
  have h2 := h.2 i
  unfold Sub.obs at h2
  generalize m1.getD i Sub.init = x at h2 ⊢
  generalize m.getD i Sub.init = y at h2 ⊢
  cases hx : x.matched <;> cases hy : y.matched <;> rw [hx, hy] at h2 <;>
    simp at h2 ⊢ <;> simp [h2]

/-- Every state of the loop of `match` has the invariant of the loop. -/
theorem loopState_minv {impl : REImpl} (hw : WFAut impl) {mt : MatchType} {rt : RepType}
    {input : List Nat} {pos : Nat} {sc : Scratch} {cl nl : ThreadList}
    (h : LoopState impl mt rt input pos sc cl nl) : MInv impl mt input pos sc cl nl := by
  have hfuel : 2 * impl.states.length + 3 ≤ addstateFuel impl := le_refl _
  induction h with
  | start sc cl hs =>
    obtain ⟨sc0, cl0, h1, h2⟩ := minv_start hw mt rt input (addstateFuel impl) hfuel
    rw [hs] at h1
    simp only [Option.some.injEq, Prod.mk.injEq] at h1
    obtain ⟨e1, e2⟩ := h1
    subst e1 e2
    exact h2
  | next pos sc cl nl b rest sc1 cl1 nl1 _ hd _ hs ih =>
    obtain ⟨sc2, cl2, nl2, hrun, hP⟩ :=
      step_post hw mt rt (addstateFuel impl) (b % 256) pos (pos + 1) ih.pre hfuel
    rw [hs] at hrun
    simp only [Option.some.injEq, Prod.mk.injEq] at hrun
    obtain ⟨e1, e2, e3⟩ := hrun
    subst e1 e2 e3
    exact minv_step hw ih hd hP

/-- The list a call of `step` leaves, from a state of the loop of `match`:
it fits its storage and holds every state at most once. -/
theorem step_list_ok {impl : REImpl} (hw : WFAut impl) {mt : MatchType} {rt : RepType}
    {input : List Nat} {pos : Nat} {sc : Scratch} {cl nl : ThreadList}
    (h : MInv impl mt input pos sc cl nl) (c npos : Nat) {sc2 : Scratch} {cl2 nl2 : ThreadList}
    (hs : step impl mt rt (addstateFuel impl) sc cl c (some npos) nl = some (sc2, cl2, nl2)) :
    nl2.n ≤ impl.states.length ∧ nl2.t.length = impl.states.length ∧
    ∀ i j, i < nl2.n → j < nl2.n →
      (nl2.t.getD i Thread.init).state = (nl2.t.getD j Thread.init).state → i = j := by
  have hfuel : 2 * impl.states.length + 3 ≤ addstateFuel impl := le_refl _
  obtain ⟨sc3, cl3, nl3, hrun, hP⟩ :=
    step_post hw mt rt (addstateFuel impl) c pos npos h.pre hfuel
  rw [hs] at hrun
  simp only [Option.some.injEq, Prod.mk.injEq] at hrun
  obtain ⟨e1, e2, e3⟩ := hrun
  subst e1 e2 e3
  obtain ⟨stop, scl, nll, f, hstop, hL, hN, hcase⟩ := step_next hw h.pre hP
  exact ⟨sinv_n_le hN.sinv, hN.sinv.cap, fun i j hi hj e => next_uniq hN hi hj e⟩

/-- The scratch data of the matcher that `Matcher.rerun` leaves are those `Matcher.run` returns. -/
theorem rerun_scratch (impl : REImpl) (mt : MatchType) (rt : RepType) (m : Matcher)
    (input : List Nat) :
    (Matcher.rerun impl mt rt m input).map (fun m1 => (⟨m1.subs, m1.dummy, m1.extras⟩ : Scratch))
      = Matcher.run impl mt rt m input := by
  unfold Matcher.rerun Matcher.run
  split
  · rfl
  · split
    · rfl
    · split
      · rfl
      · split <;> rfl

theorem exSame_refl (ex : Extras) : ExSame ex ex := ⟨rfl, rfl, fun _ => ⟨rfl, rfl⟩⟩

theorem exSame_set {ex ex1 : Extras} (h : ExSame ex ex1) (i : Nat) {sa sb : StateEx}
    (h1 : sb.lastlist = sa.lastlist) (h2 : sb.lastthread = sa.lastthread) :
    ExSame { ex with stateex := ex.stateex.set i sa } { ex1 with stateex := ex1.stateex.set i sb } := by
  obtain ⟨e1, e2, e3⟩ := h
  refine ⟨e1, by simp [e2], fun p => ?_⟩
  show ((ex1.stateex.set i sb).getD p StateEx.init).lastlist
      = ((ex.stateex.set i sa).getD p StateEx.init).lastlist ∧
    ((ex1.stateex.set i sb).getD p StateEx.init).lastthread
      = ((ex.stateex.set i sa).getD p StateEx.init).lastthread
  rw [getD_set_of_bound, getD_set_of_bound, e2]
  split
  · exact ⟨h1, h2⟩
  · exact e3 p

theorem noFut_set {ex : Extras} (h : NoFut ex) (i : Nat) {sa : StateEx}
    (h1 : sa.lastlist = ex.listid) : NoFut { ex with stateex := ex.stateex.set i sa } := by
  intro p
  show ((ex.stateex.set i sa).getD p StateEx.init).lastlist ≤ ex.listid
  rw [getD_set_of_bound]
  split
  · omega
  · exact h p

theorem visOK_set {ex : Extras} (h : VisOK ex) (i : Nat) {sa : StateEx}
    (h1 : 1 ≤ sa.visits) : VisOK { ex with stateex := ex.stateex.set i sa } := by
  intro p
  show ((ex.stateex.set i sa).getD p StateEx.init).lastlist = ex.listid →
    1 ≤ ((ex.stateex.set i sa).getD p StateEx.init).visits
  rw [getD_set_of_bound]
  split
  · exact fun _ => h1
  · exact h p

/-- Under leftmost-biased matching a visit to a state that is stamped and has
been visited returns at once, whatever the repetition policy. -/
theorem enter_biased_revisit (rt : RepType) (g : Nat) (ss : StateEx) (l : ThreadList)
    (m : Subs) (h : ss.lastlist = g) (hv : 1 ≤ ss.visits) :
    ∃ ss1, addstate_enter MatchType.LeftmostBiased rt g ss l m = (ss1, l, false) ∧
      ss1.lastlist = g ∧ ss1.lastthread = ss.lastthread ∧ 1 ≤ ss1.visits := by
  obtain ⟨ss1, go, h1, h2, h3, h4, h5⟩ := enter_revisit MatchType.LeftmostBiased rt g ss l m h hv
  cases go with
  | false => exact ⟨ss1, h1, h2, h3, by omega⟩
  | true =>
    have := (h5 rfl).2.2
    cases this

/-- Under leftmost-biased matching `addstate` does the same with the minimal
and with the Perl-like policy, up to the visit counters. -/
theorem add_policy (impl : REImpl) (icur : Iter) :
    ∀ (fuel : Nat) (ex ex1 : Extras) (l : ThreadList) (s : Nat) (m : Subs),
      ExSame ex ex1 → NoFut ex → NoFut ex1 → VisOK ex → VisOK ex1 →
      SameAdd (addstate impl MatchType.LeftmostBiased RepType.RepeatMinimal fuel ex l s m icur)
        (addstate impl MatchType.LeftmostBiased RepType.RepeatLikePerl fuel ex1 l s m icur) := by
  intro fuel
  induction fuel with
  | zero =>
    intro ex ex1 l s m _ _ _ _ _
    simp [addstate, SameAdd]
  | succ fuel ih =>
    intro ex ex1 l s m hE hN hN1 hV hV1
    unfold addstate
    by_cases hs : s = 0
    · rw [if_pos hs, if_pos hs]
      exact ⟨hE, hN, hN1, hV, hV1, rfl, rfl⟩
    · rw [if_neg hs, if_neg hs]
      cases hd : impl.deref s with
      | none => exact trivial
      | some st =>
        simp only
        obtain ⟨e1, e2, e3⟩ := hE
        obtain ⟨q1, q2⟩ := e3 st.id
        by_cases hst : (ex.stateex.getD st.id StateEx.init).lastlist = ex.listid
        · have hst1 : (ex1.stateex.getD st.id StateEx.init).lastlist = ex1.listid := by
            rw [q1, hst, e1]
          obtain ⟨sa, ha, a1, a2, a3⟩ := enter_biased_revisit RepType.RepeatMinimal ex.listid
            _ l m hst (hV st.id hst)
          obtain ⟨sb, hb, b1, b2, b3⟩ := enter_biased_revisit RepType.RepeatLikePerl ex1.listid
            _ l m hst1 (hV1 st.id hst1)
          rw [ha, hb]
          simp only [Bool.not_false, if_true]
          exact ⟨exSame_set ⟨e1, e2, e3⟩ st.id (by rw [b1, a1, e1]) (by rw [b2, a2, q2]),
            noFut_set hN st.id a1, noFut_set hN1 st.id b1, visOK_set hV st.id a3,
            visOK_set hV1 st.id b3, rfl, rfl⟩
        · have hst1 : (ex1.stateex.getD st.id StateEx.init).lastlist ≠ ex1.listid := by
            rw [q1, e1]
            exact hst
          rw [enter_first _ _ _ _ l m hst, enter_first _ _ _ _ l m hst1]
          simp only [Bool.not_true, Bool.false_eq_true, if_false, if_true]
          have hE2 : ExSame { ex with stateex := ex.stateex.set st.id (StateEx.mk ex.listid 1 l.n) }
              { ex1 with stateex := ex1.stateex.set st.id (StateEx.mk ex1.listid 1 l.n) } :=
            exSame_set ⟨e1, e2, e3⟩ st.id e1 rfl
          have hN2 := @noFut_set _ hN st.id (StateEx.mk ex.listid 1 l.n) rfl
          have hN3 := @noFut_set _ hN1 st.id (StateEx.mk ex1.listid 1 l.n) rfl
          have hV2 := @visOK_set _ hV st.id (StateEx.mk ex.listid 1 l.n) (le_refl 1)
          have hV3 := @visOK_set _ hV1 st.id (StateEx.mk ex1.listid 1 l.n) (le_refl 1)
          cases hop : st.op with
          | Char => exact ⟨hE2, hN2, hN3, hV2, hV3, rfl, rfl⟩
          | Any => exact ⟨hE2, hN2, hN3, hV2, hV3, rfl, rfl⟩
          | Match => exact ⟨hE2, hN2, hN3, hV2, hV3, rfl, rfl⟩
          | Split =>
            simp only
            have h1 := ih _ _ (ThreadList.mk (l.t.set l.n (Thread.mk s (Subs.assign
              (l.t.getD l.n Thread.init).subs m))) (l.n + 1)) st.out m hE2 hN2 hN3 hV2 hV3
            revert h1
            generalize addstate impl MatchType.LeftmostBiased RepType.RepeatMinimal fuel _ _
              st.out m icur = rA
            generalize addstate impl MatchType.LeftmostBiased RepType.RepeatLikePerl fuel _ _
              st.out m icur = rB
            intro h1
            cases rA with
            | none =>
              cases rB with
              | none => exact trivial
              | some b => exact h1.elim
            | some a =>
              obtain ⟨ea, la, ma⟩ := a
              cases rB with
              | none => exact h1.elim
              | some b =>
                obtain ⟨eb, lb, mb⟩ := b
                obtain ⟨x1, x2, x3, x4, x5, x6, x7⟩ := h1
                subst x6 x7
                exact ih _ _ _ _ _ x1 x2 x3 x4 x5
          | LParen =>
            simp only
            have h1 := ih _ _ (ThreadList.mk (l.t.set l.n (Thread.mk s (Subs.assign
              (l.t.getD l.n Thread.init).subs m))) (l.n + 1)) st.out
              (m.set st.data.toNat { m.getD st.data.toNat Sub.init with
                first := icur, matched := SubState.Incomplete }) hE2 hN2 hN3 hV2 hV3
            revert h1
            generalize addstate impl MatchType.LeftmostBiased RepType.RepeatMinimal fuel _ _
              st.out _ icur = rA
            generalize addstate impl MatchType.LeftmostBiased RepType.RepeatLikePerl fuel _ _
              st.out _ icur = rB
            intro h1
            cases rA with
            | none =>
              cases rB with
              | none => exact trivial
              | some b => exact h1.elim
            | some a =>
              obtain ⟨ea, la, ma⟩ := a
              cases rB with
              | none => exact h1.elim
              | some b =>
                obtain ⟨eb, lb, mb⟩ := b
                obtain ⟨x1, x2, x3, x4, x5, x6, x7⟩ := h1
                subst x6 x7
                exact ⟨x1, x2, x3, x4, x5, rfl, rfl⟩
          | RParen =>
            simp only
            have h1 := ih _ _ (ThreadList.mk (l.t.set l.n (Thread.mk s (Subs.assign
              (l.t.getD l.n Thread.init).subs m))) (l.n + 1)) st.out
              (m.set st.data.toNat { m.getD st.data.toNat Sub.init with
                second := icur, matched := SubState.Matched }) hE2 hN2 hN3 hV2 hV3
            revert h1
            generalize addstate impl MatchType.LeftmostBiased RepType.RepeatMinimal fuel _ _
              st.out _ icur = rA
            generalize addstate impl MatchType.LeftmostBiased RepType.RepeatLikePerl fuel _ _
              st.out _ icur = rB
            intro h1
            cases rA with
            | none =>
              cases rB with
              | none => exact trivial
              | some b => exact h1.elim
            | some a =>
              obtain ⟨ea, la, ma⟩ := a
              cases rB with
              | none => exact h1.elim
              | some b =>
                obtain ⟨eb, lb, mb⟩ := b
                obtain ⟨x1, x2, x3, x4, x5, x6, x7⟩ := h1
                subst x6 x7
                exact ⟨x1, x2, x3, x4, x5, rfl, rfl⟩

/-- Under leftmost-biased matching the loop of `step` does the same with the
minimal and with the Perl-like policy, up to the visit counters. -/
theorem loop_policy (impl : REImpl) (fuel c : Nat) (icur : Iter) :
    ∀ (k i : Nat) (sc sc1 : Scratch) (cl nl : ThreadList),
      ScSame sc sc1 → VisOK sc.extras → VisOK sc1.extras →
      SameLoop
        (step_loop impl MatchType.LeftmostBiased RepType.RepeatMinimal fuel c icur k i sc cl nl)
        (step_loop impl MatchType.LeftmostBiased RepType.RepeatLikePerl fuel c icur k i sc1 cl nl) := by
  intro k
  induction k with
  | zero =>
    intro i sc sc1 cl nl hS hV hV1
    exact ⟨hS, hV, hV1, rfl, rfl, rfl⟩
  | succ k ih =>
    intro i sc sc1 cl nl hS hV hV1
    obtain ⟨s1, s2, s3, s4, s5⟩ := hS
    unfold step_loop
    simp only [reduceCtorEq, decide_False, Bool.false_and, Bool.false_eq_true, if_false]
    cases hd : impl.deref (cl.t.getD i Thread.init).state with
    | none => exact trivial
    | some st =>
      simp only
      have hadd := add_policy impl icur fuel sc.extras sc1.extras nl st.out
        (cl.t.getD i Thread.init).subs s3 s4 s5 hV hV1
      have hfire : SameLoop
          (match addstate impl MatchType.LeftmostBiased RepType.RepeatMinimal fuel sc.extras nl
              st.out (cl.t.getD i Thread.init).subs icur with
            | none => none
            | some (ex1, nlist1, m1) =>
              step_loop impl MatchType.LeftmostBiased RepType.RepeatMinimal fuel c icur k (i + 1)
                { sc with extras := ex1 }
                { cl with t := cl.t.set i { cl.t.getD i Thread.init with subs := m1 } } nlist1)
          (match addstate impl MatchType.LeftmostBiased RepType.RepeatLikePerl fuel sc1.extras nl
              st.out (cl.t.getD i Thread.init).subs icur with
            | none => none
            | some (ex1, nlist1, m1) =>
              step_loop impl MatchType.LeftmostBiased RepType.RepeatLikePerl fuel c icur k (i + 1)
                { sc1 with extras := ex1 }
                { cl with t := cl.t.set i { cl.t.getD i Thread.init with subs := m1 } } nlist1) := by
        revert hadd
        generalize addstate impl MatchType.LeftmostBiased RepType.RepeatMinimal fuel sc.extras nl
          st.out (cl.t.getD i Thread.init).subs icur = rA
        generalize addstate impl MatchType.LeftmostBiased RepType.RepeatLikePerl fuel sc1.extras
          nl st.out (cl.t.getD i Thread.init).subs icur = rB
        intro hadd
        cases rA with
        | none =>
          cases rB with
          | none => exact trivial
          | some b => exact hadd.elim
        | some a =>
          obtain ⟨ea, la, ma⟩ := a
          cases rB with
          | none => exact hadd.elim
          | some b =>
            obtain ⟨eb, lb, mb⟩ := b
            obtain ⟨x1, x2, x3, x4, x5, x6, x7⟩ := hadd
            subst x6 x7
            exact ih (i + 1) _ _ _ _ ⟨s1, s2, x1, x2, x3⟩ x4 x5
      cases hop : st.op with
      | Char =>
        simp only
        by_cases hc : (c : Int) = st.data
        · rw [if_pos hc, if_pos hc]
          exact hfire
        · rw [if_neg hc, if_neg hc]
          exact ih (i + 1) sc sc1 cl nl ⟨s1, s2, s3, s4, s5⟩ hV hV1
      | Any => exact hfire
      | Match =>
        simp only
        refine ⟨⟨?_, s2, s3, s4, s5⟩, hV, hV1, rfl, rfl, rfl⟩
        show Subs.assign sc1.subs _ = Subs.assign sc.subs _
        rw [s1]
      | Split => exact ih (i + 1) sc sc1 cl nl ⟨s1, s2, s3, s4, s5⟩ hV hV1
      | LParen => exact ih (i + 1) sc sc1 cl nl ⟨s1, s2, s3, s4, s5⟩ hV hV1
      | RParen => exact ih (i + 1) sc sc1 cl nl ⟨s1, s2, s3, s4, s5⟩ hV hV1

/-- Under leftmost-biased matching `step` does the same with the minimal and
with the Perl-like policy, up to the visit counters. -/
theorem step_policy (impl : REImpl) (fuel c : Nat) (icur : Iter) (sc sc1 : Scratch)
    (cl nl : ThreadList) (hS : ScSame sc sc1) :
    SameStep (step impl MatchType.LeftmostBiased RepType.RepeatMinimal fuel sc cl c icur nl)
      (step impl MatchType.LeftmostBiased RepType.RepeatLikePerl fuel sc1 cl c icur nl) := by
  obtain ⟨s1, s2, s3, s4, s5⟩ := hS
  obtain ⟨e1, e2, e3⟩ := s3
  unfold step
  simp only
  have hS0 : ScSame { sc with extras := { sc.extras with listid := sc.extras.listid + 1 } }
      { sc1 with extras := { sc1.extras with listid := sc1.extras.listid + 1 } } := by
    refine ⟨s1, s2, ⟨?_, e2, e3⟩, ?_, ?_⟩
    · show sc1.extras.listid + 1 = sc.extras.listid + 1
      rw [e1]
    · intro p
      exact Nat.le_succ_of_le (s4 p)
    · intro p
      exact Nat.le_succ_of_le (s5 p)
  have hV0 : VisOK { sc.extras with listid := sc.extras.listid + 1 } := by
    intro p hp
    have := s4 p
    have hp1 : (sc.extras.stateex.getD p StateEx.init).lastlist = sc.extras.listid + 1 := hp
    omega
  have hV1 : VisOK { sc1.extras with listid := sc1.extras.listid + 1 } := by
    intro p hp
    have := s5 p
    have hp1 : (sc1.extras.stateex.getD p StateEx.init).lastlist = sc1.extras.listid + 1 := hp
    omega
  have hloop := loop_policy impl fuel c icur cl.n 0 _ _ cl { nl with n := 0 } hS0 hV0 hV1
  revert hloop
  generalize step_loop impl MatchType.LeftmostBiased RepType.RepeatMinimal fuel c icur cl.n 0
    _ cl _ = rA
  generalize step_loop impl MatchType.LeftmostBiased RepType.RepeatLikePerl fuel c icur cl.n 0
    _ cl _ = rB
  intro hloop
  cases rA with
  | none =>
    cases rB with
    | none => exact trivial
    | some b => exact hloop.elim
  | some a =>
    obtain ⟨sa, ca, na, ra⟩ := a
    cases rB with
    | none => exact hloop.elim
    | some b =>
      obtain ⟨sb, cb, nb, rb⟩ := b
      obtain ⟨x1, x2, x3, x4, x5, x6⟩ := hloop
      subst x4 x5 x6
      obtain ⟨y1, y2, y3, y4, y5⟩ := x1
      cases rb with
      | true => exact ⟨⟨y1, y2, y3, y4, y5⟩, rfl, rfl⟩
      | false =>
        simp only
        rw [y1]
        by_cases hu : (sa.subs.getD 0 Sub.init).matched = SubState.Unmatched
        · rw [if_pos hu, if_pos hu, y2]
          have hadd := add_policy impl icur fuel sa.extras sb.extras nb impl.start sa.dummy
            y3 y4 y5 x2 x3
          revert hadd
          generalize addstate impl MatchType.LeftmostBiased RepType.RepeatMinimal fuel sa.extras
            nb impl.start sa.dummy icur = qA
          generalize addstate impl MatchType.LeftmostBiased RepType.RepeatLikePerl fuel sb.extras
            nb impl.start sa.dummy icur = qB
          intro hadd
          cases qA with
          | none =>
            cases qB with
            | none => exact trivial
            | some b => exact hadd.elim
          | some a =>
            obtain ⟨ea, la, ma⟩ := a
            cases qB with
            | none => exact hadd.elim
            | some b =>
              obtain ⟨eb, lb, mb⟩ := b
              obtain ⟨z1, z2, z3, z4, z5, z6, z7⟩ := hadd
              subst z6 z7
              exact ⟨⟨rfl, rfl, z1, z2, z3⟩, rfl, rfl⟩
        · rw [if_neg hu, if_neg hu]
          exact ⟨⟨y1, y2, y3, y4, y5⟩, rfl, rfl⟩

/-- Under leftmost-biased matching the loop of `match` does the same with the
minimal and with the Perl-like policy, up to the visit counters. -/
theorem match_policy (impl : REImpl) (fuel : Nat) :
    ∀ (rest : List Nat) (pos : Nat) (sc sc1 : Scratch) (cl nl : ThreadList), ScSame sc sc1 →
      SameMatch (match_loop impl MatchType.LeftmostBiased RepType.RepeatMinimal fuel rest pos sc cl nl)
        (match_loop impl MatchType.LeftmostBiased RepType.RepeatLikePerl fuel rest pos sc1 cl nl) := by
  intro rest
  induction rest with
  | nil =>
    intro pos sc sc1 cl nl hS
    exact ⟨rfl, hS, rfl, rfl⟩
  | cons b rest ih =>
    intro pos sc sc1 cl nl hS
    unfold match_loop
    by_cases hn : cl.n > 0
    · rw [if_pos hn, if_pos hn]
      have hstep := step_policy impl fuel (b % 256) (some (pos + 1)) sc sc1 cl nl hS
      revert hstep
      generalize step impl MatchType.LeftmostBiased RepType.RepeatMinimal fuel sc cl (b % 256)
        (some (pos + 1)) nl = rA
      generalize step impl MatchType.LeftmostBiased RepType.RepeatLikePerl fuel sc1 cl (b % 256)
        (some (pos + 1)) nl = rB
      intro hstep
      cases rA with
      | none =>
        cases rB with
        | none => exact trivial
        | some b => exact hstep.elim
      | some a =>
        obtain ⟨sa, ca, na⟩ := a
        cases rB with
        | none => exact hstep.elim
        | some b =>
          obtain ⟨sb, cb, nb⟩ := b
          obtain ⟨x1, x2, x3⟩ := hstep
          subst x2 x3
          exact ih (pos + 1) sa sb _ _ x1
    · rw [if_neg hn, if_neg hn]
      exact ⟨rfl, hS, rfl, rfl⟩

/-- The scratch data of a freshly constructed matcher have no stamp of a later generation. -/
theorem noFut_init (n : Nat) : NoFut (Extras.init n) := by
  intro p
  show ((List.replicate (n + 1) StateEx.init).getD p StateEx.init).lastlist ≤ 0
  have : (List.replicate (n + 1) StateEx.init).getD p StateEx.init = StateEx.init := by
    rw [List.getD_eq_getElem?_getD, List.getElem?_replicate]
    split <;> rfl
  rw [this]
  exact Nat.le_refl 0

/-- Under leftmost-biased matching a whole run of `match` does the same with the
minimal and with the Perl-like policy: the same submatch arrays and the same
two lists. -/
theorem rerun_policy (impl : REImpl) (mt : Matcher) (input : List Nat) (h : NoFut mt.extras) :
    (Matcher.rerun impl MatchType.LeftmostBiased RepType.RepeatLikePerl mt input).map
        (fun r => (r.subs, r.dummy, r.l1, r.l2))
      = (Matcher.rerun impl MatchType.LeftmostBiased RepType.RepeatMinimal mt input).map
        (fun r => (r.subs, r.dummy, r.l1, r.l2)) ∧
    (Matcher.run impl MatchType.LeftmostBiased RepType.RepeatLikePerl mt input).map
        (fun sc => sc.subs)
      = (Matcher.run impl MatchType.LeftmostBiased RepType.RepeatMinimal mt input).map
        (fun sc => sc.subs) := by
  unfold Matcher.rerun Matcher.run startlist
  simp only
  have hS0 : ScSame ⟨Subs.assign mt.subs Subs.init, mt.dummy, mt.extras⟩
      ⟨Subs.assign mt.subs Subs.init, mt.dummy, mt.extras⟩ :=
    ⟨rfl, rfl, exSame_refl _, h, h⟩
  have h0 := step_policy impl (addstateFuel impl) 0 (some 0) _ _ (ThreadList.init 0) mt.l1 hS0
  revert h0
  generalize step impl MatchType.LeftmostBiased RepType.RepeatMinimal (addstateFuel impl)
    _ (ThreadList.init 0) 0 (some 0) mt.l1 = rA
  generalize step impl MatchType.LeftmostBiased RepType.RepeatLikePerl (addstateFuel impl)
    _ (ThreadList.init 0) 0 (some 0) mt.l1 = rB
  intro h0
  cases rA with
  | none =>
    cases rB with
    | none => exact ⟨rfl, rfl⟩
    | some b => exact h0.elim
  | some a =>
    obtain ⟨sa, ca, na⟩ := a
    cases rB with
    | none => exact h0.elim
    | some b =>
      obtain ⟨sb, cb, nb⟩ := b
      obtain ⟨x1, x2, x3⟩ := h0
      subst x2 x3
      simp only
      have h1 := match_policy impl (addstateFuel impl) input 0 sa sb nb mt.l2 x1
      revert h1
      generalize match_loop impl MatchType.LeftmostBiased RepType.RepeatMinimal
        (addstateFuel impl) input 0 sa nb mt.l2 = qA
      generalize match_loop impl MatchType.LeftmostBiased RepType.RepeatLikePerl
        (addstateFuel impl) input 0 sb nb mt.l2 = qB
      intro h1
      cases qA with
      | none =>
        cases qB with
        | none => exact ⟨rfl, rfl⟩
        | some b => exact h1.elim
      | some a =>
        obtain ⟨pa, sa1, ca1, na1⟩ := a
        cases qB with
        | none => exact h1.elim
        | some b =>
          obtain ⟨pb, sb1, cb1, nb1⟩ := b
          obtain ⟨y0, y1, y2, y3⟩ := h1
          subst y0 y2 y3
          simp only
          have h2 := step_policy impl (addstateFuel impl) 0 (some pb) sa1 sb1 cb1 nb1 y1
          revert h2
          generalize step impl MatchType.LeftmostBiased RepType.RepeatMinimal
            (addstateFuel impl) sa1 cb1 0 (some pb) nb1 = tA
          generalize step impl MatchType.LeftmostBiased RepType.RepeatLikePerl
            (addstateFuel impl) sb1 cb1 0 (some pb) nb1 = tB
          intro h2
          cases tA with
          | none =>
            cases tB with
            | none => exact ⟨rfl, rfl⟩
            | some b => exact h2.elim
          | some a =>
            obtain ⟨sa2, ca2, na2⟩ := a
            cases tB with
            | none => exact h2.elim
            | some b =>
              obtain ⟨sb2, cb2, nb2⟩ := b
              obtain ⟨⟨z1, z2, _⟩, z4, z5⟩ := h2
              subst z4 z5
              simp only [Option.map_some']
              refine ⟨?_, by rw [z1]⟩
              by_cases hp : pb % 2 = 0
              · rw [if_pos hp, if_pos hp]
                simp only [Option.map_some']
                rw [z1, z2]
              · rw [if_neg hp, if_neg hp]
                simp only [Option.map_some']
                rw [z1, z2]

theorem capOpens_cons_other (c : Nat) (t : List Nat) (h : c ≠ 40) :
    capOpens (c :: t) = (capOpens t).map (fun o => o + 1) := by
  simp [capOpens, h]

theorem capOpens_open (c : Nat) (t : List Nat) (h : c ≠ 63) :
    capOpens (40 :: c :: t) = 0 :: (capOpens (c :: t)).map (fun o => o + 1) := by
  have : List.take 2 (c :: t) ≠ [63, 58] := by
    intro e
    simp only [List.take_succ_cons, List.cons.injEq] at e
    exact h e.1
  rw [capOpens.eq_2, if_pos ⟨rfl, this⟩]
  rfl

theorem map_add_zero (l : List Nat) : l.map (fun o => o + 0) = l := by
  simp

theorem map_add_add (l : List Nat) (a b : Nat) :
    (l.map (fun o => o + a)).map (fun o => o + b) = l.map (fun o => o + (a + b)) := by
  simp [List.map_map, Function.comp, Nat.add_assoc]

theorem sealed_nil : Sealed [] := by
  intro x
  simp [capOpens]

theorem sealed_single (c : Nat) (h : c ≠ 40) : Sealed [c] := by
  intro x
  simp [capOpens, h]

theorem sealed_nocapture : Sealed [40, 63, 58] := by
  intro x
  simp [capOpens, List.map_map, Function.comp]

theorem sealed_append {u v : List Nat} (hu : Sealed u) (hv : Sealed v) : Sealed (u ++ v) := by
  intro x
  rw [List.append_assoc, hu (v ++ x), hv x, hu v, List.map_append, map_add_add,
    List.append_assoc, List.length_append, Nat.add_comm v.length]

theorem sealed_capture {c : Nat} {t : List Nat} (hc : c ≠ 63) (h : Sealed (c :: t)) :
    Sealed (40 :: (c :: t ++ [41])) := by
  have h1 : Sealed (c :: t ++ [41]) := sealed_append h (sealed_single 41 (by decide))
  intro x
  have e1 : (40 :: (c :: t ++ [41])) ++ x = 40 :: c :: (t ++ [41] ++ x) := by simp
  have e2 : 40 :: (c :: t ++ [41]) = 40 :: c :: (t ++ [41]) := by simp
  rw [e1, e2, capOpens_open c _ hc, capOpens_open c _ hc]
  have e3 : c :: (t ++ [41] ++ x) = (c :: t ++ [41]) ++ x := by simp
  rw [e3, h1 x]
  simp [List.map_map, Function.comp, Nat.add_assoc, Nat.add_comm]

theorem parses_sealed {nt : NT} {w : List Nat} {r : Re} (h : Parses nt w r) : Sealed w := by
  induction h with
  | atom_nocapture w r _ ih =>
    have := sealed_append sealed_nocapture (sealed_append ih (sealed_single 41 (by decide)))
    simpa using this
  | atom_capture w r hp ih =>
    obtain ⟨c, t, rfl, _, _, _, _, hq⟩ := parses_head hp
    exact sealed_capture hq ih
  | atom_any => exact sealed_single 46 (by decide)
  | atom_char c hc =>
    apply sealed_single
    intro e
    subst e
    exact hc (by decide)
  | rep_atom w r _ ih => exact ih
  | rep_star w r _ ih => exact sealed_append ih (sealed_single 42 (by decide))
  | rep_plus w r _ ih => exact sealed_append ih (sealed_single 43 (by decide))
  | rep_opt w r _ ih => exact sealed_append ih (sealed_single 63 (by decide))
  | rep_star_lazy w r _ ih =>
    exact sealed_append ih (sealed_append (sealed_single 42 (by decide)) (sealed_single 63 (by decide)))
  | rep_plus_lazy w r _ ih =>
    exact sealed_append ih (sealed_append (sealed_single 43 (by decide)) (sealed_single 63 (by decide)))
  | rep_opt_lazy w r _ ih =>
    exact sealed_append ih (sealed_append (sealed_single 63 (by decide)) (sealed_single 63 (by decide)))
  | concat_one w r _ ih => exact ih
  | concat_more w1 w2 r1 r2 _ _ ih1 ih2 => exact sealed_append ih1 ih2
  | alt_one w r _ ih => exact ih
  | alt_more w1 w2 r1 r2 _ _ ih1 ih2 =>
    exact sealed_append ih1 (sealed_append (sealed_single 124 (by decide)) ih2)

theorem groupsAt_nil (w : List Nat) (h : capOpens w = []) : GroupsAt w [] := by
  refine ⟨by rw [h]; rfl, ?_⟩
  intro j rb hj
  simp at hj

theorem groupsAt_append {u v : List Nat} {bs1 bs2 : List Re} (hu : Sealed u)
    (h1 : GroupsAt u bs1) (h2 : GroupsAt v bs2) : GroupsAt (u ++ v) (bs1 ++ bs2) := by
  obtain ⟨l1, g1⟩ := h1
  obtain ⟨l2, g2⟩ := h2
  have hc := hu v
  refine ⟨by rw [hc]; simp [l1, l2], ?_⟩
  intro j rb hj
  by_cases hlt : j < bs1.length
  · rw [List.getElem?_append_left hlt] at hj
    obtain ⟨pre, body, post, e1, e2, e3⟩ := g1 j rb hj
    refine ⟨pre, body, post ++ v, ?_, ?_, e3⟩
    · rw [e1]
      simp
    · rw [hc, List.getElem?_append_left (by rw [l1]; exact hlt)]
      exact e2
  · have hge : bs1.length ≤ j := Nat.le_of_not_lt hlt
    rw [List.getElem?_append_right hge] at hj
    obtain ⟨pre, body, post, e1, e2, e3⟩ := g2 _ rb hj
    refine ⟨u ++ pre, body, post, ?_, ?_, e3⟩
    · rw [e1]
      simp
    · rw [hc, List.getElem?_append_right (by rw [l1]; exact hge), l1, List.getElem?_map, e2]
      simp [Nat.add_comm]

theorem groupsAt_capture {w : List Nat} {r : Re} {bs : List Re} (hp : Parses NT.alt w r)
    (h : GroupsAt w bs) : GroupsAt (40 :: (w ++ [41])) (r :: bs) := by
  obtain ⟨l1, g1⟩ := h
  obtain ⟨c, t, hw, _, _, _, _, hq⟩ := parses_head hp
  have hs := parses_sealed hp
  have e0 : capOpens (w ++ [41]) = capOpens w := by
    rw [hs [41]]
    simp [capOpens]
  have hc : capOpens (40 :: (w ++ [41])) = 0 :: (capOpens w).map (fun o => o + 1) := by
    rw [← e0]
    subst hw
    exact capOpens_open c _ hq
  refine ⟨by rw [hc]; simp [l1], ?_⟩
  intro j rb hj
  cases j with
  | zero =>
    simp only [List.getElem?_cons_zero, Option.some.injEq] at hj
    subst hj
    refine ⟨[], w, [], by simp, ?_, hp⟩
    rw [hc]
    simp
  | succ j =>
    simp only [List.getElem?_cons_succ] at hj
    obtain ⟨pre, body, post, e1, e2, e3⟩ := g1 j rb hj
    refine ⟨40 :: pre, body, post ++ [41], ?_, ?_, e3⟩
    · rw [e1]
      simp
    · rw [hc]
      simp only [List.getElem?_cons_succ, List.getElem?_map, e2, Option.map_some',
        List.length_cons]

/-- The capturing `(` of a text of the grammar open the capturing groups of its
tree, in the same order, and the text after each is the text of the body of its group. -/
theorem parses_groups {nt : NT} {w : List Nat} {r : Re} (h : Parses nt w r) :
    GroupsAt w r.caps := by
  have single : ∀ c : Nat, c ≠ 40 → GroupsAt [c] [] := by
    intro c hc
    apply groupsAt_nil
    simp [capOpens, hc]
  have suffix : ∀ {w : List Nat} {bs : List Re} (c : Nat), c ≠ 40 → Sealed w → GroupsAt w bs →
      GroupsAt (w ++ [c]) bs := by
    intro w bs c hc hs hg
    have := groupsAt_append hs hg (single c hc)
    simpa using this
  have suffix2 : ∀ {w : List Nat} {bs : List Re} (c d : Nat), c ≠ 40 → d ≠ 40 → Sealed w →
      GroupsAt w bs → GroupsAt (w ++ [c, d]) bs := by
    intro w bs c d hc hd hs hg
    have := suffix d hd (sealed_append hs (sealed_single c hc)) (suffix c hc hs hg)
    simpa using this
  induction h with
  | atom_nocapture w r hp ih =>
    have h0 : GroupsAt [40, 63, 58] [] := groupsAt_nil _ (by simp [capOpens])
    have := groupsAt_append sealed_nocapture h0 (suffix 41 (by decide) (parses_sealed hp) ih)
    simpa [Re.caps] using this
  | atom_capture w r hp ih =>
    have := groupsAt_capture hp ih
    simpa [Re.caps] using this
  | atom_any => exact single 46 (by decide)
  | atom_char c hc =>
    apply single
    intro e
    subst e
    exact hc (by decide)
  | rep_atom w r _ ih => exact ih
  | rep_star w r hp ih => exact suffix 42 (by decide) (parses_sealed hp) ih
  | rep_plus w r hp ih => exact suffix 43 (by decide) (parses_sealed hp) ih
  | rep_opt w r hp ih => exact suffix 63 (by decide) (parses_sealed hp) ih
  | rep_star_lazy w r hp ih => exact suffix2 42 63 (by decide) (by decide) (parses_sealed hp) ih
  | rep_plus_lazy w r hp ih => exact suffix2 43 63 (by decide) (by decide) (parses_sealed hp) ih
  | rep_opt_lazy w r hp ih => exact suffix2 63 63 (by decide) (by decide) (parses_sealed hp) ih
  | concat_one w r _ ih => exact ih
  | concat_more w1 w2 r1 r2 hp1 _ ih1 ih2 =>
    exact groupsAt_append (parses_sealed hp1) ih1 ih2
  | alt_one w r _ ih => exact ih
  | alt_more w1 w2 r1 r2 hp1 _ ih1 ih2 =>
    have h2 := groupsAt_append (sealed_single 124 (by decide)) (single 124 (by decide)) ih2
    have := groupsAt_append (parses_sealed hp1) ih1 h2
    simpa [Re.caps] using this

theorem wrapped_nil (impl : REImpl) (lo hi c0 : Nat) : Wrapped impl lo hi c0 [] := by
  intro j rb hj
  simp at hj

theorem wrapped_mono {impl : REImpl} {lo hi c0 : Nat} {bs : List Re} {lo1 hi1 : Nat}
    (h : Wrapped impl lo hi c0 bs) (h1 : lo1 ≤ lo) (h2 : hi ≤ hi1) :
    Wrapped impl lo1 hi1 c0 bs := by
  intro j rb hj hk
  obtain ⟨c1, a, b, e1, st1, st2, x1, x2, x3⟩ := h j rb hj hk
  exact ⟨c1, a, b, e1, st1, st2, by omega, by omega, x3⟩

theorem wrapped_append {impl : REImpl} {lo hi c0 c1 : Nat} {bs1 bs2 : List Re}
    (h1 : Wrapped impl lo hi c0 bs1) (hc : c1 = c0 + bs1.length)
    (h2 : Wrapped impl lo hi c1 bs2) : Wrapped impl lo hi c0 (bs1 ++ bs2) := by
  subst hc
  intro j rb hj hk
  by_cases hlt : j < bs1.length
  · rw [List.getElem?_append_left hlt] at hj
    exact h1 j rb hj hk
  · have hge : bs1.length ≤ j := Nat.le_of_not_lt hlt
    rw [List.getElem?_append_right hge] at hj
    have e : c0 + bs1.length + (j - bs1.length) + 1 = c0 + j + 1 := by omega
    have := h2 _ rb hj (by omega)
    rw [e] at this
    exact this

theorem wrapped_cons {impl : REImpl} {lo hi c0 : Nat} {rb : Re} {bs : List Re}
    (h0 : c0 + 1 < NSUB → ∃ c1 lo1 hi1 e1 st1 st2, lo ≤ lo1 ∧ hi1 + 2 ≤ hi ∧
      Built impl rb (c0 + 1) c1 lo1 hi1 e1 (hi1 + 2) ∧
      impl.deref (hi1 + 1) = some st1 ∧ st1.op = Op.LParen ∧
      st1.data = ((c0 + 1 : Nat) : Int) ∧ st1.out = e1 ∧
      impl.deref (hi1 + 2) = some st2 ∧ st2.op = Op.RParen ∧
      st2.data = ((c0 + 1 : Nat) : Int))
    (h : Wrapped impl lo hi (c0 + 1) bs) : Wrapped impl lo hi c0 (rb :: bs) := by
  intro j r hj hk
  cases j with
  | zero =>
    simp only [List.getElem?_cons_zero, Option.some.injEq] at hj
    subst hj
    exact h0 hk
  | succ j =>
    simp only [List.getElem?_cons_succ] at hj
    have e : c0 + 1 + j + 1 = c0 + (j + 1) + 1 := by omega
    have := h j r hj (by omega)
    rw [e] at this
    exact this

/-- The group counter of a fragment goes up by the number of capturing groups
of its pattern, and these groups are numbered in order from the counter on. -/
theorem built_caps {impl : REImpl} {r : Re} {c0 c1 lo hi e t : Nat}
    (h : Built impl r c0 c1 lo hi e t) :
    c1 = c0 + r.caps.length ∧ Wrapped impl lo hi c0 r.caps := by
  induction h with
  | chr c c0 lo t st hd hop hdat hout => exact ⟨rfl, wrapped_nil _ _ _ _⟩
  | any c0 lo t st hd hop hout => exact ⟨rfl, wrapped_nil _ _ _ _⟩
  | cat a b c0 c1 c2 lo mid hi e1 e2 t ha hb ih1 ih2 =>
    have r1 := built_range ha
    have r2 := built_range hb
    refine ⟨by simp only [Re.caps, List.length_append]; omega, ?_⟩
    exact wrapped_append (wrapped_mono ih1.2 (Nat.le_refl _) (by omega)) ih1.1
      (wrapped_mono ih2.2 (by omega) (Nat.le_refl _))
  | alt a b c0 c1 c2 lo mid hi e1 e2 t st ha hb _ _ _ _ ih1 ih2 =>
    have r1 := built_range ha
    have r2 := built_range hb
    refine ⟨by simp only [Re.caps, List.length_append]; omega, ?_⟩
    exact wrapped_append (wrapped_mono ih1.2 (Nat.le_refl _) (by omega)) ih1.1
      (wrapped_mono ih2.2 (by omega) (by omega))
  | star g a c0 c1 lo hi e t st _ _ _ _ _ ih =>
    exact ⟨ih.1, wrapped_mono ih.2 (Nat.le_refl _) (by omega)⟩
  | plus g a c0 c1 lo hi e t st _ _ _ _ _ ih =>
    exact ⟨ih.1, wrapped_mono ih.2 (Nat.le_refl _) (by omega)⟩
  | opt g a c0 c1 lo hi e t st _ _ _ _ _ ih =>
    exact ⟨ih.1, wrapped_mono ih.2 (Nat.le_refl _) (by omega)⟩
  | group_plain a c0 c1 lo hi e t _ ih => exact ih
  | group_capture a c0 c1 lo hi e t st1 st2 hlt ha hd1 ho1 hda1 hou1 hd2 ho2 hda2 hou2 ih =>
    refine ⟨by simp only [Re.caps, if_true, List.length_cons]; omega, ?_⟩
    show Wrapped impl lo (hi + 2) c0 (a :: a.caps)
    refine wrapped_cons ?_ (wrapped_mono ih.2 (Nat.le_refl _) (by omega))
    intro _
    exact ⟨c1, lo, hi, e, st1, st2, Nat.le_refl _, Nat.le_refl _, ha, hd1, ho1, hda1, hou1,
      hd2, ho2, hda2⟩
  | group_dropped a c0 c1 lo hi e t hge ha ih =>
    refine ⟨by simp only [Re.caps, if_true, List.length_cons]; omega, ?_⟩
    show Wrapped impl lo hi c0 (a :: a.caps)
    refine wrapped_cons ?_ ih.2
    intro hk
    omega

/-- The parentheses of a fragment carry the numbers the group counter went through. -/
theorem built_paren_data {impl : REImpl} {r : Re} {c0 c1 lo hi e t : Nat}
    (h : Built impl r c0 c1 lo hi e t) :
    c0 ≤ c1 ∧ ∀ p st, lo < p → p ≤ hi → impl.deref p = some st →
      (st.op = Op.LParen ∨ st.op = Op.RParen) →
      ((c0 : Nat) : Int) < st.data ∧ st.data ≤ ((c1 : Nat) : Int) := by
  induction h with
  | chr c c0 lo t st hd hop hdat hout =>
    refine ⟨Nat.le_refl _, ?_⟩
    intro p s h1 h2 hs hp
    have : p = lo + 1 := by omega
    subst this
    rw [hd] at hs
    cases hs
    rw [hop] at hp
    simp at hp
  | any c0 lo t st hd hop hout =>
    refine ⟨Nat.le_refl _, ?_⟩
    intro p s h1 h2 hs hp
    have : p = lo + 1 := by omega
    subst this
    rw [hd] at hs
    cases hs
    rw [hop] at hp
    simp at hp
  | cat a b c0 c1 c2 lo mid hi e1 e2 t ha hb ih1 ih2 =>
    refine ⟨by omega, ?_⟩
    intro p s h1 h2 hs hp
    by_cases hm : p ≤ mid
    · have := ih1.2 p s h1 hm hs hp
      have := ih2.1
      omega
    · have := ih2.2 p s (by omega) h2 hs hp
      have := ih1.1
      omega
  | alt a b c0 c1 c2 lo mid hi e1 e2 t st ha hb hd hop _ _ ih1 ih2 =>
    refine ⟨by omega, ?_⟩
    intro p s h1 h2 hs hp
    by_cases hm : p ≤ mid
    · have := ih1.2 p s h1 hm hs hp
      have := ih2.1
      omega
    · by_cases hh : p ≤ hi
      · have := ih2.2 p s (by omega) hh hs hp
        have := ih1.1
        omega
      · have : p = hi + 1 := by omega
        subst this
        rw [hd] at hs
        cases hs
        rw [hop] at hp
        simp at hp
  | star g a c0 c1 lo hi e t st _ hd hop _ _ ih =>
    refine ⟨ih.1, ?_⟩
    intro p s h1 h2 hs hp
    by_cases hh : p ≤ hi
    · exact ih.2 p s h1 hh hs hp
    · have : p = hi + 1 := by omega
      subst this
      rw [hd] at hs
      cases hs
      rw [hop] at hp
      simp at hp
  | plus g a c0 c1 lo hi e t st _ hd hop _ _ ih =>
    refine ⟨ih.1, ?_⟩
    intro p s h1 h2 hs hp
    by_cases hh : p ≤ hi
    · exact ih.2 p s h1 hh hs hp
    · have : p = hi + 1 := by omega
      subst this
      rw [hd] at hs
      cases hs
      rw [hop] at hp
      simp at hp
  | opt g a c0 c1 lo hi e t st _ hd hop _ _ ih =>
    refine ⟨ih.1, ?_⟩
    intro p s h1 h2 hs hp
    by_cases hh : p ≤ hi
    · exact ih.2 p s h1 hh hs hp
    · have : p = hi + 1 := by omega
      subst this
      rw [hd] at hs
      cases hs
      rw [hop] at hp
      simp at hp
  | group_plain a c0 c1 lo hi e t _ ih => exact ih
  | group_capture a c0 c1 lo hi e t st1 st2 hlt ha hd1 ho1 hda1 hou1 hd2 ho2 hda2 hou2 ih =>
    refine ⟨by omega, ?_⟩
    intro p s h1 h2 hs hp
    have := ih.1
    by_cases hh : p ≤ hi
    · have := ih.2 p s h1 hh hs hp
      push_cast at this ⊢
      omega
    · by_cases h3 : p = hi + 1
      · subst h3
        rw [hd1] at hs
        cases hs
        rw [hda1]
        push_cast
        omega
      · have : p = hi + 2 := by omega
        subst this
        rw [hd2] at hs
        cases hs
        rw [hda2]
        push_cast
        omega
  | group_dropped a c0 c1 lo hi e t hge ha ih =>
    refine ⟨by omega, ?_⟩
    intro p s h1 h2 hs hp
    have := ih.2 p s h1 h2 hs hp
    push_cast at this ⊢
    omega

/-- No two LParen states of a fragment carry the same number, and no two RParen states. -/
theorem built_unique {impl : REImpl} {r : Re} {c0 c1 lo hi e t : Nat}
    (h : Built impl r c0 c1 lo hi e t) :
    ∀ p q sp sq, lo < p → p < q → q ≤ hi → impl.deref p = some sp → impl.deref q = some sq →
      (sp.op = Op.LParen ∨ sp.op = Op.RParen) → sp.op = sq.op → sp.data ≠ sq.data := by
  induction h with
  | chr c c0 lo t st hd hop hdat hout =>
    intro p q sp sq h1 h2 h3
    omega
  | any c0 lo t st hd hop hout =>
    intro p q sp sq h1 h2 h3
    omega
  | cat a b c0 c1 c2 lo mid hi e1 e2 t ha hb ih1 ih2 =>
    intro p q sp sq h1 h2 h3 hp hq hpar hop
    by_cases hm : q ≤ mid
    · exact ih1 p q sp sq h1 h2 hm hp hq hpar hop
    · by_cases hm1 : mid < p
      · exact ih2 p q sp sq hm1 h2 h3 hp hq hpar hop
      · have d1 := (built_paren_data ha).2 p sp h1 (by omega) hp hpar
        have d2 := (built_paren_data hb).2 q sq (by omega) h3 hq (by rw [← hop]; exact hpar)
        omega
  | alt a b c0 c1 c2 lo mid hi e1 e2 t st ha hb hd hsp _ _ ih1 ih2 =>
    intro p q sp sq h1 h2 h3 hp hq hpar hop
    by_cases hh : q ≤ hi
    · by_cases hm : q ≤ mid
      · exact ih1 p q sp sq h1 h2 hm hp hq hpar hop
      · by_cases hm1 : mid < p
        · exact ih2 p q sp sq hm1 h2 hh hp hq hpar hop
        · have d1 := (built_paren_data ha).2 p sp h1 (by omega) hp hpar
          have d2 := (built_paren_data hb).2 q sq (by omega) hh hq (by rw [← hop]; exact hpar)
          omega
    · have : q = hi + 1 := by omega
      subst this
      rw [hd] at hq
      cases hq
      rw [hop, hsp] at hpar
      simp at hpar
  | star g a c0 c1 lo hi e t st _ hd hsp _ _ ih =>
    intro p q sp sq h1 h2 h3 hp hq hpar hop
    by_cases hh : q ≤ hi
    · exact ih p q sp sq h1 h2 hh hp hq hpar hop
    · have : q = hi + 1 := by omega
      subst this
      rw [hd] at hq
      cases hq
      rw [hop, hsp] at hpar
      simp at hpar
  | plus g a c0 c1 lo hi e t st _ hd hsp _ _ ih =>
    intro p q sp sq h1 h2 h3 hp hq hpar hop
    by_cases hh : q ≤ hi
    · exact ih p q sp sq h1 h2 hh hp hq hpar hop
    · have : q = hi + 1 := by omega
      subst this
      rw [hd] at hq
      cases hq
      rw [hop, hsp] at hpar
      simp at hpar
  | opt g a c0 c1 lo hi e t st _ hd hsp _ _ ih =>
    intro p q sp sq h1 h2 h3 hp hq hpar hop
    by_cases hh : q ≤ hi
    · exact ih p q sp sq h1 h2 hh hp hq hpar hop
    · have : q = hi + 1 := by omega
      subst this
      rw [hd] at hq
      cases hq
      rw [hop, hsp] at hpar
      simp at hpar
  | group_plain a c0 c1 lo hi e t _ ih => exact ih
  | group_capture a c0 c1 lo hi e t st1 st2 hlt ha hd1 ho1 hda1 hou1 hd2 ho2 hda2 hou2 ih =>
    intro p q sp sq h1 h2 h3 hp hq hpar hop
    by_cases hh : q ≤ hi
    · exact ih p q sp sq h1 h2 hh hp hq hpar hop
    · by_cases hph : p ≤ hi
      · have d1 := (built_paren_data ha).2 p sp h1 hph hp hpar
        have d2 : sq.data = ((c0 + 1 : Nat) : Int) := by
          by_cases h4 : q = hi + 1
          · subst h4
            rw [hd1] at hq
            cases hq
            exact hda1
          · have : q = hi + 2 := by omega
            subst this
            rw [hd2] at hq
            cases hq
            exact hda2
        rw [d2]
        omega
      · have e1 : p = hi + 1 := by omega
        have e2 : q = hi + 2 := by omega
        subst e1 e2
        rw [hd1] at hp
        rw [hd2] at hq
        cases hp
        cases hq
        rw [ho1, ho2] at hop
        cases hop
  | group_dropped a c0 c1 lo hi e t hge ha ih => exact ih

theorem state_nparen (impl : REImpl) (op : Op) (d : Int) (a b : Nat) :
    (impl.state op d a b).1.nparen = impl.nparen := rfl

theorem patch_nparen (impl : REImpl) (l : Ptrlist) (t : Nat) :
    (patch impl l t).nparen = impl.nparen := rfl

theorem paren_nparen (impl : REImpl) (f : Frag) (n : Nat) :
    (paren impl f n).1.nparen = impl.nparen := by
  unfold paren
  split <;> rfl

/-- The group counter after the semantic actions of a pattern: one more for
every capturing group. -/
theorem build_nparen : ∀ (r : Re) (impl : REImpl),
    (build r impl).1.nparen = impl.nparen + r.caps.length := by
  intro r
  induction r with
  | chr c => intro impl; rfl
  | any => intro impl; rfl
  | cat a b iha ihb =>
    intro impl
    show (patch (build b (build a impl).1).1 _ _).nparen = _
    rw [patch_nparen, ihb, iha]
    simp only [Re.caps, List.length_append]
    omega
  | alt a b iha ihb =>
    intro impl
    show ((build b (build a impl).1).1.state _ _ _ _).1.nparen = _
    rw [state_nparen, ihb, iha]
    simp only [Re.caps, List.length_append]
    omega
  | star g a iha =>
    intro impl
    have := iha impl
    cases g <;> exact this
  | plus g a iha =>
    intro impl
    have := iha impl
    cases g <;> exact this
  | opt g a iha =>
    intro impl
    have := iha impl
    cases g <;> exact this
  | group c a iha =>
    intro impl
    cases c with
    | false => exact iha impl
    | true =>
      show (paren (build a (next_paren impl).1).1 (build a (next_paren impl).1).2
        (next_paren impl).2).1.nparen = _
      rw [paren_nparen, iha]
      show impl.nparen + 1 + _ = impl.nparen + (a :: a.caps).length
      simp only [List.length_cons]
      omega

theorem do_regex_nparen (impl : REImpl) (f : Frag) : (do_regex impl f).nparen = impl.nparen :=
  rfl

/-- The groups of a compiled automaton: the group counter is the number of
capturing groups of the pattern, and the group `j` (counted from 0) with a
number `j + 1` below `NSUB` has the only LParen state with the data `j + 1`,
followed by the only RParen state with this data; the paths from where the
LParen state leads to the first arrival at the RParen state read the words the
automaton of the body of the group reads. -/
theorem compiled_groups (r : Re) :
    (do_regex (build r REImpl.init).1 (build r REImpl.init).2).nparen = r.caps.length ∧
    ∀ (j : Nat) (rb : Re), r.caps[j]? = some rb → j + 1 < NSUB →
      ∃ lp e st1 st2,
        (do_regex (build r REImpl.init).1 (build r REImpl.init).2).deref lp = some st1 ∧
        st1.op = Op.LParen ∧ st1.data = ((j + 1 : Nat) : Int) ∧ st1.out = e ∧
        (do_regex (build r REImpl.init).1 (build r REImpl.init).2).deref (lp + 1) = some st2 ∧
        st2.op = Op.RParen ∧ st2.data = ((j + 1 : Nat) : Int) ∧
        (∀ w, PathTo (do_regex (build r REImpl.init).1 (build r REImpl.init).2) (lp + 1) e w ↔
          AutLang rb w) ∧
        (∀ p st, (do_regex (build r REImpl.init).1 (build r REImpl.init).2).deref p = some st →
          st.data = ((j + 1 : Nat) : Int) →
          (st.op = Op.LParen → p = lp) ∧ (st.op = Op.RParen → p = lp + 1)) := by
  refine ⟨by rw [do_regex_nparen, build_nparen]; simp [REImpl.init], ?_⟩
  obtain ⟨hi, e, c1, h1, hlen, hstart, hB, hL, hR, hM, hid⟩ := compiled_layout r
  generalize do_regex (build r REImpl.init).1 (build r REImpl.init).2 = impl at *
  intro j rb hj hk
  obtain ⟨c2, lo1, hi1, e1, st1, st2, x1, x2, hb, d1, o1, da1, ou1, d2, o2, da2⟩ :=
    (built_caps hB).2 j rb hj (by omega)
  rw [Nat.zero_add] at hb da1 da2
  refine ⟨hi1 + 1, e1, st1, st2, d1, o1, da1, ou1, d2, o2, da2, ?_, ?_⟩
  · exact built_autLang hb (Or.inr (by omega))
  · intro p st hp hd
    have hr := deref_range hp
    rw [hlen] at hr
    have top : hi < p → st.op ≠ Op.LParen ∧ st.op ≠ Op.RParen := by
      intro hgt
      by_cases e1 : p = hi + 1
      · subst e1
        rw [hL] at hp
        cases hp
        simp only at hd
        omega
      · by_cases e2 : p = hi + 2
        · subst e2
          rw [hR] at hp
          cases hp
          simp only at hd
          omega
        · have e3 : p = hi + 3 := by omega
          subst e3
          rw [hM] at hp
          cases hp
          exact ⟨by simp, by simp⟩
    constructor
    · intro hop
      by_cases hph : p ≤ hi
      · rcases Nat.lt_trichotomy p (hi1 + 1) with hlt | heq | hgt
        · exact absurd (hd.trans da1.symm)
            (built_unique hB p (hi1 + 1) st st1 (by omega) hlt (by omega) hp d1 (Or.inl hop)
              (by rw [hop, o1]))
        · exact heq
        · exact absurd (da1.trans hd.symm)
            (built_unique hB (hi1 + 1) p st1 st (by omega) hgt hph d1 hp (Or.inl o1)
              (by rw [hop, o1]))
      · exact absurd hop (top (by omega)).1
    · intro hop
      by_cases hph : p ≤ hi
      · rcases Nat.lt_trichotomy p (hi1 + 2) with hlt | heq | hgt
        · exact absurd (hd.trans da2.symm)
            (built_unique hB p (hi1 + 2) st st2 (by omega) hlt (by omega) hp d2 (Or.inr hop)
              (by rw [hop, o2]))
        · exact heq
        · exact absurd (da2.trans hd.symm)
            (built_unique hB (hi1 + 2) p st2 st (by omega) hgt hph d2 hp (Or.inr o2)
              (by rw [hop, o2]))
      · exact absurd hop (top (by omega)).2

/-- One round of the loop of `step` in the leftmost-biased mode. -/
theorem step_loop_biased (impl : REImpl) (rt : RepType) (fuel c : Nat) (icur : Iter)
    (k i : Nat) (sc : Scratch) (cl nl : ThreadList) :
    step_loop impl MatchType.LeftmostBiased rt fuel c icur (k + 1) i sc cl nl =
      match impl.deref (cl.t.getD i Thread.init).state with
      | none => none
      | some st =>
        match st.op with
        | Op.Char =>
          if (c : Int) = st.data then
            match addstate impl MatchType.LeftmostBiased rt fuel sc.extras nl st.out
                (cl.t.getD i Thread.init).subs icur with
            | none => none
            | some (ex1, nlist1, m1) =>
              step_loop impl MatchType.LeftmostBiased rt fuel c icur k (i + 1)
                { sc with extras := ex1 }
                { cl with t := cl.t.set i { cl.t.getD i Thread.init with subs := m1 } } nlist1
          else step_loop impl MatchType.LeftmostBiased rt fuel c icur k (i + 1) sc cl nl
        | Op.Any =>
          match addstate impl MatchType.LeftmostBiased rt fuel sc.extras nl st.out
              (cl.t.getD i Thread.init).subs icur with
          | none => none
          | some (ex1, nlist1, m1) =>
            step_loop impl MatchType.LeftmostBiased rt fuel c icur k (i + 1)
              { sc with extras := ex1 }
              { cl with t := cl.t.set i { cl.t.getD i Thread.init with subs := m1 } } nlist1
        | Op.Match =>
          some ({ sc with subs := Subs.assign sc.subs (cl.t.getD i Thread.init).subs },
            cl, nl, true)
        | _ => step_loop impl MatchType.LeftmostBiased rt fuel c icur k (i + 1) sc cl nl := by
  rw [step_loop]
  simp only [reduceCtorEq, decide_False, Bool.false_and, Bool.false_eq_true, if_false]

theorem atMatch_set (impl : REImpl) (cl : ThreadList) (i j : Nat) (x : Thread) (h : i ≠ j) :
    AtMatch impl { cl with t := cl.t.set i x } j ↔ AtMatch impl cl j := by
  unfold AtMatch
  show (impl.deref ((cl.t.set i x).getD j Thread.init).state).map _ = _ ↔ _
  rw [getD_set_ne _ _ _ _ _ h]

theorem atMatch_iff (impl : REImpl) (cl : ThreadList) (i : Nat) :
    AtMatch impl cl i ↔
      ∃ st, impl.deref (cl.t.getD i Thread.init).state = some st ∧ st.op = Op.Match := by
  unfold AtMatch
  cases impl.deref (cl.t.getD i Thread.init).state with
  | none => simp
  | some st => simp

/-- In the leftmost-biased mode the loop of `step` over a list whose first
thread at a Match state has index `i0 + d` does what the loop over the `d`
threads before it does, and then records the submatch array of that thread. -/
theorem step_loop_cut (impl : REImpl) (rt : RepType) (fuel c : Nat) (icur : Iter) (rest : Nat) :
    ∀ (d i0 : Nat) (sc : Scratch) (cl nl : ThreadList),
      (∀ j, i0 ≤ j → j < i0 + d → ¬ AtMatch impl cl j) → AtMatch impl cl (i0 + d) →
      step_loop impl MatchType.LeftmostBiased rt fuel c icur (d + rest + 1) i0 sc cl nl =
        (step_loop impl MatchType.LeftmostBiased rt fuel c icur d i0 sc cl nl).map
          (fun r => ({ r.1 with
            subs := Subs.assign sc.subs (cl.t.getD (i0 + d) Thread.init).subs },
            r.2.1, r.2.2.1, true)) := by
  intro d
  induction d with
  | zero =>
    intro i0 sc cl nl _ hM
    obtain ⟨st, hd, hop⟩ := (atMatch_iff impl cl _).mp hM
    rw [Nat.add_zero] at hd
    rw [Nat.zero_add, step_loop_biased, hd]
    simp only [hop, step_loop, Option.map_some', Nat.add_zero]
  | succ d ih =>
    intro i0 sc cl nl hN hM
    have e1 : d + 1 + rest + 1 = (d + rest + 1) + 1 := by omega
    have e2 : i0 + (d + 1) = i0 + 1 + d := by omega
    have h0 := hN i0 (Nat.le_refl _) (by omega)
    rw [atMatch_iff] at h0
    have keep : ∀ (sc1 : Scratch) (nl1 : ThreadList), sc1.subs = sc.subs →
        step_loop impl MatchType.LeftmostBiased rt fuel c icur (d + rest + 1) (i0 + 1) sc1 cl nl1 =
          (step_loop impl MatchType.LeftmostBiased rt fuel c icur d (i0 + 1) sc1 cl nl1).map
            (fun r => ({ r.1 with
              subs := Subs.assign sc.subs (cl.t.getD (i0 + (d + 1)) Thread.init).subs },
              r.2.1, r.2.2.1, true)) := by
      intro sc1 nl1 hs
      have := ih (i0 + 1) sc1 cl nl1 (fun j a b => hN j (by omega) (by omega))
        (by rw [← e2]; exact hM)
      rw [this, hs, e2]
    have fire : ∀ (ex1 : Extras) (nl1 : ThreadList) (x : Thread),
        step_loop impl MatchType.LeftmostBiased rt fuel c icur (d + rest + 1) (i0 + 1)
            { sc with extras := ex1 } { cl with t := cl.t.set i0 x } nl1 =
          (step_loop impl MatchType.LeftmostBiased rt fuel c icur d (i0 + 1)
            { sc with extras := ex1 } { cl with t := cl.t.set i0 x } nl1).map
            (fun r => ({ r.1 with
              subs := Subs.assign sc.subs (cl.t.getD (i0 + (d + 1)) Thread.init).subs },
              r.2.1, r.2.2.1, true)) := by
      intro ex1 nl1 x
      have := ih (i0 + 1) { sc with extras := ex1 } { cl with t := cl.t.set i0 x } nl1
        (fun j a b => by
          rw [atMatch_set impl cl i0 j x (by omega)]
          exact hN j (by omega) (by omega))
        (by
          rw [atMatch_set impl cl i0 _ x (by omega), ← e2]
          exact hM)
      have e3 : (cl.t.set i0 x).getD (i0 + 1 + d) Thread.init
          = cl.t.getD (i0 + (d + 1)) Thread.init := by
        rw [getD_set_ne _ _ _ _ _ (by omega : i0 ≠ i0 + 1 + d), e2]
      rw [this]
      dsimp only
      rw [e3]
    rw [e1, step_loop_biased impl rt fuel c icur (d + rest + 1) i0,
      step_loop_biased impl rt fuel c icur d i0]
    cases hd : impl.deref (cl.t.getD i0 Thread.init).state with
    | none => simp
    | some st =>
      have hop : st.op ≠ Op.Match := fun h => h0 ⟨st, hd, h⟩
      simp only
      cases ho : st.op with
      | Match => exact absurd ho hop
      | Char =>
        simp only
        by_cases hc : (c : Int) = st.data
        · rw [if_pos hc, if_pos hc]
          cases addstate impl MatchType.LeftmostBiased rt fuel sc.extras nl st.out
              (cl.t.getD i0 Thread.init).subs icur with
          | none => rfl
          | some r =>
            obtain ⟨ex1, nl1, m1⟩ := r
            exact fire ex1 nl1 _
        · rw [if_neg hc, if_neg hc]
          exact keep sc nl rfl
      | Any =>
        simp only
        cases addstate impl MatchType.LeftmostBiased rt fuel sc.extras nl st.out
            (cl.t.getD i0 Thread.init).subs icur with
        | none => rfl
        | some r =>
          obtain ⟨ex1, nl1, m1⟩ := r
          exact fire ex1 nl1 _
      | Split => exact keep sc nl rfl
      | LParen => exact keep sc nl rfl
      | RParen => exact keep sc nl rfl

/-- In the leftmost-biased mode the loop of `step` over `d` threads reads these
threads only: two lists that hold the same threads at the indices
`i0 .. i0 + d - 1` give the same scratch data and the same next list. -/
theorem step_loop_agree (impl : REImpl) (rt : RepType) (fuel c : Nat) (icur : Iter) :
    ∀ (d i0 : Nat) (sc : Scratch) (cl cl2 nl : ThreadList),
      (∀ j, i0 ≤ j → j < i0 + d → cl2.t.getD j Thread.init = cl.t.getD j Thread.init) →
      (step_loop impl MatchType.LeftmostBiased rt fuel c icur d i0 sc cl2 nl).map
          (fun r => (r.1, r.2.2))
        = (step_loop impl MatchType.LeftmostBiased rt fuel c icur d i0 sc cl nl).map
          (fun r => (r.1, r.2.2)) := by
  intro d
  induction d with
  | zero =>
    intro i0 sc cl cl2 nl _
    simp [step_loop]
  | succ d ih =>
    intro i0 sc cl cl2 nl h
    have h0 := h i0 (Nat.le_refl _) (by omega)
    have keep : ∀ (sc1 : Scratch) (nl1 : ThreadList),
        (step_loop impl MatchType.LeftmostBiased rt fuel c icur d (i0 + 1) sc1 cl2 nl1).map
            (fun r => (r.1, r.2.2))
          = (step_loop impl MatchType.LeftmostBiased rt fuel c icur d (i0 + 1) sc1 cl nl1).map
            (fun r => (r.1, r.2.2)) :=
      fun sc1 nl1 => ih (i0 + 1) sc1 cl cl2 nl1 (fun j a b => h j (by omega) (by omega))
    have fire : ∀ (sc1 : Scratch) (nl1 : ThreadList) (x : Thread),
        (step_loop impl MatchType.LeftmostBiased rt fuel c icur d (i0 + 1) sc1
            { cl2 with t := cl2.t.set i0 x } nl1).map (fun r => (r.1, r.2.2))
          = (step_loop impl MatchType.LeftmostBiased rt fuel c icur d (i0 + 1) sc1
            { cl with t := cl.t.set i0 x } nl1).map (fun r => (r.1, r.2.2)) := by
      intro sc1 nl1 x
      apply ih
      intro j a b
      show (cl2.t.set i0 x).getD j Thread.init = (cl.t.set i0 x).getD j Thread.init
      rw [getD_set_ne _ _ _ _ _ (by omega : i0 ≠ j), getD_set_ne _ _ _ _ _ (by omega : i0 ≠ j)]
      exact h j (by omega) (by omega)
    rw [step_loop_biased impl rt fuel c icur d i0 sc cl2, step_loop_biased impl rt fuel c icur d i0 sc cl,
      h0]
    cases impl.deref (cl.t.getD i0 Thread.init).state with
    | none => rfl
    | some st =>
      simp only
      cases st.op with
      | Match => rfl
      | Char =>
        simp only
        by_cases hc : (c : Int) = st.data
        · rw [if_pos hc, if_pos hc]
          cases addstate impl MatchType.LeftmostBiased rt fuel sc.extras nl st.out
              (cl.t.getD i0 Thread.init).subs icur with
          | none => rfl
          | some r =>
            obtain ⟨ex1, nl1, m1⟩ := r
            exact fire _ nl1 _
        · rw [if_neg hc, if_neg hc]
          exact keep sc nl
      | Any =>
        simp only
        cases addstate impl MatchType.LeftmostBiased rt fuel sc.extras nl st.out
            (cl.t.getD i0 Thread.init).subs icur with
        | none => rfl
        | some r =>
          obtain ⟨ex1, nl1, m1⟩ := r
          exact fire _ nl1 _
      | Split => exact keep sc nl
      | LParen => exact keep sc nl
      | RParen => exact keep sc nl

/-- In the leftmost-biased mode the loop of `step` over threads none of which
stands at a Match state ends at the end of the list, leaves the best-match array
and the array `dummy` alone and changes no thread outside the indices it ran over. -/
theorem step_loop_prefix (impl : REImpl) (rt : RepType) (fuel c : Nat) (icur : Iter) :
    ∀ (d i0 : Nat) (sc : Scratch) (cl nl : ThreadList)
      (r : Scratch × ThreadList × ThreadList × Bool),
      (∀ j, i0 ≤ j → j < i0 + d → ¬ AtMatch impl cl j) →
      step_loop impl MatchType.LeftmostBiased rt fuel c icur d i0 sc cl nl = some r →
      r.2.2.2 = false ∧ r.1.subs = sc.subs ∧ r.1.dummy = sc.dummy ∧ r.2.1.n = cl.n ∧
      ∀ j, (j < i0 ∨ i0 + d ≤ j) → r.2.1.t.getD j Thread.init = cl.t.getD j Thread.init := by
  intro d
  induction d with
  | zero =>
    intro i0 sc cl nl r _ h
    simp only [step_loop, Option.some.injEq] at h
    subst h
    exact ⟨rfl, rfl, rfl, rfl, fun _ _ => rfl⟩
  | succ d ih =>
    intro i0 sc cl nl r hN h
    have h0 := hN i0 (Nat.le_refl _) (by omega)
    rw [atMatch_iff] at h0
    have keep : ∀ (nl1 : ThreadList),
        step_loop impl MatchType.LeftmostBiased rt fuel c icur d (i0 + 1) sc cl nl1 = some r →
        r.2.2.2 = false ∧ r.1.subs = sc.subs ∧ r.1.dummy = sc.dummy ∧ r.2.1.n = cl.n ∧
        ∀ j, (j < i0 ∨ i0 + (d + 1) ≤ j) → r.2.1.t.getD j Thread.init = cl.t.getD j Thread.init := by
      intro nl1 h1
      obtain ⟨a1, a2, a3, a4, a5⟩ := ih (i0 + 1) sc cl nl1 r
        (fun j a b => hN j (by omega) (by omega)) h1
      exact ⟨a1, a2, a3, a4, fun j hj => a5 j (by omega)⟩
    have fire : ∀ (ex1 : Extras) (nl1 : ThreadList) (x : Thread),
        step_loop impl MatchType.LeftmostBiased rt fuel c icur d (i0 + 1)
          { sc with extras := ex1 } { cl with t := cl.t.set i0 x } nl1 = some r →
        r.2.2.2 = false ∧ r.1.subs = sc.subs ∧ r.1.dummy = sc.dummy ∧ r.2.1.n = cl.n ∧
        ∀ j, (j < i0 ∨ i0 + (d + 1) ≤ j) → r.2.1.t.getD j Thread.init = cl.t.getD j Thread.init := by
      intro ex1 nl1 x h1
      obtain ⟨a1, a2, a3, a4, a5⟩ := ih (i0 + 1) { sc with extras := ex1 }
        { cl with t := cl.t.set i0 x } nl1 r
        (fun j a b => by
          rw [atMatch_set impl cl i0 j x (by omega)]
          exact hN j (by omega) (by omega)) h1
      refine ⟨a1, a2, a3, a4, fun j hj => ?_⟩
      rw [a5 j (by omega)]
      exact getD_set_ne _ _ _ _ _ (by omega)
    rw [step_loop_biased] at h
    cases hd : impl.deref (cl.t.getD i0 Thread.init).state with
    | none =>
      rw [hd] at h
      simp at h
    | some st =>
      rw [hd] at h
      simp only at h
      have hop : st.op ≠ Op.Match := fun h => h0 ⟨st, hd, h⟩
      cases ho : st.op with
      | Match => exact absurd ho hop
      | Char =>
        rw [ho] at h
        simp only at h
        by_cases hc : (c : Int) = st.data
        · rw [if_pos hc] at h
          cases ha : addstate impl MatchType.LeftmostBiased rt fuel sc.extras nl st.out
              (cl.t.getD i0 Thread.init).subs icur with
          | none =>
            rw [ha] at h
            simp at h
          | some q =>
            obtain ⟨ex1, nl1, m1⟩ := q
            rw [ha] at h
            exact fire ex1 nl1 _ h
        · rw [if_neg hc] at h
          exact keep nl h
      | Any =>
        rw [ho] at h
        simp only at h
        cases ha : addstate impl MatchType.LeftmostBiased rt fuel sc.extras nl st.out
            (cl.t.getD i0 Thread.init).subs icur with
        | none =>
          rw [ha] at h
          simp at h
        | some q =>
          obtain ⟨ex1, nl1, m1⟩ := q
          rw [ha] at h
          exact fire ex1 nl1 _ h
      | Split =>
        rw [ho] at h
        exact keep nl h
      | LParen =>
        rw [ho] at h
        exact keep nl h
      | RParen =>
        rw [ho] at h
        exact keep nl h

/-- In the leftmost-biased mode, when thread `i` is the first thread of the
current list at a Match state, `step` is the loop over the threads before `i`
followed by the assignment of the submatch array of thread `i`. -/
theorem step_at_match (impl : REImpl) (rt : RepType) (fuel c : Nat) (icur : Iter)
    (sc : Scratch) (cl nl : ThreadList) (i : Nat)
    (hi : i < cl.n) (hacc : AtMatch impl cl i) (hfirst : ∀ j, j < i → ¬ AtMatch impl cl j) :
    step impl MatchType.LeftmostBiased rt fuel sc cl c icur nl =
      (step_loop impl MatchType.LeftmostBiased rt fuel c icur i 0 (bump sc) cl
          { nl with n := 0 }).map
        (fun r => ({ r.1 with
          subs := Subs.assign sc.subs (cl.t.getD i Thread.init).subs }, r.2.1, r.2.2.1)) := by
  have hcut := step_loop_cut impl rt fuel c icur (cl.n - i - 1) i 0 (bump sc) cl
    { nl with n := 0 } (fun j _ hj => hfirst j (by omega)) (by rw [Nat.zero_add]; exact hacc)
  have e : i + (cl.n - i - 1) + 1 = cl.n := by omega
  rw [e, Nat.zero_add] at hcut
  unfold step
  simp only
  have hcut1 : step_loop impl MatchType.LeftmostBiased rt fuel c icur cl.n 0
      { sc with extras := { sc.extras with listid := sc.extras.listid + 1 } } cl
      { nl with n := 0 } = _ := hcut
  rw [hcut1]
  cases step_loop impl MatchType.LeftmostBiased rt fuel c icur i 0 (bump sc) cl
      { nl with n := 0 } with
  | none => rfl
  | some r => rfl

theorem gok_obs {impl : REImpl} {pos p : Nat} {m m1 : Subs} (ho : ObsEq m1 m)
    (h : GOK impl pos p m) : GOK impl pos p m1 := by
  intro k hk1 hk2
  obtain ⟨a, b, c⟩ := h k hk1 hk2
  obtain ⟨e1, e2, e3⟩ := obsEq_fields ho k
  refine ⟨?_, ?_, ?_⟩
  · intro hm
    rw [e1] at hm
    rw [e2 (by rw [hm]; simp), e3 hm]
    exact a hm
  · intro hm
    rw [e1] at hm
    rw [e2 (by rw [hm]; simp)]
    exact b hm
  · intro lo hi hb hp
    rw [e1]
    exact c lo hi hb hp

/-- A state that leads into the box of a group lies between the parentheses of
the group or is its LParen state. -/
theorem box_pred {impl : REImpl} {k lo hi s q : Nat} {st : State} (hb : GroupBox impl k lo hi)
    (hd : impl.deref s = some st)
    (hq : (lo < q ∧ q ≤ hi) ∨ q = hi + 2)
    (he : (st.op ≠ Op.Match ∧ q = st.out) ∨ (st.op = Op.Split ∧ q = st.out1)) :
    (lo < s ∧ s ≤ hi) ∨ s = hi + 1 := by
  by_cases ho : s ≤ lo ∨ hi + 2 < s
  · obtain ⟨o1, o2⟩ := hb.outer s st ho hd
    rcases he with ⟨a, b⟩ | ⟨a, b⟩
    · obtain ⟨x, y⟩ := o1 a
      subst b
      rcases hq with h | h
      · exact absurd h x
      · exact absurd h y
    · obtain ⟨x, y⟩ := o2 a
      subst b
      rcases hq with h | h
      · exact absurd h x
      · exact absurd h y
  · by_cases h2 : s = hi + 2
    · subst h2
      obtain ⟨st2, d2, op2, _, out2⟩ := hb.rparen
      rw [hd] at d2
      cases d2
      rcases he with ⟨_, b⟩ | ⟨a, _⟩
      · subst b
        exfalso
        apply out2
        rcases hq with h | h
        · exact ⟨h.1, by omega⟩
        · rw [h]
          exact ⟨by omega, Nat.le_refl _⟩
      · rw [op2] at a
        cases a
    · by_cases h1 : s = hi + 1
      · exact Or.inr h1
      · exact Or.inl ⟨by omega, by omega⟩

/-- A parenthesis state with the number of a box is one of the two parentheses of the box. -/
theorem box_paren {impl : REImpl} {k lo hi s : Nat} {st : State} (hb : GroupBox impl k lo hi)
    (hd : impl.deref s = some st) (hop : st.op = Op.LParen ∨ st.op = Op.RParen)
    (hk : st.data = ((k : Nat) : Int)) :
    (st.op = Op.LParen → s = hi + 1) ∧ (st.op = Op.RParen → s = hi + 2) := by
  have h : s = hi + 1 ∨ s = hi + 2 := by
    by_contra hne
    exact hb.nodata s st (fun e => hne (Or.inl e)) (fun e => hne (Or.inr e)) hd hop hk
  obtain ⟨st1, d1, o1, _⟩ := hb.lparen
  obtain ⟨st2, d2, o2, _⟩ := hb.rparen
  constructor
  · intro ho
    rcases h with e | e
    · exact e
    · subst e
      rw [hd] at d2
      cases d2
      rw [ho] at o2
      cases o2
  · intro ho
    rcases h with e | e
    · subst e
      rw [hd] at d1
      cases d1
      rw [ho] at o1
      cases o1
    · exact e

/-- Moving along an edge of a state that is no parenthesis keeps the group
slots well-formed, also at a later offset. -/
theorem gok_edge {impl : REImpl} {pos npos s q : Nat} {st : State} {m : Subs}
    (hd : impl.deref s = some st) (hop : st.op ≠ Op.LParen ∧ st.op ≠ Op.RParen)
    (he : (st.op ≠ Op.Match ∧ q = st.out) ∨ (st.op = Op.Split ∧ q = st.out1))
    (hle : pos ≤ npos) (h : GOK impl pos s m) : GOK impl npos q m := by
  intro k hk1 hk2
  obtain ⟨a, b, c⟩ := h k hk1 hk2
  refine ⟨?_, ?_, ?_⟩
  · intro hm
    obtain ⟨x, y, e1, e2, e3, e4⟩ := a hm
    exact ⟨x, y, e1, e2, e3, by omega⟩
  · intro hm
    obtain ⟨x, e1, e2⟩ := b hm
    exact ⟨x, e1, by omega⟩
  · intro lo hi hb hq
    rcases box_pred hb hd hq he with h1 | h1
    · exact c lo hi hb (Or.inl h1)
    · subst h1
      obtain ⟨st1, d1, o1, _⟩ := hb.lparen
      rw [hd] at d1
      cases d1
      exact absurd o1 hop.1

theorem paren_data_nonneg {impl : REImpl} (hw : WFAut impl) {s : Nat} {st : State}
    (hd : impl.deref s = some st) (hop : st.op = Op.LParen ∨ st.op = Op.RParen) :
    0 ≤ st.data := by
  rcases wf_class hw hd with ⟨_, _, _, _, cd, _⟩ | ⟨_, _, e, _⟩ | ⟨_, _, _, _, e, _⟩ | ⟨_, _, e⟩
  · have := (cd hop).1
    omega
  · omega
  · omega
  · rcases hop with o | o <;> rw [o] at e <;> cases e

/-- The successor of an LParen state carries well-formed group slots. -/
theorem gok_lparen {impl : REImpl} {pos s : Nat} {st : State} {m : Subs}
    (hd : impl.deref s = some st) (hop : st.op = Op.LParen)
    (hlen : m.length = NSUB) (h : GOK impl pos s m) :
    GOK impl pos st.out (m.set st.data.toNat
      { m.getD st.data.toNat Sub.init with first := some pos, matched := SubState.Incomplete }) := by
  intro k hk1 hk2
  rw [getD_set_of_bound]
  by_cases e : st.data.toNat = k
  · rw [if_pos ⟨e, by rw [e, hlen]; exact hk2⟩]
    exact ⟨fun hm => (by cases hm), fun _ => ⟨pos, rfl, Nat.le_refl _⟩, fun _ _ _ _ => rfl⟩
  · rw [if_neg (fun x => e x.1)]
    obtain ⟨a, b, c⟩ := h k hk1 hk2
    refine ⟨a, b, ?_⟩
    intro lo hi hb hq
    rcases box_pred hb hd hq (Or.inl ⟨by rw [hop]; simp, rfl⟩) with h1 | h1
    · exact c lo hi hb (Or.inl h1)
    · subst h1
      obtain ⟨st1, d1, _, da1⟩ := hb.lparen
      rw [hd] at d1
      cases d1
      exfalso
      apply e
      rw [da1]
      simp

/-- The successor of an RParen state carries well-formed group slots. -/
theorem gok_rparen {impl : REImpl} (hg : GWF impl) {pos s : Nat} {st : State} {m : Subs}
    (hd : impl.deref s = some st) (hop : st.op = Op.RParen) (hdat : 0 ≤ st.data)
    (hlen : m.length = NSUB) (h : GOK impl pos s m) :
    GOK impl pos st.out (m.set st.data.toNat
      { m.getD st.data.toNat Sub.init with second := some pos, matched := SubState.Matched }) := by
  intro k hk1 hk2
  rw [getD_set_of_bound]
  obtain ⟨a, b, c⟩ := h k hk1 hk2
  by_cases e : st.data.toNat = k
  · rw [if_pos ⟨e, by rw [e, hlen]; exact hk2⟩]
    have hdk : st.data = ((k : Nat) : Int) := by
      rw [← e]
      exact (Int.toNat_of_nonneg hdat).symm
    obtain ⟨lo, hi, hb⟩ := hg s st hd hop (by omega)
    rw [e] at hb
    have hs := (box_paren hb hd (Or.inr hop) hdk).2 hop
    have hinc := c lo hi hb (Or.inr hs)
    obtain ⟨s0, f0, le0⟩ := b hinc
    rw [e]
    refine ⟨fun _ => ⟨s0, pos, f0, rfl, le0, Nat.le_refl _⟩, fun hm => (by cases hm), ?_⟩
    intro lo1 hi1 hb1 hq
    have hs1 := (box_paren hb1 hd (Or.inr hop) hdk).2 hop
    rcases box_pred hb1 hd hq (Or.inl ⟨by rw [hop]; simp, rfl⟩) with h1 | h1
    · omega
    · omega
  · rw [if_neg (fun x => e x.1)]
    refine ⟨a, b, ?_⟩
    intro lo hi hb hq
    rcases box_pred hb hd hq (Or.inl ⟨by rw [hop]; simp, rfl⟩) with h1 | h1
    · exact c lo hi hb (Or.inl h1)
    · subst h1
      obtain ⟨st1, d1, o1, _⟩ := hb.lparen
      rw [hd] at d1
      cases d1
      rw [hop] at o1
      cases o1

/-- Entering a state keeps the group slots of the threads of the list well-formed. -/
theorem glist_enter {impl : REImpl} {pos : Nat} {ex : Extras} {l : ThreadList} {s : Nat}
    {m : Subs} {ss : StateEx} {l1 : ThreadList} {go : Bool}
    (EP : EnterPost impl ex l s m ss l1 go) (hm : GOK impl pos s m) (hl : GList impl pos l) :
    GList impl pos (enterThread ss l1 s m) := by
  intro i hi
  by_cases h : i < l.n
  · rw [EP.ext.2.2 i h]
    exact hl i h
  · obtain ⟨_, e1, e2⟩ := EP.fresh i (by omega) hi
    rw [e1]
    exact gok_obs e2 hm

/-- A returning run of `addstate` from a state with well-formed group slots
adds threads with well-formed group slots. -/
theorem addrel_gok {impl : REImpl} (hw : WFAut impl) (hg : GWF impl) {mt : MatchType}
    {rt : RepType} (pos : Nat) {ex : Extras} {l : ThreadList} {s : Nat} {m : Subs}
    {ex1 : Extras} {l1 : ThreadList} {m1 : Subs}
    (h : AddRel impl mt rt (some pos) ex l s m ex1 l1 m1) :
    ∀ s0, SInv impl ex l → MOK impl s0 pos s m → (s = impl.start → s0 = pos) →
      GOK impl pos s m → GList impl pos l → GList impl pos l1 := by
  induction h with
  | null ex l m =>
    intro s0 _ _ _ _ hl
    exact hl
  | stop ex l s m st ss l1 hs hd hen =>
    intro s0 hI hm _ hG hl
    have hid := hw.idok s st hd
    obtain ⟨hs1, hsN⟩ := deref_range hd
    rw [hid] at hen
    have EP := enter_post hI mt rt s m hs1 hsN hm.1 ss l1 false hen
    have := glist_enter EP hG hl
    rw [EP.stop_eq rfl] at this
    exact this
  | leaf ex l s m st ss l1 hs hd hen hop =>
    intro s0 hI hm _ hG hl
    have hid := hw.idok s st hd
    obtain ⟨hs1, hsN⟩ := deref_range hd
    rw [hid] at hen
    have EP := enter_post hI mt rt s m hs1 hsN hm.1 ss l1 true hen
    exact glist_enter EP hG hl
  | split ex l s m st ss l1 ex2 ex3 l3 l4 m1 m2 hs hd hen hop r1 r2 ih1 ih2 =>
    intro s0 hI hm _ hG hl
    have hid := hw.idok s st hd
    obtain ⟨hs1, hsN⟩ := deref_range hd
    rw [hid] at hen ih1 r1
    have EP := enter_post hI mt rt s m hs1 hsN hm.1 ss l1 true hen
    have G0 := grow_of_enter EP hm
    obtain ⟨⟨ha, hb, hc, _⟩, ⟨ha1, hb1, hc1, _⟩⟩ := mok_split hw hd hop hm
    have hne : st.op ≠ Op.LParen ∧ st.op ≠ Op.RParen := by rw [hop]; simp
    have P1 := addrel_post hw pos r1 s0 G0.sinv ha (fun e => absurd e hb)
    have L1 := ih1 s0 G0.sinv ha (fun e => absurd e hb)
      (gok_edge hd hne (Or.inl ⟨by rw [hop]; simp, rfl⟩) (Nat.le_refl _) hG)
      (glist_enter EP hG hl)
    exact ih2 s0 P1.sinv (mok_obs P1.obs ha1) (fun e => absurd e hb1)
      (gok_obs P1.obs (gok_edge hd hne (Or.inr ⟨hop, rfl⟩) (Nat.le_refl _) hG)) L1
  | lparen ex l s m st ss l1 ex2 l3 m2 hs hd hen hop r1 ih =>
    intro s0 hI hm hs0 hG hl
    have hid := hw.idok s st hd
    obtain ⟨hs1, hsN⟩ := deref_range hd
    rw [hid] at hen ih
    have EP := enter_post hI mt rt s m hs1 hsN hm.1 ss l1 true hen
    have G0 := grow_of_enter EP hm
    obtain ⟨hk1, hk2, _, _⟩ := mok_lparen hw hd hop hm hs0
    exact ih s0 G0.sinv hk1 hk2
      (gok_lparen hd hop hm.1 hG) (glist_enter EP hG hl)
  | rparen ex l s m st ss l1 ex2 l3 m2 hs hd hen hop r1 ih =>
    intro s0 hI hm hs0 hG hl
    have hid := hw.idok s st hd
    obtain ⟨hs1, hsN⟩ := deref_range hd
    rw [hid] at hen ih
    have EP := enter_post hI mt rt s m hs1 hsN hm.1 ss l1 true hen
    have G0 := grow_of_enter EP hm
    obtain ⟨hk1, hk2, _, _⟩ := mok_rparen hw hd hop hm
    exact ih s0 G0.sinv hk1 hk2
      (gok_rparen hg hd hop (paren_data_nonneg hw hd (Or.inr hop)) hm.1 hG)
      (glist_enter EP hG hl)

/-- The loop of `step` fills the next list with threads whose group slots are
well-formed at the next offset. -/
theorem step_loop_gok {impl : REImpl} (hw : WFAut impl) (hg : GWF impl) (mt : MatchType)
    (rt : RepType) (fuel c pos npos : Nat) (hle : pos ≤ npos) (sc0 : Scratch) (cl0 : ThreadList)
    (hC : CInv impl pos cl0) (hG0 : GList impl pos cl0) :
    ∀ (k i : Nat) (sc : Scratch) (cl nl : ThreadList), i + k = cl0.n →
      LoopInv impl mt c pos npos fuel sc0 cl0 i sc cl nl → GList impl npos nl →
      ∀ r, step_loop impl mt rt fuel c (some npos) k i sc cl nl = some r →
        GList impl npos r.2.2.1 := by
  intro k
  induction k with
  | zero =>
    intro i sc cl nl _ _ hL r hr
    simp only [step_loop, Option.some.injEq] at hr
    subst hr
    exact hL
  | succ k ih =>
    intro i sc cl nl hik h hL r hr
    have hi : i < cl0.n := by omega
    obtain ⟨hs1, hsN, hmok⟩ := hC.2 i hi
    have hstate : (cl.t.getD i Thread.init).state = (cl0.t.getD i Thread.init).state :=
      (h.frame.2.2 i).1
    have hobs : ObsEq (cl.t.getD i Thread.init).subs (cl0.t.getD i Thread.init).subs :=
      (h.frame.2.2 i).2
    unfold step_loop at hr
    simp only at hr
    by_cases hb : (decide (mt = MatchType.LeftmostLongest)
        && decide ((sc.subs.getD 0 Sub.init).matched ≠ SubState.Unmatched)
        && Iter.lt (sc.subs.getD 0 Sub.init).first
          ((cl.t.getD i Thread.init).subs.getD 0 Sub.init).first) = true
    · rw [if_pos hb] at hr
      simp only [Option.some.injEq] at hr
      subst hr
      exact hL
    · rw [if_neg hb] at hr
      obtain ⟨st, hd⟩ := deref_of_range impl (cl0.t.getD i Thread.init).state hs1 hsN
      have hd1 : impl.deref (cl.t.getD i Thread.init).state = some st := by rw [hstate]; exact hd
      rw [hd1] at hr
      simp only at hr
      have fire_case : ∀ q, Fires impl c (cl0.t.getD i Thread.init) q → q = st.out →
          (match addstate impl mt rt fuel sc.extras nl st.out (cl.t.getD i Thread.init).subs
                (some npos) with
              | none => none
              | some (ex1, nlist1, m1) =>
                step_loop impl mt rt fuel c (some npos) k (i + 1) { sc with extras := ex1 }
                  { cl with t := cl.t.set i { cl.t.getD i Thread.init with subs := m1 } } nlist1)
              = some r → GList impl npos r.2.2.1 := by
        intro q hf hq hrun
        subst hq
        obtain ⟨hm1, hm2, hq0, hqN⟩ := fires_middle hw hf
        have hmq : MOK impl (tstart (cl0.t.getD i Thread.init)) npos st.out
            (cl.t.getD i Thread.init).subs := mok_obs hobs (mok_middle_pos hm1 hm2 hmok)
        have hnp : st.op ≠ Op.LParen ∧ st.op ≠ Op.RParen ∧ st.op ≠ Op.Match := by
          obtain ⟨st1, hd2, _, ho⟩ := hf
          rw [hd] at hd2
          cases hd2
          rcases ho with o | ⟨o, _⟩ <;> rw [o] <;> simp
        have hgq : GOK impl npos st.out (cl.t.getD i Thread.init).subs :=
          gok_obs hobs (gok_edge hd ⟨hnp.1, hnp.2.1⟩ (Or.inl ⟨hnp.2.2, rfl⟩) hle (hG0 i hi))
        cases e1 : addstate impl mt rt fuel sc.extras nl st.out (cl.t.getD i Thread.init).subs
            (some npos) with
        | none =>
          rw [e1] at hrun
          cases hrun
        | some x =>
          obtain ⟨ex1, nl1, m1⟩ := x
          rw [e1] at hrun
          simp only at hrun
          have hrel := addstate_rel impl mt rt (some npos) _ _ _ _ _ _ _ _ e1
          have P := addrel_post hw npos hrel _ h.sinv hmq (fun e => absurd e hm2.1)
          have L1 := addrel_gok hw hg npos hrel _ h.sinv hmq (fun e => absurd e hm2.1) hgq hL
          exact ih (i + 1) _ _ _ (by omega) (loopInv_fire hw h hf P) L1 r hrun
      cases hop : st.op with
      | Char =>
        rw [hop] at hr
        simp only at hr
        by_cases hc : (c : Int) = st.data
        · rw [if_pos hc] at hr
          exact fire_case st.out ⟨st, hd, rfl, Or.inr ⟨hop, hc⟩⟩ rfl hr
        · rw [if_neg hc] at hr
          refine ih (i + 1) sc cl nl (by omega) (loopInv_advance h ?_ ?_) hL r hr
          · rintro q ⟨st1, hd1, _, ho⟩
            rw [hd] at hd1
            simp only [Option.some.injEq] at hd1
            subst hd1
            rcases ho with o | ⟨_, o⟩
            · rw [hop] at o; simp at o
            · exact hc o
          · intro e
            obtain ⟨st1, hd1, ho⟩ := hw.match_state
            rw [← e, hd] at hd1
            simp only [Option.some.injEq] at hd1
            subst hd1
            rw [hop] at ho; simp at ho
      | Any =>
        rw [hop] at hr
        simp only at hr
        exact fire_case st.out ⟨st, hd, rfl, Or.inl hop⟩ rfl hr
      | Match =>
        rw [hop] at hr
        simp only at hr
        have hN : (cl0.t.getD i Thread.init).state = impl.states.length := by
          rcases wf_class hw hd with ⟨_, _, _, e, _⟩ | ⟨_, e, _⟩ | ⟨_, _, _, e, _⟩ | ⟨e, _⟩
          · exact absurd hop e
          · rw [hop] at e; simp at e
          · rw [hop] at e; simp at e
          · exact e
        cases mt with
        | LeftmostBiased =>
          simp only [Option.some.injEq] at hr
          subst hr
          exact hL
        | LeftmostLongest =>
          simp only at hr
          have hLI := loopInv_match hw h hN rfl hmok
          by_cases hlong : longer (cl.t.getD i Thread.init).subs sc.subs = true
          · rw [if_pos hlong] at hLI hr
            exact ih (i + 1) _ cl nl (by omega) hLI hL r hr
          · rw [if_neg hlong] at hLI hr
            exact ih (i + 1) _ cl nl (by omega) hLI hL r hr
      | Split | LParen | RParen =>
        rw [hop] at hr
        simp only at hr
        refine ih (i + 1) sc cl nl (by omega) (loopInv_advance h ?_ ?_) hL r hr
        · rintro q ⟨st1, hd1, _, ho⟩
          rw [hd] at hd1
          simp only [Option.some.injEq] at hd1
          subst hd1
          rcases ho with o | ⟨o, _⟩ <;> rw [hop] at o <;> simp at o
        · intro e
          obtain ⟨st1, hd1, ho⟩ := hw.match_state
          rw [← e, hd] at hd1
          simp only [Option.some.injEq] at hd1
          subst hd1
          rw [hop] at ho; simp at ho

/-- The start state lies in no box of a group from 1 on. -/
theorem start_not_in_box {impl : REImpl} (hw : WFAut impl) {k lo hi : Nat} (hk : 1 ≤ k)
    (hb : GroupBox impl k lo hi) : hi + 2 < impl.start := by
  obtain ⟨st, hd, hop, hdat, _⟩ := hb.rparen
  have hsz := hw.size
  have hse := hw.start_eq
  have hr := deref_range hd
  rcases wf_class hw hd with ⟨c1, c2, c3, _⟩ | ⟨_, e, _⟩ | ⟨_, _, _, _, e, _⟩ | ⟨_, _, e⟩
  · omega
  · rw [hop] at e; cases e
  · rw [hdat] at e
    omega
  · rw [hop] at e; cases e

/-- An array whose group slots are Unmatched is well-formed at the start state. -/
theorem gok_start {impl : REImpl} (hw : WFAut impl) (pos : Nat) {m : Subs}
    (h : ∀ k, 1 ≤ k → (m.getD k Sub.init).matched = SubState.Unmatched) :
    GOK impl pos impl.start m := by
  intro k hk1 _
  have hu := h k hk1
  refine ⟨fun hm => ?_, fun hm => ?_, fun lo hi hb hq => ?_⟩
  · rw [hu] at hm
    cases hm
  · rw [hu] at hm
    cases hm
  · have := start_not_in_box hw hk1 hb
    omega

/-- A call of `step` on a list of threads with well-formed group slots leaves a
next list of such threads; the group slots of `dummy` stay Unmatched, and the
best-match array is left alone or is observably the array of a thread of the
current list. -/
theorem step_gok {impl : REImpl} (hw : WFAut impl) (hg : GWF impl) (mt : MatchType)
    (rt : RepType) (fuel c pos npos : Nat) (hle : pos ≤ npos) {sc : Scratch}
    {cl nl : ThreadList} (hp : StepPre impl pos sc cl nl)
    (hfuel : 2 * impl.states.length + 3 ≤ fuel) (hG : GList impl pos cl)
    (hD : ∀ k, 1 ≤ k → (sc.dummy.getD k Sub.init).matched = SubState.Unmatched)
    {sc1 : Scratch} {cl1 nl1 : ThreadList}
    (hs : step impl mt rt fuel sc cl c (some npos) nl = some (sc1, cl1, nl1)) :
    GList impl npos nl1 ∧
    (∀ k, 1 ≤ k → (sc1.dummy.getD k Sub.init).matched = SubState.Unmatched) ∧
    (sc1.subs = sc.subs ∨
      ∃ j, j < cl.n ∧ ObsEq sc1.subs (cl.t.getD j Thread.init).subs) := by
  have hinit := loopInv_init mt c pos npos fuel hp hfuel
  obtain ⟨scl, cl2, nll, ret, hrun, stop, sc2, hstop, hL, hend⟩ :=
    step_loop_post hw mt rt fuel c pos npos (bump sc) cl hp.cinv cl.n 0 (bump sc) cl
      { nl with n := 0 } (by omega) hinit
  have hGL : GList impl npos nll :=
    step_loop_gok hw hg mt rt fuel c pos npos hle (bump sc) cl hp.cinv hG cl.n 0 (bump sc) cl
      { nl with n := 0 } (by omega) hinit (fun i hi => absurd hi (Nat.not_lt_zero i)) _ hrun
  have horigin : sc2.subs = sc.subs ∨
      ∃ j, j < cl.n ∧ ObsEq sc2.subs (cl.t.getD j Thread.init).subs := by
    rcases hL.origin with e | ⟨j, hj, _, ho⟩
    · exact Or.inl e
    · exact Or.inr ⟨j, by omega, ho⟩
  unfold step at hs
  simp only at hs
  have hrun1 : step_loop impl mt rt fuel c (some npos) cl.n 0
      { sc with extras := { sc.extras with listid := sc.extras.listid + 1 } } cl
      { nl with n := 0 } = some (scl, cl2, nll, ret) := hrun
  rw [hrun1] at hs
  have hdum : sc2.dummy = sc.dummy := hL.dummy
  rcases hend with ⟨h1, h2, h3⟩ | ⟨h1, h2, h3, h4, h5, h6⟩ | ⟨h1, h2, h3, h4, h5⟩
  · subst h2 h3
    simp only at hs
    by_cases hu : (scl.subs.getD 0 Sub.init).matched = SubState.Unmatched
    · rw [if_pos hu] at hs
      have hmok : MOK impl npos npos impl.start scl.dummy := by
        rw [hdum]
        have hsz := hw.size
        have hse := hw.start_eq
        exact ⟨hp.dummy.1, fun _ => hp.dummy.2, fun e => absurd rfl e, fun e => by omega⟩
      cases e2 : addstate impl mt rt fuel scl.extras nll impl.start scl.dummy (some npos) with
      | none =>
        rw [e2] at hs
        cases hs
      | some x =>
        obtain ⟨ex2, nl2, m2⟩ := x
        rw [e2] at hs
        simp only [Option.some.injEq, Prod.mk.injEq] at hs
        obtain ⟨a1, a2, a3⟩ := hs
        subst a1 a2 a3
        have hrel := addstate_rel impl mt rt (some npos) _ _ _ _ _ _ _ _ e2
        have hgd : GOK impl npos impl.start scl.dummy := by
          apply gok_start hw
          rw [hdum]
          exact hD
        refine ⟨addrel_gok hw hg npos hrel npos hL.sinv hmok (fun _ => rfl) hgd hGL, ?_, horigin⟩
        intro k hk
        have ho := addrel_obs hrel
        show (m2.getD k Sub.init).matched = SubState.Unmatched
        rw [(obsEq_fields ho k).1, hdum]
        exact hD k hk
    · rw [if_neg hu] at hs
      simp only [Option.some.injEq, Prod.mk.injEq] at hs
      obtain ⟨a1, a2, a3⟩ := hs
      subst a1 a2 a3
      exact ⟨hGL, by rw [hdum]; exact hD, horigin⟩
  · subst h2 h3
    simp only at hs
    rw [if_neg h5] at hs
    simp only [Option.some.injEq, Prod.mk.injEq] at hs
    obtain ⟨a1, a2, a3⟩ := hs
    subst a1 a2 a3
    exact ⟨hGL, by rw [hdum]; exact hD, horigin⟩
  · subst h2
    simp only [Option.some.injEq, Prod.mk.injEq] at hs
    obtain ⟨a1, a2, a3⟩ := hs
    subst a1 a2 a3
    refine ⟨hGL, ?_, Or.inr ⟨stop, h1, ?_⟩⟩
    · rw [h5]
      show ∀ k, 1 ≤ k → (sc2.dummy.getD k Sub.init).matched = SubState.Unmatched
      rw [hdum]
      exact hD
    · rw [h5]
      show ObsEq (Subs.assign sc2.subs (cl2.t.getD stop Thread.init).subs) _
      have hfr := (hL.frame.2.2 stop).2
      have hlen : (cl.t.getD stop Thread.init).subs.length = NSUB := (hp.cinv.2 stop h1).2.2.1
      exact ObsEq.trans (obsEq_assign _ _ (by rw [hL.subsok.1, hfr.1, hlen])) hfr

/-- The best-match array after a call of `step` holds group slots in range. -/
theorem gsubs_step {impl : REImpl} {pos npos : Nat} (hle : pos ≤ npos) {sc sc1 : Scratch}
    {cl : ThreadList} (hG : GList impl pos cl) (hS : GSubs pos sc.subs)
    (h : sc1.subs = sc.subs ∨ ∃ j, j < cl.n ∧ ObsEq sc1.subs (cl.t.getD j Thread.init).subs) :
    GSubs npos sc1.subs := by
  intro k hk1 hk2 hm
  rcases h with e | ⟨j, hj, ho⟩
  · rw [e] at hm ⊢
    obtain ⟨s, e1, a, b, c, d⟩ := hS k hk1 hk2 hm
    exact ⟨s, e1, a, b, c, by omega⟩
  · obtain ⟨x, y, z⟩ := obsEq_fields ho k
    rw [x] at hm
    obtain ⟨s, e1, a, b, c, d⟩ := (hG j hj k hk1 hk2).1 hm
    rw [y (by rw [hm]; simp), z hm]
    exact ⟨s, e1, a, b, c, by omega⟩

/-- The loop of `match` keeps the group slots of the threads, of `dummy` and of
the best-match array well-formed. -/
theorem match_loop_gok {impl : REImpl} (hw : WFAut impl) (hg : GWF impl) (mt : MatchType)
    (rt : RepType) (input : List Nat) (fuel : Nat) (hfuel : 2 * impl.states.length + 3 ≤ fuel) :
    ∀ (rest : List Nat) (pos : Nat) (sc : Scratch) (cl nl : ThreadList),
      MInv impl mt input pos sc cl nl → input.drop pos = rest →
      GList impl pos cl →
      (∀ k, 1 ≤ k → (sc.dummy.getD k Sub.init).matched = SubState.Unmatched) →
      GSubs pos sc.subs →
      ∃ pos1 sc1 cl1 nl1,
        match_loop impl mt rt fuel rest pos sc cl nl = some (pos1, sc1, cl1, nl1) ∧
        MInv impl mt input pos1 sc1 cl1 nl1 ∧ GList impl pos1 cl1 ∧
        (∀ k, 1 ≤ k → (sc1.dummy.getD k Sub.init).matched = SubState.Unmatched) ∧
        GSubs pos1 sc1.subs := by
  intro rest
  induction rest with
  | nil =>
    intro pos sc cl nl h _ hG hD hS
    exact ⟨pos, sc, cl, nl, rfl, h, hG, hD, hS⟩
  | cons b rest ih =>
    intro pos sc cl nl h hd hG hD hS
    unfold match_loop
    by_cases hn : cl.n > 0
    · rw [if_pos hn]
      obtain ⟨sc1, cl1, nl1, hrun, hP⟩ :=
        step_post hw mt rt fuel (b % 256) pos (pos + 1) h.pre hfuel
      obtain ⟨g1, g2, g3⟩ := step_gok hw hg mt rt fuel (b % 256) pos (pos + 1) (Nat.le_succ pos)
        h.pre hfuel hG hD hrun
      rw [hrun]
      simp only
      have h1 := minv_step hw h hd hP
      have hd1 : input.drop (pos + 1) = rest := by
        have := congrArg (List.drop 1) hd
        simpa [List.drop_drop, Nat.add_comm] using this
      exact ih (pos + 1) sc1 nl1 cl1 h1 hd1 g1 g2 (gsubs_step (Nat.le_succ pos) hG hS g3)
    · rw [if_neg hn]
      exact ⟨pos, sc, cl, nl, rfl, h, hG, hD, hS⟩

theorem subs_init_unmatched (k : Nat) : (Subs.init.getD k Sub.init).matched = SubState.Unmatched := by
  unfold Subs.init
  rw [getD_replicate]
  rfl

/-- The run of `match` with a fresh matcher returns an array whose Matched
group slots hold offsets `s ≤ e` within the subject. -/
theorem run_gok {impl : REImpl} (hw : WFAut impl) (hg : GWF impl) (mt : MatchType)
    (rt : RepType) (input : List Nat) :
    ∃ subs, matchSubs impl mt rt input = some subs ∧ GSubs input.length subs := by
  have hfuel : 2 * impl.states.length + 3 ≤ addstateFuel impl := le_refl _
  have hpre : StepPre impl 0
      { subs := Subs.assign Subs.init Subs.init, dummy := Subs.init,
        extras := Extras.init impl.states.length }
      (ThreadList.init 0) (ThreadList.init impl.states.length) := {
    cinv := ⟨le_refl _, fun i hi => absurd hi (Nat.not_lt_zero i)⟩
    cap_nl := by simp [ThreadList.init]
    sub_nl := by
      intro i
      show ((List.replicate impl.states.length Thread.init).getD i Thread.init).subs.length = _
      rw [getD_replicate]
      rfl
    ex_len := by simp [Extras.init]
    ex_le := by
      intro p
      show ((List.replicate (impl.states.length + 1) StateEx.init).getD p StateEx.init).lastlist
        ≤ 0
      rw [getD_replicate]
      exact le_refl _
    dummy := ⟨rfl, rfl⟩
    subsok := ⟨rfl, Or.inl rfl⟩ }
  obtain ⟨sc, cl, hstart, h0⟩ := minv_start hw mt rt input (addstateFuel impl) hfuel
  have hstep : ∃ cx, step impl mt rt (addstateFuel impl)
      { subs := Subs.assign Subs.init Subs.init, dummy := Subs.init,
        extras := Extras.init impl.states.length }
      (ThreadList.init 0) 0 (some 0) (ThreadList.init impl.states.length) = some (sc, cx, cl) := by
    unfold startlist at hstart
    simp only at hstart
    revert hstart
    cases step impl mt rt (addstateFuel impl)
      { subs := Subs.assign Subs.init Subs.init, dummy := Subs.init,
        extras := Extras.init impl.states.length }
      (ThreadList.init 0) 0 (some 0) (ThreadList.init impl.states.length) with
    | none => intro h; cases h
    | some x =>
      obtain ⟨a, b, c⟩ := x
      intro h
      simp only [Option.some.injEq, Prod.mk.injEq] at h
      obtain ⟨e1, e2⟩ := h
      subst e1 e2
      exact ⟨b, rfl⟩
  obtain ⟨cx, hstep⟩ := hstep
  have hG00 : GList impl 0 (ThreadList.init 0) := fun i hi => absurd hi (Nat.not_lt_zero i)
  obtain ⟨g1, g2, g3⟩ := step_gok hw hg mt rt (addstateFuel impl) 0 0 0 (Nat.le_refl 0) hpre
    hfuel hG00 (fun k _ => subs_init_unmatched k) hstep
  have hS0 : GSubs 0 (Subs.assign Subs.init Subs.init) := by
    intro k _ _ hm
    have : Subs.assign Subs.init Subs.init = Subs.init := by decide
    rw [this, subs_init_unmatched] at hm
    cases hm
  have g4 : GSubs 0 sc.subs := gsubs_step (Nat.le_refl 0) hG00 hS0 g3
  obtain ⟨pos1, sc1, cl1, nl1, hloop, h1, k1, k2, k3⟩ :=
    match_loop_gok hw hg mt rt input (addstateFuel impl) hfuel input 0 sc cl
      (ThreadList.init impl.states.length) h0 rfl g1 g2 g4
  obtain ⟨sc2, cl2, nl2, hfin, _⟩ :=
    step_post hw mt rt (addstateFuel impl) 0 pos1 pos1 h1.pre hfuel
  obtain ⟨_, _, f3⟩ := step_gok hw hg mt rt (addstateFuel impl) 0 pos1 pos1 (Nat.le_refl _)
    h1.pre hfuel k1 k2 hfin
  have hrun : matchSubs impl mt rt input = some sc2.subs := by
    unfold matchSubs Matcher.run Matcher.init
    simp only
    rw [hstart]
    simp only
    rw [hloop]
    simp only
    rw [hfin]
    rfl
  refine ⟨sc2.subs, hrun, ?_⟩
  have := gsubs_step (Nat.le_refl pos1) k1 k3 f3
  intro k a b c
  obtain ⟨s, e, x1, x2, x3, x4⟩ := this k a b c
  exact ⟨s, e, x1, x2, x3, by have := h1.pos_le; omega⟩

/-- A box of a fragment is a box of a larger fragment whose other states carry
other numbers and have no edge into the box. -/
theorem localBox_extend {impl : REImpl} {k lo1 hi1 lo hi lo2 hi2 : Nat}
    (hb : LocalBox impl k lo1 hi1 lo hi) (h1 : lo2 ≤ lo) (h2 : hi ≤ hi2)
    (hnew : ∀ p st, lo2 < p → p ≤ hi2 → ¬ (lo < p ∧ p ≤ hi) → impl.deref p = some st →
      ((st.op = Op.LParen ∨ st.op = Op.RParen) → st.data ≠ ((k : Nat) : Int)) ∧
      (st.op ≠ Op.Match → ¬ (lo1 < st.out ∧ st.out ≤ hi1) ∧ st.out ≠ hi1 + 2) ∧
      (st.op = Op.Split → ¬ (lo1 < st.out1 ∧ st.out1 ≤ hi1) ∧ st.out1 ≠ hi1 + 2)) :
    LocalBox impl k lo1 hi1 lo2 hi2 := by
  obtain ⟨i1, i2, i3⟩ := hb.inside
  refine ⟨⟨by omega, i2, by omega⟩, hb.lparen, hb.rparen, ?_, ?_⟩
  · intro p st a b c d hd hop
    by_cases hin : lo < p ∧ p ≤ hi
    · exact hb.nodata p st hin.1 hin.2 c d hd hop
    · exact (hnew p st a b hin hd).1 hop
  · intro p st a b c hd
    by_cases hin : lo < p ∧ p ≤ hi
    · exact hb.outer p st hin.1 hin.2 c hd
    · exact (hnew p st a b hin hd).2

/-- The states of a fragment that holds none of the parentheses of group `k`
and has no edge to the box of the group. -/
theorem sibling_ok {impl : REImpl} {r : Re} {c0 c1 lo hi e t : Nat}
    (hB : Built impl r c0 c1 lo hi e t) {k lo1 hi1 : Nat} (hdata : k ≤ c0 ∨ c1 < k)
    (hdisj : ∀ q, ((lo < q ∧ q ≤ hi) ∨ q = t) → ¬ (lo1 < q ∧ q ≤ hi1) ∧ q ≠ hi1 + 2) :
    ∀ p st, lo < p → p ≤ hi → impl.deref p = some st →
      ((st.op = Op.LParen ∨ st.op = Op.RParen) → st.data ≠ ((k : Nat) : Int)) ∧
      (st.op ≠ Op.Match → ¬ (lo1 < st.out ∧ st.out ≤ hi1) ∧ st.out ≠ hi1 + 2) ∧
      (st.op = Op.Split → ¬ (lo1 < st.out1 ∧ st.out1 ≤ hi1) ∧ st.out1 ≠ hi1 + 2) := by
  intro p st a b hd
  obtain ⟨st1, hd1, _, _, ho, ho1⟩ := built_state hB p a b
  rw [hd] at hd1
  cases hd1
  refine ⟨?_, fun _ => hdisj _ ho, fun hs => hdisj _ (ho1 hs)⟩
  intro hop
  have := (built_paren_data hB).2 p st a b hd hop
  omega

/-- A Split state after a fragment, with edges to the entry of the fragment and
to a state outside it, carries no number and has no edge into a box of the fragment. -/
theorem split_ok {impl : REImpl} {k lo1 hi1 lo hi x : Nat} {st0 : State}
    (hd0 : impl.deref x = some st0) (hop : st0.op = Op.Split)
    (ho : ¬ (lo1 < st0.out ∧ st0.out ≤ hi1) ∧ st0.out ≠ hi1 + 2)
    (ho1 : ¬ (lo1 < st0.out1 ∧ st0.out1 ≤ hi1) ∧ st0.out1 ≠ hi1 + 2) :
    ∀ p st, lo < p → p ≤ x → ¬ (lo < p ∧ p ≤ hi) → x = hi + 1 → impl.deref p = some st →
      ((st.op = Op.LParen ∨ st.op = Op.RParen) → st.data ≠ ((k : Nat) : Int)) ∧
      (st.op ≠ Op.Match → ¬ (lo1 < st.out ∧ st.out ≤ hi1) ∧ st.out ≠ hi1 + 2) ∧
      (st.op = Op.Split → ¬ (lo1 < st.out1 ∧ st.out1 ≤ hi1) ∧ st.out1 ≠ hi1 + 2) := by
  intro p st a b c hx hd
  have : p = x := by omega
  subst this
  rw [hd0] at hd
  cases hd
  refine ⟨?_, fun _ => ho, fun _ => ho1⟩
  intro h
  rcases h with h | h <;> rw [hop] at h <;> cases h

/-- Every group of a fragment with a number below `NSUB` has a box in the
fragment, and the entry of the fragment lies in none of these boxes. -/
theorem built_boxes {impl : REImpl} {r : Re} {c0 c1 lo hi e t : Nat}
    (h : Built impl r c0 c1 lo hi e t) :
    (t ≤ lo ∨ hi < t) → ∀ k, c0 < k → k ≤ c1 → k < NSUB →
      ∃ lo1 hi1, LocalBox impl k lo1 hi1 lo hi ∧ ¬ (lo1 < e ∧ e ≤ hi1) ∧ e ≠ hi1 + 2 := by
  induction h with
  | chr c c0 lo t st hd hop hdat hout =>
    intro _ k h1 h2 _
    omega
  | any c0 lo t st hd hop hout =>
    intro _ k h1 h2 _
    omega
  | cat a b c0 c1 c2 lo mid hi e1 e2 t ha hb ih1 ih2 =>
    intro ht k h1 h2 h3
    have r1 := built_range ha
    have r2 := built_range hb
    have d1 := (built_paren_data ha).1
    have d2 := (built_paren_data hb).1
    by_cases hk : k ≤ c1
    · obtain ⟨lo1, hi1, B, E1, E2⟩ := ih1 (Or.inr (by omega)) k h1 hk h3
      obtain ⟨i1, i2, i3⟩ := B.inside
      refine ⟨lo1, hi1, localBox_extend B (Nat.le_refl _) (by omega) ?_, E1, E2⟩
      intro p st a1 a2 a3 hd
      exact sibling_ok hb (Or.inl hk) (fun q hq => by omega) p st (by omega) a2 hd
    · obtain ⟨lo1, hi1, B, E1, E2⟩ := ih2 (by omega) k (by omega) h2 h3
      obtain ⟨i1, i2, i3⟩ := B.inside
      refine ⟨lo1, hi1, localBox_extend B (by omega) (Nat.le_refl _) ?_, by omega, by omega⟩
      intro p st a1 a2 a3 hd
      refine sibling_ok ha (Or.inr (by omega)) (fun q hq => ?_) p st a1 (by omega) hd
      rcases hq with hq | hq
      · omega
      · subst hq
        exact ⟨E1, E2⟩
  | alt a b c0 c1 c2 lo mid hi e1 e2 t st ha hb hd hop hout hout1 ih1 ih2 =>
    intro ht k h1 h2 h3
    have r1 := built_range ha
    have r2 := built_range hb
    have d1 := (built_paren_data ha).1
    have d2 := (built_paren_data hb).1
    by_cases hk : k ≤ c1
    · obtain ⟨lo1, hi1, B, E1, E2⟩ := ih1 (by omega) k h1 hk h3
      obtain ⟨i1, i2, i3⟩ := B.inside
      refine ⟨lo1, hi1, localBox_extend B (Nat.le_refl _) (by omega : mid ≤ hi + 1) ?_,
        by omega, by omega⟩
      intro p st1 a1 a2 a3 hd1
      by_cases hp : p ≤ hi
      · exact sibling_ok hb (Or.inl hk) (fun q hq => by omega) p st1 (by omega) hp hd1
      · exact split_ok hd hop (by rw [hout]; exact ⟨E1, E2⟩) (by rw [hout1]; omega)
          p st1 (by omega : hi < p) a2 (by omega) rfl hd1
    · obtain ⟨lo1, hi1, B, E1, E2⟩ := ih2 (by omega) k (by omega) h2 h3
      obtain ⟨i1, i2, i3⟩ := B.inside
      refine ⟨lo1, hi1, localBox_extend B (by omega : lo ≤ mid) (by omega : hi ≤ hi + 1) ?_,
        by omega, by omega⟩
      intro p st1 a1 a2 a3 hd1
      by_cases hp : p ≤ mid
      · exact sibling_ok ha (Or.inr (by omega)) (fun q hq => by omega) p st1 a1 hp hd1
      · exact split_ok hd hop (by rw [hout]; omega) (by rw [hout1]; exact ⟨E1, E2⟩)
          p st1 (by omega : hi < p) a2 (by omega) rfl hd1
  | star g a c0 c1 lo hi e t st ha hd hop hout hout1 ih =>
    intro ht k h1 h2 h3
    have r1 := built_range ha
    obtain ⟨lo1, hi1, B, E1, E2⟩ := ih (Or.inr (by omega)) k h1 h2 h3
    obtain ⟨i1, i2, i3⟩ := B.inside
    refine ⟨lo1, hi1, localBox_extend B (Nat.le_refl _) (by omega : hi ≤ hi + 1) ?_,
      by omega, by omega⟩
    intro p st1 a1 a2 a3 hd1
    refine split_ok hd hop ?_ ?_ p st1 (by omega : hi < p) a2 (by omega) rfl hd1
    · rw [hout]
      cases g
      · simp only [Bool.false_eq_true, if_false]
        omega
      · simp only [if_true]
        exact ⟨E1, E2⟩
    · rw [hout1]
      cases g
      · simp only [Bool.false_eq_true, if_false]
        exact ⟨E1, E2⟩
      · simp only [if_true]
        omega
  | plus g a c0 c1 lo hi e t st ha hd hop hout hout1 ih =>
    intro ht k h1 h2 h3
    have r1 := built_range ha
    obtain ⟨lo1, hi1, B, E1, E2⟩ := ih (Or.inr (by omega)) k h1 h2 h3
    obtain ⟨i1, i2, i3⟩ := B.inside
    refine ⟨lo1, hi1, localBox_extend B (Nat.le_refl _) (by omega : hi ≤ hi + 1) ?_, E1, E2⟩
    intro p st1 a1 a2 a3 hd1
    refine split_ok hd hop ?_ ?_ p st1 (by omega : hi < p) a2 (by omega) rfl hd1
    · rw [hout]
      cases g
      · simp only [Bool.false_eq_true, if_false]
        omega
      · simp only [if_true]
        exact ⟨E1, E2⟩
    · rw [hout1]
      cases g
      · simp only [Bool.false_eq_true, if_false]
        exact ⟨E1, E2⟩
      · simp only [if_true]
        omega
  | opt g a c0 c1 lo hi e t st ha hd hop hout hout1 ih =>
    intro ht k h1 h2 h3
    have r1 := built_range ha
    obtain ⟨lo1, hi1, B, E1, E2⟩ := ih (by omega) k h1 h2 h3
    obtain ⟨i1, i2, i3⟩ := B.inside
    refine ⟨lo1, hi1, localBox_extend B (Nat.le_refl _) (by omega : hi ≤ hi + 1) ?_,
      by omega, by omega⟩
    intro p st1 a1 a2 a3 hd1
    refine split_ok hd hop ?_ ?_ p st1 (by omega : hi < p) a2 (by omega) rfl hd1
    · rw [hout]
      cases g
      · simp only [Bool.false_eq_true, if_false]
        omega
      · simp only [if_true]
        exact ⟨E1, E2⟩
    · rw [hout1]
      cases g
      · simp only [Bool.false_eq_true, if_false]
        exact ⟨E1, E2⟩
      · simp only [if_true]
        omega
  | group_plain a c0 c1 lo hi e t ha ih => exact ih
  | group_capture a c0 c1 lo hi e t st1 st2 hlt ha hd1 ho1 hda1 hou1 hd2 ho2 hda2 hou2 ih =>
    intro ht k h1 h2 h3
    have r1 := built_range ha
    have paren_new : ∀ (lo1 hi1 : Nat), k ≠ c0 + 1 →
        (¬ (lo1 < e ∧ e ≤ hi1) ∧ e ≠ hi1 + 2) → lo ≤ lo1 → lo1 ≤ hi1 → hi1 + 2 ≤ hi →
        ∀ p st, lo < p → p ≤ hi + 2 → ¬ (lo < p ∧ p ≤ hi) → impl.deref p = some st →
          ((st.op = Op.LParen ∨ st.op = Op.RParen) → st.data ≠ ((k : Nat) : Int)) ∧
          (st.op ≠ Op.Match → ¬ (lo1 < st.out ∧ st.out ≤ hi1) ∧ st.out ≠ hi1 + 2) ∧
          (st.op = Op.Split → ¬ (lo1 < st.out1 ∧ st.out1 ≤ hi1) ∧ st.out1 ≠ hi1 + 2) := by
      intro lo1 hi1 hne hE j1 j3 j2 p st a1 a2 a3 hd
      by_cases hp : p = hi + 1
      · subst hp
        rw [hd1] at hd
        cases hd
        refine ⟨fun _ => ?_, fun _ => ?_, fun hs => ?_⟩
        · rw [hda1]
          omega
        · rw [hou1]
          exact hE
        · rw [ho1] at hs
          cases hs
      · have hp2 : p = hi + 2 := by omega
        subst hp2
        rw [hd2] at hd
        cases hd
        refine ⟨fun _ => ?_, fun _ => ?_, fun hs => ?_⟩
        · rw [hda2]
          omega
        · rw [hou2]
          omega
        · rw [ho2] at hs
          cases hs
    by_cases hk : k = c0 + 1
    · subst hk
      refine ⟨lo, hi, ⟨⟨Nat.le_refl _, by omega, Nat.le_refl _⟩, ⟨st1, hd1, ho1, hda1⟩,
        ⟨st2, hd2, ho2, hda2, by rw [hou2]; omega⟩, ?_, ?_⟩, by omega, by omega⟩
      · intro p st a1 a2 a3 a4 hd hop
        have := (built_paren_data ha).2 p st a1 (by omega) hd hop
        omega
      · intro p st a1 a2 a3 hd
        omega
    · obtain ⟨lo1, hi1, B, E1, E2⟩ := ih (Or.inr (by omega)) k (by omega) h2 h3
      obtain ⟨i1, i2, i3⟩ := B.inside
      exact ⟨lo1, hi1, localBox_extend B (Nat.le_refl _) (by omega : hi ≤ hi + 2)
        (paren_new lo1 hi1 hk ⟨E1, E2⟩ i1 i2 i3), by omega, by omega⟩
  | group_dropped a c0 c1 lo hi e t hge ha ih =>
    intro ht k h1 h2 h3
    omega

/-- In a compiled automaton every RParen state of a group from 1 on belongs to a box. -/
theorem compiled_gwf (r : Re) :
    GWF (do_regex (build r REImpl.init).1 (build r REImpl.init).2) := by
  obtain ⟨hi, e, c1, h1, hlen, hstart, hB, hL, hR, hM, hid⟩ := compiled_layout r
  generalize do_regex (build r REImpl.init).1 (build r REImpl.init).2 = impl at *
  have hr := built_range hB
  intro p st hd hop hdat
  have hrange := deref_range hd
  rw [hlen] at hrange
  have hp : p ≤ hi := by
    by_contra hgt
    by_cases e1 : p = hi + 1
    · subst e1
      rw [hL] at hd
      cases hd
      cases hop
    · by_cases e2 : p = hi + 2
      · subst e2
        rw [hR] at hd
        cases hd
        simp only at hdat
        omega
      · have e3 : p = hi + 3 := by omega
        subst e3
        rw [hM] at hd
        cases hd
        cases hop
  have hdr := (built_paren_data hB).2 p st (by omega) hp hd (Or.inr hop)
  obtain ⟨st1, hd1, _, hns, _⟩ := built_state hB p (by omega) hp
  rw [hd] at hd1
  cases hd1
  have hnsub := (hns (Or.inr hop)).2
  have hk : st.data = ((st.data.toNat : Nat) : Int) := (Int.toNat_of_nonneg (by omega)).symm
  have hNS : ((NSUB : Nat) : Int) = 10 := rfl
  obtain ⟨lo1, hi1, B, E1, E2⟩ := built_boxes hB (Or.inr (by omega)) st.data.toNat
    (by omega) (by omega) (by
      have : (st.data.toNat : Int) < ((NSUB : Nat) : Int) := by rw [← hk]; exact hnsub
      omega)
  obtain ⟨i1, i2, i3⟩ := B.inside
  refine ⟨lo1, hi1, B.lparen, B.rparen, ?_, ?_⟩
  · intro q sq a1 a2 hdq hopq
    have hq := deref_range hdq
    rw [hlen] at hq
    by_cases hqh : q ≤ hi
    · exact B.nodata q sq (by omega) hqh a1 a2 hdq hopq
    · by_cases e1 : q = hi + 1
      · subst e1
        rw [hL] at hdq
        cases hdq
        simp only
        omega
      · by_cases e2 : q = hi + 2
        · subst e2
          rw [hR] at hdq
          cases hdq
          simp only
          omega
        · have e3 : q = hi + 3 := by omega
          subst e3
          rw [hM] at hdq
          cases hdq
          rcases hopq with o | o <;> cases o
  · intro q sq a1 hdq
    have hq := deref_range hdq
    rw [hlen] at hq
    by_cases hqh : q ≤ hi
    · exact B.outer q sq (by omega) hqh a1 hdq
    · by_cases e1 : q = hi + 1
      · subst e1
        rw [hL] at hdq
        cases hdq
        exact ⟨fun _ => ⟨E1, E2⟩, fun hs => by cases hs⟩
      · by_cases e2 : q = hi + 2
        · subst e2
          rw [hR] at hdq
          cases hdq
          refine ⟨fun _ => ?_, fun hs => by cases hs⟩
          simp only
          omega
        · have e3 : q = hi + 3 := by omega
          subst e3
          rw [hM] at hdq
          cases hdq
          exact ⟨fun h => absurd rfl h, fun hs => by cases hs⟩

theorem compiled_gwf_of {pat : List Nat} {impl : REImpl} (hc : compile pat = some impl) :
    GWF impl := by
  obtain ⟨r, _, rfl⟩ := (compile_eq_some_iff pat impl).mp hc
  exact compiled_gwf r

/-! ### Worked scenarios -/

/-- C2, evaluated on the code: with leftmost-biased matching and the minimal
repetition policy the pattern `(a*)+` matches `aaa` with whole match (0,3), and
group 1 is reported as (0,3), not as the (3,3) of the header comment. -/
theorem c2_star_plus_group_is_whole :
    ∃ impl subs, compile (bytes "(a*)+") = some impl ∧
      matchSubs impl MatchType.LeftmostBiased RepType.RepeatMinimal (bytes "aaa") = some subs ∧
      isMatched subs = true ∧ span subs 0 = some (0, 3) ∧ span subs 1 = some (0, 3) ∧
      span subs 1 ≠ some (3, 3) :=
  ⟨_, _, rfl, rfl, rfl, rfl, rfl, by decide⟩

/-- C3: with leftmost-biased matching and the minimal repetition policy the
pattern `(a|aa)(a|aa)` matches `aaa` with slot 0 = (0,2), slot 1 = (0,1), slot 2 = (1,2). -/
theorem c3_alt_alt_scenario :
    ∃ impl subs, compile (bytes "(a|aa)(a|aa)") = some impl ∧
      matchSubs impl MatchType.LeftmostBiased RepType.RepeatMinimal (bytes "aaa") = some subs ∧
      isMatched subs = true ∧ span subs 0 = some (0, 2) ∧ span subs 1 = some (0, 1) ∧
      span subs 2 = some (1, 2) :=
  ⟨_, _, rfl, rfl, rfl, rfl, rfl, rfl⟩

/-- C9: compilation of a pattern succeeds if and only if the whole pattern text
is derivable from the grammar; the parse itself always returns, with a failure
when no part at the front of the text parses (the empty pattern, `*a`) and with
input left over when only a part at the front parses (`a)`, `a|`, `a**`), and
compilation fails in both cases. -/
theorem c9_compile_iff_grammar (pat : List Nat) :
    ((∃ impl, compile pat = some impl) ↔ ∃ r, Parses NT.alt pat r) ∧
    (∃ res, regex_grammar.regex (pat.length + 1) REImpl.init pat = some res ∧
      (compile pat = none ↔ (res.2 = none ∨ ∃ c t, res.2 = some (c :: t)))) ∧
    (compile (bytes "") = none ∧ compile (bytes "*a") = none ∧ compile (bytes "a)") = none ∧
      compile (bytes "a|") = none ∧ compile (bytes "a**") = none) ∧
    ((regex_grammar.regex 1 REImpl.init (bytes "")).map Prod.snd = some none ∧
      (regex_grammar.regex 3 REImpl.init (bytes "*a")).map Prod.snd = some none ∧
      (regex_grammar.regex 3 REImpl.init (bytes "a)")).map Prod.snd = some (some (bytes ")")) ∧
      (regex_grammar.regex 3 REImpl.init (bytes "a|")).map Prod.snd = some (some (bytes "|")) ∧
      (regex_grammar.regex 4 REImpl.init (bytes "a**")).map Prod.snd = some (some (bytes "*"))) := by
  refine ⟨?_, ?_, ⟨rfl, rfl, rfl, rfl, rfl⟩, ⟨rfl, rfl, rfl, rfl, rfl⟩⟩
  · constructor
    · rintro ⟨impl, h⟩
      obtain ⟨r, hp, _⟩ := (compile_eq_some_iff pat impl).mp h
      exact ⟨r, hp⟩
    · rintro ⟨r, hp⟩
      exact ⟨_, (compile_eq_some_iff pat _).mpr ⟨r, hp, rfl⟩⟩
  · obtain ⟨⟨i1, o1⟩, hres⟩ := regex_total pat REImpl.init
    refine ⟨_, hres, ?_⟩
    unfold compile
    rw [hres]
    rcases o1 with _ | ⟨_ | ⟨c, t⟩⟩ <;> simp

/-- C10: a pattern whose parentheses are unbalanced is rejected: the parse
returns (it does not get stuck) and compilation yields no automaton. -/
theorem c10_unbalanced_rejected (pat : List Nat) (h : ¬ Balanced pat) :
    compile pat = none ∧
    ∃ res, regex_grammar.regex (pat.length + 1) REImpl.init pat = some res := by
  refine ⟨?_, regex_total pat REImpl.init⟩
  cases hc : compile pat with
  | none => rfl
  | some impl =>
    obtain ⟨r, hp, _⟩ := (compile_eq_some_iff pat impl).mp hc
    exact absurd (parses_balanced hp) h

/-- C10 at the patterns `(a` and `a)`: both are unbalanced and rejected, and
for `(a` the failed parse has set no start state. -/
theorem c10_unbalanced_rejected_witness :
    (¬ Balanced (bytes "(a") ∧ compile (bytes "(a") = none ∧
      ∃ res, regex_grammar.regex ((bytes "(a").length + 1) REImpl.init (bytes "(a") = some res) ∧
    (¬ Balanced (bytes "a)") ∧ compile (bytes "a)") = none) ∧
    (regex_grammar.regex 3 REImpl.init (bytes "(a")).map (fun res => (res.1.start, res.2))
      = some (0, none) :=
  ⟨⟨by decide, c10_unbalanced_rejected (bytes "(a") (by decide)⟩,
   ⟨by decide, (c10_unbalanced_rejected (bytes "a)") (by decide)).1⟩, rfl⟩

/-- C1: for every pattern of 7-bit bytes that compiles, `r` being its syntax
tree, and every subject of bytes, in both matching modes and under both
repetition policies, `match` returns, and it returns Matched if and only if some
contiguous part of the subject, possibly empty and starting at any offset,
belongs to the language of `r`. -/
theorem c1_matched_iff_language (pat : List Nat) (r : Re) (impl : REImpl) (input : List Nat)
    (mt : MatchType) (rt : RepType) (h7 : ∀ c ∈ pat, c < 128) (hb : ∀ x ∈ input, x < 256)
    (hr : Parses NT.alt pat r) (hc : compile pat = some impl) :
    ∃ subs, matchSubs impl mt rt input = some subs ∧
      (isMatched subs = true ↔ HasMatch r input) := by
  have himpl := compiled_of_parse hr hc
  subst himpl
  have hA := parses_ascii hr h7
  obtain ⟨subs, h1, h2, _⟩ := run_matched_iff (compiled_wf r) mt rt input
  refine ⟨subs, h1, ?_⟩
  rw [h2]
  unfold HasMatch
  constructor
  · rintro ⟨s, e, a, b, c⟩
    exact ⟨s, e, a, b, (compiled_accepts r hA _ (slice_bytes hb s e)).mp c⟩
  · rintro ⟨s, e, a, b, c⟩
    exact ⟨s, e, a, b, (compiled_accepts r hA _ (slice_bytes hb s e)).mpr c⟩

/-- C1 at the pattern `ab` and the subject `xab`, leftmost-biased. -/
theorem c1_matched_iff_language_witness :
    (∀ c ∈ bytes "ab", c < 128) ∧ (∀ x ∈ bytes "xab", x < 256) ∧
    Parses NT.alt (bytes "ab") (Re.cat (Re.chr 97) (Re.chr 98)) ∧
    ∃ impl, compile (bytes "ab") = some impl ∧
      ∃ subs, matchSubs impl MatchType.LeftmostBiased RepType.RepeatMinimal (bytes "xab")
          = some subs ∧
        (isMatched subs = true ↔ HasMatch (Re.cat (Re.chr 97) (Re.chr 98)) (bytes "xab")) :=
  ⟨by decide, by decide,
    Parses.alt_one _ _ (Parses.concat_more [97] [98] _ _
      (Parses.concat_one _ _ (Parses.rep_atom _ _ (Parses.atom_char 97 (by decide))))
      (Parses.rep_atom _ _ (Parses.atom_char 98 (by decide)))),
    _, rfl,
    c1_matched_iff_language (bytes "ab") (Re.cat (Re.chr 97) (Re.chr 98)) _ (bytes "xab")
      MatchType.LeftmostBiased RepType.RepeatMinimal (by decide) (by decide)
      (Parses.alt_one _ _ (Parses.concat_more [97] [98] _ _
        (Parses.concat_one _ _ (Parses.rep_atom _ _ (Parses.atom_char 97 (by decide))))
        (Parses.rep_atom _ _ (Parses.atom_char 98 (by decide))))) rfl⟩

/-- C5: under leftmost-longest matching, for every pattern of 7-bit bytes that
compiles, `r` being its syntax tree, and every subject of bytes some part of
which belongs to the language of `r`, `match` reports a whole-match span `(s, e)`
where `s` is the smallest offset at which a part in the language starts and `e`
is the largest offset at which a part in the language that starts at `s` ends. -/
theorem c5_leftmost_longest (pat : List Nat) (r : Re) (impl : REImpl) (input : List Nat)
    (rt : RepType) (h7 : ∀ c ∈ pat, c < 128) (hb : ∀ x ∈ input, x < 256)
    (hr : Parses NT.alt pat r) (hc : compile pat = some impl) (hm : HasMatch r input) :
    ∃ subs s e, matchSubs impl MatchType.LeftmostLongest rt input = some subs ∧
      isMatched subs = true ∧ span subs 0 = some (s, e) ∧ s ≤ e ∧ e ≤ input.length ∧
      Lang r (slice input s e) ∧
      (∀ s1 e1, s1 ≤ e1 → e1 ≤ input.length → Lang r (slice input s1 e1) → s ≤ s1) ∧
      (∀ e1, s ≤ e1 → e1 ≤ input.length → Lang r (slice input s e1) → e1 ≤ e) := by
  have himpl := compiled_of_parse hr hc
  subst himpl
  have hA := parses_ascii hr h7
  have hacc := fun s e => compiled_accepts r hA _ (slice_bytes hb s e)
  obtain ⟨s0, e0, a0, b0, c0⟩ := hm
  obtain ⟨subs, s, e, h1, h2, h3, h4, h5, h6, h7⟩ :=
    run_longest (compiled_wf r) rt input ⟨s0, e0, a0, b0, (hacc s0 e0).mpr c0⟩
  refine ⟨subs, s, e, h1, ?_, h2, h3, h4, (hacc s e).mp h5, ?_, ?_⟩
  · unfold isMatched
    rw [decide_eq_true_eq]
    exact (span_eq_some.mp h2).1
  · intro s1 e1 a b c
    exact h6 s1 e1 a b ((hacc s1 e1).mpr c)
  · intro e1 a b c
    exact h7 e1 a b ((hacc s e1).mpr c)

/-- C5 at the pattern `a|ab` and the subject `xab`: the span reported is (1,3). -/
theorem c5_leftmost_longest_witness :
    HasMatch (Re.alt (Re.chr 97) (Re.cat (Re.chr 97) (Re.chr 98))) (bytes "xab") ∧
    ∃ impl, compile (bytes "a|ab") = some impl ∧
      (∃ subs, matchSubs impl MatchType.LeftmostLongest RepType.RepeatMinimal (bytes "xab")
        = some subs ∧ span subs 0 = some (1, 3)) ∧
      ∃ subs s e, matchSubs impl MatchType.LeftmostLongest RepType.RepeatMinimal (bytes "xab")
          = some subs ∧
        isMatched subs = true ∧ span subs 0 = some (s, e) ∧ s ≤ e ∧ e ≤ (bytes "xab").length ∧
        Lang (Re.alt (Re.chr 97) (Re.cat (Re.chr 97) (Re.chr 98))) (slice (bytes "xab") s e) ∧
        (∀ s1 e1, s1 ≤ e1 → e1 ≤ (bytes "xab").length →
          Lang (Re.alt (Re.chr 97) (Re.cat (Re.chr 97) (Re.chr 98)))
            (slice (bytes "xab") s1 e1) → s ≤ s1) ∧
        (∀ e1, s ≤ e1 → e1 ≤ (bytes "xab").length →
          Lang (Re.alt (Re.chr 97) (Re.cat (Re.chr 97) (Re.chr 98)))
            (slice (bytes "xab") s e1) → e1 ≤ e) :=
  ⟨⟨1, 2, by decide, by decide, Or.inl rfl⟩, _, rfl, ⟨_, rfl, rfl⟩,
    c5_leftmost_longest (bytes "a|ab") (Re.alt (Re.chr 97) (Re.cat (Re.chr 97) (Re.chr 98))) _
      (bytes "xab") RepType.RepeatMinimal (by decide) (by decide)
      (Parses.alt_more [97] [97, 98] _ _
        (Parses.alt_one _ _ (Parses.concat_one _ _ (Parses.rep_atom _ _
          (Parses.atom_char 97 (by decide)))))
        (Parses.concat_more [97] [98] _ _
          (Parses.concat_one _ _ (Parses.rep_atom _ _ (Parses.atom_char 97 (by decide))))
          (Parses.rep_atom _ _ (Parses.atom_char 98 (by decide)))))
      rfl ⟨1, 2, by decide, by decide, Or.inl rfl⟩⟩

/-- C8: for every compiled pattern, every subject and either repetition policy,
if leftmost-biased matching reports the whole match `(s, e)` and leftmost-longest
matching reports a whole match `(s, e1)` with the same start, then `e ≤ e1`. -/
theorem c8_longest_not_shorter (pat : List Nat) (impl : REImpl) (input : List Nat)
    (rt : RepType) (sb sl : Subs) (s e e1 : Nat) (hc : compile pat = some impl)
    (hb : matchSubs impl MatchType.LeftmostBiased rt input = some sb)
    (hl : matchSubs impl MatchType.LeftmostLongest rt input = some sl)
    (hsb : span sb 0 = some (s, e)) (hsl : span sl 0 = some (s, e1)) : e ≤ e1 := by
  have hw := compiled_wf_of hc
  obtain ⟨v1, v2, v3⟩ := run_valid hw hb hsb
  obtain ⟨subs, s2, e2, h1, h2, _, _, _, _, h7⟩ := run_longest hw rt input ⟨s, e, v1, v2, v3⟩
  rw [hl] at h1
  simp only [Option.some.injEq] at h1
  subst h1
  rw [hsl] at h2
  simp only [Option.some.injEq, Prod.mk.injEq] at h2
  obtain ⟨rfl, rfl⟩ := h2
  exact h7 e v1 v2 v3

/-- C8 at the pattern `a|ab` and the subject `ab`: leftmost-biased matching
reports (0,1), leftmost-longest matching reports (0,2). -/
theorem c8_longest_not_shorter_witness :
    ∃ impl sb sl, compile (bytes "a|ab") = some impl ∧
      matchSubs impl MatchType.LeftmostBiased RepType.RepeatMinimal (bytes "ab") = some sb ∧
      matchSubs impl MatchType.LeftmostLongest RepType.RepeatMinimal (bytes "ab") = some sl ∧
      span sb 0 = some (0, 1) ∧ span sl 0 = some (0, 2) ∧ 1 ≤ 2 :=
  ⟨_, _, _, rfl, rfl, rfl, rfl, rfl,
    c8_longest_not_shorter (bytes "a|ab") _ (bytes "ab") RepType.RepeatMinimal _ _ 0 1 2
      rfl rfl rfl rfl rfl⟩

/-- C6: under leftmost-biased matching and either repetition policy, for every
`n` the pattern `a*` matched against the subject of `n` bytes `a` reports the
whole match `(0, n)`, and the pattern `a*?` matched against the same subject
reports the whole match `(0, 0)`; the subject `aaa` is the case `n = 3`. -/
theorem c6_greedy_vs_lazy_star (n : Nat) (rt : RepType) :
    (∃ impl subs, compile (bytes "a*") = some impl ∧
      matchSubs impl MatchType.LeftmostBiased rt (List.replicate n 97) = some subs ∧
      isMatched subs = true ∧ span subs 0 = some (0, n)) ∧
    (∃ impl subs, compile (bytes "a*?") = some impl ∧
      matchSubs impl MatchType.LeftmostBiased rt (List.replicate n 97) = some subs ∧
      isMatched subs = true ∧ span subs 0 = some (0, 0)) ∧
    bytes "aaa" = List.replicate 3 97 := by
  obtain ⟨s1, a1, b1, c1⟩ := astar_run rt n
  obtain ⟨s2, a2, b2, c2⟩ := astar_lazy_run rt (List.replicate n 97)
  exact ⟨⟨aStar, s1, rfl, a1, b1, c1⟩, ⟨aStarLazy, s2, rfl, a2, b2, c2⟩, rfl⟩

/-- C4: priority of the first alternative under leftmost-biased matching, with
either repetition policy. `A` and `B` are patterns that compile, `implA` is the
automaton compiled for `A`, `impl` the one compiled for `A|B`, and `rA` is the
syntax tree of `A`; the pattern `A` and the subject are strings of bytes. If `p`
is the leftmost offset at which `A|B` matches (`impl` accepts no part of the
subject that starts before `p`) and `A` matches a part of the subject that
starts at `p` (`implA` accepts it), then `match` for `A|B` returns and reports a
whole match `(p, e)` that is a match of the first alternative: the part from `p`
to `e` is accepted by `implA` and belongs to the language of `A`. Nothing is
asked of what `B` matches at `p`. -/
theorem c4_alternation_priority (A B : List Nat) (rA : Re) (implA implB impl : REImpl)
    (input : List Nat) (rt : RepType) (p eE : Nat)
    (hbA : ∀ c ∈ A, c < 256) (hb : ∀ x ∈ input, x < 256) (hrA : Parses NT.alt A rA)
    (hcA : compile A = some implA) (hcB : compile B = some implB)
    (hc : compile (A ++ 124 :: B) = some impl)
    (hlow : ∀ s e, s ≤ e → e ≤ input.length → Accepts impl (slice input s e) → p ≤ s)
    (hpe : p ≤ eE) (hel : eE ≤ input.length) (hacc : Accepts implA (slice input p eE)) :
    ∃ subs e, matchSubs impl MatchType.LeftmostBiased rt input = some subs ∧
      span subs 0 = some (p, e) ∧ p ≤ e ∧ e ≤ input.length ∧
      Accepts implA (slice input p e) ∧ Lang rA (slice input p e) := by
  obtain ⟨rB, hrB, _⟩ := (compile_eq_some_iff B implB).mp hcB
  obtain ⟨subs, e, h1, h2, h3, h4, h5, h6⟩ :=
    alt_priority hrA hrB hcA hc input rt hlow hpe hel hacc
  exact ⟨subs, e, h1, h2, h3, h4, h5,
    autLang_lang rA (parses_bytes hrA hbA) _ (slice_bytes hb p e) h6⟩

/-- C4 at the patterns `a` and `ab` and the subject `ab`: the run of `a|ab`
reports `(0, 1)`, a match of `a`, not the `(0, 2)` of `ab`. -/
theorem c4_alternation_priority_witness :
    (∀ c ∈ bytes "a", c < 256) ∧ (∀ x ∈ bytes "ab", x < 256) ∧
    Parses NT.alt (bytes "a") (Re.chr 97) ∧
    ∃ implA implB impl, compile (bytes "a") = some implA ∧
      compile (bytes "ab") = some implB ∧ compile (bytes "a" ++ 124 :: bytes "ab") = some impl ∧
      (∀ s e, s ≤ e → e ≤ (bytes "ab").length → Accepts impl (slice (bytes "ab") s e) → 0 ≤ s) ∧
      Accepts implA (slice (bytes "ab") 0 1) ∧
      (∃ subs e, matchSubs impl MatchType.LeftmostBiased RepType.RepeatMinimal (bytes "ab")
          = some subs ∧
        span subs 0 = some (0, e) ∧ 0 ≤ e ∧ e ≤ (bytes "ab").length ∧
        Accepts implA (slice (bytes "ab") 0 e) ∧ Lang (Re.chr 97) (slice (bytes "ab") 0 e)) ∧
      ∃ subs, matchSubs impl MatchType.LeftmostBiased RepType.RepeatMinimal (bytes "ab")
          = some subs ∧
        span subs 0 = some (0, 1) ∧ span subs 0 ≠ some (0, 2) :=
  ⟨by decide, by decide,
    Parses.alt_one _ _ (Parses.concat_one _ _ (Parses.rep_atom _ _
      (Parses.atom_char 97 (by decide)))),
    do_regex (build (Re.chr 97) REImpl.init).1 (build (Re.chr 97) REImpl.init).2, _, _,
    rfl, rfl, rfl, fun s _ _ _ _ => Nat.zero_le s,
    (compiled_accepts (Re.chr 97) (by show (97 : Nat) < 128; decide) _ (by decide)).mpr rfl,
    c4_alternation_priority (bytes "a") (bytes "ab") (Re.chr 97) _ _ _ (bytes "ab")
      RepType.RepeatMinimal 0 1 (by decide) (by decide)
      (Parses.alt_one _ _ (Parses.concat_one _ _ (Parses.rep_atom _ _
        (Parses.atom_char 97 (by decide)))))
      rfl rfl rfl (fun s _ _ _ _ => Nat.zero_le s) (by decide) (by decide)
      ((compiled_accepts (Re.chr 97) (by show (97 : Nat) < 128; decide) _ (by decide)).mpr rfl),
    _, rfl, rfl, by decide⟩

/-- C13, amended: the builder `paren` (the group builder) returns the fragment
unchanged and adds no state exactly from index `NSUB = 10` on, not from 9 on.
For every index below 10 it appends two states, an LParen state with the index
whose edge enters `f` and an RParen state with the index, writes the pointer to
the RParen state into every pending edge of `f` and nowhere else, and returns
the fragment entered at the LParen state whose only pending edge is the edge of
the RParen state; the group counter and the start pointer are left alone. -/
theorem c13_group_builder (impl : REImpl) (f : Frag) (n : Nat) :
    (NSUB ≤ n → paren impl f n = (impl, f)) ∧
    (n < NSUB →
      (paren impl f n).1.states.length = impl.states.length + 2 ∧
      (paren impl f n).1.nparen = impl.nparen ∧ (paren impl f n).1.start = impl.start ∧
      (paren impl f n).2 = ⟨impl.states.length + 1, [⟨impl.states.length + 2, false⟩]⟩ ∧
      (∀ p st, impl.deref p = some st →
        (paren impl f n).1.deref p = some { st with
          out := if (⟨p, false⟩ : Slot) ∈ f.out then impl.states.length + 2 else st.out,
          out1 := if (⟨p, true⟩ : Slot) ∈ f.out then impl.states.length + 2 else st.out1 }) ∧
      ((∀ sl ∈ f.out, sl.s ≤ impl.states.length) →
        (paren impl f n).1.deref (impl.states.length + 1)
          = some ⟨Op.LParen, n, f.start, 0, impl.states.length + 1⟩ ∧
        (paren impl f n).1.deref (impl.states.length + 2)
          = some ⟨Op.RParen, n, 0, 0, impl.states.length + 2⟩)) := by
  constructor
  · intro h
    unfold paren
    rw [if_pos h]
  · intro h
    have hn : ¬ n ≥ NSUB := by omega
    have hp : paren impl f n =
        (patch ((impl.state Op.LParen n f.start 0).1.state Op.RParen n 0 0).1 f.out
            (impl.states.length + 2),
          ⟨impl.states.length + 1, [⟨impl.states.length + 2, false⟩]⟩) := by
      unfold paren
      rw [if_neg hn]
      simp [REImpl.state, list1]
    rw [hp]
    refine ⟨?_, rfl, rfl, rfl, ?_, ?_⟩
    · rw [patch_length, state_length, state_length]
    · intro p st hd
      obtain ⟨h1, h2⟩ := deref_range hd
      show (patch _ f.out _).deref p = _
      rw [deref_patch, deref_state, state_length, if_neg (by omega), deref_state,
        if_neg (by omega), hd]
      simp only [Option.map_some']
      rw [pst_eq]
    · intro hsl
      have hne1 : ∀ sl ∈ f.out, sl.s ≠ impl.states.length + 1 := by
        intro sl h1 h2
        have := hsl sl h1
        omega
      have hne2 : ∀ sl ∈ f.out, sl.s ≠ impl.states.length + 2 := by
        intro sl h1 h2
        have := hsl sl h1
        omega
      constructor
      · show (patch _ f.out _).deref _ = _
        rw [deref_patch, deref_state, state_length, if_neg (by omega), deref_state,
          if_pos rfl]
        simp only [Option.map_some']
        rw [pst_not _ _ _ _ hne1]
      · show (patch _ f.out _).deref _ = _
        rw [deref_patch, deref_state, state_length, if_pos rfl]
        simp only [Option.map_some']
        rw [pst_not _ _ _ _ hne2]

/-- C13 as stated fails at index 9: there `paren` does not return the
fragment unchanged but appends an LParen and an RParen state with data 9. -/
theorem c13_index_nine_adds_states :
    paren (single_char REImpl.init 97).1 (single_char REImpl.init 97).2 9
      ≠ ((single_char REImpl.init 97).1, (single_char REImpl.init 97).2) ∧
    (single_char REImpl.init 97).1.states.length = 1 ∧
    (paren (single_char REImpl.init 97).1 (single_char REImpl.init 97).2 9).1.states
      = [⟨Op.Char, 97, 3, 0, 1⟩, ⟨Op.LParen, 9, 1, 0, 2⟩, ⟨Op.RParen, 9, 0, 0, 3⟩] := by
  refine ⟨by decide, rfl, rfl⟩

/-- C18, amended: `longer a b` is true exactly when slot 0 of `a` is not
Unmatched and one of these holds: slot 0 of `b` is Unmatched; the `first` field
of slot 0 of `a` lies before that of `b`; the two `first` fields are equal and
the `second` field of slot 0 of `a` lies after that of `b`. The fields are
compared as they are stored, whatever the tag of the slot. -/
theorem c18_longer_rule (a b : Subs) :
    longer a b = true ↔
      ((a.getD 0 Sub.init).matched ≠ SubState.Unmatched ∧
        ((b.getD 0 Sub.init).matched = SubState.Unmatched ∨
         Iter.lt (a.getD 0 Sub.init).first (b.getD 0 Sub.init).first = true ∨
         ((a.getD 0 Sub.init).first = (b.getD 0 Sub.init).first ∧
           Iter.lt (b.getD 0 Sub.init).second (a.getD 0 Sub.init).second = true))) := by
  unfold longer
  generalize a.getD 0 Sub.init = x
  generalize b.getD 0 Sub.init = y
  by_cases h1 : x.matched = SubState.Unmatched
  · simp [h1]
  · by_cases h2 : y.matched = SubState.Unmatched
    · simp [h1, h2]
    · by_cases h3 : Iter.lt x.first y.first = true
      · simp [h1, h2, h3]
      · by_cases h4 : x.first = y.first
        · simp [h1, h2, h3, h4]
        · simp [h1, h2, h3, h4]

/-- C18 as stated fails when slot 0 of both arrays is Unmatched: the slot of
`b` is Unmatched, yet `longer` returns false. -/
theorem c18_longer_both_unmatched :
    ((Subs.init).getD 0 Sub.init).matched = SubState.Unmatched ∧
      longer Subs.init Subs.init = false := by
  decide

/-- C12, amended: the pattern of eleven groups `(a)` compiles with group count
11, and under both matching modes and both repetition policies matching it
against eleven bytes `a` returns Matched with slot 0 = (0,11) and slot k =
(k-1,k) for every k from 1 to 9: group 9 is tracked. The submatch array has
exactly the 10 slots 0 to 9, and the automaton has LParen states and RParen
states for the indices 1 to 9 and 0 only: the groups 10 and 11 are the
untracked ones, no state is built for them and they have no slot. -/
theorem c12_eleven_groups (mt : MatchType) (rt : RepType) :
    ∃ impl subs, compile (bytes "(a)(a)(a)(a)(a)(a)(a)(a)(a)(a)(a)") = some impl ∧
      impl.nparen = 11 ∧
      (impl.states.filter (fun s => s.op = Op.LParen)).map (fun s => s.data)
        = [1, 2, 3, 4, 5, 6, 7, 8, 9, 0] ∧
      (impl.states.filter (fun s => s.op = Op.RParen)).map (fun s => s.data)
        = [1, 2, 3, 4, 5, 6, 7, 8, 9, 0] ∧
      matchSubs impl mt rt (bytes "aaaaaaaaaaa") = some subs ∧
      isMatched subs = true ∧ subs.length = 10 ∧
      (List.range subs.length).map (span subs) =
        [some (0, 11), some (0, 1), some (1, 2), some (2, 3), some (3, 4), some (4, 5),
          some (5, 6), some (6, 7), some (7, 8), some (8, 9)] := by
  cases mt <;> cases rt <;> exact ⟨_, _, rfl, rfl, rfl, rfl, rfl, rfl, rfl, rfl⟩

/-- C12 as stated fails at slot 9: with the default flags the run on eleven
bytes `a` reports group 9 as Matched with (8,9), not as Unmatched. -/
theorem c12_slot_nine_tracked :
    ∃ impl subs, compile (bytes "(a)(a)(a)(a)(a)(a)(a)(a)(a)(a)(a)") = some impl ∧
      matchSubs impl MatchType.LeftmostBiased RepType.RepeatMinimal (bytes "aaaaaaaaaaa")
        = some subs ∧
      span subs 9 = some (8, 9) ∧
      (subs.getD 9 Sub.init).matched ≠ SubState.Unmatched :=
  ⟨_, _, rfl, rfl, rfl, by decide⟩

/-- C19: `addstate` leaves the submatch array of its caller observably
unchanged. For every automaton, matching mode, repetition policy, scratch data,
list, state, position and array `m`: when `addstate` returns, the array `m1` it
leaves in place of `m` has as many slots as `m`, and every slot has the tag it
had, the `first` position it had unless the tag is Unmatched, and the `second`
position it had when the tag is Matched. The array the first recursive call of
a Split state returns is the one its second call is given, so the second branch
starts from the observable capture state of the first. -/
theorem c19_addstate_frame (impl : REImpl) (mt : MatchType) (rt : RepType) (fuel : Nat)
    (ex : Extras) (l : ThreadList) (s : Nat) (m : Subs) (icur : Iter) (ex1 : Extras)
    (l1 : ThreadList) (m1 : Subs)
    (h : addstate impl mt rt fuel ex l s m icur = some (ex1, l1, m1)) :
    m1.length = m.length ∧
    ∀ i, (m1.getD i Sub.init).matched = (m.getD i Sub.init).matched ∧
      ((m.getD i Sub.init).matched ≠ SubState.Unmatched →
        (m1.getD i Sub.init).first = (m.getD i Sub.init).first) ∧
      ((m.getD i Sub.init).matched = SubState.Matched →
        (m1.getD i Sub.init).second = (m.getD i Sub.init).second) := by
  have ho := addrel_obs (addstate_rel impl mt rt icur fuel ex l s m ex1 l1 m1 h)
  exact ⟨ho.1, fun i => obsEq_fields ho i⟩

/-- C19 at the automaton of `(a)`: the call of `addstate` that seeds the first
list at the start state with the array of ten Unmatched slots returns an array
of ten slots with the same tags. -/
theorem c19_addstate_frame_witness :
    ∃ ex1 l1 m1,
      addstate ((compile (bytes "(a)")).getD REImpl.init) MatchType.LeftmostBiased
        RepType.RepeatMinimal 13 ⟨1, List.replicate 7 StateEx.init⟩ (ThreadList.init 6) 4
        Subs.init (some 0) = some (ex1, l1, m1) ∧
      l1.n = 3 ∧ m1.length = Subs.init.length ∧
      ∀ i, (m1.getD i Sub.init).matched = (Subs.init.getD i Sub.init).matched ∧
        ((Subs.init.getD i Sub.init).matched ≠ SubState.Unmatched →
          (m1.getD i Sub.init).first = (Subs.init.getD i Sub.init).first) ∧
        ((Subs.init.getD i Sub.init).matched = SubState.Matched →
          (m1.getD i Sub.init).second = (Subs.init.getD i Sub.init).second) :=
  ⟨_, _, _, rfl, by decide,
    c19_addstate_frame ((compile (bytes "(a)")).getD REImpl.init) MatchType.LeftmostBiased
      RepType.RepeatMinimal 13 ⟨1, List.replicate 7 StateEx.init⟩ (ThreadList.init 6) 4
      Subs.init (some 0) _ _ _ rfl⟩

/-- C15: matching always ends with a definite outcome. For every pattern that
compiles, every subject, both matching modes and both repetition policies,
`match` returns, every call of `addstate` in it returning within the recursion
depth `2 * states + 3`, and slot 0 of the array it leaves is Matched or
Unmatched. The revisit test at the head of `addstate` stamps the state with the
current generation; it sets the visit counter of a state not yet stamped to 1
and goes on, it increases the counter of a stamped state, and it goes on to the
body of `addstate` only with a counter of at most 2: the body is entered at most
twice for a state in a generation. -/
theorem c15_match_terminates (pat : List Nat) (impl : REImpl) (input : List Nat)
    (mt : MatchType) (rt : RepType) (hc : compile pat = some impl) :
    (∃ subs, matchSubs impl mt rt input = some subs ∧
      ((subs.getD 0 Sub.init).matched = SubState.Matched ∨
        (subs.getD 0 Sub.init).matched = SubState.Unmatched)) ∧
    ∀ (g : Nat) (ss : StateEx) (l : ThreadList) (m : Subs),
      (addstate_enter mt rt g ss l m).1.lastlist = g ∧
      (ss.lastlist ≠ g → (addstate_enter mt rt g ss l m).1.visits = 1 ∧
        (addstate_enter mt rt g ss l m).2.2 = true) ∧
      (ss.lastlist = g → ss.visits < (addstate_enter mt rt g ss l m).1.visits) ∧
      ((addstate_enter mt rt g ss l m).2.2 = true →
        (addstate_enter mt rt g ss l m).1.visits ≤ 2) := by
  constructor
  · obtain ⟨subs, h1, h2, _⟩ := run_post (compiled_wf_of hc) mt rt input
    refine ⟨subs, h1, ?_⟩
    rcases h2.2 with u | ⟨u, _⟩
    · exact Or.inr u
    · exact Or.inl u
  · intro g ss l m
    unfold addstate_enter
    by_cases hs : ss.lastlist = g
    · rw [if_pos hs]
      simp only
      by_cases h1 : ss.visits + 1 > 2
      · rw [if_pos h1]
        exact ⟨hs, fun e => absurd hs e, fun _ => Nat.lt_succ_self _, fun e => by simp at e⟩
      · rw [if_neg h1]
        cases mt with
        | LeftmostBiased =>
          simp only
          by_cases h2 : rt = RepType.RepeatMinimal
          · rw [if_pos h2]
            exact ⟨hs, fun e => absurd hs e, fun _ => Nat.lt_succ_self _, fun e => by simp at e⟩
          · rw [if_neg h2]
            by_cases h3 : ss.visits + 1 + 1 > 2
            · rw [if_pos h3]
              exact ⟨hs, fun e => absurd hs e, fun _ => by show ss.visits < ss.visits + 1 + 1; omega,
                fun e => by simp at e⟩
            · rw [if_neg h3]
              exact ⟨hs, fun e => absurd hs e, fun _ => by show ss.visits < ss.visits + 1 + 1; omega,
                fun _ => by show ss.visits + 1 + 1 ≤ 2; omega⟩
        | LeftmostLongest =>
          simp only
          by_cases h2 : (!longer m (l.t.getD ss.lastthread Thread.init).subs) = true
          · rw [if_pos h2]
            exact ⟨hs, fun e => absurd hs e, fun _ => Nat.lt_succ_self _, fun e => by simp at e⟩
          · rw [if_neg h2]
            exact ⟨hs, fun e => absurd hs e, fun _ => Nat.lt_succ_self _,
              fun _ => by show ss.visits + 1 ≤ 2; omega⟩
    · rw [if_neg hs]
      exact ⟨rfl, fun _ => ⟨rfl, rfl⟩, fun e => absurd e hs, fun _ => by show 1 ≤ 2; omega⟩

/-- C15 at the pattern `(a*)+`, whose loop has a body that matches the empty
string, and the subject `aaa`, leftmost-longest with the Perl-like policy. -/
theorem c15_match_terminates_witness :
    ∃ impl, compile (bytes "(a*)+") = some impl ∧
      (∃ subs, matchSubs impl MatchType.LeftmostLongest RepType.RepeatLikePerl (bytes "aaa")
          = some subs ∧
        ((subs.getD 0 Sub.init).matched = SubState.Matched ∨
          (subs.getD 0 Sub.init).matched = SubState.Unmatched)) ∧
      ∀ (g : Nat) (ss : StateEx) (l : ThreadList) (m : Subs),
        (addstate_enter MatchType.LeftmostLongest RepType.RepeatLikePerl g ss l m).1.lastlist
          = g ∧
        (ss.lastlist ≠ g →
          (addstate_enter MatchType.LeftmostLongest RepType.RepeatLikePerl g ss l m).1.visits
            = 1 ∧
          (addstate_enter MatchType.LeftmostLongest RepType.RepeatLikePerl g ss l m).2.2
            = true) ∧
        (ss.lastlist = g → ss.visits <
          (addstate_enter MatchType.LeftmostLongest RepType.RepeatLikePerl g ss l m).1.visits) ∧
        ((addstate_enter MatchType.LeftmostLongest RepType.RepeatLikePerl g ss l m).2.2 = true →
          (addstate_enter MatchType.LeftmostLongest RepType.RepeatLikePerl g ss l m).1.visits
            ≤ 2) :=
  ⟨_, rfl, c15_match_terminates (bytes "(a*)+") _ (bytes "aaa") MatchType.LeftmostLongest
    RepType.RepeatLikePerl rfl⟩

/-- C17, evaluated on the code: under leftmost-biased matching the second
visit of `addstate` to a state in a generation (the state is stamped and its
counter is 1) returns without going on, under the Perl-like policy as under the
minimal one; the Perl-like policy leaves the counter at 3, the minimal one at 2.
So the pattern `(a*)+` on `aaa` gives group 1 = (0,3) under the Perl-like policy
too, not the (3,3) of the header comment. -/
theorem c17_second_visit_is_pruned (g lt : Nat) (l : ThreadList) (m : Subs) :
    addstate_enter MatchType.LeftmostBiased RepType.RepeatLikePerl g ⟨g, 1, lt⟩ l m
      = (⟨g, 3, lt⟩, l, false) ∧
    addstate_enter MatchType.LeftmostBiased RepType.RepeatMinimal g ⟨g, 1, lt⟩ l m
      = (⟨g, 2, lt⟩, l, false) ∧
    ∃ impl subs, compile (bytes "(a*)+") = some impl ∧
      matchSubs impl MatchType.LeftmostBiased RepType.RepeatLikePerl (bytes "aaa") = some subs ∧
      span subs 0 = some (0, 3) ∧ span subs 1 = some (0, 3) := by
  refine ⟨?_, ?_, _, _, rfl, rfl, rfl, rfl⟩
  · simp [addstate_enter]
  · simp [addstate_enter]

/-- C20: the thread lists never overflow. For every pattern that compiles,
every subject, both matching modes and both repetition policies, in every state
of the loop of `match` (after `startlist` and after each call of `step`) the
current list holds at most as many threads as the automaton has states, which
is the size both lists were allocated with, and no state twice; so does the
list the closing call of `step` leaves. The loop has a first state, and a next
one while bytes are left and the current list is not empty. Every state of the automaton has the
pointer it is stored at as its `id`, between 1 and the number of states. The
revisit test of `addstate` appends a thread exactly when the state is not yet
stamped with the current generation, and leaves the list alone otherwise. -/
theorem c20_thread_list_bounded (pat : List Nat) (impl : REImpl) (input : List Nat)
    (mt : MatchType) (rt : RepType) (hc : compile pat = some impl) :
    (∃ sc cl, LoopState impl mt rt input 0 sc cl (ThreadList.init impl.states.length)) ∧
    (∀ pos sc cl nl b rest, LoopState impl mt rt input pos sc cl nl →
      input.drop pos = b :: rest → cl.n > 0 →
      ∃ sc1 cl1 nl1, LoopState impl mt rt input (pos + 1) sc1 nl1 cl1) ∧
    (∀ pos sc cl nl, LoopState impl mt rt input pos sc cl nl →
      (cl.n ≤ impl.states.length ∧ cl.t.length = impl.states.length ∧
        nl.t.length = impl.states.length ∧
        ∀ i j, i < cl.n → j < cl.n →
          (cl.t.getD i Thread.init).state = (cl.t.getD j Thread.init).state → i = j) ∧
      ∀ sc2 cl2 nl2,
        step impl mt rt (addstateFuel impl) sc cl 0 (some pos) nl = some (sc2, cl2, nl2) →
        nl2.n ≤ impl.states.length ∧ nl2.t.length = impl.states.length ∧
        ∀ i j, i < nl2.n → j < nl2.n →
          (nl2.t.getD i Thread.init).state = (nl2.t.getD j Thread.init).state → i = j) ∧
    (∀ p st, impl.deref p = some st → st.id = p ∧ 1 ≤ p ∧ p ≤ impl.states.length) ∧
    ∀ (g : Nat) (ss : StateEx) (l : ThreadList) (m : Subs),
      (ss.lastlist = g → (addstate_enter mt rt g ss l m).2.1 = l) ∧
      (ss.lastlist ≠ g → (addstate_enter mt rt g ss l m).2.1.n = l.n + 1 ∧
        (addstate_enter mt rt g ss l m).2.1.t = l.t ∧
        (addstate_enter mt rt g ss l m).1.lastthread = l.n) := by
  have hw := compiled_wf_of hc
  have hfuel : 2 * impl.states.length + 3 ≤ addstateFuel impl := le_refl _
  refine ⟨?_, ?_, ?_, ?_, ?_⟩
  · obtain ⟨sc0, cl0, h1, _⟩ := minv_start hw mt rt input (addstateFuel impl) hfuel
    exact ⟨sc0, cl0, LoopState.start sc0 cl0 h1⟩
  · intro pos sc cl nl b rest hL hd hn
    have hM := loopState_minv hw hL
    obtain ⟨sc2, cl2, nl2, hrun, _⟩ :=
      step_post hw mt rt (addstateFuel impl) (b % 256) pos (pos + 1) hM.pre hfuel
    exact ⟨sc2, cl2, nl2, LoopState.next pos sc cl nl b rest sc2 cl2 nl2 hL hd hn hrun⟩
  · intro pos sc cl nl hL
    have hM := loopState_minv hw hL
    refine ⟨⟨?_, hM.cap_cl, hM.pre.cap_nl, hM.uniq⟩, ?_⟩
    · have := hM.pre.cinv.1
      rw [hM.cap_cl] at this
      exact this
    · intro sc2 cl2 nl2 hs
      exact step_list_ok hw hM 0 pos hs
  · intro p st hd
    exact ⟨hw.idok p st hd, deref_range hd⟩
  · intro g ss l m
    unfold addstate_enter
    constructor
    · intro hs
      rw [if_pos hs]
      simp only
      split
      · rfl
      · cases mt with
        | LeftmostBiased =>
          simp only
          split
          · rfl
          · split <;> rfl
        | LeftmostLongest =>
          simp only
          split <;> rfl
    · intro hs
      rw [if_neg hs]
      exact ⟨rfl, rfl, rfl⟩

/-- C20 at the pattern `(a*)+` and the subject `aaa`, leftmost-longest with
the minimal policy. -/
theorem c20_thread_list_bounded_witness :
    ∃ impl, compile (bytes "(a*)+") = some impl ∧
      (∃ sc cl, LoopState impl MatchType.LeftmostLongest RepType.RepeatMinimal (bytes "aaa") 0
        sc cl (ThreadList.init impl.states.length)) ∧
      (∀ pos sc cl nl b rest,
        LoopState impl MatchType.LeftmostLongest RepType.RepeatMinimal (bytes "aaa") pos sc cl nl →
        (bytes "aaa").drop pos = b :: rest → cl.n > 0 →
        ∃ sc1 cl1 nl1, LoopState impl MatchType.LeftmostLongest RepType.RepeatMinimal
          (bytes "aaa") (pos + 1) sc1 nl1 cl1) ∧
      (∀ pos sc cl nl,
        LoopState impl MatchType.LeftmostLongest RepType.RepeatMinimal (bytes "aaa") pos sc cl nl →
        (cl.n ≤ impl.states.length ∧ cl.t.length = impl.states.length ∧
          nl.t.length = impl.states.length ∧
          ∀ i j, i < cl.n → j < cl.n →
            (cl.t.getD i Thread.init).state = (cl.t.getD j Thread.init).state → i = j) ∧
        ∀ sc2 cl2 nl2,
          step impl MatchType.LeftmostLongest RepType.RepeatMinimal (addstateFuel impl) sc cl 0
            (some pos) nl = some (sc2, cl2, nl2) →
          nl2.n ≤ impl.states.length ∧ nl2.t.length = impl.states.length ∧
          ∀ i j, i < nl2.n → j < nl2.n →
            (nl2.t.getD i Thread.init).state = (nl2.t.getD j Thread.init).state → i = j) ∧
      (∀ p st, impl.deref p = some st → st.id = p ∧ 1 ≤ p ∧ p ≤ impl.states.length) ∧
      ∀ (g : Nat) (ss : StateEx) (l : ThreadList) (m : Subs),
        (ss.lastlist = g →
          (addstate_enter MatchType.LeftmostLongest RepType.RepeatMinimal g ss l m).2.1 = l) ∧
        (ss.lastlist ≠ g →
          (addstate_enter MatchType.LeftmostLongest RepType.RepeatMinimal g ss l m).2.1.n
            = l.n + 1 ∧
          (addstate_enter MatchType.LeftmostLongest RepType.RepeatMinimal g ss l m).2.1.t = l.t ∧
          (addstate_enter MatchType.LeftmostLongest RepType.RepeatMinimal g ss l m).1.lastthread
            = l.n) :=
  ⟨_, rfl, c20_thread_list_bounded (bytes "(a*)+") _ (bytes "aaa") MatchType.LeftmostLongest
    RepType.RepeatMinimal rfl⟩

/-- C14, evaluated on the code: with leftmost-longest matching and the minimal
repetition policy, the pattern `(a*)+` matched against the subject `a` by a
freshly constructed matcher gives group 1 = (0,1); matched against the same
subject by the matcher that has already matched `a` once, it gives the same
whole match (0,1) but group 1 = (1,1). -/
theorem c14_reuse_changes_groups :
    ∃ impl m1 m2 mf, compile (bytes "(a*)+") = some impl ∧
      Matcher.rerun impl MatchType.LeftmostLongest RepType.RepeatMinimal (Matcher.init impl)
        (bytes "a") = some mf ∧
      Matcher.rerun impl MatchType.LeftmostLongest RepType.RepeatMinimal (Matcher.init impl)
        (bytes "a") = some m1 ∧
      Matcher.rerun impl MatchType.LeftmostLongest RepType.RepeatMinimal m1 (bytes "a")
        = some m2 ∧
      matchSubs impl MatchType.LeftmostLongest RepType.RepeatMinimal (bytes "a") = some mf.subs ∧
      span mf.subs 0 = some (0, 1) ∧ span mf.subs 1 = some (0, 1) ∧
      span m2.subs 0 = some (0, 1) ∧ span m2.subs 1 = some (1, 1) :=
  ⟨_, _, _, _, rfl, rfl, rfl, rfl, rfl, rfl, rfl, rfl, rfl⟩

/-- C16: under leftmost-biased matching the repetition policy has no effect.
For every automaton and every input, `match` run with RepeatLikePerl leaves the
same submatch array as run with RepeatMinimal, and the same two thread lists
and the same scratch array `dummy`; the same holds for the loop of `match` and
for every single `step` started from scratch data that agree up to the visit
counters (so for every sequence of steps, since the results agree again up to
the visit counters); and in `addstate` a visit to a state that is stamped with
the current generation and has been visited returns without adding a thread and
without recursing under both policies. -/
theorem c16_biased_policy_has_no_effect (impl : REImpl) (input : List Nat) :
    matchSubs impl MatchType.LeftmostBiased RepType.RepeatLikePerl input
      = matchSubs impl MatchType.LeftmostBiased RepType.RepeatMinimal input ∧
    (Matcher.rerun impl MatchType.LeftmostBiased RepType.RepeatLikePerl (Matcher.init impl) input).map
        (fun r => (r.subs, r.dummy, r.l1, r.l2))
      = (Matcher.rerun impl MatchType.LeftmostBiased RepType.RepeatMinimal (Matcher.init impl) input).map
        (fun r => (r.subs, r.dummy, r.l1, r.l2)) ∧
    (∀ (fuel pos : Nat) (sc sc1 : Scratch) (cl nl : ThreadList), ScSame sc sc1 →
      SameMatch
        (match_loop impl MatchType.LeftmostBiased RepType.RepeatMinimal fuel input pos sc cl nl)
        (match_loop impl MatchType.LeftmostBiased RepType.RepeatLikePerl fuel input pos sc1 cl nl)) ∧
    (∀ (fuel c : Nat) (icur : Iter) (sc sc1 : Scratch) (cl nl : ThreadList), ScSame sc sc1 →
      SameStep (step impl MatchType.LeftmostBiased RepType.RepeatMinimal fuel sc cl c icur nl)
        (step impl MatchType.LeftmostBiased RepType.RepeatLikePerl fuel sc1 cl c icur nl)) ∧
    (∀ (rt : RepType) (ss : StateEx) (l : ThreadList) (m : Subs), 1 ≤ ss.visits →
      (addstate_enter MatchType.LeftmostBiased rt ss.lastlist ss l m).2 = (l, false)) := by
  refine ⟨?_, (rerun_policy impl (Matcher.init impl) input (noFut_init _)).1, ?_, ?_, ?_⟩
  · exact (rerun_policy impl (Matcher.init impl) input (noFut_init _)).2
  · intro fuel pos sc sc1 cl nl hS
    exact match_policy impl fuel input pos sc sc1 cl nl hS
  · intro fuel c icur sc sc1 cl nl hS
    exact step_policy impl fuel c icur sc sc1 cl nl hS
  · intro rt ss l m hv
    obtain ⟨ss1, h1, _⟩ := enter_biased_revisit rt ss.lastlist ss l m rfl hv
    rw [h1]

/-- C11: the numbering of the capturing groups. For every pattern that
compiles, the group count `nparen` of the automaton is the number of capturing
`(` of the pattern text (the `(` not followed by `?:`, so a group `(?:...)`
takes no number), and for every `k` from 1 to this number the `k`-th capturing
`(` in text order opens the group with the number `k`, whatever it is nested in:
the text from this `(` to its `)` is a text of the grammar, and when `k` is
below `NSUB` the automaton has exactly one LParen state and exactly one RParen
state with the data `k`, the RParen state right after the LParen state, and the
paths from where the LParen state leads to the first arrival at the RParen
state read the words the automaton of this text reads; from `NSUB` on no
parenthesis state carries the number. -/
theorem c11_group_numbering (pat : List Nat) (impl : REImpl) (hc : compile pat = some impl) :
    impl.nparen = (capOpens pat).length ∧
    ∀ k : Nat, 1 ≤ k → k ≤ (capOpens pat).length →
      ∃ pre body post rb, pat = pre ++ 40 :: (body ++ 41 :: post) ∧
        (capOpens pat)[k - 1]? = some pre.length ∧ Parses NT.alt body rb ∧
        (k < NSUB → ∃ lp e st1 st2,
          impl.deref lp = some st1 ∧ st1.op = Op.LParen ∧ st1.data = (k : Int) ∧ st1.out = e ∧
          impl.deref (lp + 1) = some st2 ∧ st2.op = Op.RParen ∧ st2.data = (k : Int) ∧
          (∀ w, PathTo impl (lp + 1) e w ↔ AutLang rb w) ∧
          (∀ p st, impl.deref p = some st → st.data = (k : Int) →
            (st.op = Op.LParen → p = lp) ∧ (st.op = Op.RParen → p = lp + 1))) ∧
        (NSUB ≤ k → ∀ p st, impl.deref p = some st →
          (st.op = Op.LParen ∨ st.op = Op.RParen) → st.data ≠ (k : Int)) := by
  have hw := compiled_wf_of hc
  obtain ⟨r, hp, rfl⟩ := (compile_eq_some_iff pat impl).mp hc
  obtain ⟨hn, hg⟩ := compiled_groups r
  obtain ⟨hl, hloc⟩ := parses_groups hp
  generalize do_regex (build r REImpl.init).1 (build r REImpl.init).2 = impl at *
  refine ⟨by rw [hn, hl], ?_⟩
  intro k hk1 hk2
  have hlt : k - 1 < r.caps.length := by omega
  obtain ⟨pre, body, post, e1, e2, e3⟩ := hloc (k - 1) (r.caps[k - 1])
    (List.getElem?_eq_getElem hlt)
  have ek : k - 1 + 1 = k := by omega
  refine ⟨pre, body, post, r.caps[k - 1], e1, e2, e3, ?_, ?_⟩
  · intro hk
    have := hg (k - 1) (r.caps[k - 1]) (List.getElem?_eq_getElem hlt) (by omega)
    rw [ek] at this
    exact this
  · intro hk p st hd hop hdat
    have hr := deref_range hd
    have hsz := hw.size
    by_cases hb : p ≤ impl.states.length - 3
    · obtain ⟨st1, d1, _, b2, _⟩ := hw.body p hr.1 hb
      rw [hd] at d1
      cases d1
      have := (b2 hop).2
      rw [hdat] at this
      have h2 : ((k : Nat) : Int) < ((NSUB : Nat) : Int) := this
      omega
    · by_cases h1 : p = impl.states.length - 2
      · obtain ⟨st1, d1, _, da, _⟩ := hw.start_state
        rw [← h1, hd] at d1
        cases d1
        rw [hdat] at da
        omega
      · by_cases h2 : p = impl.states.length - 1
        · obtain ⟨st1, d1, _, da, _⟩ := hw.close_state
          rw [← h2, hd] at d1
          cases d1
          rw [hdat] at da
          omega
        · have h3 : p = impl.states.length := by omega
          obtain ⟨st1, d1, o1⟩ := hw.match_state
          rw [← h3, hd] at d1
          cases d1
          rw [o1] at hop
          simp at hop

/-- C11 at the pattern `((a)|(b))(?:c)(d)`: it compiles with group count 4, its
capturing `(` are at the offsets 0, 1, 5 and 14, and the numbering theorem
applies to it. The LParen states are built in the order 2, 3, 1, 4, 0 (a group
is wrapped when its `)` is read), and matching `acd` reports group 1 =
`((a)|(b))` and group 2 = `(a)` at (0,1), group 3 = `(b)` unmatched and group
4 = `(d)` at (2,3); matching `bcd` reports group 3 at (0,1) and group 2 unmatched. -/
theorem c11_group_numbering_witness :
    ∃ impl, compile (bytes "((a)|(b))(?:c)(d)") = some impl ∧
      capOpens (bytes "((a)|(b))(?:c)(d)") = [0, 1, 5, 14] ∧
      impl.nparen = 4 ∧
      (impl.states.filter (fun s => s.op = Op.LParen)).map (fun s => s.data) = [2, 3, 1, 4, 0] ∧
      (∃ subs, matchSubs impl MatchType.LeftmostBiased RepType.RepeatMinimal (bytes "acd")
          = some subs ∧
        (List.range 5).map (span subs)
          = [some (0, 3), some (0, 1), some (0, 1), none, some (2, 3)]) ∧
      (∃ subs, matchSubs impl MatchType.LeftmostBiased RepType.RepeatMinimal (bytes "bcd")
          = some subs ∧
        (List.range 5).map (span subs)
          = [some (0, 3), some (0, 1), none, some (0, 1), some (2, 3)]) ∧
      (impl.nparen = (capOpens (bytes "((a)|(b))(?:c)(d)")).length ∧
      ∀ k : Nat, 1 ≤ k → k ≤ (capOpens (bytes "((a)|(b))(?:c)(d)")).length →
        ∃ pre body post rb, bytes "((a)|(b))(?:c)(d)" = pre ++ 40 :: (body ++ 41 :: post) ∧
          (capOpens (bytes "((a)|(b))(?:c)(d)"))[k - 1]? = some pre.length ∧
          Parses NT.alt body rb ∧
          (k < NSUB → ∃ lp e st1 st2,
            impl.deref lp = some st1 ∧ st1.op = Op.LParen ∧ st1.data = (k : Int) ∧
            st1.out = e ∧
            impl.deref (lp + 1) = some st2 ∧ st2.op = Op.RParen ∧ st2.data = (k : Int) ∧
            (∀ w, PathTo impl (lp + 1) e w ↔ AutLang rb w) ∧
            (∀ p st, impl.deref p = some st → st.data = (k : Int) →
              (st.op = Op.LParen → p = lp) ∧ (st.op = Op.RParen → p = lp + 1))) ∧
          (NSUB ≤ k → ∀ p st, impl.deref p = some st →
            (st.op = Op.LParen ∨ st.op = Op.RParen) → st.data ≠ (k : Int))) :=
  ⟨_, rfl, by decide, rfl, rfl, ⟨_, rfl, rfl⟩, ⟨_, rfl, rfl⟩,
    c11_group_numbering (bytes "((a)|(b))(?:c)(d)") _ rfl⟩

/-- C21: the return of `step` at the first accepting thread in the
leftmost-biased mode. When thread `i` is the first thread of the current list
at a Match state, `step` does what its loop does on the threads `0 .. i-1` and
then assigns the submatch array of thread `i` to the best-match array; so when
it returns, every slot of the best-match array has the tag of the slot of
thread `i`, its start position unless the tag is Unmatched and its end position
when the tag is Matched (`Sub::operator=` copies no more), the next list and
the scratch data of the states are exactly what the loop over the threads
before `i` leaves, with no call of `addstate` for the start state after it, the
array `dummy` is untouched, and the threads after index `i` have no influence
on the best-match array, the scratch data and the next list. On a well-formed
automaton and lists `step` does return. -/
theorem c21_biased_short_circuit (impl : REImpl) (rt : RepType) (fuel c : Nat) (icur : Iter)
    (sc : Scratch) (cl nl : ThreadList) (i : Nat)
    (hi : i < cl.n) (hacc : AtMatch impl cl i) (hfirst : ∀ j, j < i → ¬ AtMatch impl cl j)
    (hlen : sc.subs.length = (cl.t.getD i Thread.init).subs.length) :
    step impl MatchType.LeftmostBiased rt fuel sc cl c icur nl =
      (step_loop impl MatchType.LeftmostBiased rt fuel c icur i 0 (bump sc) cl
          { nl with n := 0 }).map
        (fun r => ({ r.1 with
          subs := Subs.assign sc.subs (cl.t.getD i Thread.init).subs }, r.2.1, r.2.2.1)) ∧
    (∀ sc1 cl1 nl1,
      step impl MatchType.LeftmostBiased rt fuel sc cl c icur nl = some (sc1, cl1, nl1) →
      sc1.subs.length = (cl.t.getD i Thread.init).subs.length ∧
      (∀ k, (sc1.subs.getD k Sub.init).matched
            = ((cl.t.getD i Thread.init).subs.getD k Sub.init).matched ∧
        (((cl.t.getD i Thread.init).subs.getD k Sub.init).matched ≠ SubState.Unmatched →
          (sc1.subs.getD k Sub.init).first
            = ((cl.t.getD i Thread.init).subs.getD k Sub.init).first) ∧
        (((cl.t.getD i Thread.init).subs.getD k Sub.init).matched = SubState.Matched →
          (sc1.subs.getD k Sub.init).second
            = ((cl.t.getD i Thread.init).subs.getD k Sub.init).second)) ∧
      sc1.dummy = sc.dummy ∧
      cl1.t.getD i Thread.init = cl.t.getD i Thread.init ∧
      ∃ scl, step_loop impl MatchType.LeftmostBiased rt fuel c icur i 0 (bump sc) cl
          { nl with n := 0 } = some (scl, cl1, nl1, false) ∧
        scl.subs = sc.subs ∧ sc1.extras = scl.extras) ∧
    (∀ cl2 : ThreadList, i < cl2.n →
      (∀ j, j ≤ i → cl2.t.getD j Thread.init = cl.t.getD j Thread.init) →
      (step impl MatchType.LeftmostBiased rt fuel sc cl2 c icur nl).map (fun r => (r.1, r.2.2))
        = (step impl MatchType.LeftmostBiased rt fuel sc cl c icur nl).map
          (fun r => (r.1, r.2.2))) ∧
    (∀ pos npos, WFAut impl → StepPre impl pos sc cl nl → icur = some npos →
      2 * impl.states.length + 3 ≤ fuel →
      ∃ sc1 cl1 nl1,
        step impl MatchType.LeftmostBiased rt fuel sc cl c icur nl = some (sc1, cl1, nl1)) := by
  have heq := step_at_match impl rt fuel c icur sc cl nl i hi hacc hfirst
  refine ⟨heq, ?_, ?_, ?_⟩
  · intro sc1 cl1 nl1 hs
    rw [heq] at hs
    cases hl : step_loop impl MatchType.LeftmostBiased rt fuel c icur i 0 (bump sc) cl
        { nl with n := 0 } with
    | none =>
      rw [hl] at hs
      simp at hs
    | some r =>
      rw [hl] at hs
      simp only [Option.map_some', Option.some.injEq, Prod.mk.injEq] at hs
      obtain ⟨e1, e2, e3⟩ := hs
      obtain ⟨scl, cll, nll, ret⟩ := r
      obtain ⟨a1, a2, a3, _, a5⟩ := step_loop_prefix impl rt fuel c icur i 0 (bump sc) cl
        { nl with n := 0 } _ (fun j _ hj => hfirst j (by omega)) hl
      simp only at e1 e2 e3 a1 a2 a3 a5
      subst e1 e2 e3 a1
      have ho := obsEq_assign sc.subs (cl.t.getD i Thread.init).subs hlen
      exact ⟨ho.1, fun k => obsEq_fields ho k, a3, a5 i (Or.inr (by omega)), scl, rfl, a2, rfl⟩
  · intro cl2 hi2 hag
    have hacc2 : AtMatch impl cl2 i := by
      unfold AtMatch
      rw [hag i (Nat.le_refl _)]
      exact hacc
    have hfirst2 : ∀ j, j < i → ¬ AtMatch impl cl2 j := by
      intro j hj
      unfold AtMatch
      rw [hag j (by omega)]
      exact hfirst j hj
    rw [heq, step_at_match impl rt fuel c icur sc cl2 nl i hi2 hacc2 hfirst2,
      hag i (Nat.le_refl _)]
    have := step_loop_agree impl rt fuel c icur i 0 (bump sc) cl cl2 { nl with n := 0 }
      (fun j _ hj => hag j (by omega))
    revert this
    cases step_loop impl MatchType.LeftmostBiased rt fuel c icur i 0 (bump sc) cl2
        { nl with n := 0 } with
    | none =>
      cases step_loop impl MatchType.LeftmostBiased rt fuel c icur i 0 (bump sc) cl
          { nl with n := 0 } with
      | none => intro _; rfl
      | some r => intro h; simp at h
    | some r2 =>
      cases step_loop impl MatchType.LeftmostBiased rt fuel c icur i 0 (bump sc) cl
          { nl with n := 0 } with
      | none => intro h; simp at h
      | some r =>
        intro h
        obtain ⟨s2, c2, n2, t2⟩ := r2
        obtain ⟨s1, c1, n1, t1⟩ := r
        simp only [Option.map_some', Option.some.injEq, Prod.mk.injEq] at h ⊢
        obtain ⟨b1, b2, _⟩ := h
        subst b1 b2
        exact ⟨rfl, rfl⟩
  · intro pos npos hw hp hic hfuel
    subst hic
    obtain ⟨sc1, cl1, nl1, hs, _⟩ :=
      step_post hw MatchType.LeftmostBiased rt fuel c pos npos hp hfuel
    exact ⟨sc1, cl1, nl1, hs⟩

/-- C21 at the pattern `ab|a|ab` and the subject `ab`: after the byte `a` the
current list holds the threads of the states 2, 9, 10, 6, 8, 7, 4, 1, 3, 5, the
first thread at the Match state 10 being thread 2. The step on the byte `b`
runs the thread of state 2 (the `b` of the first alternative), returns at
thread 2 with the best match (0,1), and leaves the next list with the threads
of the states 9 and 10 only: the thread of state 6 (the `b` of the third
alternative) and the threads of the start state after it are not run. -/
theorem c21_biased_short_circuit_witness :
    ∃ impl sc0 cl0 sc cl nl,
      compile (bytes "ab|a|ab") = some impl ∧
      startlist impl MatchType.LeftmostBiased RepType.RepeatMinimal (addstateFuel impl)
        ⟨Subs.init, Subs.init, Extras.init impl.states.length⟩ (some 0)
        (ThreadList.init impl.states.length) = some (sc0, cl0) ∧
      match_loop impl MatchType.LeftmostBiased RepType.RepeatMinimal (addstateFuel impl)
        (bytes "a") 0 sc0 cl0 (ThreadList.init impl.states.length) = some (1, sc, cl, nl) ∧
      (cl.t.take cl.n).map (fun t => t.state) = [2, 9, 10, 6, 8, 7, 4, 1, 3, 5] ∧
      (∃ sc1 cl1 nl1,
        step impl MatchType.LeftmostBiased RepType.RepeatMinimal (addstateFuel impl) sc cl 98
          (some 2) nl = some (sc1, cl1, nl1) ∧
        span sc1.subs 0 = some (0, 1) ∧
        (nl1.t.take nl1.n).map (fun t => t.state) = [9, 10]) ∧
      2 < cl.n ∧ AtMatch impl cl 2 ∧ (∀ j, j < 2 → ¬ AtMatch impl cl j) ∧
      sc.subs.length = (cl.t.getD 2 Thread.init).subs.length ∧
      (step impl MatchType.LeftmostBiased RepType.RepeatMinimal (addstateFuel impl) sc cl 98 (some 2) nl =
          (step_loop impl MatchType.LeftmostBiased RepType.RepeatMinimal (addstateFuel impl) 98 (some 2) 2 0 (bump sc) cl
              { nl with n := 0 }).map
            (fun r => ({ r.1 with
              subs := Subs.assign sc.subs (cl.t.getD 2 Thread.init).subs }, r.2.1, r.2.2.1)) ∧
        (∀ sc1 cl1 nl1,
          step impl MatchType.LeftmostBiased RepType.RepeatMinimal (addstateFuel impl) sc cl 98 (some 2) nl = some (sc1, cl1, nl1) →
          sc1.subs.length = (cl.t.getD 2 Thread.init).subs.length ∧
          (∀ k, (sc1.subs.getD k Sub.init).matched
                = ((cl.t.getD 2 Thread.init).subs.getD k Sub.init).matched ∧
            (((cl.t.getD 2 Thread.init).subs.getD k Sub.init).matched ≠ SubState.Unmatched →
              (sc1.subs.getD k Sub.init).first
                = ((cl.t.getD 2 Thread.init).subs.getD k Sub.init).first) ∧
            (((cl.t.getD 2 Thread.init).subs.getD k Sub.init).matched = SubState.Matched →
              (sc1.subs.getD k Sub.init).second
                = ((cl.t.getD 2 Thread.init).subs.getD k Sub.init).second)) ∧
          sc1.dummy = sc.dummy ∧
          cl1.t.getD 2 Thread.init = cl.t.getD 2 Thread.init ∧
          ∃ scl, step_loop impl MatchType.LeftmostBiased RepType.RepeatMinimal (addstateFuel impl) 98 (some 2) 2 0 (bump sc) cl
              { nl with n := 0 } = some (scl, cl1, nl1, false) ∧
            scl.subs = sc.subs ∧ sc1.extras = scl.extras) ∧
        (∀ cl2 : ThreadList, 2 < cl2.n →
          (∀ j, j ≤ 2 → cl2.t.getD j Thread.init = cl.t.getD j Thread.init) →
          (step impl MatchType.LeftmostBiased RepType.RepeatMinimal (addstateFuel impl) sc cl2 98 (some 2) nl).map (fun r => (r.1, r.2.2))
            = (step impl MatchType.LeftmostBiased RepType.RepeatMinimal (addstateFuel impl) sc cl 98 (some 2) nl).map
              (fun r => (r.1, r.2.2))) ∧
        (∀ pos npos, WFAut impl → StepPre impl pos sc cl nl → some 2 = some npos →
          2 * impl.states.length + 3 ≤ addstateFuel impl →
          ∃ sc1 cl1 nl1,
            step impl MatchType.LeftmostBiased RepType.RepeatMinimal (addstateFuel impl) sc cl 98 (some 2) nl = some (sc1, cl1, nl1))) :=
  ⟨_, _, _, _, _, _, rfl, rfl, rfl, rfl, ⟨_, _, _, rfl, rfl, rfl⟩, by decide, by decide,
    by decide, by decide,
    c21_biased_short_circuit _ RepType.RepeatMinimal _ 98 (some 2) _ _ _ 2 (by decide)
      (by decide) (by decide) (by decide)⟩

/-- C22: the positions of the slots `match` returns. For every pattern that
compiles, every subject, both matching modes and both repetition policies, the
run of `match` with a fresh matcher returns a submatch array in which every
Matched slot holds a start offset `s` and an end offset `e` with
`s ≤ e ≤ length of the subject`, and slot 0 of which is not Incomplete. -/
theorem c22_matched_slots_in_range (pat : List Nat) (impl : REImpl) (input : List Nat)
    (mt : MatchType) (rt : RepType) (hc : compile pat = some impl) :
    ∃ subs, matchSubs impl mt rt input = some subs ∧
      (∀ k, (subs.getD k Sub.init).matched = SubState.Matched →
        ∃ s e, (subs.getD k Sub.init).first = some s ∧ (subs.getD k Sub.init).second = some e ∧
          s ≤ e ∧ e ≤ input.length) ∧
      (subs.getD 0 Sub.init).matched ≠ SubState.Incomplete := by
  have hw := compiled_wf_of hc
  have hg := compiled_gwf_of hc
  obtain ⟨subs, h1, hok, hfound, _, _⟩ := run_post hw mt rt input
  obtain ⟨subs2, h2, hgs⟩ := run_gok hw hg mt rt input
  rw [h1] at h2
  cases h2
  refine ⟨subs, h1, ?_, ?_⟩
  · intro k hm
    by_cases hk0 : k = 0
    · subst hk0
      rcases hok.2 with hu | ⟨_, s, e, hs, he⟩
      · rw [hu] at hm
        cases hm
      · obtain ⟨a, b, _⟩ := hfound s e hm hs he
        exact ⟨s, e, hs, he, a, b⟩
    · by_cases hk : k < NSUB
      · exact hgs k (by omega) hk hm
      · rw [List.getD_eq_default _ _ (by rw [hok.1]; omega)] at hm
        cases hm
  · rcases hok.2 with hu | ⟨hm, _⟩
    · rw [hu]
      simp
    · rw [hm]
      simp

/-- C22 at the pattern `((a)|(b))(?:c)(d)` and the subject `xacdx`, in the
leftmost-longest mode with the Perl-like policy: the slots 0, 1, 2 and 4 are
Matched with (1,4), (1,2), (1,2) and (3,4), slot 3 is Unmatched. -/
theorem c22_matched_slots_in_range_witness :
    ∃ impl, compile (bytes "((a)|(b))(?:c)(d)") = some impl ∧
      (matchSubs impl MatchType.LeftmostLongest RepType.RepeatLikePerl (bytes "xacdx")).map
          (fun subs => (List.range 5).map (span subs))
        = some [some (1, 4), some (1, 2), some (1, 2), none, some (3, 4)] ∧
      ∃ subs, matchSubs impl MatchType.LeftmostLongest RepType.RepeatLikePerl (bytes "xacdx")
          = some subs ∧
        (∀ k, (subs.getD k Sub.init).matched = SubState.Matched →
          ∃ s e, (subs.getD k Sub.init).first = some s ∧
            (subs.getD k Sub.init).second = some e ∧ s ≤ e ∧ e ≤ (bytes "xacdx").length) ∧
        (subs.getD 0 Sub.init).matched ≠ SubState.Incomplete :=
  ⟨_, rfl, rfl,
    c22_matched_slots_in_range (bytes "((a)|(b))(?:c)(d)") _ (bytes "xacdx")
      MatchType.LeftmostLongest RepType.RepeatLikePerl rfl⟩

/-- The assignment `subs = t->match` copies the positions a slot records and no
others. Pattern `bcd|(b)`, subject `bcd`, leftmost-biased: after the byte `b`
the best match is (0,1) with group 1 at (0,1); the closing step returns at the
thread at the Match state, thread 1 of the list, whose slot 1 is Unmatched, and
leaves slot 1 of the best-match array Unmatched with the end position 1 of the
earlier match still in its storage. -/
theorem assign_keeps_unrecorded :
    ∃ impl sc0 cl0 sc cl nl sc1 cl1 nl1,
      compile (bytes "bcd|(b)") = some impl ∧
      startlist impl MatchType.LeftmostBiased RepType.RepeatMinimal (addstateFuel impl)
        ⟨Subs.init, Subs.init, Extras.init impl.states.length⟩ (some 0)
        (ThreadList.init impl.states.length) = some (sc0, cl0) ∧
      match_loop impl MatchType.LeftmostBiased RepType.RepeatMinimal (addstateFuel impl)
        (bytes "bcd") 0 sc0 cl0 (ThreadList.init impl.states.length) = some (3, sc, cl, nl) ∧
      AtMatch impl cl 1 ∧ ¬ AtMatch impl cl 0 ∧
      step impl MatchType.LeftmostBiased RepType.RepeatMinimal (addstateFuel impl) sc cl 0
        (some 3) nl = some (sc1, cl1, nl1) ∧
      span sc1.subs 0 = some (0, 3) ∧
      ((cl.t.getD 1 Thread.init).subs.getD 1 Sub.init) = ⟨some 0, none, SubState.Unmatched⟩ ∧
      (sc1.subs.getD 1 Sub.init) = ⟨some 0, some 1, SubState.Unmatched⟩ :=
  ⟨_, _, _, _, _, _, _, _, _, rfl, rfl, rfl, by decide, by decide, rfl, rfl, rfl, rfl⟩

end Nfa
